import Mathlib

/-!
# Explicit free list allocator (`mm.c`)

A shallow embedding of the explicit-free-list `malloc` package of `src/mm.c`.

* Memory is a map from byte addresses to byte values; a word is four bytes,
  little endian (`GET`, `PUT`).  `size_t` and pointers are 32 bits wide, as the
  four byte tag and link words of the source require; every `size_t`
  operation is taken modulo `2 ^ 32` (`uadd`, `usub`, `umul`) and an `int` is
  obtained from a `size_t` by `toInt32`.
* The globals `root` and `heap_listp` and the state of the heap provider make
  up a `Heap`; every C function becomes a function from heaps to heaps.
* The only loop, in `find_fit`, runs on fuel: `none` means that the fuel ran
  out, `some 0` is the C result `NULL`.
* `debugprint` and `mm_check` do nothing in the build described by the source
  (`DEBUG = 0`, `HEAP_CHECK = 0`) and are left out.
-/

namespace MallocLab


/-! ## Constants and machine arithmetic -/

def WSIZE : Nat := 4
def DSIZE : Nat := 2 * WSIZE
def CHUNKSIZE : Nat := 4096

/-- The number of values of a 32 bit word. -/
def WORD : Nat := 4294967296

/-- The null pointer. -/
def NULL : Nat := 0

/-- The value `(void *)-1`. -/
def MINUS_ONE : Nat := 4294967295

/-- Addition of `size_t` values and of a pointer and an offset. -/
def uadd (a b : Nat) : Nat := (a + b) % WORD

/-- Subtraction of `size_t` values and of an offset from a pointer. -/
def usub (a b : Nat) : Nat := (a + WORD - b % WORD) % WORD

/-- Multiplication of `size_t` values. -/
def umul (a b : Nat) : Nat := (a * b) % WORD

/-- Conversion of a `size_t` to a (32 bit, two's complement) `int`. -/
def toInt32 (x : Nat) : Int :=
  if x % WORD < 2147483648 then ((x % WORD : Nat) : Int) else ((x % WORD : Nat) : Int) - 4294967296

/-- Conversion of an `int` to a `size_t`. -/
def ofInt32 (i : Int) : Nat := (i % 4294967296).toNat

def MAX (x y : Nat) : Nat := if x > y then x else y

def PACK (size alloc : Nat) : Nat := size ||| alloc

/-- The macro `ALIGN`, in `size_t` arithmetic. -/
def ALIGN (size : Nat) : Nat :=
  if size ≤ DSIZE then 2 * DSIZE
  else umul DSIZE (uadd (uadd size DSIZE) (DSIZE - 1) / DSIZE)

/-! ## Memory -/

/-- Byte addressed memory. -/
abbrev Mem := Nat → Nat

/-- Read the word at `p`. -/
def GET (m : Mem) (p : Nat) : Nat :=
  m p % 256 + 256 * (m (p + 1) % 256) + 65536 * (m (p + 2) % 256)
    + 16777216 * (m (p + 3) % 256)

/-- Write the word `val` at `p`. -/
def PUT (m : Mem) (p val : Nat) : Mem := fun a =>
  if a = p then val % 256
  else if a = p + 1 then val / 256 % 256
  else if a = p + 2 then val / 65536 % 256
  else if a = p + 3 then val / 16777216 % 256
  else m a

def GET_ADDR (m : Mem) (p : Nat) : Nat := GET m p

def PUT_ADDR (m : Mem) (p addr : Nat) : Mem := PUT m p addr

/-- The macro `GET_SIZE`: the mask `~0x7` is `0xFFFFFFF8` as a `size_t`. -/
def GET_SIZE (m : Mem) (p : Nat) : Nat := GET m p &&& 4294967288

def GET_ALLOC (m : Mem) (p : Nat) : Nat := GET m p &&& 1

def HDRP (bp : Nat) : Nat := usub bp WSIZE

def FTRP (m : Mem) (bp : Nat) : Nat := usub (uadd bp (GET_SIZE m (HDRP bp))) DSIZE

def NEXTP (bp : Nat) : Nat := bp

def PREVP (bp : Nat) : Nat := uadd bp WSIZE

def NEXT_BLKP (m : Mem) (bp : Nat) : Nat := uadd bp (GET_SIZE m (HDRP bp))

def PREV_BLKP (m : Mem) (bp : Nat) : Nat := usub bp (GET_SIZE m (usub bp DSIZE))

/-- Modelled from the spec: the library routine `memcpy`, which is not part of
the repository: `n` bytes are copied from `src` to `dst`; the two regions do
not overlap where the source calls it. -/
def memcpy (m : Mem) (dst src n : Nat) : Mem := fun a =>
  if dst ≤ a ∧ a < dst + n then m (src + (a - dst)) else m a

/-! ## The allocator state and the heap provider -/

/-- The globals of `mm.c` together with the provider's arena. -/
structure Heap where
  /-- The bytes of the address space. -/
  mem : Mem
  /-- The global `root`: head of the free list. -/
  root : Nat
  /-- The global `heap_listp`: the physically first block. -/
  heap_listp : Nat
  /-- First byte of the arena. -/
  mem_start_brk : Nat
  /-- One past the last byte of the arena. -/
  mem_brk : Nat
  /-- One past the last byte the provider can hand out. -/
  mem_max_addr : Nat
  /-- Whether the provider has refused a request so far. -/
  mem_refused : Bool

/-- Modelled from the spec: the provider's `lo()`, whose code (`memlib.c`) is not
under `src/`: the first byte of the arena. -/
def mem_heap_lo (h : Heap) : Nat := h.mem_start_brk

/-- Modelled from the spec: the provider's `hi()`, whose code (`memlib.c`) is not
under `src/`: the last byte of the arena. -/
def mem_heap_hi (h : Heap) : Nat := h.mem_brk - 1

/-- Modelled from the spec: the provider's `sbrk_like(bytes)`, whose code
(`memlib.c`) is not under `src/`: it extends the arena by `incr` bytes and
returns the start of the appended region, or the failure sentinel
`(void *)-1`.  The spec leaves open when the provider refuses; here it refuses
exactly when the request would pass the capacity `mem_max_addr`, and it
records in `mem_refused` that it did. -/
def mem_sbrk (h : Heap) (incr : Nat) : Heap × Nat :=
  if h.mem_brk + incr > h.mem_max_addr then ({ h with mem_refused := true }, MINUS_ONE)
  else ({ h with mem_brk := h.mem_brk + incr }, h.mem_brk)

def IS_IN_RANGE (h : Heap) (bp : Nat) : Bool :=
  decide (mem_heap_lo h ≤ bp) && decide (mem_heap_hi h ≥ bp)

/-! ## The free list -/

def removeBlock (h : Heap) (bp : Nat) : Heap :=
  let logicalNext := GET_ADDR h.mem (NEXTP bp)
  let logicalPrev := GET_ADDR h.mem (PREVP bp)
  let h1 : Heap :=
    if logicalNext ≠ NULL then { h with mem := PUT_ADDR h.mem (PREVP logicalNext) logicalPrev }
    else h
  if logicalPrev ≠ NULL then
    { h1 with mem := PUT_ADDR h1.mem (NEXTP logicalPrev) logicalNext }
  else if logicalNext ≠ NULL then { h1 with root := logicalNext }
  else { h1 with root := NULL }

def updateBlockTags (h : Heap) (bp boundaryTag : Nat) : Heap :=
  let m1 := PUT h.mem (HDRP bp) boundaryTag
  { h with mem := PUT m1 (FTRP m1 bp) boundaryTag }

def insertNewBlock (h : Heap) (bp : Nat) : Heap :=
  if h.root = NULL then
    let m1 := PUT_ADDR h.mem (NEXTP bp) NULL
    let m2 := PUT_ADDR m1 (PREVP bp) NULL
    { h with mem := m2, root := bp }
  else
    let oldRoot := h.root
    let m1 := PUT_ADDR h.mem (PREVP oldRoot) bp
    let m2 := PUT_ADDR m1 (NEXTP bp) oldRoot
    let m3 := PUT_ADDR m2 (PREVP bp) NULL
    { h with mem := m3, root := bp }

/-! ## Coalescing and growth -/

/-- The function `coalesce`.  In its third case the source writes
`GET_SIZE(HDRP(bp) + GET_SIZE(HDRP(next)))`; the parameter of the macro `GET`
is not parenthesised, so the cast and the dereference apply to `HDRP(bp)`
alone and the expression is the header word of `bp` plus the size of `next`,
masked with `~0x7`. -/
def coalesce (h : Heap) (bp : Nat) : Heap × Nat :=
  let next := NEXT_BLKP h.mem bp
  let prev := PREV_BLKP h.mem bp
  let nextAlloc := GET_ALLOC h.mem (HDRP next)
  let prevAlloc := GET_ALLOC h.mem (HDRP prev)
  let case1Edge : Bool := decide (nextAlloc = 0) && !IS_IN_RANGE h prev
  let case2Edge : Bool := decide (prevAlloc = 0) && !IS_IN_RANGE h next
  if (decide (nextAlloc = 0) && decide (prevAlloc ≠ 0) && IS_IN_RANGE h next
        && IS_IN_RANGE h prev) || case1Edge then
    let h1 := removeBlock h bp
    let h2 := removeBlock h1 next
    let newBoundaryTag :=
      PACK (uadd (GET_SIZE h2.mem (HDRP next)) (GET_SIZE h2.mem (HDRP bp))) 0
    let h3 := updateBlockTags h2 bp newBoundaryTag
    (insertNewBlock h3 bp, bp)
  else if (decide (nextAlloc ≠ 0) && decide (prevAlloc = 0) && IS_IN_RANGE h next
        && IS_IN_RANGE h prev) || case2Edge then
    let h1 := removeBlock h prev
    let h2 := removeBlock h1 bp
    let newBoundaryTag :=
      PACK (uadd (GET_SIZE h2.mem (HDRP prev)) (GET_SIZE h2.mem (HDRP bp))) 0
    let h3 := updateBlockTags h2 prev newBoundaryTag
    (insertNewBlock h3 prev, prev)
  else if decide (nextAlloc = 0) && decide (prevAlloc = 0) && IS_IN_RANGE h next
        && IS_IN_RANGE h prev then
    let h1 := removeBlock h prev
    let h2 := removeBlock h1 bp
    let h3 := removeBlock h2 next
    let newBoundaryTag :=
      PACK (uadd (GET_SIZE h3.mem (HDRP prev))
        (uadd (GET h3.mem (HDRP bp)) (GET_SIZE h3.mem (HDRP next)) &&& 4294967288)) 0
    let h4 := updateBlockTags h3 prev newBoundaryTag
    (insertNewBlock h4 prev, prev)
  else (h, bp)

def extend_heap (h : Heap) (words : Nat) : Heap × Nat :=
  let oldRoot := h.root
  let size := if words % 2 ≠ 0 then umul (uadd words 1) WSIZE else umul words WSIZE
  let r := mem_sbrk h size
  let h1 : Heap := { r.1 with root := r.2 }
  if r.2 = MINUS_ONE then (h1, NULL)
  else
    let root1 := uadd r.2 4
    let m1 := PUT h1.mem root1 (PACK size 0)
    let root2 := uadd root1 WSIZE
    let m2 := PUT_ADDR m1 (NEXTP root2) oldRoot
    let m3 := PUT_ADDR m2 (PREVP root2) NULL
    let m4 := PUT m3 (FTRP m3 root2) (PACK size 0)
    let m5 := if oldRoot ≠ NULL then PUT_ADDR m4 (PREVP oldRoot) root2 else m4
    coalesce { h1 with mem := m5, root := root2 } root2

/-! ## The public functions -/

def mm_init (h : Heap) : Heap × Int :=
  let r := mem_sbrk h CHUNKSIZE
  let h1 : Heap := { r.1 with root := r.2 }
  if r.2 = MINUS_ONE then (h1, -1)
  else
    let root1 := uadd r.2 4
    let m1 := PUT h1.mem root1 (PACK CHUNKSIZE 0)
    let root2 := uadd root1 WSIZE
    let m2 := PUT_ADDR m1 (NEXTP root2) NULL
    let m3 := PUT_ADDR m2 (PREVP root2) NULL
    let m4 := PUT m3 (FTRP m3 root2) (PACK CHUNKSIZE 0)
    ({ h1 with mem := m4, root := root2, heap_listp := root2 }, 0)

/-- The loop of `find_fit`, started at `bp`, on fuel. -/
def find_fit_loop (m : Mem) (asize : Nat) : Nat → Nat → Option Nat
  | 0, _ => none
  | fuel + 1, bp =>
    if GET_SIZE m (HDRP bp) ≥ asize then some bp
    else if GET_ADDR m (NEXTP bp) = NULL then some NULL
    else find_fit_loop m asize fuel (GET_ADDR m (NEXTP bp))

def find_fit (fuel : Nat) (h : Heap) (asize : Nat) : Option Nat :=
  find_fit_loop h.mem asize fuel h.root

def place (h : Heap) (bp asize0 : Nat) : Heap :=
  let splitSize : Int := toInt32 (usub (GET_SIZE h.mem (HDRP bp)) asize0)
  let asize := if splitSize = (DSIZE : Int) then uadd asize0 DSIZE else asize0
  let newBoundaryTag := PACK asize 1
  let h1 := updateBlockTags h bp newBoundaryTag
  let prevp := GET_ADDR h1.mem (PREVP bp)
  let nextp := GET_ADDR h1.mem (NEXTP bp)
  if splitSize > (DSIZE : Int) then
    let freeBoundaryTag := ofInt32 splitSize
    let newNext := NEXT_BLKP h1.mem bp
    let h2 := updateBlockTags h1 newNext freeBoundaryTag
    let h3 : Heap :=
      if prevp = NULL then { h2 with root := newNext }
      else { h2 with mem := PUT_ADDR h2.mem (NEXTP prevp) newNext }
    let h4 : Heap :=
      if nextp ≠ NULL then { h3 with mem := PUT_ADDR h3.mem (PREVP nextp) newNext } else h3
    let m5 := PUT_ADDR h4.mem (NEXTP newNext) nextp
    { h4 with mem := PUT_ADDR m5 (PREVP newNext) prevp }
  else
    let h2 := removeBlock h1 bp
    if h2.root = NULL then (extend_heap h2 (CHUNKSIZE / WSIZE)).1 else h2

def mm_malloc (fuel : Nat) (h : Heap) (size : Nat) : Option (Heap × Nat) :=
  if size = 0 then some (h, NULL)
  else
    let asize := ALIGN size
    match find_fit fuel h asize with
    | none => none
    | some bp =>
      if bp ≠ NULL then some (place h bp asize, bp)
      else
        let extendsize := MAX asize CHUNKSIZE
        let r := extend_heap h (extendsize / WSIZE)
        if r.2 = NULL then some (r.1, NULL)
        else some (place r.1 r.2 asize, r.2)

def mm_free (h : Heap) (ptr : Nat) : Heap :=
  let next := NEXT_BLKP h.mem ptr
  let prev := PREV_BLKP h.mem ptr
  let nextAlloc := GET_ALLOC h.mem (HDRP next)
  let prevAlloc := GET_ALLOC h.mem (HDRP prev)
  if decide (nextAlloc ≠ 0) && decide (prevAlloc ≠ 0) && IS_IN_RANGE h next
      && IS_IN_RANGE h prev then
    let h1 := updateBlockTags h ptr (PACK (GET_SIZE h.mem (HDRP ptr)) 0)
    insertNewBlock h1 ptr
  else if decide (nextAlloc ≠ 0) && decide (prevAlloc = 0) && IS_IN_RANGE h next
      && IS_IN_RANGE h prev then
    let h1 := removeBlock h prev
    let h2 := updateBlockTags h1 prev
      (PACK (uadd (GET_SIZE h1.mem (HDRP prev)) (GET_SIZE h1.mem (HDRP ptr))) 0)
    insertNewBlock h2 prev
  else if decide (nextAlloc = 0) && decide (prevAlloc ≠ 0) && IS_IN_RANGE h next
      && IS_IN_RANGE h prev then
    let h1 := removeBlock h next
    let h2 := updateBlockTags h1 ptr
      (PACK (uadd (GET_SIZE h1.mem (HDRP ptr)) (GET_SIZE h1.mem (HDRP next))) 0)
    insertNewBlock h2 ptr
  else if decide (nextAlloc = 0) && decide (prevAlloc = 0) && IS_IN_RANGE h next
      && IS_IN_RANGE h prev then
    let h1 := removeBlock h prev
    let h2 := removeBlock h1 next
    let h3 := updateBlockTags h2 prev
      (PACK (uadd (uadd (GET_SIZE h2.mem (HDRP prev)) (GET_SIZE h2.mem (HDRP ptr)))
        (GET_SIZE h2.mem (HDRP next))) 0)
    insertNewBlock h3 prev
  else h

def mm_realloc (fuel : Nat) (h : Heap) (ptr size : Nat) : Option (Heap × Nat) :=
  let asize0 := ALIGN size
  if GET_SIZE h.mem (HDRP ptr) = asize0 then some (h, ptr)
  else if ptr = NULL then mm_malloc fuel h size
  else if size = 0 then some (mm_free h ptr, NULL)
  else
    let next := NEXT_BLKP h.mem ptr
    let extendedBlockPayloadSize :=
      uadd (GET_SIZE h.mem (HDRP ptr)) (GET_SIZE h.mem (HDRP next))
    if decide (next ≠ NULL) && decide (GET_ALLOC h.mem (HDRP next) = 0) && IS_IN_RANGE h next
        && decide (asize0 < extendedBlockPayloadSize) then
      let h1 := removeBlock h next
      let splitSize : Int := toInt32 (usub extendedBlockPayloadSize asize0)
      let asize := if splitSize = (DSIZE : Int) then uadd asize0 DSIZE else asize0
      let h2 := updateBlockTags h1 ptr (PACK asize 1)
      if splitSize > 8 then
        let freeBlock := NEXT_BLKP h2.mem ptr
        let h3 := updateBlockTags h2 freeBlock (PACK (ofInt32 splitSize) 0)
        some (insertNewBlock h3 freeBlock, ptr)
      else if h2.root = NULL then some ((extend_heap h2 (CHUNKSIZE / WSIZE)).1, ptr)
      else some (h2, ptr)
    else
      match mm_malloc fuel h size with
      | none => none
      | some (h1, newAllocBlock) =>
        if newAllocBlock = NULL then some (h1, 0)
        else
          let oldSize0 := usub (GET_SIZE h1.mem (HDRP ptr)) DSIZE
          let oldSize := if size < oldSize0 then size else oldSize0
          let h2 : Heap := { h1 with mem := memcpy h1.mem newAllocBlock ptr oldSize }
          some (mm_free h2 ptr, newAllocBlock)

/-! ## Call sequences -/

/-- A call of the public interface after `mm_init`. -/
inductive Call where
  | malloc (size : Nat)
  | free (ptr : Nat)
  | realloc (ptr size : Nat)

/-- The allocator together with the pointers it has handed out and that have
not been given back (with multiplicity). -/
structure Run where
  heap : Heap
  live : List Nat

/-- A call is valid when its size is a `size_t` and its pointer is live
(`mm_realloc` also takes `NULL`). -/
def Call.valid (live : List Nat) : Call → Bool
  | .malloc size => decide (size < WORD)
  | .free ptr => decide (ptr ∈ live)
  | .realloc ptr size => decide (size < WORD) && (decide (ptr = NULL) || decide (ptr ∈ live))

/-- One call; `none` when the fuel of `find_fit` runs out. -/
def Run.step (fuel : Nat) (r : Run) : Call → Option Run
  | .malloc size =>
    match mm_malloc fuel r.heap size with
    | none => none
    | some (h, p) => some ⟨h, if p = NULL then r.live else p :: r.live⟩
  | .free ptr => some ⟨mm_free r.heap ptr, r.live.erase ptr⟩
  | .realloc ptr size =>
    match mm_realloc fuel r.heap ptr size with
    | none => none
    | some (h, q) =>
      some ⟨h, if q = NULL then (if size = 0 then r.live.erase ptr else r.live)
               else q :: r.live.erase ptr⟩

/-- A sequence of valid calls during which the provider never refuses; `none`
when a call is not valid, the provider refuses, or the fuel runs out. -/
def runCalls (fuel : Nat) : Run → List Call → Option Run
  | r, [] => some r
  | r, c :: cs =>
    if c.valid r.live then
      match r.step fuel c with
      | none => none
      | some r1 => if r1.heap.mem_refused then none else runCalls fuel r1 cs
    else none

/-- A provider that has handed out nothing yet: the arena is empty, starts at
a double word boundary above `NULL` and lies within the 32 bit address
space. -/
def Fresh (h : Heap) : Prop :=
  h.mem_brk = h.mem_start_brk ∧ 0 < h.mem_start_brk ∧ h.mem_start_brk % 8 = 0
    ∧ h.mem_max_addr + 16 ≤ WORD ∧ h.mem_refused = false

instance (h : Heap) : Decidable (Fresh h) := by unfold Fresh; infer_instance

/-- The state right after a successful `mm_init`. -/
def start (h0 : Heap) : Run := ⟨(mm_init h0).1, []⟩

/-- The states reached from `mm_init` by valid calls, the provider never
refusing. -/
def Reachable (h0 : Heap) (r : Run) : Prop :=
  Fresh h0 ∧ (mm_init h0).2 = 0 ∧ ∃ fuel calls, runCalls fuel (start h0) calls = some r

/-- The memory that holds zero everywhere. -/
def zeroMem : Mem := fun _ => 0

/-- The blocks tile the arena: the walk over the physical sequence that starts
at `bp` and follows `NEXT_BLKP` passes only blocks of at least the minimum
size and arrives exactly at the end of the last block (whose header would
sit at `mem_brk + 4`).  `false` also when the fuel runs out. -/
def tilesFrom (h : Heap) : Nat → Nat → Bool
  | 0, _ => false
  | fuel + 1, bp =>
    if bp = h.mem_brk + 8 then true
    else if GET_SIZE h.mem (HDRP bp) < 2 * DSIZE then false
    else if h.mem_brk + 8 < bp + GET_SIZE h.mem (HDRP bp) then false
    else tilesFrom h fuel (NEXT_BLKP h.mem bp)

/-- The blocks tile the arena from `lo + 4` onward without gap or overlap. -/
def Tiles (h : Heap) : Prop := ∃ fuel, tilesFrom h fuel (mem_heap_lo h + 8) = true

/-- A fresh provider for the arena `[65536, 2 ^ 32 - 65536)`, all bytes zero. -/
def heap0 : Heap :=
  { mem := zeroMem, root := 0, heap_listp := 0, mem_start_brk := 65536, mem_brk := 65536,
    mem_max_addr := 4294901760, mem_refused := false }

/-- The run reached by `calls` from the start state of `heap0` (the start state
itself when the calls do not form a valid run). -/
def runOf (fuel : Nat) (calls : List Call) : Run :=
  (runCalls fuel (start heap0) calls).getD (start heap0)

/-! ## Well formed heaps -/

/-- A block of the physical sequence: payload pointer, block size (header and
footer included) and alloc bit. -/
structure Block where
  addr : Nat
  size : Nat
  alloc : Nat

/-- The boundary tag of a block. -/
def Block.tag (b : Block) : Nat := b.size + b.alloc

/-- The blocks `bl` lie end to end from the payload pointer `s` to the payload
pointer `e`, each with a size that is a multiple of 8 and at least 16, and
each with its tag in its header and in its footer. -/
def Chain (m : Mem) : List Block → Nat → Nat → Prop
  | [], s, e => s = e
  | b :: bs, s, e =>
    b.addr = s ∧ b.size % 8 = 0 ∧ 16 ≤ b.size ∧ b.alloc ≤ 1 ∧
    GET m (b.addr - 4) = b.tag ∧ GET m (b.addr + b.size - 8) = b.tag ∧
    Chain m bs (s + b.size) e

/-- The nodes `fl` form a doubly linked list in memory: the list starts at
`cur`, whose predecessor link is `prev`, and ends with a null successor. -/
def FreeList (m : Mem) : List Nat → Nat → Nat → Prop
  | [], _, cur => cur = 0
  | p :: ps, prev, cur => cur = p ∧ p ≠ 0 ∧ GET m (p + 4) = prev ∧ FreeList m ps p (GET m p)

/-- The heap `h` is made of the blocks `bl`, and its free list holds the nodes
`fl` in this order, each once and each a free block. -/
structure Pre (h : Heap) (bl : List Block) (fl : List Nat) : Prop where
  lo_pos : 0 < h.mem_start_brk
  lo_al : h.mem_start_brk % 8 = 0
  brk_le : h.mem_brk + 16 ≤ WORD
  chain : Chain h.mem bl (h.mem_start_brk + 8) (h.mem_brk + 8)
  flist : FreeList h.mem fl 0 h.root
  nodup : fl.Nodup
  nodes : ∀ p ∈ fl, ∃ b ∈ bl, b.addr = p ∧ b.alloc = 0

/-- A well formed heap: `Pre`, and every free block is in the free list. -/
def WF (h : Heap) (bl : List Block) (fl : List Nat) : Prop :=
  Pre h bl fl ∧ ∀ b ∈ bl, b.alloc = 0 → b.addr ∈ fl

/-- The memory after `removeBlock bp`: the successor's back link and the
predecessor's forward link skip `bp`. -/
def unlink (m : Mem) (x : Nat) : Mem :=
  if GET m (x + 4) ≠ 0 then
    PUT (if GET m x ≠ 0 then PUT m (GET m x + 4) (GET m (x + 4)) else m) (GET m (x + 4)) (GET m x)
  else (if GET m x ≠ 0 then PUT m (GET m x + 4) (GET m (x + 4)) else m)

/-- The memory after `insertNewBlock bp` when the list starts at `root`. -/
def linkHead (m : Mem) (root bp : Nat) : Mem :=
  if root = 0 then PUT (PUT m bp 0) (bp + 4) 0
  else PUT (PUT (PUT m (root + 4) bp) bp root) (bp + 4) 0

/-- The bytes of the header and of the footer of a block. -/
def Block.tagByte (b : Block) (a : Nat) : Prop :=
  (b.addr - 4 ≤ a ∧ a < b.addr) ∨ (b.addr + b.size - 8 ≤ a ∧ a < b.addr + b.size - 4)

instance decChain (m : Mem) : (bl : List Block) → (s e : Nat) → Decidable (Chain m bl s e)
  | [], s, e => inferInstanceAs (Decidable (s = e))
  | b :: bs, s, e =>
    have := decChain m bs (s + b.size) e
    inferInstanceAs (Decidable (b.addr = s ∧ b.size % 8 = 0 ∧ 16 ≤ b.size ∧ b.alloc ≤ 1 ∧
      GET m (b.addr - 4) = b.tag ∧ GET m (b.addr + b.size - 8) = b.tag ∧
      Chain m bs (s + b.size) e))

instance decFreeList (m : Mem) : (fl : List Nat) → (prev cur : Nat) →
    Decidable (FreeList m fl prev cur)
  | [], _, cur => inferInstanceAs (Decidable (cur = 0))
  | p :: ps, prev, cur =>
    have := decFreeList m ps p (GET m p)
    inferInstanceAs (Decidable (cur = p ∧ p ≠ 0 ∧ GET m (p + 4) = prev ∧
      FreeList m ps p (GET m p)))

/-- The payload pointer of the block that `mm_free` leaves: the predecessor `P`
of the freed block `B` when `P` is free, else `B`. -/
def freedStart (P B : Block) : Nat := if P.alloc = 0 then P.addr else B.addr

/-- The size of the block that `mm_free` leaves: the size of `B` plus the sizes of
the neighbours `P` and `N` that are free. -/
def freedSize (P B N : Block) : Nat :=
  (if P.alloc = 0 then P.size else 0) + B.size + (if N.alloc = 0 then N.size else 0)

/-- The physical sequence after `mm_free` of the block `B` between `P` and `N`. -/
def freedBlocks (pre post : List Block) (P B N : Block) : List Block :=
  pre ++ (if P.alloc = 0 then [] else [P]) ++
    ⟨freedStart P B, freedSize P B N, 0⟩ :: ((if N.alloc = 0 then [] else [N]) ++ post)

/-- Four blocks of 24 bytes are handed out and the second one is freed. -/
def c4Calls : List Call := [.malloc 16, .malloc 16, .malloc 16, .malloc 16, .free 65568]

/-! ## The runs used below -/

/-- The calls of the run `c1Run`. -/
def c1Calls : List Call :=
  [.malloc 8, .malloc 100, .malloc 8, .malloc 8, .malloc 8, .malloc 8,
   .free 65560, .free 65704, .free 65688, .free 65720,
   .malloc 2147483648, .free 65688, .malloc 1, .malloc 100,
   .free 65688, .malloc 100, .free 65560, .free 65560]

/-- The calls of the run in which `place` first meets a free block that exceeds
the request by `2 ^ 31` bytes or more. -/
def c2Calls : List Call := [.malloc 2147483648, .free 65544, .malloc 1]

/-- The calls that leave the physically last block of the arena allocated while
the free list is not empty. -/
def c5Calls : List Call :=
  [.malloc 16, .malloc 16, .malloc 16, .free 65568, .malloc 4016]

/-- The calls of `c5Calls` followed by the release of every pointer that is
still live. -/
def c6Calls : List Call := c5Calls ++ [.free 65616, .free 65544, .free 65592]

/-- A fresh provider like `heap0` whose memory holds the word 16 at the address
`2 ^ 32 - 4`, far outside the arena. -/
def heap8 : Heap := { heap0 with mem := PUT zeroMem 4294967292 16 }

/-- The calls that leave the block `65544` of 65536 bytes live, with the stale
link word `131096` in its payload, in front of a single free block of more
than `2 ^ 31` bytes that ends the arena. -/
def c7Calls : List Call :=
  [.malloc 65528, .malloc 8, .malloc 8, .malloc 8, .free 65544, .free 131096,
   .malloc 65528, .free 131080, .free 131112, .malloc 2147483648, .free 131080]

/-- The heap `h` is made of the blocks `bl`, and its free list holds the nodes
`fl` in this order, each once and each the payload pointer of a block. -/
structure Shape (h : Heap) (bl : List Block) (fl : List Nat) : Prop where
  lo_pos : 0 < h.mem_start_brk
  lo_al : h.mem_start_brk % 8 = 0
  brk_le : h.mem_brk + 16 ≤ WORD
  chain : Chain h.mem bl (h.mem_start_brk + 8) (h.mem_brk + 8)
  flist : FreeList h.mem fl 0 h.root
  nodup : fl.Nodup
  nodes : ∀ p ∈ fl, ∃ b ∈ bl, b.addr = p

/-- The provider's state and `heap_listp` are the same in both heaps. -/
def SameProvider (h h1 : Heap) : Prop :=
  h1.mem_start_brk = h.mem_start_brk ∧ h1.mem_brk = h.mem_brk ∧
  h1.mem_max_addr = h.mem_max_addr ∧ h1.mem_refused = h.mem_refused ∧
  h1.heap_listp = h.heap_listp

/-- The byte `a` lies in no free block of `bl` (header and footer included). -/
def OutsideFree (bl : List Block) (a : Nat) : Prop :=
  ∀ b ∈ bl, b.alloc = 0 → (a + 4 < b.addr ∨ b.addr + b.size ≤ a + 4)

/-- The byte `a` does not lie in the block `b` (header and footer included). -/
def Block.outside (b : Block) (a : Nat) : Prop := a + 4 < b.addr ∨ b.addr + b.size ≤ a + 4

/-- A well formed heap: `Shape`, and the nodes of the free list are exactly the
free blocks. -/
def Valid (h : Heap) (bl : List Block) (fl : List Nat) : Prop :=
  Shape h bl fl ∧ ∀ b ∈ bl, (b.addr ∈ fl ↔ b.alloc = 0)

/-- No two blocks that follow each other in the physical sequence `bl` are both
free. -/
def NoAdj (bl : List Block) : Prop :=
  List.Chain' (fun a b : Block => a.alloc ≠ 0 ∨ b.alloc ≠ 0) bl

/-- What `mm_free` of the block `B` leaves: a well formed heap with blocks `bl1`
and free list `fl1`; the provider is untouched, and so is every byte outside
`B` and outside the free blocks of the heap before the call. -/
def FreeOut (h : Heap) (B : Block) (bl bl1 : List Block) (fl1 : List Nat) : Prop :=
  Valid (mm_free h B.addr) bl1 fl1 ∧ SameProvider h (mm_free h B.addr) ∧
  (∀ a, OutsideFree bl a → B.outside a → (mm_free h B.addr).mem a = h.mem a)

/-- The heap after the provider has appended `size` bytes and the tags of a free
block have been written over them. -/
def grown (h : Heap) (size : Nat) : Heap :=
  { h with mem := PUT (PUT h.mem (h.mem_brk + 4) size) (h.mem_brk + size) size,
           mem_brk := h.mem_brk + size }

/-- The arena of `h1` is the arena of `h`, possibly extended at its end within
the capacity of the provider. -/
def Extends (h h1 : Heap) : Prop :=
  h1.mem_start_brk = h.mem_start_brk ∧ h1.mem_max_addr = h.mem_max_addr ∧
  h1.heap_listp = h.heap_listp ∧ h.mem_brk ≤ h1.mem_brk ∧
  (h1.mem_brk = h.mem_brk ∨ h1.mem_brk ≤ h.mem_max_addr)

/-- The memory after `place` has put the node `y` into the position of the node
`x` of the free list: the forward link of the predecessor of `x` and the back
link of its successor point to `y`, and `y` carries the links of `x`. -/
def relink (m : Mem) (x y : Nat) : Mem :=
  let m3 := if GET m (x + 4) = 0 then m else PUT m (GET m (x + 4)) y
  let m4 := if GET m x ≠ 0 then PUT m3 (GET m x + 4) y else m3
  PUT (PUT m4 y (GET m x)) (y + 4) (GET m (x + 4))

/-- What `place` leaves when it allocates `asize0` bytes in the free block `B` of
the heap `h` with blocks `bl`: a well formed heap `h1` with a non-empty free
list in which the block at `B.addr` is allocated and holds `asize0` bytes;
the other allocated blocks are those of before, only bytes of free blocks and
of the appended region have changed, and no two free blocks lie side by side
when none did before. -/
def PlaceOut (h h1 : Heap) (bl : List Block) (B : Block) (asize0 : Nat) : Prop :=
  ∃ bl1 fl1 B1, Valid h1 bl1 fl1 ∧ fl1 ≠ [] ∧ B1 ∈ bl1 ∧ B1.addr = B.addr ∧ B1.alloc = 1 ∧
    asize0 ≤ B1.size ∧ B1.size ≤ B.size ∧ Extends h h1 ∧
    (∀ b ∈ bl, b.alloc = 1 → b ∈ bl1) ∧ (∀ b ∈ bl1, b.alloc = 1 → b = B1 ∨ b ∈ bl) ∧
    (∀ a, OutsideFree bl a → a < h.mem_brk + 4 → h1.mem a = h.mem a) ∧
    (NoAdj bl → NoAdj bl1)

/-- The step from `h` to `h1` leaves the bytes below the first header and the
payload bytes of the allocated blocks `bl` of `h` as they are. -/
def Keeps (h h1 : Heap) (bl : List Block) : Prop :=
  (∀ a, a < h.mem_start_brk + 4 → h1.mem a = h.mem a) ∧
  (∀ X ∈ bl, X.alloc = 1 → ∀ a, X.addr ≤ a → a + 8 < X.addr + X.size → h1.mem a = h.mem a)

/-- What `mm_malloc` leaves when it returns the pointer `p` for a request of
`size` bytes in the heap `h` with blocks `bl`: a well formed heap `h1` with a
non-empty free list in which the block at `p` is allocated and holds the
request; `p` was not the pointer of an allocated block before, the other
allocated blocks are those of before, and their payloads are untouched. -/
def MallocOut (h h1 : Heap) (bl : List Block) (size p : Nat) : Prop :=
  ∃ bl1 fl1 B1, Valid h1 bl1 fl1 ∧ fl1 ≠ [] ∧ B1 ∈ bl1 ∧ B1.addr = p ∧ B1.alloc = 1 ∧
    size + 8 ≤ B1.size ∧ Extends h h1 ∧
    (∀ b ∈ bl, b.alloc = 1 → b ∈ bl1 ∧ b.addr ≠ p) ∧
    (∀ b ∈ bl1, b.alloc = 1 → b = B1 ∨ b ∈ bl) ∧ Keeps h h1 bl ∧ (NoAdj bl → NoAdj bl1)

/-- The provider works below its capacity, which is less than `2 ^ 31` bytes and
ends inside the 32 bit address space. -/
def SmallProvider (h : Heap) : Prop :=
  h.mem_brk ≤ h.mem_max_addr ∧ h.mem_max_addr < h.mem_start_brk + 2147483648 ∧
  h.mem_max_addr + 16 ≤ WORD

/-- What `mm_realloc` leaves when it returns the pointer `q` for a request of
`size` bytes on the allocated block `B` of the heap `h` with blocks `bl`: a
well formed heap `h1` with a non-empty free list in which the block at `q`
is allocated and holds the request; the other allocated blocks are those of
before, with their payloads untouched, and the payload at `q` starts with the
bytes of the payload of `B`, as far as both reach. -/
def ReallocOut (h h1 : Heap) (bl : List Block) (B : Block) (size q : Nat) : Prop :=
  ∃ bl1 fl1 Q, Valid h1 bl1 fl1 ∧ fl1 ≠ [] ∧ Q ∈ bl1 ∧ Q.addr = q ∧ Q.alloc = 1 ∧
    size + 8 ≤ Q.size ∧ Extends h h1 ∧
    (∀ b ∈ bl, b.alloc = 1 → b ≠ B → b ∈ bl1 ∧ b.addr ≠ q) ∧
    (∀ a, a < h.mem_start_brk + 4 → h1.mem a = h.mem a) ∧
    (∀ X ∈ bl, X.alloc = 1 → X ≠ B →
      ∀ a, X.addr ≤ a → a + 8 < X.addr + X.size → h1.mem a = h.mem a) ∧
    (∀ i, i < size → i + 8 < B.size → h1.mem (q + i) = h.mem (B.addr + i)) ∧
    (NoAdj bl → NoAdj bl1)

/-- The request of a call is at most `2 ^ 32 - 16` bytes, so that `ALIGN` does not
wrap around. -/
def Call.inBounds : Call → Bool
  | .malloc size => decide (size ≤ 4294967280)
  | .free _ => true
  | .realloc _ size => decide (size ≤ 4294967280)

/-- A fresh provider whose capacity is less than `2 ^ 31` bytes and whose first
word, the padding word of the arena, holds no size bits. -/
def Tame (h0 : Heap) : Prop :=
  Fresh h0 ∧ h0.mem_max_addr < h0.mem_start_brk + 2147483648 ∧
  GET h0.mem h0.mem_start_brk < 8

/-- The states reached from `mm_init` on a tame provider by valid calls with
requests in bounds, the provider never refusing. -/
def TameReachable (h0 : Heap) (r : Run) : Prop :=
  Tame h0 ∧ (mm_init h0).2 = 0 ∧
  ∃ fuel calls, (∀ c ∈ calls, Call.inBounds c = true) ∧ runCalls fuel (start h0) calls = some r

/-- The invariant of the runs on a tame provider: the heap is well formed with
blocks `bl` and a non-empty free list `fl`, the provider is small and has not
refused, the padding word holds no size bits, the live pointers are pointers
of allocated blocks, each once, and no two free blocks lie side by side. -/
def GoodWith (r : Run) (bl : List Block) (fl : List Nat) : Prop :=
  Valid r.heap bl fl ∧ fl ≠ [] ∧ SmallProvider r.heap ∧ GET r.heap.mem r.heap.mem_start_brk < 8 ∧
  r.heap.mem_refused = false ∧ (∀ p ∈ r.live, ∃ b ∈ bl, b.addr = p ∧ b.alloc = 1) ∧
  r.live.Nodup ∧ NoAdj bl

/-- The invariant of the runs on a tame provider. -/
def Good (r : Run) : Prop := ∃ bl fl, GoodWith r bl fl

/-- A fresh provider for the arena `[65536, 65536 + 2 ^ 20)`, all bytes zero. -/
def heapT : Heap := { heap0 with mem_max_addr := 1114112 }

/-- The run reached by `calls` from the start state of `heapT` (the start state
itself when the calls do not form a valid run). -/
def runT (fuel : Nat) (calls : List Call) : Run :=
  (runCalls fuel (start heapT) calls).getD (start heapT)

/-- Three requests, the second of which is given back. -/
def tCalls : List Call := [.malloc 100, .malloc 8, .malloc 24, .free 65656]

/-! ## The adjusted size as the specification words it -/

/-- The adjusted size as the specification words it: 16 for requests of at most
8 bytes, and otherwise 8 times the ceiling of the rational quotient
`(n + 8 + 7) / 8`. -/
def ALIGN_spec (n : Nat) : Nat :=
  if n ≤ 8 then 16 else 8 * Nat.ceil (((n : ℚ) + 8 + 7) / 8)

/-- Three blocks of 24 bytes are handed out and the second one is given back. -/
def c11Calls : List Call := [.malloc 16, .malloc 16, .malloc 16, .free 65568]

/-- Two blocks of 1200000008 bytes are handed out and given back, which leaves one
free block of 2400004112 bytes, more than `2 ^ 31`; then one byte is requested.
Every request is below `2 ^ 31`. -/
def c15Calls : List Call :=
  [.malloc 1200000000, .malloc 1200000000, .free 1200065552, .free 65544, .malloc 1]

/-- The calls that leave two free blocks side by side: the free block of more
than `2 ^ 31` bytes at `65544` is tagged without a split by `mm_malloc 1`, and
`mm_free` then merges the 16 byte block with the stale header behind it.
Every request is below `2 ^ 31`. -/
def c16Calls : List Call :=
  [.malloc 8, .malloc 1200000000, .malloc 1200000000, .free 1200065568, .free 65560,
   .free 65544, .malloc 1, .free 65544]

/-- The heap and the pointer that `mm_malloc 100` yields after the calls `tCalls` on
the provider `heapT`. -/
def tAfter : Heap × Nat :=
  (mm_malloc 8 (runT 8 tCalls).heap 100).getD ((runT 8 tCalls).heap, 0)

/-! ## Definitions for the placement, reallocation and coalescing claims -/

/-- The calls that leave the block `65544` of 16 bytes live in front of a single
free block of 2400004096 bytes, more than `2 ^ 31`, that ends the arena.  Every
request is below `2 ^ 31`. -/
def c23Calls : List Call :=
  [.malloc 8, .malloc 1200000000, .malloc 1200000000, .free 1200065568, .free 65560]

/-- One request of 100 bytes: the block `65544` of 112 bytes is live and its
successor is the free rest of the first chunk. -/
def c24Calls : List Call := [.malloc 100]

/-- A fresh provider like `heap0` whose capacity is one chunk of 4096 bytes. -/
def heapS : Heap := { heap0 with mem_max_addr := 65536 + 4096 }

/-- The heap and the block pointer that `extend_heap` hands to `coalesce` (source
line 255), `none` when the provider refuses: the statements of `extend_heap`
up to that call. -/
def extend_heap_arg (h : Heap) (words : Nat) : Option (Heap × Nat) :=
  let oldRoot := h.root
  let size := if words % 2 ≠ 0 then umul (uadd words 1) WSIZE else umul words WSIZE
  let r := mem_sbrk h size
  let h1 : Heap := { r.1 with root := r.2 }
  if r.2 = MINUS_ONE then none
  else
    let root1 := uadd r.2 4
    let m1 := PUT h1.mem root1 (PACK size 0)
    let root2 := uadd root1 WSIZE
    let m2 := PUT_ADDR m1 (NEXTP root2) oldRoot
    let m3 := PUT_ADDR m2 (PREVP root2) NULL
    let m4 := PUT m3 (FTRP m3 root2) (PACK size 0)
    let m5 := if oldRoot ≠ NULL then PUT_ADDR m4 (PREVP oldRoot) root2 else m4
    some ({ h1 with mem := m5, root := root2 }, root2)

/-- The addresses of the two header words that `coalesce` reads for the alloc
bits of the neighbours (source lines 161 and 162), in this order. -/
def coalesce_reads (h : Heap) (bp : Nat) : List Nat :=
  let next := NEXT_BLKP h.mem bp
  let prev := PREV_BLKP h.mem bp
  [HDRP next, HDRP prev]

/-- The branch that `coalesce` takes: 1 for the branch of source lines 172 to 185
(next free), 2 for the branch of lines 188 to 202 (previous free), 3 for the
branch of lines 205 to 220 (both free), 0 when it returns `bp` as it is. -/
def coalesce_branch (h : Heap) (bp : Nat) : Nat :=
  let next := NEXT_BLKP h.mem bp
  let prev := PREV_BLKP h.mem bp
  let nextAlloc := GET_ALLOC h.mem (HDRP next)
  let prevAlloc := GET_ALLOC h.mem (HDRP prev)
  let case1Edge : Bool := decide (nextAlloc = 0) && !IS_IN_RANGE h prev
  let case2Edge : Bool := decide (prevAlloc = 0) && !IS_IN_RANGE h next
  if (decide (nextAlloc = 0) && decide (prevAlloc ≠ 0) && IS_IN_RANGE h next
        && IS_IN_RANGE h prev) || case1Edge then 1
  else if (decide (nextAlloc ≠ 0) && decide (prevAlloc = 0) && IS_IN_RANGE h next
        && IS_IN_RANGE h prev) || case2Edge then 2
  else if decide (nextAlloc = 0) && decide (prevAlloc = 0) && IS_IN_RANGE h next
        && IS_IN_RANGE h prev then 3
  else 0

/-- A heap with three free blocks side by side, all in the free list: the first
chunk of `heap0` retagged as blocks of 16, 16 and 4064 bytes. -/
def heap25 : Heap :=
  let h1 := updateBlockTags (mm_init heap0).1 65544 16
  let h2 := updateBlockTags h1 65560 16
  let h3 := updateBlockTags h2 65576 4064
  insertNewBlock (insertNewBlock h3 65560) 65576

/-- The calls after which `extend_heap` hands `coalesce` a block whose header has
been overwritten: the request of `2 ^ 32 - 8` bytes has the adjusted size 0,
so the block `65544` is handed out while it stays free, `mm_free` doubles its
size to 16016 bytes, and the request of 12088 bytes splits it at the end of
the arena. -/
def c30Calls : List Call :=
  [.malloc 8000, .malloc 8, .free 65544, .malloc 4294967288, .free 65544, .malloc 12088]

/-- The heap and the block pointer that `extend_heap` hands to `coalesce` when
`mm_malloc 5000` is called in the start state of `heap0`. -/
def argStart : Heap × Nat :=
  (extend_heap_arg (start heap0).heap 1252).getD ((start heap0).heap, 0)

/-- The heap and the block pointer that `extend_heap` hands to `coalesce` when
`mm_malloc 5000` is called after the calls `c30Calls`. -/
def arg30 : Heap × Nat :=
  (extend_heap_arg (runOf 8 c30Calls).heap 1252).getD ((runOf 8 c30Calls).heap, 0)

/-! ## The words that the functions store -/

/-- The addresses of the words that `removeBlock` stores (source lines 99 and
101), in this order. -/
def removeBlock_stores (h : Heap) (bp : Nat) : List Nat :=
  let logicalNext := GET_ADDR h.mem (NEXTP bp)
  let logicalPrev := GET_ADDR h.mem (PREVP bp)
  (if logicalNext ≠ NULL then [PREVP logicalNext] else []) ++
    (if logicalPrev ≠ NULL then [NEXTP logicalPrev] else [])

/-- The addresses of the two words that `updateBlockTags` stores (source lines 119
and 120): the header, and the footer as `FTRP` finds it after the header has
been stored. -/
def updateBlockTags_stores (h : Heap) (bp boundaryTag : Nat) : List Nat :=
  let m1 := PUT h.mem (HDRP bp) boundaryTag
  [HDRP bp, FTRP m1 bp]

/-- The addresses of the words that `insertNewBlock` stores (source lines 130, 131
and 141 to 145). -/
def insertNewBlock_stores (h : Heap) (bp : Nat) : List Nat :=
  if h.root = NULL then [NEXTP bp, PREVP bp]
  else [PREVP h.root, NEXTP bp, PREVP bp]

/-- The addresses of the words that `coalesce` stores, branch by branch. -/
def coalesce_stores (h : Heap) (bp : Nat) : List Nat :=
  let next := NEXT_BLKP h.mem bp
  let prev := PREV_BLKP h.mem bp
  let nextAlloc := GET_ALLOC h.mem (HDRP next)
  let prevAlloc := GET_ALLOC h.mem (HDRP prev)
  let case1Edge : Bool := decide (nextAlloc = 0) && !IS_IN_RANGE h prev
  let case2Edge : Bool := decide (prevAlloc = 0) && !IS_IN_RANGE h next
  if (decide (nextAlloc = 0) && decide (prevAlloc ≠ 0) && IS_IN_RANGE h next
        && IS_IN_RANGE h prev) || case1Edge then
    let h1 := removeBlock h bp
    let h2 := removeBlock h1 next
    let newBoundaryTag :=
      PACK (uadd (GET_SIZE h2.mem (HDRP next)) (GET_SIZE h2.mem (HDRP bp))) 0
    let h3 := updateBlockTags h2 bp newBoundaryTag
    removeBlock_stores h bp ++ removeBlock_stores h1 next ++
      updateBlockTags_stores h2 bp newBoundaryTag ++ insertNewBlock_stores h3 bp
  else if (decide (nextAlloc ≠ 0) && decide (prevAlloc = 0) && IS_IN_RANGE h next
        && IS_IN_RANGE h prev) || case2Edge then
    let h1 := removeBlock h prev
    let h2 := removeBlock h1 bp
    let newBoundaryTag :=
      PACK (uadd (GET_SIZE h2.mem (HDRP prev)) (GET_SIZE h2.mem (HDRP bp))) 0
    let h3 := updateBlockTags h2 prev newBoundaryTag
    removeBlock_stores h prev ++ removeBlock_stores h1 bp ++
      updateBlockTags_stores h2 prev newBoundaryTag ++ insertNewBlock_stores h3 prev
  else if decide (nextAlloc = 0) && decide (prevAlloc = 0) && IS_IN_RANGE h next
        && IS_IN_RANGE h prev then
    let h1 := removeBlock h prev
    let h2 := removeBlock h1 bp
    let h3 := removeBlock h2 next
    let newBoundaryTag :=
      PACK (uadd (GET_SIZE h3.mem (HDRP prev))
        (uadd (GET h3.mem (HDRP bp)) (GET_SIZE h3.mem (HDRP next)) &&& 4294967288)) 0
    let h4 := updateBlockTags h3 prev newBoundaryTag
    removeBlock_stores h prev ++ removeBlock_stores h1 bp ++ removeBlock_stores h2 next ++
      updateBlockTags_stores h3 prev newBoundaryTag ++ insertNewBlock_stores h4 prev
  else []

/-- The addresses of the words that `extend_heap` stores (source lines 243 to 252),
followed by those of its call of `coalesce`; none when the provider refuses. -/
def extend_heap_stores (h : Heap) (words : Nat) : List Nat :=
  let oldRoot := h.root
  let size := if words % 2 ≠ 0 then umul (uadd words 1) WSIZE else umul words WSIZE
  let r := mem_sbrk h size
  let h1 : Heap := { r.1 with root := r.2 }
  if r.2 = MINUS_ONE then []
  else
    let root1 := uadd r.2 4
    let m1 := PUT h1.mem root1 (PACK size 0)
    let root2 := uadd root1 WSIZE
    let m2 := PUT_ADDR m1 (NEXTP root2) oldRoot
    let m3 := PUT_ADDR m2 (PREVP root2) NULL
    let m4 := PUT m3 (FTRP m3 root2) (PACK size 0)
    let m5 := if oldRoot ≠ NULL then PUT_ADDR m4 (PREVP oldRoot) root2 else m4
    [root1, NEXTP root2, PREVP root2, FTRP m3 root2] ++
      (if oldRoot ≠ NULL then [PREVP oldRoot] else []) ++
      coalesce_stores { h1 with mem := m5, root := root2 } root2

/-- The addresses of the words that `place` stores (source lines 333 to 362), with
those of its calls of `removeBlock` and `extend_heap`. -/
def place_stores (h : Heap) (bp asize0 : Nat) : List Nat :=
  let splitSize : Int := toInt32 (usub (GET_SIZE h.mem (HDRP bp)) asize0)
  let asize := if splitSize = (DSIZE : Int) then uadd asize0 DSIZE else asize0
  let newBoundaryTag := PACK asize 1
  let h1 := updateBlockTags h bp newBoundaryTag
  let prevp := GET_ADDR h1.mem (PREVP bp)
  let nextp := GET_ADDR h1.mem (NEXTP bp)
  updateBlockTags_stores h bp newBoundaryTag ++
  (if splitSize > (DSIZE : Int) then
    let freeBoundaryTag := ofInt32 splitSize
    let newNext := NEXT_BLKP h1.mem bp
    updateBlockTags_stores h1 newNext freeBoundaryTag ++
      (if prevp = NULL then [] else [NEXTP prevp]) ++
      (if nextp ≠ NULL then [PREVP nextp] else []) ++
      [NEXTP newNext, PREVP newNext]
  else
    let h2 := removeBlock h1 bp
    removeBlock_stores h1 bp ++
      (if h2.root = NULL then extend_heap_stores h2 (CHUNKSIZE / WSIZE) else []))

/-- The addresses of the words that `mm_malloc` stores: those of `place` and of
`extend_heap`; `find_fit` stores nothing. -/
def mm_malloc_stores (fuel : Nat) (h : Heap) (size : Nat) : List Nat :=
  if size = 0 then []
  else
    let asize := ALIGN size
    match find_fit fuel h asize with
    | none => []
    | some bp =>
      if bp ≠ NULL then place_stores h bp asize
      else
        let extendsize := MAX asize CHUNKSIZE
        let r := extend_heap h (extendsize / WSIZE)
        extend_heap_stores h (extendsize / WSIZE) ++
          (if r.2 = NULL then [] else place_stores r.1 r.2 asize)

/-- The addresses of the words that `mm_free` stores, case by case. -/
def mm_free_stores (h : Heap) (ptr : Nat) : List Nat :=
  let next := NEXT_BLKP h.mem ptr
  let prev := PREV_BLKP h.mem ptr
  let nextAlloc := GET_ALLOC h.mem (HDRP next)
  let prevAlloc := GET_ALLOC h.mem (HDRP prev)
  if decide (nextAlloc ≠ 0) && decide (prevAlloc ≠ 0) && IS_IN_RANGE h next
      && IS_IN_RANGE h prev then
    let h1 := updateBlockTags h ptr (PACK (GET_SIZE h.mem (HDRP ptr)) 0)
    updateBlockTags_stores h ptr (PACK (GET_SIZE h.mem (HDRP ptr)) 0) ++
      insertNewBlock_stores h1 ptr
  else if decide (nextAlloc ≠ 0) && decide (prevAlloc = 0) && IS_IN_RANGE h next
      && IS_IN_RANGE h prev then
    let h1 := removeBlock h prev
    let h2 := updateBlockTags h1 prev
      (PACK (uadd (GET_SIZE h1.mem (HDRP prev)) (GET_SIZE h1.mem (HDRP ptr))) 0)
    removeBlock_stores h prev ++
      updateBlockTags_stores h1 prev
        (PACK (uadd (GET_SIZE h1.mem (HDRP prev)) (GET_SIZE h1.mem (HDRP ptr))) 0) ++
      insertNewBlock_stores h2 prev
  else if decide (nextAlloc = 0) && decide (prevAlloc ≠ 0) && IS_IN_RANGE h next
      && IS_IN_RANGE h prev then
    let h1 := removeBlock h next
    let h2 := updateBlockTags h1 ptr
      (PACK (uadd (GET_SIZE h1.mem (HDRP ptr)) (GET_SIZE h1.mem (HDRP next))) 0)
    removeBlock_stores h next ++
      updateBlockTags_stores h1 ptr
        (PACK (uadd (GET_SIZE h1.mem (HDRP ptr)) (GET_SIZE h1.mem (HDRP next))) 0) ++
      insertNewBlock_stores h2 ptr
  else if decide (nextAlloc = 0) && decide (prevAlloc = 0) && IS_IN_RANGE h next
      && IS_IN_RANGE h prev then
    let h1 := removeBlock h prev
    let h2 := removeBlock h1 next
    let h3 := updateBlockTags h2 prev
      (PACK (uadd (uadd (GET_SIZE h2.mem (HDRP prev)) (GET_SIZE h2.mem (HDRP ptr)))
        (GET_SIZE h2.mem (HDRP next))) 0)
    removeBlock_stores h prev ++ removeBlock_stores h1 next ++
      updateBlockTags_stores h2 prev
        (PACK (uadd (uadd (GET_SIZE h2.mem (HDRP prev)) (GET_SIZE h2.mem (HDRP ptr)))
          (GET_SIZE h2.mem (HDRP next))) 0) ++
      insertNewBlock_stores h3 prev
  else []

/-- The addresses that `mm_realloc` stores to: the words stored by the functions it
calls and, on the fallback path, the bytes that `memcpy` writes. -/
def mm_realloc_stores (fuel : Nat) (h : Heap) (ptr size : Nat) : List Nat :=
  let asize0 := ALIGN size
  if GET_SIZE h.mem (HDRP ptr) = asize0 then []
  else if ptr = NULL then mm_malloc_stores fuel h size
  else if size = 0 then mm_free_stores h ptr
  else
    let next := NEXT_BLKP h.mem ptr
    let extendedBlockPayloadSize :=
      uadd (GET_SIZE h.mem (HDRP ptr)) (GET_SIZE h.mem (HDRP next))
    if decide (next ≠ NULL) && decide (GET_ALLOC h.mem (HDRP next) = 0) && IS_IN_RANGE h next
        && decide (asize0 < extendedBlockPayloadSize) then
      let h1 := removeBlock h next
      let splitSize : Int := toInt32 (usub extendedBlockPayloadSize asize0)
      let asize := if splitSize = (DSIZE : Int) then uadd asize0 DSIZE else asize0
      let h2 := updateBlockTags h1 ptr (PACK asize 1)
      removeBlock_stores h next ++ updateBlockTags_stores h1 ptr (PACK asize 1) ++
      (if splitSize > 8 then
        let freeBlock := NEXT_BLKP h2.mem ptr
        let h3 := updateBlockTags h2 freeBlock (PACK (ofInt32 splitSize) 0)
        updateBlockTags_stores h2 freeBlock (PACK (ofInt32 splitSize) 0) ++
          insertNewBlock_stores h3 freeBlock
      else if h2.root = NULL then extend_heap_stores h2 (CHUNKSIZE / WSIZE)
      else [])
    else
      match mm_malloc fuel h size with
      | none => []
      | some (h1, newAllocBlock) =>
        mm_malloc_stores fuel h size ++
        (if newAllocBlock = NULL then []
        else
          let oldSize0 := usub (GET_SIZE h1.mem (HDRP ptr)) DSIZE
          let oldSize := if size < oldSize0 then size else oldSize0
          let h2 : Heap := { h1 with mem := memcpy h1.mem newAllocBlock ptr oldSize }
          (List.range oldSize).map (fun i => newAllocBlock + i) ++ mm_free_stores h2 ptr)

/-- The addresses that one call stores to. -/
def Call.stores (fuel : Nat) (h : Heap) : Call → List Nat
  | .malloc size => mm_malloc_stores fuel h size
  | .free ptr => mm_free_stores h ptr
  | .realloc ptr size => mm_realloc_stores fuel h ptr size

/-- The addresses that the calls of a run store to, call after call, as far as
the run goes. -/
def runStores (fuel : Nat) : Run → List Call → List Nat
  | _, [] => []
  | r, c :: cs =>
    c.stores fuel r.heap ++
      (match r.step fuel c with
      | none => []
      | some r1 => runStores fuel r1 cs)

/-! ## The run with a misaligned pointer -/

/-- The calls that put an odd tag on a link word, all inside a small arena: the
blocks `65544` (65560 bytes) and `131104` (65536 bytes) are handed out, then four
blocks of 16 bytes, of which the first and the third are given back, then
`65544`.  The request of `2 ^ 32 - 8` bytes has the adjusted size 0, so `65544` is
handed out again while it stays free, and `mm_free` doubles its size to 131120
bytes.  The request of 131096 bytes then takes 131104 bytes of it, and the footer
of this block, the odd tag 131105, lands on the successor link of the free block
`196640`. -/
def c3ArenaCalls : List Call :=
  [.malloc 65552, .malloc 65528, .malloc 8, .malloc 8, .malloc 8, .malloc 8,
   .free 196640, .free 196672, .free 65544, .malloc 4294967288, .free 65544,
   .malloc 131096]

/-- What the in-place branch of `mm_realloc` leaves when it shrinks the allocated
block `B` of the heap `h`, with blocks `bl` and free list `fl`, to `asize0` bytes:
the physical successor `N` of `B` was a free block; in the heap `h2` the block at
`B.addr` is allocated and holds `asize0` bytes, the bytes behind it together with
those of `N` are one free block, which heads the free list, `N` has left the free
list, and the other blocks and the other nodes of the list are those of before.
Header and footer of both blocks hold their tags, and the provider is as it
was. -/
def ShrinkOut (h h2 : Heap) (bl : List Block) (fl : List Nat) (B : Block) (asize0 : Nat) :
    Prop :=
  ∃ pre post N, bl = pre ++ B :: N :: post ∧ N.addr = NEXT_BLKP h.mem B.addr ∧ N.alloc = 0 ∧
    Valid h2
      (pre ++ ⟨B.addr, asize0, 1⟩ :: ⟨B.addr + asize0, B.size + N.size - asize0, 0⟩ :: post)
      ((B.addr + asize0) :: fl.erase N.addr) ∧
    N.addr ∉ (B.addr + asize0) :: fl.erase N.addr ∧
    GET h2.mem (HDRP B.addr) = PACK asize0 1 ∧
    GET h2.mem (FTRP h2.mem B.addr) = PACK asize0 1 ∧
    GET h2.mem (HDRP (B.addr + asize0)) = PACK (B.size + N.size - asize0) 0 ∧
    GET h2.mem (FTRP h2.mem (B.addr + asize0)) = PACK (B.size + N.size - asize0) 0 ∧
    h2.root = B.addr + asize0 ∧ SameProvider h h2

/-! ## Machine arithmetic, memory and well formed heaps -/

theorem usub_eq (a b : Nat) (hb : b ≤ a) (ha : a < WORD) : usub a b = a - b := by
  unfold usub WORD at *; omega

theorem uadd_eq (a b : Nat) (h : a + b < WORD) : uadd a b = a + b := by
  unfold uadd WORD at *; omega

theorem PACK_zero (s : Nat) : PACK s 0 = s := by
  unfold PACK; simp

theorem and_one_eq (w : Nat) : w &&& 1 = w % 2 := Nat.and_one_is_mod w

theorem and_mask_eq (w : Nat) (hw : w < WORD) : w &&& 4294967288 = w / 8 * 8 := by
  apply Nat.eq_of_testBit_eq
  intro i
  rw [Nat.testBit_and]
  have h8 : w / 8 * 8 = (w >>> 3) <<< 3 := by
    rw [Nat.shiftRight_eq_div_pow, Nat.shiftLeft_eq]
  rw [h8, Nat.testBit_shiftLeft, Nat.testBit_shiftRight]
  by_cases hi : i < 32
  · by_cases h3 : 3 ≤ i
    · have : Nat.testBit 4294967288 i = true := by
        interval_cases i <;> decide
      simp [this, h3]
    · have : Nat.testBit 4294967288 i = false := by
        interval_cases i <;> decide
      simp [this, h3]
  · have h1 : Nat.testBit 4294967288 i = false := by
      apply Nat.testBit_lt_two_pow
      calc 4294967288 < 2 ^ 32 := by norm_num
        _ ≤ 2 ^ i := Nat.pow_le_pow_right (by norm_num) (by omega)
    have h2 : Nat.testBit w (3 + (i - 3)) = false := by
      apply Nat.testBit_lt_two_pow
      calc w < 2 ^ 32 := hw
        _ ≤ 2 ^ (3 + (i - 3)) := Nat.pow_le_pow_right (by norm_num) (by omega)
    simp [h1, h2]

theorem PACK_one (s : Nat) (hs : s % 2 = 0) : PACK s 1 = s + 1 := by
  unfold PACK
  apply Nat.eq_of_testBit_eq
  intro i
  rw [Nat.testBit_or]
  cases i with
  | zero =>
    simp [Nat.testBit_zero]
    omega
  | succ j =>
    simp [Nat.testBit_succ]
    congr 1; omega

theorem PUT_byte_ne (m : Mem) (p v a : Nat) (h : a < p ∨ p + 4 ≤ a) : PUT m p v a = m a := by
  unfold PUT
  rw [if_neg (by omega), if_neg (by omega), if_neg (by omega), if_neg (by omega)]

theorem GET_lt (m : Mem) (p : Nat) : GET m p < WORD := by
  unfold GET WORD; omega

theorem GET_congr (m m1 : Mem) (q : Nat) (h : ∀ a, q ≤ a → a < q + 4 → m1 a = m a) :
    GET m1 q = GET m q := by
  unfold GET
  rw [h q (by omega) (by omega), h (q + 1) (by omega) (by omega),
    h (q + 2) (by omega) (by omega), h (q + 3) (by omega) (by omega)]

theorem GET_PUT_same (m : Mem) (p v : Nat) : GET (PUT m p v) p = v % WORD := by
  unfold GET PUT WORD
  rw [if_pos rfl, if_neg (by omega : ¬ p + 1 = p), if_pos rfl,
    if_neg (by omega : ¬ p + 2 = p), if_neg (by omega : ¬ p + 2 = p + 1), if_pos rfl,
    if_neg (by omega : ¬ p + 3 = p), if_neg (by omega : ¬ p + 3 = p + 1),
    if_neg (by omega : ¬ p + 3 = p + 2), if_pos rfl]
  omega

theorem GET_PUT_ne (m : Mem) (p v q : Nat) (h : q + 4 ≤ p ∨ p + 4 ≤ q) :
    GET (PUT m p v) q = GET m q := by
  apply GET_congr
  intro a h1 h2
  exact PUT_byte_ne m p v a (by omega)

theorem GET_SIZE_eq (m : Mem) (p : Nat) : GET_SIZE m p = GET m p / 8 * 8 := by
  unfold GET_SIZE; exact and_mask_eq _ (GET_lt m p)

theorem GET_ALLOC_eq (m : Mem) (p : Nat) : GET_ALLOC m p = GET m p % 2 := by
  unfold GET_ALLOC; exact and_one_eq _

theorem Chain_append (m : Mem) (l1 l2 : List Block) (s e : Nat) :
    Chain m (l1 ++ l2) s e ↔ ∃ mid, Chain m l1 s mid ∧ Chain m l2 mid e := by
  induction l1 generalizing s with
  | nil => simp [Chain]
  | cons b bs ih =>
    rw [List.cons_append]
    constructor
    · rintro ⟨h1, h2, h3, h4, h5, h6, h7⟩
      obtain ⟨mid, h7, h8⟩ := (ih _).1 h7
      exact ⟨mid, ⟨h1, h2, h3, h4, h5, h6, h7⟩, h8⟩
    · rintro ⟨mid, ⟨h1, h2, h3, h4, h5, h6, h7⟩, h8⟩
      exact ⟨h1, h2, h3, h4, h5, h6, (ih _).2 ⟨mid, h7, h8⟩⟩

theorem Chain_le (m : Mem) (bl : List Block) (s e : Nat) (h : Chain m bl s e) : s ≤ e := by
  induction bl generalizing s with
  | nil => simp [Chain] at h; omega
  | cons b bs ih =>
    obtain ⟨_, _, _, _, _, _, h7⟩ := h
    have := ih _ h7
    omega

/-- Every block of a chain lies between its ends, is aligned like the start, and
carries its tag. -/
theorem Chain_mem (m : Mem) (bl : List Block) (s e : Nat) (h : Chain m bl s e)
    (b : Block) (hb : b ∈ bl) :
    s ≤ b.addr ∧ b.addr + b.size ≤ e ∧ b.addr % 8 = s % 8 ∧ b.size % 8 = 0 ∧ 16 ≤ b.size ∧
    b.alloc ≤ 1 ∧ GET m (b.addr - 4) = b.tag ∧ GET m (b.addr + b.size - 8) = b.tag := by
  induction bl generalizing s with
  | nil => simp at hb
  | cons c cs ih =>
    obtain ⟨h1, h2, h3, h4, h5, h6, h7⟩ := h
    have hle := Chain_le _ _ _ _ h7
    rcases List.mem_cons.1 hb with rfl | hb
    · refine ⟨by omega, by omega, by omega, h2, h3, h4, h5, h6⟩
    · have := ih _ h7 hb
      refine ⟨by omega, by omega, by omega, this.2.2.2.1, this.2.2.2.2.1, this.2.2.2.2.2.1,
        this.2.2.2.2.2.2.1, this.2.2.2.2.2.2.2⟩

/-- Two blocks of a chain are the same block or do not overlap. -/
theorem Chain_sep (m : Mem) (bl : List Block) (s e : Nat) (h : Chain m bl s e)
    (b c : Block) (hb : b ∈ bl) (hc : c ∈ bl) :
    b = c ∨ b.addr + b.size ≤ c.addr ∨ c.addr + c.size ≤ b.addr := by
  induction bl generalizing s with
  | nil => simp at hb
  | cons d ds ih =>
    obtain ⟨h1, h2, h3, h4, h5, h6, h7⟩ := h
    rcases List.mem_cons.1 hb with hb1 | hb1 <;> rcases List.mem_cons.1 hc with hc1 | hc1
    · exact Or.inl (hb1.trans hc1.symm)
    · have := Chain_mem _ _ _ _ h7 c hc1
      subst hb1
      right; left; omega
    · have := Chain_mem _ _ _ _ h7 b hb1
      subst hc1
      right; right; omega
    · exact ih _ h7 hb1 hc1

/-- A chain only depends on the tag words of its blocks. -/
theorem Chain_frame (m m1 : Mem) (bl : List Block) (s e : Nat) (h : Chain m bl s e)
    (hf : ∀ b ∈ bl, GET m1 (b.addr - 4) = GET m (b.addr - 4) ∧
      GET m1 (b.addr + b.size - 8) = GET m (b.addr + b.size - 8)) :
    Chain m1 bl s e := by
  induction bl generalizing s with
  | nil => exact h
  | cons d ds ih =>
    obtain ⟨h1, h2, h3, h4, h5, h6, h7⟩ := h
    have hd := hf d (List.mem_cons_self _ _)
    refine ⟨h1, h2, h3, h4, by rw [hd.1]; exact h5, by rw [hd.2]; exact h6, ?_⟩
    exact ih _ h7 (fun b hb => hf b (List.mem_cons_of_mem _ hb))

/-- A free list only depends on the link words of its nodes. -/
theorem FreeList_frame (m m1 : Mem) (fl : List Nat) (prev cur : Nat)
    (h : FreeList m fl prev cur)
    (hf : ∀ p ∈ fl, GET m1 p = GET m p ∧ GET m1 (p + 4) = GET m (p + 4)) :
    FreeList m1 fl prev cur := by
  induction fl generalizing prev cur with
  | nil => exact h
  | cons p ps ih =>
    obtain ⟨h1, h2, h3, h4⟩ := h
    have hp := hf p (List.mem_cons_self _ _)
    refine ⟨h1, h2, by rw [hp.2]; exact h3, ?_⟩
    rw [hp.1]
    exact ih _ _ h4 (fun q hq => hf q (List.mem_cons_of_mem _ hq))

theorem unlink_byte (m : Mem) (x a : Nat)
    (h1 : GET m x = 0 ∨ a < GET m x + 4 ∨ GET m x + 8 ≤ a)
    (h2 : GET m (x + 4) = 0 ∨ a < GET m (x + 4) ∨ GET m (x + 4) + 4 ≤ a) :
    unlink m x a = m a := by
  unfold unlink
  by_cases hp : GET m (x + 4) = 0 <;> by_cases hn : GET m x = 0
  · simp [hp, hn]
  · simp only [hp, hn, ne_eq, not_true_eq_false, if_false, not_false_eq_true, if_true]
    exact PUT_byte_ne _ _ _ _ (by omega)
  · simp only [hp, hn, ne_eq, not_true_eq_false, if_false, not_false_eq_true, if_true]
    exact PUT_byte_ne _ _ _ _ (by omega)
  · simp only [hp, hn, ne_eq, not_true_eq_false, if_false, not_false_eq_true, if_true]
    rw [PUT_byte_ne _ _ _ _ (by omega), PUT_byte_ne _ _ _ _ (by omega)]

theorem unlink_get (m : Mem) (x q : Nat)
    (h1 : GET m x = 0 ∨ q + 4 ≤ GET m x + 4 ∨ GET m x + 8 ≤ q)
    (h2 : GET m (x + 4) = 0 ∨ q + 4 ≤ GET m (x + 4) ∨ GET m (x + 4) + 4 ≤ q) :
    GET (unlink m x) q = GET m q := by
  apply GET_congr
  intro a ha1 ha2
  exact unlink_byte m x a (by omega) (by omega)

/-- The word at the predecessor's forward link after `unlink`. -/
theorem unlink_get_prev (m : Mem) (x : Nat) (hp : GET m (x + 4) ≠ 0) :
    GET (unlink m x) (GET m (x + 4)) = GET m x := by
  unfold unlink
  rw [if_pos hp, GET_PUT_same, Nat.mod_eq_of_lt (GET_lt m x)]

/-- The word at the successor's back link after `unlink`. -/
theorem unlink_get_next (m : Mem) (x : Nat) (hn : GET m x ≠ 0)
    (hd : GET m (x + 4) = 0 ∨ GET m x + 8 ≤ GET m (x + 4) ∨ GET m (x + 4) + 4 ≤ GET m x + 4) :
    GET (unlink m x) (GET m x + 4) = GET m (x + 4) := by
  unfold unlink
  by_cases hp : GET m (x + 4) = 0
  · simp only [hp, hn, ne_eq, not_true_eq_false, if_false, not_false_eq_true, if_true]
    rw [GET_PUT_same]; rfl
  · simp only [hp, hn, ne_eq, not_true_eq_false, if_false, not_false_eq_true, if_true]
    rw [GET_PUT_ne _ _ _ _ (by omega), GET_PUT_same, Nat.mod_eq_of_lt (GET_lt m _)]

theorem FreeList_unlink (m : Mem) (fl : List Nat) (x : Nat) :
    ∀ (prev cur : Nat), FreeList m fl prev cur → x ∈ fl → fl.Nodup →
    (∀ p ∈ fl, p % 8 = 0 ∧ 8 ≤ p) → prev % 8 = 0 → prev ∉ fl →
    FreeList (unlink m x) (fl.erase x) prev (if x = cur then GET m x else cur) ∧
    (GET m x = 0 ∨ GET m x ∈ fl) ∧
    ((x = cur ∧ GET m (x + 4) = prev) ∨ (x ≠ cur ∧ GET m (x + 4) ∈ fl)) := by
  induction fl with
  | nil => intro prev cur _ hx; simp at hx
  | cons p ps ih =>
    intro prev cur hfl hx hnd hok hprev hprevn
    obtain ⟨hcur, hp0, hpp, hrest⟩ := hfl
    have hpok := hok p (List.mem_cons_self _ _)
    have hpn : p ∉ ps := (List.nodup_cons.1 hnd).1
    have hnd' : ps.Nodup := (List.nodup_cons.1 hnd).2
    have hprevp : prev ≠ p := fun e => hprevn (e ▸ List.mem_cons_self _ _)
    by_cases hxp : x = p
    · subst hxp
      rw [List.erase_cons_head, if_pos hcur.symm]
      cases ps with
      | nil =>
        have h0 : GET m x = 0 := hrest
        exact ⟨h0, Or.inl h0, Or.inl ⟨hcur.symm, hpp⟩⟩
      | cons n ps' =>
        obtain ⟨hn1, hn0, hnp, hrest'⟩ := hrest
        have hnok := hok n (List.mem_cons_of_mem _ (List.mem_cons_self _ _))
        have hnx : n ≠ x := fun e => hpn (e ▸ List.mem_cons_self _ _)
        have hprevn' : prev ≠ n := fun e => hprevn (e ▸ List.mem_cons_of_mem _ (List.mem_cons_self _ _))
        refine ⟨⟨hn1, hn0, ?_, ?_⟩, Or.inr (by rw [hn1]; exact List.mem_cons_of_mem _ (List.mem_cons_self _ _)),
          Or.inl ⟨hcur.symm, hpp⟩⟩
        · have := unlink_get_next m x (by rw [hn1]; exact hn0) (by rw [hn1, hpp]; omega)
          rw [hn1, hpp] at this
          exact this
        · have hg : GET (unlink m x) n = GET m n :=
            unlink_get m x n (by rw [hn1]; omega) (by rw [hpp]; omega)
          rw [hg]
          apply FreeList_frame m _ _ _ _ hrest'
          intro q hq
          have hqok := hok q (List.mem_cons_of_mem _ (List.mem_cons_of_mem _ hq))
          have hqn : q ≠ n := fun e => (List.nodup_cons.1 hnd').1 (e ▸ hq)
          have hqprev : prev ≠ q := fun e => hprevn (e ▸ List.mem_cons_of_mem _ (List.mem_cons_of_mem _ hq))
          exact ⟨unlink_get m x q (by rw [hn1]; omega) (by rw [hpp]; omega),
            unlink_get m x (q + 4) (by rw [hn1]; omega) (by rw [hpp]; omega)⟩
    · have hxps : x ∈ ps := by
        rcases List.mem_cons.1 hx with h | h
        · exact absurd h hxp
        · exact h
      have hxc : x ≠ cur := by rw [hcur]; exact hxp
      rw [List.erase_cons_tail (by simpa using fun e => hxp e.symm), if_neg hxc]
      obtain ⟨ih1, ih2, ih3⟩ := ih p (GET m p) hrest hxps hnd'
        (fun q hq => hok q (List.mem_cons_of_mem _ hq)) hpok.1 hpn
      have hnext : GET m x = 0 ∨ (GET m x ∈ ps) := ih2
      have hnextok : GET m x = 0 ∨ (GET m x % 8 = 0 ∧ GET m x ≠ p) := by
        rcases hnext with h | h
        · exact Or.inl h
        · exact Or.inr ⟨(hok _ (List.mem_cons_of_mem _ h)).1, fun e => hpn (e ▸ h)⟩
      refine ⟨⟨hcur, hp0, ?_, ?_⟩, ?_, Or.inr ⟨hxc, ?_⟩⟩
      · rw [← hpp]
        apply unlink_get
        · rcases hnextok with h | h
          · exact Or.inl h
          · right; omega
        · rcases ih3 with ⟨_, h⟩ | ⟨_, h⟩
          · right; rw [h]; omega
          · have := (hok _ (List.mem_cons_of_mem _ h)).1
            have hne : GET m (x + 4) ≠ p := fun e => hpn (e ▸ h)
            right; omega
      · rcases ih3 with ⟨h1, h2⟩ | ⟨h1, h2⟩
        · rw [if_pos h1] at ih1
          have : GET (unlink m x) p = GET m x := by
            have := unlink_get_prev m x (by rw [h2]; omega)
            rw [h2] at this
            exact this
          rw [this]; exact ih1
        · rw [if_neg h1] at ih1
          have hne : GET m (x + 4) ≠ p := fun e => hpn (e ▸ h2)
          have hal := (hok _ (List.mem_cons_of_mem _ h2)).1
          have : GET (unlink m x) p = GET m p := by
            apply unlink_get
            · rcases hnextok with h | h
              · exact Or.inl h
              · right; omega
            · right; omega
          rw [this]; exact ih1
      · rcases hnext with h | h
        · exact Or.inl h
        · exact Or.inr (List.mem_cons_of_mem _ h)
      · rcases ih3 with ⟨_, h⟩ | ⟨_, h⟩
        · rw [h]; exact List.mem_cons_self _ _
        · exact List.mem_cons_of_mem _ h

theorem linkHead_byte (m : Mem) (root bp a : Nat) (h1 : a < bp ∨ bp + 8 ≤ a)
    (h2 : root = 0 ∨ a < root + 4 ∨ root + 8 ≤ a) : linkHead m root bp a = m a := by
  unfold linkHead
  by_cases hr : root = 0
  · rw [if_pos hr, PUT_byte_ne _ _ _ _ (by omega), PUT_byte_ne _ _ _ _ (by omega)]
  · rw [if_neg hr, PUT_byte_ne _ _ _ _ (by omega), PUT_byte_ne _ _ _ _ (by omega),
      PUT_byte_ne _ _ _ _ (by omega)]

theorem linkHead_get (m : Mem) (root bp q : Nat) (h1 : q + 4 ≤ bp ∨ bp + 8 ≤ q)
    (h2 : root = 0 ∨ q + 4 ≤ root + 4 ∨ root + 8 ≤ q) : GET (linkHead m root bp) q = GET m q := by
  apply GET_congr
  intro a ha1 ha2
  exact linkHead_byte m root bp a (by omega) (by omega)

theorem FreeList_nil_iff (m : Mem) (fl : List Nat) (prev : Nat) (h : FreeList m fl prev 0) :
    fl = [] := by
  cases fl with
  | nil => rfl
  | cons p ps => exact absurd h.1.symm h.2.1

theorem FreeList_linkHead (m : Mem) (fl : List Nat) (root bp : Nat)
    (hfl : FreeList m fl 0 root) (hbp : bp ∉ fl) (hal : bp % 8 = 0) (h8 : 8 ≤ bp)
    (hlt : bp < WORD) (hok : ∀ p ∈ fl, p % 8 = 0 ∧ 8 ≤ p ∧ p < WORD) (hnd : fl.Nodup) :
    FreeList (linkHead m root bp) (bp :: fl) 0 bp ∧ GET (linkHead m root bp) (bp + 4) = 0 := by
  have hprev : GET (linkHead m root bp) (bp + 4) = 0 := by
    unfold linkHead
    by_cases hr : root = 0
    · rw [if_pos hr, GET_PUT_same]; rfl
    · rw [if_neg hr, GET_PUT_same]; rfl
  refine ⟨⟨rfl, by omega, hprev, ?_⟩, hprev⟩
  cases fl with
  | nil =>
    have hr : root = 0 := hfl
    unfold linkHead
    rw [if_pos hr, GET_PUT_ne _ _ _ _ (by omega), GET_PUT_same]
    rfl
  | cons r rs =>
    obtain ⟨h1, h2, h3, h4⟩ := hfl
    subst h1
    have hrok := hok root (List.mem_cons_self _ _)
    have hne : bp ≠ root := fun e => hbp (e ▸ List.mem_cons_self _ _)
    have hg : GET (linkHead m root bp) bp = root := by
      unfold linkHead
      rw [if_neg h2, GET_PUT_ne _ _ _ _ (by omega), GET_PUT_same]
      exact Nat.mod_eq_of_lt hrok.2.2
    rw [hg]
    refine ⟨rfl, h2, ?_, ?_⟩
    · unfold linkHead
      rw [if_neg h2, GET_PUT_ne _ _ _ _ (by omega), GET_PUT_ne _ _ _ _ (by omega), GET_PUT_same]
      exact Nat.mod_eq_of_lt hlt
    · have : GET (linkHead m root bp) root = GET m root :=
        linkHead_get m root bp root (by omega) (by omega)
      rw [this]
      apply FreeList_frame m _ _ _ _ h4
      intro q hq
      have hqok := hok q (List.mem_cons_of_mem _ hq)
      have hqb : bp ≠ q := fun e => hbp (e ▸ List.mem_cons_of_mem _ hq)
      have hqr : q ≠ root := fun e => (List.nodup_cons.1 hnd).1 (e ▸ hq)
      exact ⟨linkHead_get m root bp q (by omega) (by omega),
        linkHead_get m root bp (q + 4) (by omega) (by omega)⟩

theorem removeBlock_eq (h : Heap) (x : Nat) (hx : x + 4 < WORD) (hn : GET h.mem x + 4 < WORD) :
    removeBlock h x = { h with mem := unlink h.mem x,
                               root := if GET h.mem (x + 4) ≠ 0 then h.root else GET h.mem x } := by
  simp only [removeBlock, unlink, GET_ADDR, PUT_ADDR, NEXTP, PREVP, NULL, WSIZE,
    uadd_eq _ _ hx, uadd_eq _ _ hn]
  by_cases hp : GET h.mem (x + 4) = 0 <;> by_cases hnx : GET h.mem x = 0 <;> simp [hp, hnx]

theorem insertNewBlock_eq (h : Heap) (bp : Nat) (hbp : bp + 4 < WORD) (hr : h.root + 4 < WORD) :
    insertNewBlock h bp = { h with mem := linkHead h.mem h.root bp, root := bp } := by
  simp only [insertNewBlock, linkHead, GET_ADDR, PUT_ADDR, NEXTP, PREVP, NULL, WSIZE,
    uadd_eq _ _ hbp, uadd_eq _ _ hr]
  by_cases h0 : h.root = 0 <;> simp [h0]

theorem updateBlockTags_eq (h : Heap) (bp size alloc : Nat) (hbp : 4 ≤ bp) (hs : size % 8 = 0)
    (h8 : 8 ≤ size) (ha : alloc ≤ 1) (hlt : bp + size < WORD) :
    updateBlockTags h bp (size + alloc)
      = { h with mem := PUT (PUT h.mem (bp - 4) (size + alloc)) (bp + size - 8) (size + alloc) } := by
  have hb : bp < WORD := by omega
  have hw : (size + alloc) % WORD = size + alloc := Nat.mod_eq_of_lt (by unfold WORD at *; omega)
  have hsz : (size + alloc) / 8 * 8 = size := by omega
  simp only [updateBlockTags, FTRP, HDRP, WSIZE, DSIZE, usub_eq _ _ hbp hb, GET_SIZE_eq,
    GET_PUT_same, hw, hsz, uadd_eq _ _ hlt]
  rw [usub_eq _ _ (by omega) hlt]

theorem Chain_mod (m : Mem) (bl : List Block) (s e : Nat) (h : Chain m bl s e) :
    e % 8 = s % 8 := by
  induction bl generalizing s with
  | nil => simp [Chain] at h; omega
  | cons b bs ih =>
    obtain ⟨_, h2, _, _, _, _, h7⟩ := h
    have := ih _ h7
    omega

theorem Chain_frame_bytes (m m1 : Mem) (bl : List Block) (s e : Nat) (h : Chain m bl s e)
    (hs : 4 ≤ s) (hf : ∀ b ∈ bl, ∀ a, b.tagByte a → m1 a = m a) : Chain m1 bl s e := by
  apply Chain_frame m m1 bl s e h
  intro b hb
  have hb' := Chain_mem m bl s e h b hb
  constructor
  · apply GET_congr
    intro a h1 h2
    exact hf b hb a (Or.inl (by omega))
  · apply GET_congr
    intro a h1 h2
    exact hf b hb a (Or.inr (by omega))

theorem Pre.block_ok {h : Heap} {bl : List Block} {fl : List Nat} (hp : Pre h bl fl)
    (b : Block) (hb : b ∈ bl) :
    b.addr % 8 = 0 ∧ h.mem_start_brk + 8 ≤ b.addr ∧ b.addr + b.size ≤ h.mem_brk + 8 ∧
    b.size % 8 = 0 ∧ 16 ≤ b.size ∧ b.alloc ≤ 1 ∧ GET h.mem (b.addr - 4) = b.tag ∧
    GET h.mem (b.addr + b.size - 8) = b.tag := by
  have hc := Chain_mem _ _ _ _ hp.chain b hb
  have := hp.lo_al
  refine ⟨by omega, hc.1, hc.2.1, hc.2.2.2.1, hc.2.2.2.2.1, hc.2.2.2.2.2.1,
    hc.2.2.2.2.2.2.1, hc.2.2.2.2.2.2.2⟩

theorem Pre.node_ok {h : Heap} {bl : List Block} {fl : List Nat} (hp : Pre h bl fl)
    (p : Nat) (hpf : p ∈ fl) :
    p % 8 = 0 ∧ 16 ≤ p ∧ p + 16 ≤ h.mem_brk + 8 ∧ p + 24 ≤ WORD := by
  obtain ⟨b, hb, rfl, _⟩ := hp.nodes p hpf
  have := hp.block_ok b hb
  have := hp.brk_le
  have := hp.lo_pos
  omega

/-- No byte of a tag is a byte of a link word of a node. -/
theorem Pre.tag_link {h : Heap} {bl : List Block} {fl : List Nat} (hp : Pre h bl fl)
    (b : Block) (hb : b ∈ bl) (p : Nat) (hpf : p ∈ fl) (a : Nat) (ha : b.tagByte a) :
    a < p ∨ p + 8 ≤ a := by
  obtain ⟨c, hc, rfl, _⟩ := hp.nodes p hpf
  have hbo := hp.block_ok b hb
  have hco := hp.block_ok c hc
  unfold Block.tagByte at ha
  rcases Chain_sep _ _ _ _ hp.chain b c hb hc with rfl | h1 | h1 <;> omega

/-- The root of a free list is null or its first node. -/
theorem FreeList_root (m : Mem) (fl : List Nat) (prev cur : Nat) (h : FreeList m fl prev cur) :
    cur = 0 ∨ cur ∈ fl := by
  cases fl with
  | nil => exact Or.inl h
  | cons p ps => exact Or.inr (h.1 ▸ List.mem_cons_self _ _)

theorem removeBlock_Pre (h : Heap) (bl : List Block) (fl : List Nat) (x : Nat)
    (hp : Pre h bl fl) (hx : x ∈ fl) :
    Pre (removeBlock h x) bl (fl.erase x) ∧
    (removeBlock h x).mem_start_brk = h.mem_start_brk ∧
    (removeBlock h x).mem_brk = h.mem_brk ∧
    (∀ a, (∀ p ∈ fl, a < p ∨ p + 8 ≤ a) → (removeBlock h x).mem a = h.mem a) := by
  have hok : ∀ p ∈ fl, p % 8 = 0 ∧ 8 ≤ p := fun p hpf => by
    have := hp.node_ok p hpf; omega
  obtain ⟨hl1, hl2, hl3⟩ := FreeList_unlink h.mem fl x 0 h.root hp.flist hx hp.nodup hok
    (by omega) (fun h0 => by have := hok 0 h0; omega)
  have hxo := hp.node_ok x hx
  have hnext : GET h.mem x + 4 < WORD := by
    rcases hl2 with h0 | h0
    · rw [h0]; unfold WORD; omega
    · have := hp.node_ok _ h0; omega
  have hbyte : ∀ a, (∀ p ∈ fl, a < p ∨ p + 8 ≤ a) → unlink h.mem x a = h.mem a := by
    intro a ha
    apply unlink_byte
    · rcases hl2 with h0 | h0
      · exact Or.inl h0
      · have := ha _ h0; right; omega
    · rcases hl3 with ⟨_, h0⟩ | ⟨_, h0⟩
      · exact Or.inl h0
      · have := ha _ h0; right; omega
  rw [removeBlock_eq h x (by omega) hnext]
  refine ⟨⟨hp.lo_pos, hp.lo_al, hp.brk_le, ?_, ?_, hp.nodup.erase x, ?_⟩, rfl, rfl, hbyte⟩
  · apply Chain_frame_bytes _ _ _ _ _ hp.chain (by omega)
    intro b hb a ha
    exact hbyte a (fun p hpf => hp.tag_link b hb p hpf a ha)
  · show FreeList (unlink h.mem x) (fl.erase x) 0
      (if GET h.mem (x + 4) ≠ 0 then h.root else GET h.mem x)
    rcases hl3 with ⟨h1, h2⟩ | ⟨h1, h2⟩
    · rw [if_pos h1] at hl1
      rw [if_neg (by simp [h2])]
      exact hl1
    · rw [if_neg h1] at hl1
      have := hok _ h2
      rw [if_pos (by omega)]
      exact hl1
  · intro p hpe
    exact hp.nodes p (List.mem_of_mem_erase hpe)

theorem insertNewBlock_Pre (h : Heap) (bl : List Block) (fl : List Nat) (bp : Nat)
    (hp : Pre h bl fl) (hbp : bp ∉ fl) (hb : ∃ b ∈ bl, b.addr = bp ∧ b.alloc = 0) :
    Pre (insertNewBlock h bp) bl (bp :: fl) ∧
    (insertNewBlock h bp).root = bp ∧
    GET (insertNewBlock h bp).mem (bp + 4) = 0 ∧
    (insertNewBlock h bp).mem_start_brk = h.mem_start_brk ∧
    (insertNewBlock h bp).mem_brk = h.mem_brk ∧
    (∀ a, (∀ p ∈ bp :: fl, a < p ∨ p + 8 ≤ a) → (insertNewBlock h bp).mem a = h.mem a) := by
  obtain ⟨b, hbm, rfl, hb0⟩ := hb
  have hbo := hp.block_ok b hbm
  have hbrk := hp.brk_le
  have hlo := hp.lo_pos
  have hok : ∀ p ∈ fl, p % 8 = 0 ∧ 8 ≤ p ∧ p < WORD := fun p hpf => by
    have := hp.node_ok p hpf; omega
  have hroot : h.root + 4 < WORD := by
    rcases FreeList_root _ _ _ _ hp.flist with h0 | h0
    · rw [h0]; unfold WORD; omega
    · have := hp.node_ok _ h0; omega
  obtain ⟨hl1, hl2⟩ := FreeList_linkHead h.mem fl h.root b.addr hp.flist hbp hbo.1 (by omega)
    (by omega) hok hp.nodup
  have hbyte : ∀ a, (∀ p ∈ b.addr :: fl, a < p ∨ p + 8 ≤ a) →
      linkHead h.mem h.root b.addr a = h.mem a := by
    intro a ha
    apply linkHead_byte
    · exact ha _ (List.mem_cons_self _ _)
    · rcases FreeList_root _ _ _ _ hp.flist with h0 | h0
      · exact Or.inl h0
      · have := ha _ (List.mem_cons_of_mem _ h0); right; omega
  rw [insertNewBlock_eq h b.addr (by omega) hroot]
  refine ⟨⟨hp.lo_pos, hp.lo_al, hp.brk_le, ?_, hl1, List.nodup_cons.2 ⟨hbp, hp.nodup⟩, ?_⟩,
    rfl, hl2, rfl, rfl, hbyte⟩
  · apply Chain_frame_bytes _ _ _ _ _ hp.chain (by omega)
    intro c hc a ha
    apply hbyte a
    intro p hpf
    rcases List.mem_cons.1 hpf with rfl | hpf
    · have hco := hp.block_ok c hc
      unfold Block.tagByte at ha
      rcases Chain_sep _ _ _ _ hp.chain c b hc hbm with rfl | h1 | h1 <;> omega
    · exact hp.tag_link c hc p hpf a ha
  · intro p hpf
    rcases List.mem_cons.1 hpf with rfl | hpf
    · exact ⟨b, hbm, rfl, hb0⟩
    · exact hp.nodes p hpf

/-- Retagging a run `mid` of blocks, none of them in the free list, as one block
with alloc bit `alloc`. -/
theorem retag_Pre (h : Heap) (pre mid post : List Block) (fl : List Nat) (s1 e1 alloc : Nat)
    (hp : Pre h (pre ++ mid ++ post) fl)
    (hc1 : Chain h.mem pre (h.mem_start_brk + 8) s1) (hc2 : Chain h.mem mid s1 e1)
    (hc3 : Chain h.mem post e1 (h.mem_brk + 8))
    (hmid : mid ≠ []) (hnot : ∀ b ∈ mid, b.addr ∉ fl) (ha : alloc ≤ 1) :
    Pre (updateBlockTags h s1 ((e1 - s1) + alloc)) (pre ++ ⟨s1, e1 - s1, alloc⟩ :: post) fl ∧
    (updateBlockTags h s1 ((e1 - s1) + alloc)).root = h.root ∧
    (updateBlockTags h s1 ((e1 - s1) + alloc)).mem_start_brk = h.mem_start_brk ∧
    (updateBlockTags h s1 ((e1 - s1) + alloc)).mem_brk = h.mem_brk ∧
    (∀ a, (a < s1 - 4 ∨ s1 ≤ a) → (a < e1 - 8 ∨ e1 - 4 ≤ a) →
      (updateBlockTags h s1 ((e1 - s1) + alloc)).mem a = h.mem a) := by
  have hle1 := Chain_le _ _ _ _ hc1
  have hle3 := Chain_le _ _ _ _ hc3
  have hmod1 := Chain_mod _ _ _ _ hc1
  have hmod2 := Chain_mod _ _ _ _ hc2
  have hlo := hp.lo_pos
  have hal := hp.lo_al
  have hbrk := hp.brk_le
  have h16 : s1 + 16 ≤ e1 := by
    cases mid with
    | nil => exact absurd rfl hmid
    | cons b bs =>
      obtain ⟨h1, _, h3, _, _, _, h7⟩ := hc2
      have := Chain_le _ _ _ _ h7
      omega
  have hbyte : ∀ a, (a < s1 - 4 ∨ s1 ≤ a) → (a < e1 - 8 ∨ e1 - 4 ≤ a) →
      PUT (PUT h.mem (s1 - 4) ((e1 - s1) + alloc)) (e1 - 8) ((e1 - s1) + alloc) a
        = h.mem a := by
    intro a ha1 ha2
    rw [PUT_byte_ne _ _ _ _ (by omega), PUT_byte_ne _ _ _ _ (by omega)]
  have htag : (e1 - s1 + alloc) % WORD = e1 - s1 + alloc :=
    Nat.mod_eq_of_lt (by unfold WORD at *; omega)
  have hE : s1 + (e1 - s1) = e1 := by omega
  rw [updateBlockTags_eq h s1 (e1 - s1) alloc (by omega) (by omega) (by omega) ha
    (by unfold WORD at *; omega), hE]
  refine ⟨⟨hp.lo_pos, hp.lo_al, hp.brk_le, ?_, ?_, hp.nodup, ?_⟩, rfl, rfl, rfl, hbyte⟩
  · show Chain _ (pre ++ ⟨s1, e1 - s1, alloc⟩ :: post) (h.mem_start_brk + 8) (h.mem_brk + 8)
    rw [Chain_append]
    refine ⟨s1, ?_, rfl, by show (e1 - s1) % 8 = 0; omega, by show 16 ≤ e1 - s1; omega, ha, ?_, ?_, ?_⟩
    · apply Chain_frame_bytes _ _ _ _ _ hc1 (by omega)
      intro b hb a hta
      have := Chain_mem _ _ _ _ hc1 b hb
      unfold Block.tagByte at hta
      exact hbyte a (by omega) (by omega)
    · show GET _ (s1 - 4) = (e1 - s1) + alloc
      rw [GET_PUT_ne _ _ _ _ (by omega), GET_PUT_same, htag]
    · show GET _ (s1 + (e1 - s1) - 8) = (e1 - s1) + alloc
      rw [hE, GET_PUT_same, htag]
    · show Chain _ post (s1 + (e1 - s1)) (h.mem_brk + 8)
      rw [hE]
      apply Chain_frame_bytes _ _ _ _ _ hc3 (by omega)
      intro b hb a hta
      have := Chain_mem _ _ _ _ hc3 b hb
      unfold Block.tagByte at hta
      exact hbyte a (by omega) (by omega)
  · apply FreeList_frame _ _ _ _ _ hp.flist
    intro p hpf
    obtain ⟨c, hc, rfl, _⟩ := hp.nodes p hpf
    have hcases : c ∈ pre ∨ c ∈ post := by
      rcases List.mem_append.1 hc with h1 | h1
      · rcases List.mem_append.1 h1 with h2 | h2
        · exact Or.inl h2
        · exact absurd hpf (hnot c h2)
      · exact Or.inr h1
    have hbytes : ∀ a, c.addr ≤ a → a < c.addr + 8 →
        PUT (PUT h.mem (s1 - 4) ((e1 - s1) + alloc)) (e1 - 8) ((e1 - s1) + alloc) a
          = h.mem a := by
      intro a h1 h2
      rcases hcases with hc' | hc'
      · have := Chain_mem _ _ _ _ hc1 c hc'
        exact hbyte a (by omega) (by omega)
      · have := Chain_mem _ _ _ _ hc3 c hc'
        exact hbyte a (by omega) (by omega)
    exact ⟨GET_congr _ _ _ (fun a h1 h2 => hbytes a (by omega) (by omega)),
      GET_congr _ _ _ (fun a h1 h2 => hbytes a (by omega) (by omega))⟩
  · intro p hpf
    obtain ⟨c, hc, rfl, hc0⟩ := hp.nodes p hpf
    refine ⟨c, ?_, rfl, hc0⟩
    rcases List.mem_append.1 hc with h1 | h1
    · rcases List.mem_append.1 h1 with h2 | h2
      · exact List.mem_append_left _ h2
      · exact absurd hpf (hnot c h2)
    · exact List.mem_append_right _ (List.mem_cons_of_mem _ h1)

theorem HDRP_eq (bp : Nat) (h4 : 4 ≤ bp) (hlt : bp < WORD) : HDRP bp = bp - 4 := by
  unfold HDRP WSIZE; exact usub_eq _ _ h4 hlt

/-- What the macros read at a block of a well formed heap. -/
theorem Pre.read {h : Heap} {bl : List Block} {fl : List Nat} (hp : Pre h bl fl)
    (b : Block) (hb : b ∈ bl) :
    HDRP b.addr = b.addr - 4 ∧ GET_SIZE h.mem (HDRP b.addr) = b.size ∧
    GET_ALLOC h.mem (HDRP b.addr) = b.alloc ∧ IS_IN_RANGE h b.addr = true ∧
    NEXT_BLKP h.mem b.addr = b.addr + b.size ∧
    GET_SIZE h.mem (b.addr + b.size - 8) = b.size := by
  have hbo := hp.block_ok b hb
  have hbrk := hp.brk_le
  have hlo := hp.lo_pos
  have hh : HDRP b.addr = b.addr - 4 := HDRP_eq _ (by omega) (by omega)
  have hs : GET_SIZE h.mem (HDRP b.addr) = b.size := by
    rw [hh, GET_SIZE_eq, hbo.2.2.2.2.2.2.1]; unfold Block.tag; omega
  refine ⟨hh, hs, ?_, ?_, ?_, ?_⟩
  · rw [hh, GET_ALLOC_eq, hbo.2.2.2.2.2.2.1]; unfold Block.tag; omega
  · unfold IS_IN_RANGE mem_heap_lo mem_heap_hi
    simp only [Bool.and_eq_true, decide_eq_true_eq]
    omega
  · unfold NEXT_BLKP
    rw [hs, uadd_eq _ _ (by omega)]
  · rw [GET_SIZE_eq, hbo.2.2.2.2.2.2.2]; unfold Block.tag; omega

/-- The pieces of a chain around three consecutive blocks. -/
theorem Chain_three (m : Mem) (pre post : List Block) (P B N : Block) (s e : Nat)
    (h : Chain m (pre ++ P :: B :: N :: post) s e) :
    Chain m pre s P.addr ∧ B.addr = P.addr + P.size ∧ N.addr = B.addr + B.size ∧
    Chain m post (N.addr + N.size) e ∧ Chain m [P] P.addr B.addr ∧ Chain m [B] B.addr N.addr ∧
    Chain m [N] N.addr (N.addr + N.size) := by
  obtain ⟨mid, h1, h2⟩ := (Chain_append _ _ _ _ _).1 h
  obtain ⟨p1, p2, p3, p4, p5, p6, p7⟩ := h2
  obtain ⟨b1, b2, b3, b4, b5, b6, b7⟩ := p7
  obtain ⟨n1, n2, n3, n4, n5, n6, n7⟩ := b7
  subst p1
  have hB : B.addr = P.addr + P.size := b1
  have hN : N.addr = B.addr + B.size := by rw [n1, hB]
  refine ⟨h1, hB, hN, ?_, ⟨rfl, p2, p3, p4, p5, p6, hB.symm⟩, ⟨rfl, b2, b3, b4, b5, b6, hN.symm⟩,
    ⟨rfl, n2, n3, n4, n5, n6, rfl⟩⟩
  rw [hN, hB]; exact n7

theorem Chain_two (m : Mem) (l1 l2 : List Block) (s mid e : Nat)
    (h1 : Chain m l1 s mid) (h2 : Chain m l2 mid e) : Chain m (l1 ++ l2) s e :=
  (Chain_append _ _ _ _ _).2 ⟨mid, h1, h2⟩

/-- The common end of the four cases of `mm_free`: the run `mid` of blocks, none of
them in the free list, becomes one free block at the head of the list. -/
theorem free_core (h : Heap) (pre mid post : List Block) (fl : List Nat) (s1 e1 : Nat)
    (hp : Pre h (pre ++ mid ++ post) fl)
    (hc1 : Chain h.mem pre (h.mem_start_brk + 8) s1) (hc2 : Chain h.mem mid s1 e1)
    (hc3 : Chain h.mem post e1 (h.mem_brk + 8))
    (hmid : mid ≠ []) (hnot : ∀ b ∈ mid, b.addr ∉ fl) :
    Pre (insertNewBlock (updateBlockTags h s1 (e1 - s1)) s1)
      (pre ++ ⟨s1, e1 - s1, 0⟩ :: post) (s1 :: fl) ∧
    (insertNewBlock (updateBlockTags h s1 (e1 - s1)) s1).root = s1 ∧
    GET (insertNewBlock (updateBlockTags h s1 (e1 - s1)) s1).mem (s1 + 4) = 0 := by
  obtain ⟨r1, r2, r3, r4, r5⟩ := retag_Pre h pre mid post fl s1 e1 0 hp hc1 hc2 hc3 hmid hnot
    (by omega)
  rw [Nat.add_zero] at r1
  have hs1 : s1 ∉ fl := by
    cases mid with
    | nil => exact absurd rfl hmid
    | cons b bs =>
      have := hnot b (List.mem_cons_self _ _)
      rw [hc2.1] at this
      exact this
  obtain ⟨i1, i2, i3, _, _, _⟩ := insertNewBlock_Pre _ _ fl s1 r1 hs1
    ⟨⟨s1, e1 - s1, 0⟩, List.mem_append_right _ (List.mem_cons_self _ _), rfl, rfl⟩
  exact ⟨i1, i2, i3⟩

/-- An allocated block of a well formed heap is not a node of the free list. -/
theorem Pre.not_node {h : Heap} {bl : List Block} {fl : List Nat} (hp : Pre h bl fl)
    (b : Block) (hb : b ∈ bl) (ha : b.alloc ≠ 0) : b.addr ∉ fl := by
  intro hmem
  obtain ⟨c, hc, hca, hc0⟩ := hp.nodes _ hmem
  have hbo := hp.block_ok b hb
  have hco := hp.block_ok c hc
  rcases Chain_sep _ _ _ _ hp.chain b c hb hc with rfl | h1 | h1
  · exact ha hc0
  · omega
  · omega

theorem mem_erase_erase (fl : List Nat) (a x y : Nat) (h : a ∈ fl) (hx : a ≠ x) (hy : a ≠ y) :
    a ∈ (fl.erase x).erase y :=
  (List.mem_erase_of_ne hy).2 ((List.mem_erase_of_ne hx).2 h)

theorem not_mem_erase_self (fl : List Nat) (x : Nat) (h : fl.Nodup) : x ∉ fl.erase x :=
  fun hx => (List.Nodup.mem_erase_iff h).1 hx |>.1 rfl

/-- The reads with which `mm_free` classifies the neighbours of an interior block. -/
theorem mm_free_reads (h : Heap) (pre post : List Block) (P B N : Block) (fl : List Nat)
    (hp : Pre h (pre ++ P :: B :: N :: post) fl) :
    NEXT_BLKP h.mem B.addr = N.addr ∧ PREV_BLKP h.mem B.addr = P.addr ∧
    GET_ALLOC h.mem (HDRP N.addr) = N.alloc ∧ GET_ALLOC h.mem (HDRP P.addr) = P.alloc ∧
    IS_IN_RANGE h N.addr = true ∧ IS_IN_RANGE h P.addr = true := by
  have hP : P ∈ pre ++ P :: B :: N :: post := by simp
  have hB : B ∈ pre ++ P :: B :: N :: post := by simp
  have hN : N ∈ pre ++ P :: B :: N :: post := by simp
  obtain ⟨c1, c2, c3, c4, _, _, _⟩ := Chain_three _ _ _ _ _ _ _ _ hp.chain
  have rP := hp.read P hP
  have rB := hp.read B hB
  have rN := hp.read N hN
  have hPo := hp.block_ok P hP
  have hBo := hp.block_ok B hB
  have hbrk := hp.brk_le
  refine ⟨by rw [rB.2.2.2.2.1, c3], ?_, rN.2.2.1, rP.2.2.1, rN.2.2.2.1, rP.2.2.2.1⟩
  unfold PREV_BLKP DSIZE WSIZE
  rw [usub_eq B.addr (2 * 4) (by omega) (by omega),
    show B.addr - 2 * 4 = P.addr + P.size - 8 by omega,
    rP.2.2.2.2.2, usub_eq B.addr P.size (by omega) (by omega)]
  omega

theorem mm_free_case4 (h : Heap) (pre post : List Block) (P B N : Block) (fl : List Nat)
    (hwf : WF h (pre ++ P :: B :: N :: post) fl) (hB : B.alloc = 1)
    (hP0 : P.alloc = 0) (hN0 : N.alloc = 0) :
    WF (mm_free h B.addr) (pre ++ ⟨P.addr, P.size + B.size + N.size, 0⟩ :: post)
      (P.addr :: (fl.erase P.addr).erase N.addr) ∧
    (mm_free h B.addr).root = P.addr ∧ GET (mm_free h B.addr).mem (P.addr + 4) = 0 := by
  obtain ⟨hp, hall⟩ := hwf
  have hPm : P ∈ pre ++ P :: B :: N :: post := by simp
  have hBm : B ∈ pre ++ P :: B :: N :: post := by simp
  have hNm : N ∈ pre ++ P :: B :: N :: post := by simp
  obtain ⟨r1, r2, r3, r4, r5, r6⟩ := mm_free_reads h pre post P B N fl hp
  obtain ⟨c1, c2, c3, c4, _, _, _⟩ := Chain_three _ _ _ _ _ _ _ _ hp.chain
  have hPo := hp.block_ok P hPm
  have hBo := hp.block_ok B hBm
  have hNo := hp.block_ok N hNm
  have hbrk := hp.brk_le
  -- the two removals
  obtain ⟨hp1, e1, e2, _⟩ := removeBlock_Pre h _ fl P.addr hp (hall P hPm hP0)
  have hN1 : N.addr ∈ fl.erase P.addr :=
    (List.mem_erase_of_ne (by omega)).2 (hall N hNm hN0)
  obtain ⟨hp2, e3, e4, _⟩ := removeBlock_Pre _ _ _ N.addr hp1 hN1
  have rP := hp2.read P hPm
  have rB := hp2.read B hBm
  have rN := hp2.read N hNm
  have hmm : mm_free h B.addr = insertNewBlock (updateBlockTags
      (removeBlock (removeBlock h P.addr) N.addr) P.addr
      (N.addr + N.size - P.addr)) P.addr := by
    simp only [mm_free, r1, r2, r3, r4, r5, r6, hP0, hN0]
    simp only [ne_eq, not_true_eq_false, decide_False, decide_True, Bool.false_and,
      Bool.and_false, Bool.and_true, Bool.true_and, if_false, if_true, Bool.false_eq_true]
    rw [rP.2.1, rB.2.1, rN.2.1, PACK_zero, uadd_eq P.size B.size (by omega),
      uadd_eq (P.size + B.size) N.size (by omega)]
    congr 2
    omega
  obtain ⟨d1, d2, d3, d4, d5, d6, d7⟩ := Chain_three _ _ _ _ _ _ _ _ hp2.chain
  have hc2 : Chain (removeBlock (removeBlock h P.addr) N.addr).mem [P, B, N] P.addr
      (N.addr + N.size) := Chain_two _ [P] [B, N] _ _ _ d5 (Chain_two _ [B] [N] _ _ _ d6 d7)
  have hnot : ∀ b ∈ [P, B, N], b.addr ∉ (fl.erase P.addr).erase N.addr := by
    intro b hb
    simp only [List.mem_cons, List.mem_singleton, List.not_mem_nil, or_false] at hb
    rcases hb with rfl | rfl | rfl
    · exact fun hx => not_mem_erase_self fl _ hp.nodup (List.mem_of_mem_erase hx)
    · exact hp2.not_node _ hBm (by omega)
    · exact not_mem_erase_self _ _ hp1.nodup
  obtain ⟨f1, f2, f3⟩ := free_core _ pre [P, B, N] post _ P.addr (N.addr + N.size)
    (by simpa using hp2) d1 hc2 d4 (by simp) hnot
  rw [hmm]
  have hsz : N.addr + N.size - P.addr = P.size + B.size + N.size := by omega
  rw [hsz] at f1 f2 f3 ⊢
  refine ⟨⟨f1, ?_⟩, f2, f3⟩
  intro b hb hb0
  rcases List.mem_append.1 hb with h1 | h1
  · have := Chain_mem _ _ _ _ c1 b h1
    exact List.mem_cons_of_mem _ (mem_erase_erase _ _ _ _
      (hall b (List.mem_append_left _ h1) hb0) (by omega) (by omega))
  · rcases List.mem_cons.1 h1 with rfl | h2
    · exact List.mem_cons_self _ _
    · have := Chain_mem _ _ _ _ c4 b h2
      exact List.mem_cons_of_mem _ (mem_erase_erase _ _ _ _
        (hall b (by simp [h2]) hb0) (by omega) (by omega))

theorem mm_free_case1 (h : Heap) (pre post : List Block) (P B N : Block) (fl : List Nat)
    (hwf : WF h (pre ++ P :: B :: N :: post) fl) (hB : B.alloc = 1)
    (hP1 : P.alloc ≠ 0) (hN1 : N.alloc ≠ 0) :
    WF (mm_free h B.addr) (pre ++ [P] ++ ⟨B.addr, 0 + B.size + 0, 0⟩ :: ([N] ++ post))
      (B.addr :: (fl.erase P.addr).erase N.addr) ∧
    (mm_free h B.addr).root = B.addr ∧ GET (mm_free h B.addr).mem (B.addr + 4) = 0 := by
  obtain ⟨hp, hall⟩ := hwf
  have hPm : P ∈ pre ++ P :: B :: N :: post := by simp
  have hBm : B ∈ pre ++ P :: B :: N :: post := by simp
  have hNm : N ∈ pre ++ P :: B :: N :: post := by simp
  obtain ⟨r1, r2, r3, r4, r5, r6⟩ := mm_free_reads h pre post P B N fl hp
  obtain ⟨c1, c2, c3, c4, c5, c6, c7⟩ := Chain_three _ _ _ _ _ _ _ _ hp.chain
  have hPo := hp.block_ok P hPm
  have hBo := hp.block_ok B hBm
  have hNo := hp.block_ok N hNm
  have hbrk := hp.brk_le
  have hfl : (fl.erase P.addr).erase N.addr = fl := by
    rw [List.erase_of_not_mem (hp.not_node P hPm hP1),
      List.erase_of_not_mem (hp.not_node N hNm hN1)]
  have rB := hp.read B hBm
  have hmm : mm_free h B.addr = insertNewBlock (updateBlockTags h B.addr
      (N.addr - B.addr)) B.addr := by
    simp only [mm_free, r1, r2, r3, r4, r5, r6]
    simp only [ne_eq, hP1, hN1, not_false_eq_true, decide_True, Bool.and_true, if_true]
    rw [rB.2.1, PACK_zero]
    congr 2
    omega
  have hnot : ∀ b ∈ [B], b.addr ∉ fl := by
    intro b hb
    rw [List.mem_singleton.1 hb]
    exact hp.not_node _ hBm (by omega)
  obtain ⟨f1, f2, f3⟩ := free_core h (pre ++ [P]) [B] (N :: post) fl B.addr N.addr
    (by simpa using hp) (Chain_two _ _ _ _ _ _ c1 c5) c6
    (Chain_two _ [N] post _ _ _ c7 c4) (by simp) hnot
  rw [hmm, hfl]
  have hsz : N.addr - B.addr = 0 + B.size + 0 := by omega
  rw [hsz] at f1 f2 f3 ⊢
  refine ⟨⟨f1, ?_⟩, f2, f3⟩
  intro b hb hb0
  rcases List.mem_append.1 hb with h1 | h1
  · exact List.mem_cons_of_mem _ (hall b (by
      rcases List.mem_append.1 h1 with h2 | h2
      · exact List.mem_append_left _ h2
      · rw [List.mem_singleton.1 h2]; exact hPm) hb0)
  · rcases List.mem_cons.1 h1 with rfl | h2
    · exact List.mem_cons_self _ _
    · exact List.mem_cons_of_mem _ (hall b (by
        rcases List.mem_append.1 h2 with h3 | h3
        · rw [List.mem_singleton.1 h3]; exact hNm
        · simp [h3]) hb0)

theorem mm_free_case2 (h : Heap) (pre post : List Block) (P B N : Block) (fl : List Nat)
    (hwf : WF h (pre ++ P :: B :: N :: post) fl) (hB : B.alloc = 1)
    (hP0 : P.alloc = 0) (hN1 : N.alloc ≠ 0) :
    WF (mm_free h B.addr) (pre ++ ⟨P.addr, P.size + B.size + 0, 0⟩ :: ([N] ++ post))
      (P.addr :: (fl.erase P.addr).erase N.addr) ∧
    (mm_free h B.addr).root = P.addr ∧ GET (mm_free h B.addr).mem (P.addr + 4) = 0 := by
  obtain ⟨hp, hall⟩ := hwf
  have hPm : P ∈ pre ++ P :: B :: N :: post := by simp
  have hBm : B ∈ pre ++ P :: B :: N :: post := by simp
  have hNm : N ∈ pre ++ P :: B :: N :: post := by simp
  obtain ⟨r1, r2, r3, r4, r5, r6⟩ := mm_free_reads h pre post P B N fl hp
  obtain ⟨c1, c2, c3, c4, _, _, _⟩ := Chain_three _ _ _ _ _ _ _ _ hp.chain
  have hPo := hp.block_ok P hPm
  have hBo := hp.block_ok B hBm
  have hNo := hp.block_ok N hNm
  have hbrk := hp.brk_le
  obtain ⟨hp1, e1, e2, _⟩ := removeBlock_Pre h _ fl P.addr hp (hall P hPm hP0)
  have hfl : (fl.erase P.addr).erase N.addr = fl.erase P.addr :=
    List.erase_of_not_mem (hp1.not_node N hNm hN1)
  have rP := hp1.read P hPm
  have rB := hp1.read B hBm
  have hmm : mm_free h B.addr = insertNewBlock (updateBlockTags
      (removeBlock h P.addr) P.addr (N.addr - P.addr)) P.addr := by
    simp only [mm_free, r1, r2, r3, r4, r5, r6, hP0]
    simp only [ne_eq, hN1, not_true_eq_false, not_false_eq_true, decide_False, decide_True,
      Bool.false_and, Bool.and_false, Bool.and_true, Bool.true_and, if_false, if_true,
      Bool.false_eq_true]
    rw [rP.2.1, rB.2.1, PACK_zero, uadd_eq P.size B.size (by omega)]
    congr 2
    omega
  obtain ⟨d1, d2, d3, d4, d5, d6, d7⟩ := Chain_three _ _ _ _ _ _ _ _ hp1.chain
  have hnot : ∀ b ∈ [P, B], b.addr ∉ fl.erase P.addr := by
    intro b hb
    simp only [List.mem_cons, List.mem_singleton, List.not_mem_nil, or_false] at hb
    rcases hb with rfl | rfl
    · exact not_mem_erase_self fl _ hp.nodup
    · exact hp1.not_node _ hBm (by omega)
  obtain ⟨f1, f2, f3⟩ := free_core _ pre [P, B] (N :: post) _ P.addr N.addr
    (by simpa using hp1) d1 (Chain_two _ [P] [B] _ _ _ d5 d6)
    (Chain_two _ [N] post _ _ _ d7 d4) (by simp) hnot
  rw [hmm, hfl]
  have hsz : N.addr - P.addr = P.size + B.size + 0 := by omega
  rw [hsz] at f1 f2 f3 ⊢
  refine ⟨⟨f1, ?_⟩, f2, f3⟩
  intro b hb hb0
  rcases List.mem_append.1 hb with h1 | h1
  · have := Chain_mem _ _ _ _ c1 b h1
    exact List.mem_cons_of_mem _ ((List.mem_erase_of_ne (by omega)).2
      (hall b (List.mem_append_left _ h1) hb0))
  · rcases List.mem_cons.1 h1 with rfl | h2
    · exact List.mem_cons_self _ _
    · rcases List.mem_append.1 h2 with h3 | h3
      · rw [List.mem_singleton.1 h3] at hb0; exact absurd hb0 hN1
      · have := Chain_mem _ _ _ _ c4 b h3
        exact List.mem_cons_of_mem _ ((List.mem_erase_of_ne (by omega)).2
          (hall b (by simp [h3]) hb0))

theorem mm_free_case3 (h : Heap) (pre post : List Block) (P B N : Block) (fl : List Nat)
    (hwf : WF h (pre ++ P :: B :: N :: post) fl) (hB : B.alloc = 1)
    (hP1 : P.alloc ≠ 0) (hN0 : N.alloc = 0) :
    WF (mm_free h B.addr) (pre ++ [P] ++ ⟨B.addr, 0 + B.size + N.size, 0⟩ :: post)
      (B.addr :: (fl.erase P.addr).erase N.addr) ∧
    (mm_free h B.addr).root = B.addr ∧ GET (mm_free h B.addr).mem (B.addr + 4) = 0 := by
  obtain ⟨hp, hall⟩ := hwf
  have hPm : P ∈ pre ++ P :: B :: N :: post := by simp
  have hBm : B ∈ pre ++ P :: B :: N :: post := by simp
  have hNm : N ∈ pre ++ P :: B :: N :: post := by simp
  obtain ⟨r1, r2, r3, r4, r5, r6⟩ := mm_free_reads h pre post P B N fl hp
  obtain ⟨c1, c2, c3, c4, _, _, _⟩ := Chain_three _ _ _ _ _ _ _ _ hp.chain
  have hPo := hp.block_ok P hPm
  have hBo := hp.block_ok B hBm
  have hNo := hp.block_ok N hNm
  have hbrk := hp.brk_le
  have hfl : (fl.erase P.addr).erase N.addr = fl.erase N.addr := by
    rw [List.erase_of_not_mem (hp.not_node P hPm hP1)]
  obtain ⟨hp1, e1, e2, _⟩ := removeBlock_Pre h _ fl N.addr hp (hall N hNm hN0)
  have rB := hp1.read B hBm
  have rN := hp1.read N hNm
  have hmm : mm_free h B.addr = insertNewBlock (updateBlockTags
      (removeBlock h N.addr) B.addr (N.addr + N.size - B.addr)) B.addr := by
    simp only [mm_free, r1, r2, r3, r4, r5, r6, hN0]
    simp only [ne_eq, hP1, not_true_eq_false, not_false_eq_true, decide_False, decide_True,
      Bool.false_and, Bool.and_false, Bool.and_true, Bool.true_and, if_false, if_true,
      Bool.false_eq_true]
    rw [rB.2.1, rN.2.1, PACK_zero, uadd_eq B.size N.size (by omega)]
    congr 2
    omega
  obtain ⟨d1, d2, d3, d4, d5, d6, d7⟩ := Chain_three _ _ _ _ _ _ _ _ hp1.chain
  have hnot : ∀ b ∈ [B, N], b.addr ∉ fl.erase N.addr := by
    intro b hb
    simp only [List.mem_cons, List.mem_singleton, List.not_mem_nil, or_false] at hb
    rcases hb with rfl | rfl
    · exact hp1.not_node _ hBm (by omega)
    · exact not_mem_erase_self fl _ hp.nodup
  obtain ⟨f1, f2, f3⟩ := free_core _ (pre ++ [P]) [B, N] post _ B.addr (N.addr + N.size)
    (by simpa using hp1) (Chain_two _ _ _ _ _ _ d1 d5) (Chain_two _ [B] [N] _ _ _ d6 d7)
    d4 (by simp) hnot
  rw [hmm, hfl]
  have hsz : N.addr + N.size - B.addr = 0 + B.size + N.size := by omega
  rw [hsz] at f1 f2 f3 ⊢
  refine ⟨⟨f1, ?_⟩, f2, f3⟩
  intro b hb hb0
  rcases List.mem_append.1 hb with h1 | h1
  · rcases List.mem_append.1 h1 with h2 | h2
    · have := Chain_mem _ _ _ _ c1 b h2
      exact List.mem_cons_of_mem _ ((List.mem_erase_of_ne (by omega)).2
        (hall b (List.mem_append_left _ h2) hb0))
    · rw [List.mem_singleton.1 h2] at hb0; exact absurd hb0 hP1
  · rcases List.mem_cons.1 h1 with rfl | h2
    · exact List.mem_cons_self _ _
    · have := Chain_mem _ _ _ _ c4 b h2
      exact List.mem_cons_of_mem _ ((List.mem_erase_of_ne (by omega)).2
        (hall b (by simp [h2]) hb0))

/-- The header and the footer of a block of a well formed heap, as the macros
of the source address them. -/
theorem Pre.tags {h : Heap} {bl : List Block} {fl : List Nat} (hp : Pre h bl fl)
    (b : Block) (hb : b ∈ bl) :
    GET h.mem (HDRP b.addr) = b.tag ∧ GET h.mem (FTRP h.mem b.addr) = b.tag ∧
    PREVP b.addr = b.addr + 4 := by
  have hbo := hp.block_ok b hb
  have hr := hp.read b hb
  have hbrk := hp.brk_le
  refine ⟨by rw [hr.1]; exact hbo.2.2.2.2.2.2.1, ?_, ?_⟩
  · unfold FTRP DSIZE WSIZE
    rw [hr.2.1, uadd_eq b.addr b.size (by omega), usub_eq (b.addr + b.size) (2 * 4) (by omega)
      (by omega)]
    exact hbo.2.2.2.2.2.2.2
  · unfold PREVP WSIZE
    exact uadd_eq _ _ (by omega)

theorem mm_free_interior (h : Heap) (pre post : List Block) (P B N : Block) (fl : List Nat)
    (hwf : WF h (pre ++ P :: B :: N :: post) fl) (hB : B.alloc = 1) :
    WF (mm_free h B.addr) (freedBlocks pre post P B N)
      (freedStart P B :: (fl.erase P.addr).erase N.addr) ∧
    (mm_free h B.addr).root = freedStart P B ∧
    GET (mm_free h B.addr).mem (freedStart P B + 4) = 0 := by
  by_cases hP : P.alloc = 0 <;> by_cases hN : N.alloc = 0
  · have := mm_free_case4 h pre post P B N fl hwf hB hP hN
    simpa [freedBlocks, freedStart, freedSize, hP, hN] using this
  · have := mm_free_case2 h pre post P B N fl hwf hB hP hN
    simpa [freedBlocks, freedStart, freedSize, hP, hN] using this
  · have := mm_free_case3 h pre post P B N fl hwf hB hP hN
    simpa [freedBlocks, freedStart, freedSize, hP, hN] using this
  · have := mm_free_case1 h pre post P B N fl hwf hB hP hN
    simpa [freedBlocks, freedStart, freedSize, hP, hN] using this

/-! ## Runs and the claims -/

theorem fresh_heap0 : Fresh heap0 := by decide

theorem reachable_runOf (fuel : Nat) (calls : List Call)
    (h : (runCalls fuel (start heap0) calls).isSome = true) :
    Reachable heap0 (runOf fuel calls) := by
  refine ⟨fresh_heap0, by decide, fuel, calls, ?_⟩
  unfold runOf
  cases hr : runCalls fuel (start heap0) calls with
  | none => rw [hr] at h; exact absurd h (by simp)
  | some r => rfl

/-- A free list node that is its own successor and is too small makes the
loop of `find_fit` run out of any amount of fuel. -/
theorem find_fit_loop_self (m : Mem) (asize bp : Nat) (hsz : GET_SIZE m (HDRP bp) < asize)
    (hnext : GET_ADDR m (NEXTP bp) = bp) (hbp : bp ≠ NULL) (fuel : Nat) :
    find_fit_loop m asize fuel bp = none := by
  induction fuel with
  | zero => rfl
  | succ n ih =>
    unfold find_fit_loop
    rw [if_neg (by omega), hnext, if_neg hbp]
    exact ih

/-- When the physical successor of `ptr` is not inside the arena, none of the four
cases of `mm_free` applies and the heap stays as it is. -/
theorem mm_free_next_out_of_range (h : Heap) (ptr : Nat)
    (hn : IS_IN_RANGE h (NEXT_BLKP h.mem ptr) = false) : mm_free h ptr = h := by
  unfold mm_free
  simp [hn]

set_option maxRecDepth 1000000 in
/-- C1: the claim fails on the code.  Each of the calls `c1Calls` is valid (every
request is at most `2 ^ 31`, every freed pointer is live, the provider never
refuses), and in the state they reach `mm_malloc 200` does not return: the
free list has become cyclic and `find_fit` runs out of every amount of fuel. -/
theorem C1_malloc_diverges :
    Reachable heap0 (runOf 8 c1Calls) ∧ ∀ fuel, mm_malloc fuel (runOf 8 c1Calls).heap 200 = none := by
  refine ⟨reachable_runOf 8 c1Calls (by decide), fun fuel => ?_⟩
  have hroot : (runOf 8 c1Calls).heap.root = 65560 := by decide
  have hsz : GET_SIZE (runOf 8 c1Calls).heap.mem (HDRP 65560) < ALIGN 200 := by decide
  have hnext : GET_ADDR (runOf 8 c1Calls).heap.mem (NEXTP 65560) = 65560 := by decide
  have hloop := find_fit_loop_self _ _ _ hsz hnext (by decide) fuel
  unfold mm_malloc find_fit
  rw [if_neg (by decide), hroot]
  simp only [hloop]

set_option maxRecDepth 1000000 in
/-- C2: the claim fails on the code.  After the valid calls `c2Calls` the blocks
no longer tile the arena (the 16 byte block at `lo + 8` is followed by a word
that is no header), and after the first fifteen calls of `c1Calls` the call
`mm_malloc 100` returns the pointer `65560` although that allocation is
still live.  The same happens after the single call `mm_malloc (2 ^ 32 - 8)`,
whose adjusted size wraps around to 0: it returns `65544` and leaves the
block free, so that `mm_malloc 16` returns `65544` again. -/
theorem C2_tiling_broken :
    (Reachable heap0 (runOf 8 c2Calls) ∧ ¬ Tiles (runOf 8 c2Calls).heap) ∧
    (Reachable heap0 (runOf 8 (c1Calls.take 15)) ∧ 65560 ∈ (runOf 8 (c1Calls.take 15)).live ∧
      (mm_malloc 8 (runOf 8 (c1Calls.take 15)).heap 100).map Prod.snd = some 65560) ∧
    (Reachable heap0 (runOf 8 [.malloc 4294967288]) ∧
      65544 ∈ (runOf 8 [.malloc 4294967288]).live ∧
      (mm_malloc 8 (runOf 8 [.malloc 4294967288]).heap 16).map Prod.snd = some 65544) := by
  refine ⟨⟨reachable_runOf 8 c2Calls (by decide), ?_⟩,
    ⟨reachable_runOf 8 _ (by decide), by decide, by decide⟩,
    reachable_runOf 8 _ (by decide), by decide, by decide⟩
  rintro ⟨fuel, hf⟩
  have hlo : mem_heap_lo (runOf 8 c2Calls).heap + 8 = 65544 := by decide
  have hbrk : (65544 = (runOf 8 c2Calls).heap.mem_brk + 8) = False := by
    simpa using (by decide : 65544 ≠ (runOf 8 c2Calls).heap.mem_brk + 8)
  have hnext : NEXT_BLKP (runOf 8 c2Calls).heap.mem 65544 = 65560 := by decide
  have hbrk2 : (65560 = (runOf 8 c2Calls).heap.mem_brk + 8) = False := by
    simpa using (by decide : 65560 ≠ (runOf 8 c2Calls).heap.mem_brk + 8)
  have hsz2 : GET_SIZE (runOf 8 c2Calls).heap.mem (HDRP 65560) < 2 * DSIZE := by decide
  rw [hlo] at hf
  cases fuel with
  | zero => simp [tilesFrom] at hf
  | succ f =>
    cases f with
    | zero => simp [tilesFrom, hbrk, hnext] at hf
    | succ g => simp [tilesFrom, hbrk, hnext, hbrk2, hsz2] at hf

/-- C4: `mm_free` of a live block `B` whose physical neighbours `P` and `N` are
both inside the arena, in a well formed heap with blocks
`pre ++ P :: B :: N :: post` and free list `fl`.  The heap stays well formed;
the blocks `B` and those of `P`, `N` that were free are replaced by one free
block that starts at `P` when `P` was free and at `B` otherwise and whose size
is the size of `B` plus the sizes of the free neighbours; its header and
footer hold `PACK size 0`; the free neighbours are gone from the free list
and the new block is its head (`root`, with a null back link), in the list
exactly once. -/
theorem C4_mm_free_interior (h : Heap) (pre post : List Block) (P B N : Block) (fl : List Nat)
    (hwf : WF h (pre ++ P :: B :: N :: post) fl) (hB : B.alloc = 1) :
    WF (mm_free h B.addr) (freedBlocks pre post P B N)
      (freedStart P B :: (fl.erase P.addr).erase N.addr) ∧
    (freedStart P B :: (fl.erase P.addr).erase N.addr).Nodup ∧
    (mm_free h B.addr).root = freedStart P B ∧
    GET_ADDR (mm_free h B.addr).mem (PREVP (freedStart P B)) = NULL ∧
    GET (mm_free h B.addr).mem (HDRP (freedStart P B)) = PACK (freedSize P B N) 0 ∧
    GET (mm_free h B.addr).mem (FTRP (mm_free h B.addr).mem (freedStart P B))
      = PACK (freedSize P B N) 0 := by
  obtain ⟨hwf', hroot, hprev⟩ := mm_free_interior h pre post P B N fl hwf hB
  have hS : (⟨freedStart P B, freedSize P B N, 0⟩ : Block) ∈ freedBlocks pre post P B N := by
    unfold freedBlocks; simp
  obtain ⟨t1, t2, t3⟩ := hwf'.1.tags _ hS
  refine ⟨hwf', hwf'.1.nodup, hroot, ?_, ?_, ?_⟩
  · unfold GET_ADDR NULL; rw [t3]; exact hprev
  · rw [t1, PACK_zero]; rfl
  · rw [t2, PACK_zero]; rfl

set_option maxRecDepth 1000000 in
theorem wf_c4 : WF (runOf 8 c4Calls).heap
    ([⟨65544, 24, 1⟩] ++ ⟨65568, 24, 0⟩ :: ⟨65592, 24, 1⟩ :: ⟨65616, 24, 1⟩ :: [⟨65640, 4000, 0⟩])
    [65568, 65640] :=
  ⟨⟨by decide, by decide, by decide, by decide, by decide, by decide, by decide⟩, by decide⟩

set_option maxRecDepth 1000000 in
theorem C4_witness :
    WF (runOf 8 c4Calls).heap
      ([⟨65544, 24, 1⟩] ++ ⟨65568, 24, 0⟩ :: ⟨65592, 24, 1⟩ :: ⟨65616, 24, 1⟩ :: [⟨65640, 4000, 0⟩])
      [65568, 65640] ∧
    (mm_free (runOf 8 c4Calls).heap 65592).root = 65568 ∧
    GET (mm_free (runOf 8 c4Calls).heap 65592).mem (HDRP 65568) = PACK 48 0 :=
  ⟨wf_c4, (C4_mm_free_interior _ [⟨65544, 24, 1⟩] [⟨65640, 4000, 0⟩] ⟨65568, 24, 0⟩ ⟨65592, 24, 1⟩
      ⟨65616, 24, 1⟩ [65568, 65640] wf_c4 rfl).2.2.1,
    (C4_mm_free_interior _ [⟨65544, 24, 1⟩] [⟨65640, 4000, 0⟩] ⟨65568, 24, 0⟩ ⟨65592, 24, 1⟩
      ⟨65616, 24, 1⟩ [65568, 65640] wf_c4 rfl).2.2.2.2.1⟩

set_option maxRecDepth 1000000 in
/-- C5: the claim fails on the code for the physically last block.  After the
valid calls `c5Calls` the pointer `65616` is live, its block is the last one
(its physical successor is outside the arena, its predecessor inside), and
`mm_free` leaves the heap as it is: the block keeps alloc bit 1 and is not
reachable from `root`, the free list being the single block `65568`. -/
theorem C5_free_last_block_is_noop :
    Reachable heap0 (runOf 8 c5Calls) ∧ 65616 ∈ (runOf 8 c5Calls).live ∧
    IS_IN_RANGE (runOf 8 c5Calls).heap (NEXT_BLKP (runOf 8 c5Calls).heap.mem 65616) = false ∧
    IS_IN_RANGE (runOf 8 c5Calls).heap (PREV_BLKP (runOf 8 c5Calls).heap.mem 65616) = true ∧
    mm_free (runOf 8 c5Calls).heap 65616 = (runOf 8 c5Calls).heap ∧
    GET_ALLOC (mm_free (runOf 8 c5Calls).heap 65616).mem (HDRP 65616) = 1 ∧
    (mm_free (runOf 8 c5Calls).heap 65616).root = 65568 ∧
    GET_ADDR (mm_free (runOf 8 c5Calls).heap 65616).mem (NEXTP 65568) = NULL := by
  have hn : IS_IN_RANGE (runOf 8 c5Calls).heap
      (NEXT_BLKP (runOf 8 c5Calls).heap.mem 65616) = false := by decide
  refine ⟨reachable_runOf 8 c5Calls (by decide), by decide, hn, by decide,
    mm_free_next_out_of_range _ _ hn, ?_, ?_, ?_⟩
  · rw [mm_free_next_out_of_range _ _ hn]; decide
  · rw [mm_free_next_out_of_range _ _ hn]; decide
  · rw [mm_free_next_out_of_range _ _ hn]; decide

set_option maxRecDepth 1000000 in
/-- C6: the claim fails on the code.  The valid calls `c6Calls` are calls of
`mm_malloc` and `mm_free` only and free every returned pointer exactly
once, yet in the final state the block at `65616` is still tagged allocated
with 4024 bytes, and the only free block has 72 of the 4096 bytes obtained
from the provider. -/
theorem C6_block_stays_allocated :
    Reachable heap0 (runOf 8 c6Calls) ∧ (runOf 8 c6Calls).live = [] ∧
    GET (runOf 8 c6Calls).heap.mem (HDRP 65616) = PACK 4024 1 ∧
    (runOf 8 c6Calls).heap.root = 65544 ∧
    GET_ADDR (runOf 8 c6Calls).heap.mem (NEXTP 65544) = NULL ∧
    GET (runOf 8 c6Calls).heap.mem (HDRP 65544) = PACK 72 0 ∧
    (runOf 8 c6Calls).heap.mem_brk - (runOf 8 c6Calls).heap.mem_start_brk = 4096 := by
  refine ⟨reachable_runOf 8 c6Calls (by decide), ?_, ?_, ?_, ?_, ?_, ?_⟩ <;> decide

set_option maxRecDepth 1000000 in
/-- C7: the claim fails on the code.  After the valid calls `c7Calls` the pointer
`65544` is live, its block has 65536 bytes and its physical successor is the
only free block, of more than `2 ^ 31` bytes.  `mm_realloc 65544 65530`
(adjusted size 65544) takes the in-place path and returns `65544`, but the
byte at offset 6, one of the first `min 65530 (65536 - 8)` bytes, has changed
from 2 to 0: the size difference does not fit the `int splitSize`, the block
is tagged without a split, and the growth of the arena that follows unlinks the
stale successor through the new footer word. -/
theorem C7_payload_changed :
    Reachable heap0 (runOf 8 c7Calls) ∧ 65544 ∈ (runOf 8 c7Calls).live ∧
    GET_SIZE (runOf 8 c7Calls).heap.mem (HDRP 65544) = 65536 ∧
    (mm_realloc 8 (runOf 8 c7Calls).heap 65544 65530).map Prod.snd = some 65544 ∧
    (mm_realloc 8 (runOf 8 c7Calls).heap 65544 65530).map (fun r => r.1.mem_refused)
      = some false ∧
    6 < min 65530 (65536 - 8) ∧
    (runOf 8 c7Calls).heap.mem (65544 + 6) = 2 ∧
    (mm_realloc 8 (runOf 8 c7Calls).heap 65544 65530).map (fun r => r.1.mem (65544 + 6))
      = some 0 := by
  refine ⟨reachable_runOf 8 c7Calls (by decide), ?_, ?_, ?_, ?_, ?_, ?_, ?_⟩ <;> decide

set_option maxRecDepth 1000000 in
/-- C8: the claim fails on the code.  `mm_realloc` compares the size in the header
of `ptr` with the adjusted size before it tests `ptr` for `NULL`, so with
`ptr = NULL` it reads the word at `HDRP NULL = 2 ^ 32 - 4`.  In the state
right after `mm_init` on `heap8` that word holds 16, and `mm_realloc NULL 1`
returns `NULL` and leaves the heap untouched, while `mm_malloc 1` returns the
block at `65544`. -/
theorem C8_realloc_null_reads_header :
    Reachable heap8 (start heap8) ∧ HDRP NULL = 4294967292 ∧
    mm_realloc 8 (start heap8).heap NULL 1 = some ((start heap8).heap, NULL) ∧
    (mm_malloc 8 (start heap8).heap 1).map Prod.snd = some 65544 := by
  refine ⟨⟨by decide, by decide, 0, [], rfl⟩, by decide, ?_, by decide⟩
  unfold mm_realloc
  rw [if_pos (by decide)]

set_option maxRecDepth 1000000 in
/-- C9: the claim fails on the code for a block of the minimum size.  After
`mm_malloc 1` the pointer `65544` is live and its block has 16 bytes, which is
`ALIGN 0`; `mm_realloc 65544 0` takes the equal-size exit, returns `65544`
instead of `NULL` and leaves the block allocated, while `mm_free` clears
its alloc bit. -/
theorem C9_realloc_zero_min_block :
    Reachable heap0 (runOf 8 [.malloc 1]) ∧ 65544 ∈ (runOf 8 [.malloc 1]).live ∧
    GET_SIZE (runOf 8 [.malloc 1]).heap.mem (HDRP 65544) = 16 ∧
    mm_realloc 8 (runOf 8 [.malloc 1]).heap 65544 0
      = some ((runOf 8 [.malloc 1]).heap, 65544) ∧
    GET_ALLOC (runOf 8 [.malloc 1]).heap.mem (HDRP 65544) = 1 ∧
    GET_ALLOC (mm_free (runOf 8 [.malloc 1]).heap 65544).mem (HDRP 65544) = 0 := by
  refine ⟨reachable_runOf 8 _ (by decide), by decide, by decide, ?_, by decide, by decide⟩
  unfold mm_realloc
  rw [if_pos (by decide)]

/-- C10: when the adjusted size `ALIGN size` equals the block size stored in the
header of `ptr`, `mm_realloc ptr size` returns `ptr` and leaves the whole heap
(`root` and every byte of memory) unchanged, whatever the fuel. -/
theorem C10_realloc_same_size (fuel : Nat) (h : Heap) (ptr size : Nat)
    (hsize : ALIGN size = GET_SIZE h.mem (HDRP ptr)) :
    mm_realloc fuel h ptr size = some (h, ptr) := by
  unfold mm_realloc
  rw [if_pos hsize.symm]

set_option maxRecDepth 1000000 in
/-- C10, at the block handed out by `mm_malloc 20`: a request for 17 bytes has the
same adjusted size, 32. -/
theorem C10_realloc_same_size_witness :
    ALIGN 17 = GET_SIZE (runOf 8 [.malloc 20]).heap.mem (HDRP 65544) ∧
    mm_realloc 8 (runOf 8 [.malloc 20]).heap 65544 17
      = some ((runOf 8 [.malloc 20]).heap, 65544) :=
  ⟨by decide, C10_realloc_same_size 8 _ 65544 17 (by decide)⟩

theorem Shape.blocks_ok {h : Heap} {bl : List Block} {fl : List Nat} (hp : Shape h bl fl)
    (b : Block) (hb : b ∈ bl) :
    b.addr % 8 = 0 ∧ h.mem_start_brk + 8 ≤ b.addr ∧ b.addr + b.size ≤ h.mem_brk + 8 ∧
    b.size % 8 = 0 ∧ 16 ≤ b.size ∧ b.alloc ≤ 1 ∧ GET h.mem (b.addr - 4) = b.tag ∧
    GET h.mem (b.addr + b.size - 8) = b.tag := by
  have hc := Chain_mem _ _ _ _ hp.chain b hb
  have := hp.lo_al
  refine ⟨by omega, hc.1, hc.2.1, hc.2.2.2.1, hc.2.2.2.2.1, hc.2.2.2.2.2.1,
    hc.2.2.2.2.2.2.1, hc.2.2.2.2.2.2.2⟩

theorem Shape.nodes_ok {h : Heap} {bl : List Block} {fl : List Nat} (hp : Shape h bl fl)
    (p : Nat) (hpf : p ∈ fl) :
    p % 8 = 0 ∧ 16 ≤ p ∧ p + 16 ≤ h.mem_brk + 8 ∧ p + 24 ≤ WORD := by
  obtain ⟨b, hb, rfl⟩ := hp.nodes p hpf
  have := hp.blocks_ok b hb
  have := hp.brk_le
  have := hp.lo_pos
  omega

/-- No byte of a tag is a byte of a link word of a node. -/
theorem Shape.tags_links {h : Heap} {bl : List Block} {fl : List Nat} (hp : Shape h bl fl)
    (b : Block) (hb : b ∈ bl) (p : Nat) (hpf : p ∈ fl) (a : Nat) (ha : b.tagByte a) :
    a < p ∨ p + 8 ≤ a := by
  obtain ⟨c, hc, rfl⟩ := hp.nodes p hpf
  have hbo := hp.blocks_ok b hb
  have hco := hp.blocks_ok c hc
  unfold Block.tagByte at ha
  rcases Chain_sep _ _ _ _ hp.chain b c hb hc with rfl | h1 | h1 <;> omega

theorem removeBlock_Shape (h : Heap) (bl : List Block) (fl : List Nat) (x : Nat)
    (hp : Shape h bl fl) (hx : x ∈ fl) :
    Shape (removeBlock h x) bl (fl.erase x) ∧
    SameProvider h (removeBlock h x) ∧
    (∀ a, (∀ p ∈ fl, a < p ∨ p + 8 ≤ a) → (removeBlock h x).mem a = h.mem a) := by
  have hok : ∀ p ∈ fl, p % 8 = 0 ∧ 8 ≤ p := fun p hpf => by
    have := hp.nodes_ok p hpf; omega
  obtain ⟨hl1, hl2, hl3⟩ := FreeList_unlink h.mem fl x 0 h.root hp.flist hx hp.nodup hok
    (by omega) (fun h0 => by have := hok 0 h0; omega)
  have hxo := hp.nodes_ok x hx
  have hnext : GET h.mem x + 4 < WORD := by
    rcases hl2 with h0 | h0
    · rw [h0]; unfold WORD; omega
    · have := hp.nodes_ok _ h0; omega
  have hbyte : ∀ a, (∀ p ∈ fl, a < p ∨ p + 8 ≤ a) → unlink h.mem x a = h.mem a := by
    intro a ha
    apply unlink_byte
    · rcases hl2 with h0 | h0
      · exact Or.inl h0
      · have := ha _ h0; right; omega
    · rcases hl3 with ⟨_, h0⟩ | ⟨_, h0⟩
      · exact Or.inl h0
      · have := ha _ h0; right; omega
  rw [removeBlock_eq h x (by omega) hnext]
  refine ⟨⟨hp.lo_pos, hp.lo_al, hp.brk_le, ?_, ?_, hp.nodup.erase x, ?_⟩,
    ⟨rfl, rfl, rfl, rfl, rfl⟩, hbyte⟩
  · apply Chain_frame_bytes _ _ _ _ _ hp.chain (by omega)
    intro b hb a ha
    exact hbyte a (fun p hpf => hp.tags_links b hb p hpf a ha)
  · show FreeList (unlink h.mem x) (fl.erase x) 0
      (if GET h.mem (x + 4) ≠ 0 then h.root else GET h.mem x)
    rcases hl3 with ⟨h1, h2⟩ | ⟨h1, h2⟩
    · rw [if_pos h1] at hl1
      rw [if_neg (by simp [h2])]
      exact hl1
    · rw [if_neg h1] at hl1
      have := hok _ h2
      rw [if_pos (by omega)]
      exact hl1
  · intro p hpe
    exact hp.nodes p (List.mem_of_mem_erase hpe)

theorem insertNewBlock_Shape (h : Heap) (bl : List Block) (fl : List Nat) (bp : Nat)
    (hp : Shape h bl fl) (hbp : bp ∉ fl) (hb : ∃ b ∈ bl, b.addr = bp) :
    Shape (insertNewBlock h bp) bl (bp :: fl) ∧
    (insertNewBlock h bp).root = bp ∧
    GET (insertNewBlock h bp).mem (bp + 4) = 0 ∧
    SameProvider h (insertNewBlock h bp) ∧
    (∀ a, (∀ p ∈ bp :: fl, a < p ∨ p + 8 ≤ a) → (insertNewBlock h bp).mem a = h.mem a) := by
  obtain ⟨b, hbm, rfl⟩ := hb
  have hbo := hp.blocks_ok b hbm
  have hbrk := hp.brk_le
  have hlo := hp.lo_pos
  have hok : ∀ p ∈ fl, p % 8 = 0 ∧ 8 ≤ p ∧ p < WORD := fun p hpf => by
    have := hp.nodes_ok p hpf; omega
  have hroot : h.root + 4 < WORD := by
    rcases FreeList_root _ _ _ _ hp.flist with h0 | h0
    · rw [h0]; unfold WORD; omega
    · have := hp.nodes_ok _ h0; omega
  obtain ⟨hl1, hl2⟩ := FreeList_linkHead h.mem fl h.root b.addr hp.flist hbp hbo.1 (by omega)
    (by omega) hok hp.nodup
  have hbyte : ∀ a, (∀ p ∈ b.addr :: fl, a < p ∨ p + 8 ≤ a) →
      linkHead h.mem h.root b.addr a = h.mem a := by
    intro a ha
    apply linkHead_byte
    · exact ha _ (List.mem_cons_self _ _)
    · rcases FreeList_root _ _ _ _ hp.flist with h0 | h0
      · exact Or.inl h0
      · have := ha _ (List.mem_cons_of_mem _ h0); right; omega
  rw [insertNewBlock_eq h b.addr (by omega) hroot]
  refine ⟨⟨hp.lo_pos, hp.lo_al, hp.brk_le, ?_, hl1, List.nodup_cons.2 ⟨hbp, hp.nodup⟩, ?_⟩,
    rfl, hl2, ⟨rfl, rfl, rfl, rfl, rfl⟩, hbyte⟩
  · apply Chain_frame_bytes _ _ _ _ _ hp.chain (by omega)
    intro c hc a ha
    apply hbyte a
    intro p hpf
    rcases List.mem_cons.1 hpf with rfl | hpf
    · have hco := hp.blocks_ok c hc
      unfold Block.tagByte at ha
      rcases Chain_sep _ _ _ _ hp.chain c b hc hbm with rfl | h1 | h1 <;> omega
    · exact hp.tags_links c hc p hpf a ha
  · intro p hpf
    rcases List.mem_cons.1 hpf with rfl | hpf
    · exact ⟨b, hbm, rfl⟩
    · exact hp.nodes p hpf

/-- Retagging a run `mid` of blocks, of which at most the first is in the free
list, as one block with alloc bit `alloc`. -/
theorem retag_Shape (h : Heap) (pre mid post : List Block) (fl : List Nat) (s1 e1 alloc : Nat)
    (hp : Shape h (pre ++ mid ++ post) fl)
    (hc1 : Chain h.mem pre (h.mem_start_brk + 8) s1) (hc2 : Chain h.mem mid s1 e1)
    (hc3 : Chain h.mem post e1 (h.mem_brk + 8))
    (hmid : mid ≠ []) (hnot : ∀ b ∈ mid, b.addr ∈ fl → b.addr = s1) (ha : alloc ≤ 1) :
    Shape (updateBlockTags h s1 ((e1 - s1) + alloc)) (pre ++ ⟨s1, e1 - s1, alloc⟩ :: post) fl ∧
    (updateBlockTags h s1 ((e1 - s1) + alloc)).root = h.root ∧
    SameProvider h (updateBlockTags h s1 ((e1 - s1) + alloc)) ∧
    (∀ a, (a < s1 - 4 ∨ s1 ≤ a) → (a < e1 - 8 ∨ e1 - 4 ≤ a) →
      (updateBlockTags h s1 ((e1 - s1) + alloc)).mem a = h.mem a) := by
  have hle1 := Chain_le _ _ _ _ hc1
  have hle3 := Chain_le _ _ _ _ hc3
  have hmod1 := Chain_mod _ _ _ _ hc1
  have hmod2 := Chain_mod _ _ _ _ hc2
  have hlo := hp.lo_pos
  have hal := hp.lo_al
  have hbrk := hp.brk_le
  have h16 : s1 + 16 ≤ e1 := by
    cases mid with
    | nil => exact absurd rfl hmid
    | cons b bs =>
      obtain ⟨h1, _, h3, _, _, _, h7⟩ := hc2
      have := Chain_le _ _ _ _ h7
      omega
  have hbyte : ∀ a, (a < s1 - 4 ∨ s1 ≤ a) → (a < e1 - 8 ∨ e1 - 4 ≤ a) →
      PUT (PUT h.mem (s1 - 4) ((e1 - s1) + alloc)) (e1 - 8) ((e1 - s1) + alloc) a
        = h.mem a := by
    intro a ha1 ha2
    rw [PUT_byte_ne _ _ _ _ (by omega), PUT_byte_ne _ _ _ _ (by omega)]
  have htag : (e1 - s1 + alloc) % WORD = e1 - s1 + alloc :=
    Nat.mod_eq_of_lt (by unfold WORD at *; omega)
  have hE : s1 + (e1 - s1) = e1 := by omega
  rw [updateBlockTags_eq h s1 (e1 - s1) alloc (by omega) (by omega) (by omega) ha
    (by unfold WORD at *; omega), hE]
  refine ⟨⟨hp.lo_pos, hp.lo_al, hp.brk_le, ?_, ?_, hp.nodup, ?_⟩, rfl,
    ⟨rfl, rfl, rfl, rfl, rfl⟩, hbyte⟩
  · show Chain _ (pre ++ ⟨s1, e1 - s1, alloc⟩ :: post) (h.mem_start_brk + 8) (h.mem_brk + 8)
    rw [Chain_append]
    refine ⟨s1, ?_, rfl, by show (e1 - s1) % 8 = 0; omega, by show 16 ≤ e1 - s1; omega, ha, ?_, ?_, ?_⟩
    · apply Chain_frame_bytes _ _ _ _ _ hc1 (by omega)
      intro b hb a hta
      have := Chain_mem _ _ _ _ hc1 b hb
      unfold Block.tagByte at hta
      exact hbyte a (by omega) (by omega)
    · show GET _ (s1 - 4) = (e1 - s1) + alloc
      rw [GET_PUT_ne _ _ _ _ (by omega), GET_PUT_same, htag]
    · show GET _ (s1 + (e1 - s1) - 8) = (e1 - s1) + alloc
      rw [hE, GET_PUT_same, htag]
    · show Chain _ post (s1 + (e1 - s1)) (h.mem_brk + 8)
      rw [hE]
      apply Chain_frame_bytes _ _ _ _ _ hc3 (by omega)
      intro b hb a hta
      have := Chain_mem _ _ _ _ hc3 b hb
      unfold Block.tagByte at hta
      exact hbyte a (by omega) (by omega)
  · apply FreeList_frame _ _ _ _ _ hp.flist
    intro p hpf
    obtain ⟨c, hc, rfl⟩ := hp.nodes p hpf
    have hcases : c ∈ pre ∨ c.addr = s1 ∨ c ∈ post := by
      rcases List.mem_append.1 hc with h1 | h1
      · rcases List.mem_append.1 h1 with h2 | h2
        · exact Or.inl h2
        · exact Or.inr (Or.inl (hnot c h2 hpf))
      · exact Or.inr (Or.inr h1)
    have hbytes : ∀ a, c.addr ≤ a → a < c.addr + 8 →
        PUT (PUT h.mem (s1 - 4) ((e1 - s1) + alloc)) (e1 - 8) ((e1 - s1) + alloc) a
          = h.mem a := by
      intro a h1 h2
      rcases hcases with hc' | hc' | hc'
      · have := Chain_mem _ _ _ _ hc1 c hc'
        exact hbyte a (by omega) (by omega)
      · exact hbyte a (by omega) (by omega)
      · have := Chain_mem _ _ _ _ hc3 c hc'
        exact hbyte a (by omega) (by omega)
    exact ⟨GET_congr _ _ _ (fun a h1 h2 => hbytes a (by omega) (by omega)),
      GET_congr _ _ _ (fun a h1 h2 => hbytes a (by omega) (by omega))⟩
  · intro p hpf
    obtain ⟨c, hc, rfl⟩ := hp.nodes p hpf
    rcases List.mem_append.1 hc with h1 | h1
    · rcases List.mem_append.1 h1 with h2 | h2
      · exact ⟨c, List.mem_append_left _ h2, rfl⟩
      · exact ⟨⟨s1, e1 - s1, alloc⟩, List.mem_append_right _ (List.mem_cons_self _ _),
          (hnot c h2 hpf).symm⟩
    · exact ⟨c, List.mem_append_right _ (List.mem_cons_of_mem _ h1), rfl⟩

/-- What the macros read at a block of a well formed heap. -/
theorem Shape.reads {h : Heap} {bl : List Block} {fl : List Nat} (hp : Shape h bl fl)
    (b : Block) (hb : b ∈ bl) :
    HDRP b.addr = b.addr - 4 ∧ GET_SIZE h.mem (HDRP b.addr) = b.size ∧
    GET_ALLOC h.mem (HDRP b.addr) = b.alloc ∧ IS_IN_RANGE h b.addr = true ∧
    NEXT_BLKP h.mem b.addr = b.addr + b.size ∧
    GET_SIZE h.mem (b.addr + b.size - 8) = b.size := by
  have hbo := hp.blocks_ok b hb
  have hbrk := hp.brk_le
  have hlo := hp.lo_pos
  have hh : HDRP b.addr = b.addr - 4 := HDRP_eq _ (by omega) (by omega)
  have hs : GET_SIZE h.mem (HDRP b.addr) = b.size := by
    rw [hh, GET_SIZE_eq, hbo.2.2.2.2.2.2.1]; unfold Block.tag; omega
  refine ⟨hh, hs, ?_, ?_, ?_, ?_⟩
  · rw [hh, GET_ALLOC_eq, hbo.2.2.2.2.2.2.1]; unfold Block.tag; omega
  · unfold IS_IN_RANGE mem_heap_lo mem_heap_hi
    simp only [Bool.and_eq_true, decide_eq_true_eq]
    omega
  · unfold NEXT_BLKP
    rw [hs, uadd_eq _ _ (by omega)]
  · rw [GET_SIZE_eq, hbo.2.2.2.2.2.2.2]; unfold Block.tag; omega

/-- An allocated block of a well formed heap is not a node of the free list. -/
theorem Valid.no_node {h : Heap} {bl : List Block} {fl : List Nat} (hwf : Valid h bl fl)
    (b : Block) (hb : b ∈ bl) (ha : b.alloc ≠ 0) : b.addr ∉ fl :=
  fun hmem => ha ((hwf.2 b hb).1 hmem)

/-- Two blocks of a chain with the same payload pointer are the same block. -/
theorem Chain_addr_inj (m : Mem) (bl : List Block) (s e : Nat) (h : Chain m bl s e)
    (b c : Block) (hb : b ∈ bl) (hc : c ∈ bl) (ha : b.addr = c.addr) : b = c := by
  have hbo := Chain_mem _ _ _ _ h b hb
  have hco := Chain_mem _ _ _ _ h c hc
  rcases Chain_sep _ _ _ _ h b c hb hc with h0 | h1 | h1
  · exact h0
  · omega
  · omega

/-! ## No two free blocks side by side -/

theorem NoAdj_parts (pre mid post : List Block) (h : NoAdj (pre ++ mid ++ post)) :
    NoAdj pre ∧ NoAdj mid ∧ NoAdj post := by
  unfold NoAdj at *
  rw [List.chain'_append, List.chain'_append] at h
  exact ⟨h.1.1, h.1.2.1, h.2.1⟩

/-- The blocks `mid` of a physical sequence may be replaced by blocks `mid1` whose
ends fit the blocks around them. -/
theorem NoAdj_splice (pre mid mid1 post : List Block) (h : NoAdj (pre ++ mid ++ post))
    (h1 : NoAdj mid1) (hne : mid1 ≠ [])
    (hl : ∀ x ∈ pre.getLast?, ∀ y ∈ mid1.head?, x.alloc ≠ 0 ∨ y.alloc ≠ 0)
    (hr : ∀ x ∈ mid1.getLast?, ∀ y ∈ post.head?, x.alloc ≠ 0 ∨ y.alloc ≠ 0) :
    NoAdj (pre ++ mid1 ++ post) := by
  obtain ⟨p1, _, p3⟩ := NoAdj_parts pre mid post h
  unfold NoAdj at *
  rw [List.chain'_append, List.chain'_append]
  refine ⟨⟨p1, h1, hl⟩, p3, ?_⟩
  intro x hx y hy
  rw [List.getLast?_append_of_ne_nil _ hne] at hx
  exact hr x hx y hy

/-- The block in front of a free block is not free. -/
theorem NoAdj_before (pre post : List Block) (P : Block) (h : NoAdj (pre ++ P :: post))
    (hP : P.alloc = 0) : ∀ x ∈ pre.getLast?, x.alloc ≠ 0 := by
  unfold NoAdj at h
  rw [List.chain'_append] at h
  intro x hx
  rcases h.2.2 x hx P (by simp) with h1 | h1
  · exact h1
  · exact absurd hP h1

/-- The block behind a free block is not free. -/
theorem NoAdj_after (pre post : List Block) (N : Block) (h : NoAdj (pre ++ N :: post))
    (hN : N.alloc = 0) : ∀ y ∈ post.head?, y.alloc ≠ 0 := by
  unfold NoAdj at h
  rw [List.chain'_append, List.chain'_cons'] at h
  intro y hy
  rcases h.2.1.1 y hy with h1 | h1
  · exact absurd hN h1
  · exact h1

/-- A run of blocks may be merged into one block when the blocks around it are
not free. -/
theorem NoAdj_merge (pre mid post : List Block) (F : Block) (h : NoAdj (pre ++ mid ++ post))
    (hl : ∀ x ∈ pre.getLast?, x.alloc ≠ 0) (hr : ∀ y ∈ post.head?, y.alloc ≠ 0) :
    NoAdj (pre ++ F :: post) := by
  have := NoAdj_splice pre mid [F] post h (by simp [NoAdj]) (by simp)
    (fun x hx _ _ => Or.inl (hl x hx)) (fun _ _ y hy => Or.inr (hr y hy))
  simpa using this

/-- A run of blocks may be replaced by one allocated block. -/
theorem NoAdj_alloc (pre mid post : List Block) (F : Block) (h : NoAdj (pre ++ mid ++ post))
    (hF : F.alloc ≠ 0) : NoAdj (pre ++ F :: post) := by
  have := NoAdj_splice pre mid [F] post h (by simp [NoAdj]) (by simp)
    (fun _ _ y hy => Or.inr (by
      simp only [List.head?_cons, Option.mem_def, Option.some.injEq] at hy
      rw [← hy]
      exact hF))
    (fun x hx _ _ => Or.inl (by
      simp only [List.getLast?_singleton, Option.mem_def, Option.some.injEq] at hx
      rw [← hx]
      exact hF))
  simpa using this

/-- A run of blocks that ends with a free block may be replaced by an allocated
block followed by a free block. -/
theorem NoAdj_split (pre mid post : List Block) (N A R : Block)
    (h : NoAdj (pre ++ (mid ++ [N]) ++ post)) (hN : N.alloc = 0) (hA : A.alloc ≠ 0) :
    NoAdj (pre ++ A :: R :: post) := by
  have hafter := NoAdj_after (pre ++ mid) post N (by simpa using h) hN
  have := NoAdj_splice pre (mid ++ [N]) [A, R] post h (by simp [NoAdj, hA]) (by simp)
    (fun _ _ y hy => Or.inr (by
      simp only [List.head?_cons, Option.mem_def, Option.some.injEq] at hy
      rw [← hy]
      exact hA))
    (fun _ _ y hy => Or.inr (hafter y hy))
  simpa using this

/-! ## `mm_free` -/

theorem SameProvider.refl_same (h : Heap) : SameProvider h h := ⟨rfl, rfl, rfl, rfl, rfl⟩

theorem SameProvider.trans_same {a b c : Heap} (h1 : SameProvider a b) (h2 : SameProvider b c) :
    SameProvider a c :=
  ⟨h2.1.trans h1.1, h2.2.1.trans h1.2.1, h2.2.2.1.trans h1.2.2.1,
    h2.2.2.2.1.trans h1.2.2.2.1, h2.2.2.2.2.trans h1.2.2.2.2⟩

/-- The pieces of a chain around one block. -/
theorem Chain_one (m : Mem) (pre post : List Block) (B : Block) (s e : Nat)
    (h : Chain m (pre ++ B :: post) s e) :
    Chain m pre s B.addr ∧ Chain m [B] B.addr (B.addr + B.size) ∧
    Chain m post (B.addr + B.size) e := by
  obtain ⟨mid, h1, h2⟩ := (Chain_append _ _ _ _ _).1 h
  obtain ⟨p1, p2, p3, p4, p5, p6, p7⟩ := h2
  subst p1
  exact ⟨h1, ⟨rfl, p2, p3, p4, p5, p6, rfl⟩, p7⟩

theorem Chain_one_at (m : Mem) (pre post : List Block) (B : Block) (s e s1 : Nat)
    (h : Chain m (pre ++ B :: post) s e) (hs : B.addr = s1) :
    Chain m pre s s1 ∧ Chain m [B] s1 (s1 + B.size) ∧ Chain m post (s1 + B.size) e := by
  subst hs
  exact Chain_one _ _ _ _ _ _ h

/-- The common end of the four cases of `mm_free`: the run `mid` of blocks, none of
them in the free list, becomes one free block at the head of the list. -/
theorem free_core_Valid (h : Heap) (pre mid post : List Block) (fl : List Nat) (s1 e1 : Nat)
    (hp : Shape h (pre ++ mid ++ post) fl)
    (hc1 : Chain h.mem pre (h.mem_start_brk + 8) s1) (hc2 : Chain h.mem mid s1 e1)
    (hc3 : Chain h.mem post e1 (h.mem_brk + 8))
    (hmid : mid ≠ []) (hnot : ∀ b ∈ mid, b.addr ∉ fl)
    (hfree : ∀ b, (b ∈ pre ∨ b ∈ post) → (b.addr ∈ fl ↔ b.alloc = 0)) :
    Valid (insertNewBlock (updateBlockTags h s1 (e1 - s1)) s1)
      (pre ++ ⟨s1, e1 - s1, 0⟩ :: post) (s1 :: fl) ∧
    (insertNewBlock (updateBlockTags h s1 (e1 - s1)) s1).root = s1 ∧
    GET (insertNewBlock (updateBlockTags h s1 (e1 - s1)) s1).mem (s1 + 4) = 0 ∧
    SameProvider h (insertNewBlock (updateBlockTags h s1 (e1 - s1)) s1) ∧
    (∀ a, (a + 4 < s1 ∨ s1 + 8 ≤ a) → (a + 8 < e1 ∨ e1 ≤ a + 4) →
      (∀ p ∈ fl, a < p ∨ p + 8 ≤ a) →
      (insertNewBlock (updateBlockTags h s1 (e1 - s1)) s1).mem a = h.mem a) := by
  obtain ⟨r1, r2, r3, r5⟩ := retag_Shape h pre mid post fl s1 e1 0 hp hc1 hc2 hc3 hmid
    (fun b hb hbf => absurd hbf (hnot b hb)) (by omega)
  rw [Nat.add_zero] at r1 r2 r3 r5
  have hs1 : s1 ∉ fl := by
    cases mid with
    | nil => exact absurd rfl hmid
    | cons b bs =>
      have := hnot b (List.mem_cons_self _ _)
      rw [hc2.1] at this
      exact this
  obtain ⟨i1, i2, i3, i4, i5⟩ := insertNewBlock_Shape _ _ fl s1 r1 hs1
    ⟨⟨s1, e1 - s1, 0⟩, List.mem_append_right _ (List.mem_cons_self _ _), rfl⟩
  have hle1 := Chain_le _ _ _ _ hc1
  have hle2 := Chain_le _ _ _ _ hc2
  refine ⟨⟨i1, ?_⟩, i2, i3, r3.trans_same i4, ?_⟩
  · intro b hb
    rcases List.mem_append.1 hb with h1 | h1
    · have := Chain_mem _ _ _ _ hc1 b h1
      rw [List.mem_cons, ← hfree b (Or.inl h1)]
      constructor
      · rintro (h2 | h2)
        · omega
        · exact h2
      · exact fun h2 => Or.inr h2
    · rcases List.mem_cons.1 h1 with rfl | h2
      · exact ⟨fun _ => rfl, fun _ => List.mem_cons_self _ _⟩
      · have := Chain_mem _ _ _ _ hc3 b h2
        have h16 : s1 + 16 ≤ e1 := by
          cases mid with
          | nil => exact absurd rfl hmid
          | cons c cs =>
            obtain ⟨q1, _, q3, _, _, _, q7⟩ := hc2
            have := Chain_le _ _ _ _ q7
            omega
        rw [List.mem_cons, ← hfree b (Or.inr h2)]
        constructor
        · rintro (h3 | h3)
          · omega
          · exact h3
        · exact fun h3 => Or.inr h3
  · intro a ha1 ha2 ha3
    rw [i5 a (fun p hp' => by
      rcases List.mem_cons.1 hp' with rfl | h1
      · omega
      · exact ha3 p h1)]
    exact r5 a (by omega) (by omega)

/-- The physical successor of a block that has one, as `mm_free` reads it. -/
theorem reads_next (h : Heap) (pre post : List Block) (B N : Block) (fl : List Nat)
    (hp : Shape h (pre ++ B :: N :: post) fl) :
    NEXT_BLKP h.mem B.addr = N.addr ∧ GET_ALLOC h.mem (HDRP N.addr) = N.alloc ∧
    IS_IN_RANGE h N.addr = true ∧ N.addr = B.addr + B.size := by
  have hB : B ∈ pre ++ B :: N :: post := by simp
  have hN : N ∈ pre ++ B :: N :: post := by simp
  obtain ⟨c1, c2, c3⟩ := Chain_one _ _ _ _ _ _ hp.chain
  have hNa : N.addr = B.addr + B.size := c3.1
  have rB := hp.reads B hB
  have rN := hp.reads N hN
  exact ⟨by rw [rB.2.2.2.2.1, hNa], rN.2.2.1, rN.2.2.2.1, hNa⟩

/-- The physical predecessor of a block that has one, as `mm_free` reads it. -/
theorem reads_prev (h : Heap) (pre post : List Block) (P B : Block) (fl : List Nat)
    (hp : Shape h (pre ++ P :: B :: post) fl) :
    PREV_BLKP h.mem B.addr = P.addr ∧ GET_ALLOC h.mem (HDRP P.addr) = P.alloc ∧
    IS_IN_RANGE h P.addr = true ∧ B.addr = P.addr + P.size := by
  have hP : P ∈ pre ++ P :: B :: post := by simp
  have hB : B ∈ pre ++ P :: B :: post := by simp
  obtain ⟨c1, c2, c3⟩ := Chain_one _ _ _ _ _ _ hp.chain
  have hBa : B.addr = P.addr + P.size := c3.1
  have rP := hp.reads P hP
  have hPo := hp.blocks_ok P hP
  have hBo := hp.blocks_ok B hB
  have hbrk := hp.brk_le
  refine ⟨?_, rP.2.2.1, rP.2.2.2.1, hBa⟩
  unfold PREV_BLKP DSIZE WSIZE
  rw [usub_eq B.addr (2 * 4) (by omega) (by omega),
    show B.addr - 2 * 4 = P.addr + P.size - 8 by omega,
    rP.2.2.2.2.2, usub_eq B.addr P.size (by omega) (by omega)]
  omega

/-- For the physically first block the word in front of its header is the padding
word; when that holds no size bits, `PREV_BLKP` is the block itself. -/
theorem reads_first (h : Heap) (post : List Block) (B : Block) (fl : List Nat)
    (hp : Shape h (B :: post) fl) (hpad : GET h.mem h.mem_start_brk < 8) :
    PREV_BLKP h.mem B.addr = B.addr ∧ GET_ALLOC h.mem (HDRP B.addr) = B.alloc ∧
    IS_IN_RANGE h B.addr = true := by
  have hB : B ∈ B :: post := by simp
  have rB := hp.reads B hB
  have hBa : B.addr = h.mem_start_brk + 8 := hp.chain.1
  have hbrk := hp.brk_le
  have hBo := hp.blocks_ok B hB
  have hz : GET h.mem h.mem_start_brk / 8 * 8 = 0 := by omega
  have hW : B.addr < WORD := by omega
  refine ⟨?_, rB.2.2.1, rB.2.2.2.1⟩
  unfold PREV_BLKP DSIZE WSIZE
  rw [usub_eq B.addr (2 * 4) (by omega) hW,
    show B.addr - 2 * 4 = h.mem_start_brk by omega, GET_SIZE_eq, hz,
    usub_eq B.addr 0 (by omega) hW]
  rfl

/-- A byte outside the free blocks is outside the link words of the free list. -/
theorem OutsideFree.links {h : Heap} {bl : List Block} {fl : List Nat} (hwf : Valid h bl fl)
    {a : Nat} (ho : OutsideFree bl a) : ∀ p ∈ fl, a < p ∨ p + 8 ≤ a := by
  intro p hp
  obtain ⟨b, hb, rfl⟩ := hwf.1.nodes p hp
  have h0 := (hwf.2 b hb).1 hp
  have := ho b hb h0
  have := hwf.1.blocks_ok b hb
  omega

theorem mem_of_mem_erase2 {fl : List Nat} {p x y : Nat} (h : p ∈ (fl.erase x).erase y) :
    p ∈ fl := List.mem_of_mem_erase (List.mem_of_mem_erase h)

/-- Case 1 of `mm_free`: the successor is allocated and the word in front of the
header sends `PREV_BLKP` to an allocated block inside the arena. -/
theorem mm_free_caseA (h : Heap) (pre post : List Block) (B N : Block) (fl : List Nat)
    (hwf : Valid h (pre ++ B :: N :: post) fl) (hB : B.alloc = 1) (hN1 : N.alloc ≠ 0)
    (hq1 : GET_ALLOC h.mem (HDRP (PREV_BLKP h.mem B.addr)) ≠ 0)
    (hq2 : IS_IN_RANGE h (PREV_BLKP h.mem B.addr) = true) :
    FreeOut h B (pre ++ B :: N :: post) (pre ++ ⟨B.addr, B.size, 0⟩ :: N :: post)
      (B.addr :: fl) ∧
    (mm_free h B.addr).root = B.addr ∧ GET (mm_free h B.addr).mem (B.addr + 4) = 0 := by
  have hp := hwf.1
  have hBm : B ∈ pre ++ B :: N :: post := by simp
  have hNm : N ∈ pre ++ B :: N :: post := by simp
  obtain ⟨r1, r3, r5, hNa⟩ := reads_next h pre post B N fl hp
  obtain ⟨c1, c2, c3⟩ := Chain_one _ _ _ _ _ _ hp.chain
  have hBo := hp.blocks_ok B hBm
  have hNo := hp.blocks_ok N hNm
  have hbrk := hp.brk_le
  have rB := hp.reads B hBm
  have hmm : mm_free h B.addr = insertNewBlock (updateBlockTags h B.addr
      (B.addr + B.size - B.addr)) B.addr := by
    simp only [mm_free, r1, r3, r5, hq2]
    simp only [ne_eq, hq1, hN1, not_false_eq_true, decide_True, Bool.and_true, if_true]
    rw [rB.2.1, PACK_zero]
    congr 2
    omega
  have hnot : ∀ b ∈ [B], b.addr ∉ fl := by
    intro b hb
    rw [List.mem_singleton.1 hb]
    exact hwf.no_node _ hBm (by omega)
  obtain ⟨f1, f2, f3, f4, f5⟩ := free_core_Valid h pre [B] (N :: post) fl B.addr
    (B.addr + B.size) (by simpa using hp) c1 c2 c3 (by simp) hnot
    (fun b hb => hwf.2 b (by
      rcases hb with hb | hb
      · exact List.mem_append_left _ hb
      · exact List.mem_append_right _ (List.mem_cons_of_mem _ hb)))
  rw [← hmm] at f1 f2 f3 f4 f5
  have hsz : B.addr + B.size - B.addr = B.size := by omega
  rw [hsz] at f1
  refine ⟨⟨f1, f4, ?_⟩, f2, f3⟩
  intro a ho hBo1
  have hl := ho.links hwf
  unfold Block.outside at hBo1
  exact f5 a (by omega) (by omega) hl

/-- Case 3 of `mm_free`: the successor is free and the word in front of the header
sends `PREV_BLKP` to an allocated block inside the arena. -/
theorem mm_free_caseB (h : Heap) (pre post : List Block) (B N : Block) (fl : List Nat)
    (hwf : Valid h (pre ++ B :: N :: post) fl) (hB : B.alloc = 1) (hN0 : N.alloc = 0)
    (hq1 : GET_ALLOC h.mem (HDRP (PREV_BLKP h.mem B.addr)) ≠ 0)
    (hq2 : IS_IN_RANGE h (PREV_BLKP h.mem B.addr) = true) :
    FreeOut h B (pre ++ B :: N :: post) (pre ++ ⟨B.addr, B.size + N.size, 0⟩ :: post)
      (B.addr :: fl.erase N.addr) ∧
    (mm_free h B.addr).root = B.addr ∧ GET (mm_free h B.addr).mem (B.addr + 4) = 0 := by
  have hp := hwf.1
  have hBm : B ∈ pre ++ B :: N :: post := by simp
  have hNm : N ∈ pre ++ B :: N :: post := by simp
  obtain ⟨r1, r3, r5, hNa⟩ := reads_next h pre post B N fl hp
  obtain ⟨c1, c2, c3⟩ := Chain_one _ _ _ _ _ _ hp.chain
  have hBo := hp.blocks_ok B hBm
  have hNo := hp.blocks_ok N hNm
  have hbrk := hp.brk_le
  have hNf : N.addr ∈ fl := (hwf.2 N hNm).2 hN0
  obtain ⟨hp1, e1, e2⟩ := removeBlock_Shape h _ fl N.addr hp hNf
  have rB := hp1.reads B hBm
  have rN := hp1.reads N hNm
  have hmm : mm_free h B.addr = insertNewBlock (updateBlockTags
      (removeBlock h N.addr) B.addr (N.addr + N.size - B.addr)) B.addr := by
    simp only [mm_free, r1, r3, r5, hq2, hN0]
    simp only [ne_eq, hq1, not_true_eq_false, not_false_eq_true, decide_False, decide_True,
      Bool.false_and, Bool.and_false, Bool.and_true, Bool.true_and, if_false, if_true,
      Bool.false_eq_true]
    rw [rB.2.1, rN.2.1, PACK_zero, uadd_eq B.size N.size (by omega)]
    congr 2
    omega
  obtain ⟨d1, d2, d3⟩ := Chain_one _ _ _ _ _ _ hp1.chain
  obtain ⟨_, d4, d5⟩ := Chain_one_at _ [] post N _ _ _ d3 hNa
  have hnot : ∀ b ∈ [B, N], b.addr ∉ fl.erase N.addr := by
    intro b hb
    simp only [List.mem_cons, List.mem_singleton, List.not_mem_nil, or_false] at hb
    rcases hb with rfl | rfl
    · exact fun hx => hwf.no_node _ hBm (by omega) (List.mem_of_mem_erase hx)
    · exact not_mem_erase_self fl _ hp.nodup
  obtain ⟨f1, f2, f3, f4, f5⟩ := free_core_Valid _ pre [B, N] post (fl.erase N.addr) B.addr
    (B.addr + B.size + N.size) (by simpa using hp1) d1 (Chain_two _ [B] [N] _ _ _ d2 d4) d5
    (by simp) hnot
    (fun b hb => by
      have hbm : b ∈ pre ++ B :: N :: post := by
        rcases hb with hb | hb
        · exact List.mem_append_left _ hb
        · exact List.mem_append_right _ (List.mem_cons_of_mem _ (List.mem_cons_of_mem _ hb))
      have hne : b.addr ≠ N.addr := by
        rcases hb with hb | hb
        · have := Chain_mem _ _ _ _ c1 b hb
          omega
        · have := Chain_mem _ _ _ _ d5 b hb
          omega
      rw [List.mem_erase_of_ne hne]
      exact hwf.2 b hbm)
  have hsz : N.addr + N.size - B.addr = B.addr + B.size + N.size - B.addr := by omega
  rw [hsz] at hmm
  rw [← hmm] at f1 f2 f3 f4 f5
  have hsz2 : B.addr + B.size + N.size - B.addr = B.size + N.size := by omega
  rw [hsz2] at f1
  refine ⟨⟨f1, e1.trans_same f4, ?_⟩, f2, f3⟩
  intro a ho hBo1
  have hl := ho.links hwf
  have hNout := ho N hNm hN0
  unfold Block.outside at hBo1
  rw [f5 a (by omega) (by omega) (fun p hp' => hl p (List.mem_of_mem_erase hp'))]
  exact e2 a hl

/-- Case 2 of `mm_free`: the predecessor is free, the successor allocated. -/
theorem mm_free_caseC (h : Heap) (pre post : List Block) (P B N : Block) (fl : List Nat)
    (hwf : Valid h (pre ++ P :: B :: N :: post) fl) (hB : B.alloc = 1)
    (hP0 : P.alloc = 0) (hN1 : N.alloc ≠ 0) :
    FreeOut h B (pre ++ P :: B :: N :: post) (pre ++ ⟨P.addr, P.size + B.size, 0⟩ :: N :: post)
      (P.addr :: fl.erase P.addr) ∧
    (mm_free h B.addr).root = P.addr ∧ GET (mm_free h B.addr).mem (P.addr + 4) = 0 := by
  have hp := hwf.1
  have hPm : P ∈ pre ++ P :: B :: N :: post := by simp
  have hBm : B ∈ pre ++ P :: B :: N :: post := by simp
  have hNm : N ∈ pre ++ P :: B :: N :: post := by simp
  obtain ⟨r1, r3, r5, _⟩ := reads_next h (pre ++ [P]) post B N fl (by simpa using hp)
  obtain ⟨r2, r4, r6, _⟩ := reads_prev h pre (N :: post) P B fl hp
  obtain ⟨c1, c2, c3, c4, _, _, _⟩ := Chain_three _ _ _ _ _ _ _ _ hp.chain
  have hPo := hp.blocks_ok P hPm
  have hBo := hp.blocks_ok B hBm
  have hNo := hp.blocks_ok N hNm
  have hbrk := hp.brk_le
  obtain ⟨hp1, e1, e2⟩ := removeBlock_Shape h _ fl P.addr hp ((hwf.2 P hPm).2 hP0)
  have rP := hp1.reads P hPm
  have rB := hp1.reads B hBm
  have hmm : mm_free h B.addr = insertNewBlock (updateBlockTags
      (removeBlock h P.addr) P.addr (N.addr - P.addr)) P.addr := by
    simp only [mm_free, r1, r2, r3, r4, r5, r6, hP0]
    simp only [ne_eq, hN1, not_true_eq_false, not_false_eq_true, decide_False, decide_True,
      Bool.false_and, Bool.and_false, Bool.and_true, Bool.true_and, if_false, if_true,
      Bool.false_eq_true]
    rw [rP.2.1, rB.2.1, PACK_zero, uadd_eq P.size B.size (by omega)]
    congr 2
    omega
  obtain ⟨d1, d2, d3, d4, d5, d6, d7⟩ := Chain_three _ _ _ _ _ _ _ _ hp1.chain
  have hnot : ∀ b ∈ [P, B], b.addr ∉ fl.erase P.addr := by
    intro b hb
    simp only [List.mem_cons, List.mem_singleton, List.not_mem_nil, or_false] at hb
    rcases hb with rfl | rfl
    · exact not_mem_erase_self fl _ hp.nodup
    · exact fun hx => hwf.no_node _ hBm (by omega) (List.mem_of_mem_erase hx)
  obtain ⟨f1, f2, f3, f4, f5⟩ := free_core_Valid _ pre [P, B] (N :: post) _ P.addr N.addr
    (by simpa using hp1) d1 (Chain_two _ [P] [B] _ _ _ d5 d6)
    (Chain_two _ [N] post _ _ _ d7 d4) (by simp) hnot
    (fun b hb => by
      have hbm : b ∈ pre ++ P :: B :: N :: post := by
        rcases hb with hb | hb
        · exact List.mem_append_left _ hb
        · exact List.mem_append_right _ (List.mem_cons_of_mem _ (List.mem_cons_of_mem _ hb))
      have hne : b.addr ≠ P.addr := by
        rcases hb with hb | hb
        · have := Chain_mem _ _ _ _ c1 b hb
          omega
        · have := Chain_mem _ _ _ _ (Chain_two _ [N] post _ _ _ d7 d4) b hb
          omega
      rw [List.mem_erase_of_ne hne]
      exact hwf.2 b hbm)
  rw [← hmm] at f1 f2 f3 f4 f5
  have hsz : N.addr - P.addr = P.size + B.size := by omega
  rw [hsz] at f1
  refine ⟨⟨f1, e1.trans_same f4, ?_⟩, f2, f3⟩
  intro a ho hBo1
  have hl := ho.links hwf
  have hPout := ho P hPm hP0
  unfold Block.outside at hBo1
  rw [f5 a (by omega) (by omega) (fun p hp' => hl p (List.mem_of_mem_erase hp'))]
  exact e2 a hl

/-- Case 4 of `mm_free`: both neighbours are free. -/
theorem mm_free_caseD (h : Heap) (pre post : List Block) (P B N : Block) (fl : List Nat)
    (hwf : Valid h (pre ++ P :: B :: N :: post) fl) (hB : B.alloc = 1)
    (hP0 : P.alloc = 0) (hN0 : N.alloc = 0) :
    FreeOut h B (pre ++ P :: B :: N :: post)
      (pre ++ ⟨P.addr, P.size + B.size + N.size, 0⟩ :: post)
      (P.addr :: (fl.erase P.addr).erase N.addr) ∧
    (mm_free h B.addr).root = P.addr ∧ GET (mm_free h B.addr).mem (P.addr + 4) = 0 := by
  have hp := hwf.1
  have hPm : P ∈ pre ++ P :: B :: N :: post := by simp
  have hBm : B ∈ pre ++ P :: B :: N :: post := by simp
  have hNm : N ∈ pre ++ P :: B :: N :: post := by simp
  obtain ⟨r1, r3, r5, _⟩ := reads_next h (pre ++ [P]) post B N fl (by simpa using hp)
  obtain ⟨r2, r4, r6, _⟩ := reads_prev h pre (N :: post) P B fl hp
  obtain ⟨c1, c2, c3, c4, _, _, _⟩ := Chain_three _ _ _ _ _ _ _ _ hp.chain
  have hPo := hp.blocks_ok P hPm
  have hBo := hp.blocks_ok B hBm
  have hNo := hp.blocks_ok N hNm
  have hbrk := hp.brk_le
  obtain ⟨hp1, e1, e2⟩ := removeBlock_Shape h _ fl P.addr hp ((hwf.2 P hPm).2 hP0)
  have hN1 : N.addr ∈ fl.erase P.addr :=
    (List.mem_erase_of_ne (by omega)).2 ((hwf.2 N hNm).2 hN0)
  obtain ⟨hp2, e3, e4⟩ := removeBlock_Shape _ _ _ N.addr hp1 hN1
  have rP := hp2.reads P hPm
  have rB := hp2.reads B hBm
  have rN := hp2.reads N hNm
  have hmm : mm_free h B.addr = insertNewBlock (updateBlockTags
      (removeBlock (removeBlock h P.addr) N.addr) P.addr
      (N.addr + N.size - P.addr)) P.addr := by
    simp only [mm_free, r1, r2, r3, r4, r5, r6, hP0, hN0]
    simp only [ne_eq, not_true_eq_false, decide_False, decide_True, Bool.false_and,
      Bool.and_false, Bool.and_true, Bool.true_and, if_false, if_true, Bool.false_eq_true]
    rw [rP.2.1, rB.2.1, rN.2.1, PACK_zero, uadd_eq P.size B.size (by omega),
      uadd_eq (P.size + B.size) N.size (by omega)]
    congr 2
    omega
  obtain ⟨d1, d2, d3, d4, d5, d6, d7⟩ := Chain_three _ _ _ _ _ _ _ _ hp2.chain
  have hc2 : Chain (removeBlock (removeBlock h P.addr) N.addr).mem [P, B, N] P.addr
      (N.addr + N.size) := Chain_two _ [P] [B, N] _ _ _ d5 (Chain_two _ [B] [N] _ _ _ d6 d7)
  have hnot : ∀ b ∈ [P, B, N], b.addr ∉ (fl.erase P.addr).erase N.addr := by
    intro b hb
    simp only [List.mem_cons, List.mem_singleton, List.not_mem_nil, or_false] at hb
    rcases hb with rfl | rfl | rfl
    · exact fun hx => not_mem_erase_self fl _ hp.nodup (List.mem_of_mem_erase hx)
    · exact fun hx => hwf.no_node _ hBm (by omega) (mem_of_mem_erase2 hx)
    · exact not_mem_erase_self _ _ hp1.nodup
  obtain ⟨f1, f2, f3, f4, f5⟩ := free_core_Valid _ pre [P, B, N] post _ P.addr (N.addr + N.size)
    (by simpa using hp2) d1 hc2 d4 (by simp) hnot
    (fun b hb => by
      have hbm : b ∈ pre ++ P :: B :: N :: post := by
        rcases hb with hb | hb
        · exact List.mem_append_left _ hb
        · exact List.mem_append_right _ (List.mem_cons_of_mem _ (List.mem_cons_of_mem _
            (List.mem_cons_of_mem _ hb)))
      have hne : b.addr ≠ P.addr ∧ b.addr ≠ N.addr := by
        rcases hb with hb | hb
        · have := Chain_mem _ _ _ _ c1 b hb
          omega
        · have := Chain_mem _ _ _ _ d4 b hb
          omega
      rw [List.mem_erase_of_ne hne.2, List.mem_erase_of_ne hne.1]
      exact hwf.2 b hbm)
  rw [← hmm] at f1 f2 f3 f4 f5
  have hsz : N.addr + N.size - P.addr = P.size + B.size + N.size := by omega
  rw [hsz] at f1
  refine ⟨⟨f1, (e1.trans_same e3).trans_same f4, ?_⟩, f2, f3⟩
  intro a ho hBo1
  have hl := ho.links hwf
  have hPout := ho P hPm hP0
  have hNout := ho N hNm hN0
  unfold Block.outside at hBo1
  rw [f5 a (by omega) (by omega) (fun p hp' => hl p (mem_of_mem_erase2 hp')),
    e4 a (fun p hp' => hl p (List.mem_of_mem_erase hp'))]
  exact e2 a hl

/-- The header and the footer of a block of a well formed heap, as the macros
of the source address them. -/
theorem Shape.tag_words {h : Heap} {bl : List Block} {fl : List Nat} (hp : Shape h bl fl)
    (b : Block) (hb : b ∈ bl) :
    GET h.mem (HDRP b.addr) = b.tag ∧ GET h.mem (FTRP h.mem b.addr) = b.tag ∧
    PREVP b.addr = b.addr + 4 := by
  have hbo := hp.blocks_ok b hb
  have hr := hp.reads b hb
  have hbrk := hp.brk_le
  refine ⟨by rw [hr.1]; exact hbo.2.2.2.2.2.2.1, ?_, ?_⟩
  · unfold FTRP DSIZE WSIZE
    rw [hr.2.1, uadd_eq b.addr b.size (by omega), usub_eq (b.addr + b.size) (2 * 4) (by omega)
      (by omega)]
    exact hbo.2.2.2.2.2.2.2
  · unfold PREVP WSIZE
    exact uadd_eq _ _ (by omega)

/-- The four cases of `mm_free` for a block with both neighbours in the arena. -/
theorem mm_free_inner (h : Heap) (pre post : List Block) (P B N : Block) (fl : List Nat)
    (hwf : Valid h (pre ++ P :: B :: N :: post) fl) (hB : B.alloc = 1) :
    Valid (mm_free h B.addr) (freedBlocks pre post P B N)
      (freedStart P B :: (fl.erase P.addr).erase N.addr) ∧
    (mm_free h B.addr).root = freedStart P B ∧
    GET (mm_free h B.addr).mem (freedStart P B + 4) = 0 := by
  have hPm : P ∈ pre ++ P :: B :: N :: post := by simp
  have hNm : N ∈ pre ++ P :: B :: N :: post := by simp
  obtain ⟨r2, r4, r6, _⟩ := reads_prev h pre (N :: post) P B fl hwf.1
  have hwf2 : Valid h ((pre ++ [P]) ++ B :: N :: post) fl := by simpa using hwf
  by_cases hP : P.alloc = 0 <;> by_cases hN : N.alloc = 0
  · have := mm_free_caseD h pre post P B N fl hwf hB hP hN
    have t2 := And.intro this.1.1 this.2
    simpa [freedBlocks, freedStart, freedSize, hP, hN] using t2
  · have := mm_free_caseC h pre post P B N fl hwf hB hP hN
    rw [List.erase_of_not_mem (fun hx => hwf.no_node N hNm hN (List.mem_of_mem_erase hx))]
    have t2 := And.intro this.1.1 this.2
    simpa [freedBlocks, freedStart, freedSize, hP, hN] using t2
  · have := mm_free_caseB h (pre ++ [P]) post B N fl hwf2 hB hN (by rw [r2, r4]; exact hP)
      (by rw [r2]; exact r6)
    rw [List.erase_of_not_mem (hwf.no_node P hPm hP)]
    have t2 := And.intro this.1.1 this.2
    simpa [freedBlocks, freedStart, freedSize, hP, hN] using t2
  · have := mm_free_caseA h (pre ++ [P]) post B N fl hwf2 hB hN (by rw [r2, r4]; exact hP)
      (by rw [r2]; exact r6)
    rw [List.erase_of_not_mem (hwf.no_node P hPm hP),
      List.erase_of_not_mem (hwf.no_node N hNm hN)]
    have t2 := And.intro this.1.1 this.2
    simpa [freedBlocks, freedStart, freedSize, hP, hN] using t2

/-- The call `mm_free` at any position: for the physically last block it leaves
the heap as it is; everywhere else it frees the block.  The heap stays well
formed, a non-empty free list stays non-empty, the other allocated blocks
stay as they are, and no block becomes allocated. -/
theorem mm_free_ok (h : Heap) (bl : List Block) (fl : List Nat) (B : Block)
    (hwf : Valid h bl fl) (hpad : GET h.mem h.mem_start_brk < 8) (hBm : B ∈ bl)
    (hB : B.alloc = 1) :
    ∃ bl1 fl1, FreeOut h B bl bl1 fl1 ∧ (fl ≠ [] → fl1 ≠ []) ∧
      (∀ b ∈ bl, b.alloc = 1 → b ≠ B → b ∈ bl1) ∧ (∀ b ∈ bl1, b.alloc = 1 → b ∈ bl) ∧
      (NoAdj bl → NoAdj bl1) := by
  obtain ⟨pre, post, rfl⟩ := List.append_of_mem hBm
  cases post with
  | nil =>
    have hp := hwf.1
    have rB := hp.reads B hBm
    obtain ⟨c1, c2, c3⟩ := Chain_one _ _ _ _ _ _ hp.chain
    have hend : B.addr + B.size = h.mem_brk + 8 := c3
    have hlo := hp.lo_pos
    have hn : IS_IN_RANGE h (NEXT_BLKP h.mem B.addr) = false := by
      rw [rB.2.2.2.2.1, hend]
      unfold IS_IN_RANGE mem_heap_lo mem_heap_hi
      simp
      omega
    have hmm := mm_free_next_out_of_range h B.addr hn
    refine ⟨pre ++ [B], fl, ⟨?_, ?_, ?_⟩, fun hne => hne, fun b hb _ _ => hb, fun b hb _ => hb,
      fun hna => hna⟩
    · rw [hmm]; exact hwf
    · rw [hmm]; exact SameProvider.refl_same h
    · intro a _ _; rw [hmm]
  | cons N post =>
    have hNm : N ∈ pre ++ B :: N :: post := by simp
    rcases List.eq_nil_or_concat pre with rfl | ⟨pre1, P, hpre⟩
    · obtain ⟨q1, q2, q3⟩ := reads_first h (N :: post) B fl hwf.1 hpad
      have hq1 : GET_ALLOC h.mem (HDRP (PREV_BLKP h.mem B.addr)) ≠ 0 := by
        rw [q1, q2, hB]; omega
      have hq2 : IS_IN_RANGE h (PREV_BLKP h.mem B.addr) = true := by rw [q1]; exact q3
      by_cases hN : N.alloc = 0
      · have := (mm_free_caseB h [] post B N fl hwf hB hN hq1 hq2).1
        refine ⟨_, _, this, fun _ => by simp, ?_, ?_,
          fun hna => NoAdj_merge [] [B, N] post _ hna (by simp) (NoAdj_after [B] post N hna hN)⟩
        · intro b hb hb1 hbB
          simp only [List.nil_append, List.mem_cons] at hb ⊢
          rcases hb with rfl | rfl | hb
          · exact absurd rfl hbB
          · omega
          · exact Or.inr hb
        · intro b hb hb1
          simp only [List.nil_append, List.mem_cons] at hb ⊢
          rcases hb with rfl | hb
          · simp at hb1
          · exact Or.inr (Or.inr hb)
      · have := (mm_free_caseA h [] post B N fl hwf hB hN hq1 hq2).1
        refine ⟨_, _, this, fun _ => by simp, ?_, ?_,
          fun hna => NoAdj_merge [] [B] (N :: post) _ hna (by simp) (by simpa using hN)⟩
        · intro b hb hb1 hbB
          simp only [List.nil_append, List.mem_cons] at hb ⊢
          rcases hb with rfl | rfl | hb
          · exact absurd rfl hbB
          · exact Or.inr (Or.inl rfl)
          · exact Or.inr (Or.inr hb)
        · intro b hb hb1
          simp only [List.nil_append, List.mem_cons] at hb ⊢
          rcases hb with rfl | rfl | hb
          · simp at hb1
          · exact Or.inr (Or.inl rfl)
          · exact Or.inr (Or.inr hb)
    · rw [List.concat_eq_append] at hpre
      subst hpre
      have hwf2 : Valid h (pre1 ++ P :: B :: N :: post) fl := by simpa using hwf
      have hPm : P ∈ pre1 ++ P :: B :: N :: post := by simp
      obtain ⟨r2, r4, r6, _⟩ := reads_prev h pre1 (N :: post) P B fl hwf2.1
      have e0 : pre1 ++ [P] ++ B :: N :: post = pre1 ++ P :: B :: N :: post := by simp
      by_cases hP : P.alloc = 0 <;> by_cases hN : N.alloc = 0
      · have := (mm_free_caseD h pre1 post P B N fl hwf2 hB hP hN).1
        rw [← e0] at this
        refine ⟨_, _, this, fun _ => by simp, ?_, ?_,
          fun hna => NoAdj_merge pre1 [P, B, N] post _ (by simpa using hna)
          (NoAdj_before pre1 (B :: N :: post) P (by simpa using hna) hP)
          (NoAdj_after (pre1 ++ [P, B]) post N (by simpa using hna) hN)⟩
        · intro b hb hb1 hbB
          simp only [List.append_assoc, List.mem_append, List.mem_cons, List.mem_singleton,
            List.not_mem_nil, or_false] at hb ⊢
          rcases hb with hb | rfl | rfl | rfl | hb
          · exact Or.inl hb
          · omega
          · exact absurd rfl hbB
          · omega
          · exact Or.inr (Or.inr hb)
        · intro b hb hb1
          simp only [List.append_assoc, List.mem_append, List.mem_cons, List.mem_singleton,
            List.not_mem_nil, or_false] at hb ⊢
          rcases hb with hb | rfl | hb
          · exact Or.inl hb
          · simp at hb1
          · exact Or.inr (Or.inr (Or.inr (Or.inr hb)))
      · have := (mm_free_caseC h pre1 post P B N fl hwf2 hB hP hN).1
        rw [← e0] at this
        refine ⟨_, _, this, fun _ => by simp, ?_, ?_,
          fun hna => NoAdj_merge pre1 [P, B] (N :: post) _ (by simpa using hna)
          (NoAdj_before pre1 (B :: N :: post) P (by simpa using hna) hP) (by simpa using hN)⟩
        · intro b hb hb1 hbB
          simp only [List.append_assoc, List.mem_append, List.mem_cons, List.mem_singleton,
            List.not_mem_nil, or_false] at hb ⊢
          rcases hb with hb | rfl | rfl | rfl | hb
          · exact Or.inl hb
          · omega
          · exact absurd rfl hbB
          · exact Or.inr (Or.inr (Or.inl rfl))
          · exact Or.inr (Or.inr (Or.inr hb))
        · intro b hb hb1
          simp only [List.append_assoc, List.mem_append, List.mem_cons, List.mem_singleton,
            List.not_mem_nil, or_false] at hb ⊢
          rcases hb with hb | rfl | rfl | hb
          · exact Or.inl hb
          · simp at hb1
          · exact Or.inr (Or.inr (Or.inr (Or.inl rfl)))
          · exact Or.inr (Or.inr (Or.inr (Or.inr hb)))
      · have := (mm_free_caseB h (pre1 ++ [P]) post B N fl hwf hB hN
          (by rw [r2, r4]; exact hP) (by rw [r2]; exact r6)).1
        refine ⟨_, _, this, fun _ => by simp, ?_, ?_,
          fun hna => NoAdj_merge (pre1 ++ [P]) [B, N] post _ (by simpa using hna)
          (by simpa using hP) (NoAdj_after (pre1 ++ [P] ++ [B]) post N (by simpa using hna) hN)⟩
        · intro b hb hb1 hbB
          simp only [List.append_assoc, List.mem_append, List.mem_cons, List.mem_singleton,
            List.not_mem_nil, or_false] at hb ⊢
          rcases hb with hb | rfl | rfl | rfl | hb
          · exact Or.inl hb
          · exact Or.inr (Or.inl rfl)
          · exact absurd rfl hbB
          · omega
          · exact Or.inr (Or.inr (Or.inr hb))
        · intro b hb hb1
          simp only [List.append_assoc, List.mem_append, List.mem_cons, List.mem_singleton,
            List.not_mem_nil, or_false] at hb ⊢
          rcases hb with hb | rfl | rfl | hb
          · exact Or.inl hb
          · exact Or.inr (Or.inl rfl)
          · simp at hb1
          · exact Or.inr (Or.inr (Or.inr (Or.inr hb)))
      · have := (mm_free_caseA h (pre1 ++ [P]) post B N fl hwf hB hN
          (by rw [r2, r4]; exact hP) (by rw [r2]; exact r6)).1
        refine ⟨_, _, this, fun _ => by simp, ?_, ?_,
          fun hna => NoAdj_merge (pre1 ++ [P]) [B] (N :: post) _ (by simpa using hna)
          (by simpa using hP) (by simpa using hN)⟩
        · intro b hb hb1 hbB
          simp only [List.append_assoc, List.mem_append, List.mem_cons, List.mem_singleton,
            List.not_mem_nil, or_false] at hb ⊢
          rcases hb with hb | rfl | rfl | rfl | hb
          · exact Or.inl hb
          · exact Or.inr (Or.inl rfl)
          · exact absurd rfl hbB
          · exact Or.inr (Or.inr (Or.inr (Or.inl rfl)))
          · exact Or.inr (Or.inr (Or.inr (Or.inr hb)))
        · intro b hb hb1
          simp only [List.append_assoc, List.mem_append, List.mem_cons, List.mem_singleton,
            List.not_mem_nil, or_false] at hb ⊢
          rcases hb with hb | rfl | rfl | rfl | hb
          · exact Or.inl hb
          · exact Or.inr (Or.inl rfl)
          · simp at hb1
          · exact Or.inr (Or.inr (Or.inr (Or.inl rfl)))
          · exact Or.inr (Or.inr (Or.inr (Or.inr hb)))

/-! ## Growing the arena: `mm_init`, `extend_heap` and `coalesce` -/

/-- Writes of two words that do not overlap commute. -/
theorem PUT_comm (m : Mem) (p v q w : Nat) (h : p + 4 ≤ q ∨ q + 4 ≤ p) :
    PUT (PUT m p v) q w = PUT (PUT m q w) p v := by
  funext a
  unfold PUT
  by_cases h1 : a = q
  · subst h1
    simp only [if_true]
    rw [if_neg (by omega), if_neg (by omega), if_neg (by omega), if_neg (by omega)]
  by_cases h2 : a = q + 1
  · subst h2
    rw [if_neg (by omega), if_pos rfl]
    rw [if_neg (by omega), if_neg (by omega), if_neg (by omega), if_neg (by omega)]
    rw [if_neg (by omega), if_pos rfl]
  by_cases h3 : a = q + 2
  · subst h3
    rw [if_neg (by omega), if_neg (by omega), if_pos rfl]
    rw [if_neg (by omega), if_neg (by omega), if_neg (by omega), if_neg (by omega)]
    rw [if_neg (by omega), if_neg (by omega), if_pos rfl]
  by_cases h4 : a = q + 3
  · subst h4
    rw [if_neg (by omega), if_neg (by omega), if_neg (by omega), if_pos rfl]
    rw [if_neg (by omega), if_neg (by omega), if_neg (by omega), if_neg (by omega)]
    rw [if_neg (by omega), if_neg (by omega), if_neg (by omega), if_pos rfl]
  rw [if_neg h1, if_neg h2, if_neg h3, if_neg h4]
  simp only [h1, h2, h3, h4, if_false]

theorem Heap.ext_fields (a b : Heap) (e1 : a.mem = b.mem) (e2 : a.root = b.root)
    (e3 : a.heap_listp = b.heap_listp) (e4 : a.mem_start_brk = b.mem_start_brk)
    (e5 : a.mem_brk = b.mem_brk) (e6 : a.mem_max_addr = b.mem_max_addr)
    (e7 : a.mem_refused = b.mem_refused) : a = b := by
  cases a
  cases b
  simp only at e1 e2 e3 e4 e5 e6 e7
  subst e1 e2 e3 e4 e5 e6 e7
  rfl

/-- Only the memory, the root and the bounds of the arena matter to `Shape`. -/
theorem Shape.of_eq {h h1 : Heap} {bl : List Block} {fl : List Nat} (hp : Shape h bl fl)
    (e1 : h1.mem = h.mem) (e2 : h1.root = h.root) (e3 : h1.mem_start_brk = h.mem_start_brk)
    (e4 : h1.mem_brk = h.mem_brk) : Shape h1 bl fl := by
  obtain ⟨a1, a2, a3, a4, a5, a6, a7⟩ := hp
  exact ⟨by rw [e3]; exact a1, by rw [e3]; exact a2, by rw [e4]; exact a3,
    by rw [e1, e3, e4]; exact a4, by rw [e1, e2]; exact a5, a6, a7⟩

theorem grown_Shape (h : Heap) (bl : List Block) (fl : List Nat) (size : Nat)
    (hp : Shape h bl fl) (hs8 : size % 8 = 0) (h16 : 16 ≤ size)
    (hW : h.mem_brk + size + 16 ≤ WORD) :
    Shape (grown h size) (bl ++ [⟨h.mem_brk + 8, size, 0⟩]) fl ∧
    (∀ a, a < h.mem_brk + 4 → (grown h size).mem a = h.mem a) := by
  have hbyte : ∀ a, a < h.mem_brk + 4 → (grown h size).mem a = h.mem a := by
    intro a ha
    show PUT (PUT h.mem (h.mem_brk + 4) size) (h.mem_brk + size) size a = h.mem a
    rw [PUT_byte_ne _ _ _ _ (by omega), PUT_byte_ne _ _ _ _ (by omega)]
  have hlo := hp.lo_pos
  refine ⟨⟨hp.lo_pos, hp.lo_al, ?_, ?_, ?_, hp.nodup, ?_⟩, hbyte⟩
  · show h.mem_brk + size + 16 ≤ WORD
    exact hW
  · show Chain (grown h size).mem _ (h.mem_start_brk + 8) (h.mem_brk + size + 8)
    refine Chain_two _ _ _ _ (h.mem_brk + 8) _ ?_ ?_
    · refine Chain_frame_bytes _ _ _ _ _ hp.chain (by omega) ?_
      intro b hb a ha
      have := Chain_mem _ _ _ _ hp.chain b hb
      unfold Block.tagByte at ha
      exact hbyte a (by omega)
    · refine ⟨rfl, hs8, h16, by simp, ?_, ?_, ?_⟩
      · show GET (PUT (PUT h.mem (h.mem_brk + 4) size) (h.mem_brk + size) size)
          (h.mem_brk + 8 - 4) = size + 0
        rw [GET_PUT_ne _ _ _ _ (by omega), show h.mem_brk + 8 - 4 = h.mem_brk + 4 by omega,
          GET_PUT_same, Nat.add_zero]
        unfold WORD at *
        omega
      · show GET (PUT (PUT h.mem (h.mem_brk + 4) size) (h.mem_brk + size) size)
          (h.mem_brk + 8 + size - 8) = size + 0
        rw [show h.mem_brk + 8 + size - 8 = h.mem_brk + size by omega, GET_PUT_same,
          Nat.add_zero]
        unfold WORD at *
        omega
      · show h.mem_brk + 8 + size = h.mem_brk + size + 8
        omega
  · show FreeList (grown h size).mem fl 0 h.root
    refine FreeList_frame _ _ _ _ _ hp.flist ?_
    intro p hpf
    have := hp.nodes_ok p hpf
    exact ⟨GET_congr _ _ _ (fun a _ _ => hbyte a (by omega)),
      GET_congr _ _ _ (fun a _ _ => hbyte a (by omega))⟩
  · intro p hpf
    obtain ⟨b, hb, e⟩ := hp.nodes p hpf
    exact ⟨b, List.mem_append_left _ hb, e⟩

/-- When the provider refuses, `extend_heap` returns `NULL` and the refusal is
on record. -/
theorem extend_heap_refused (h : Heap) (words size : Nat) (hw : words % 2 = 0)
    (hsz : words * 4 = size) (hlt : size < WORD) (hfit : h.mem_max_addr < h.mem_brk + size) :
    (extend_heap h words).1.mem_refused = true ∧ (extend_heap h words).2 = NULL := by
  have e1 : umul words WSIZE = size := by
    unfold umul WSIZE
    rw [hsz]
    exact Nat.mod_eq_of_lt hlt
  have hs : mem_sbrk h size = ({ h with mem_refused := true }, MINUS_ONE) := by
    unfold mem_sbrk
    rw [if_pos (by omega)]
  unfold extend_heap
  simp only [hw, ne_eq, OfNat.zero_ne_ofNat, not_true_eq_false, if_false, e1, hs, if_true]
  simp

/-- When the provider does not refuse, `extend_heap` writes the tags of a free
block over the appended bytes, puts the block at the head of the free list
and calls `coalesce` for it. -/
theorem extend_heap_eq (h : Heap) (words size : Nat) (hw : words % 2 = 0)
    (hsz : words * 4 = size) (h16 : 16 ≤ size) (hfit : h.mem_brk + size ≤ h.mem_max_addr)
    (hmax : h.mem_max_addr + 16 ≤ WORD) (hroot : h.root = 0 ∨ h.root + 8 ≤ h.mem_brk) :
    extend_heap h words
      = coalesce (insertNewBlock (grown h size) (h.mem_brk + 8)) (h.mem_brk + 8) := by
  have hW : size < WORD := by omega
  have e1 : umul words WSIZE = size := by
    unfold umul WSIZE
    rw [hsz]
    exact Nat.mod_eq_of_lt hW
  have hb1 : h.mem_brk ≠ MINUS_ONE := by unfold MINUS_ONE; unfold WORD at *; omega
  have e2 : uadd h.mem_brk 4 = h.mem_brk + 4 := uadd_eq _ _ (by omega)
  have e3 : uadd (h.mem_brk + 4) WSIZE = h.mem_brk + 8 := by
    unfold WSIZE; rw [uadd_eq _ _ (by omega)]
  have e4 : PREVP (h.mem_brk + 8) = h.mem_brk + 12 := by
    unfold PREVP WSIZE; rw [uadd_eq _ _ (by omega)]
  have e5 : HDRP (h.mem_brk + 8) = h.mem_brk + 4 := by
    rw [HDRP_eq (h.mem_brk + 8) (by omega) (by omega)]; omega
  have hs : mem_sbrk h size = ({ h with mem_brk := h.mem_brk + size }, h.mem_brk) := by
    unfold mem_sbrk
    rw [if_neg (by omega)]
  rw [insertNewBlock_eq (grown h size) (h.mem_brk + 8) (by omega) (by
    show h.root + 4 < WORD
    omega)]
  unfold extend_heap
  simp only [hw, ne_eq, OfNat.zero_ne_ofNat, not_true_eq_false, if_false, e1, hs]
  simp only [hb1, if_false, e2, e3, PACK_zero, NEXTP, PUT_ADDR, e4, NULL]
  have e6 : FTRP (PUT (PUT (PUT h.mem (h.mem_brk + 4) size) (h.mem_brk + 8) h.root)
      (h.mem_brk + 12) 0) (h.mem_brk + 8) = h.mem_brk + size := by
    unfold FTRP DSIZE WSIZE
    rw [e5, GET_SIZE_eq, GET_PUT_ne _ _ _ _ (by omega), GET_PUT_ne _ _ _ _ (by omega),
      GET_PUT_same, Nat.mod_eq_of_lt hW, show size / 8 * 8 = size by omega,
      uadd_eq _ _ (by omega), usub_eq _ _ (by omega) (by omega)]
    omega
  rw [e6]
  refine congrArg (fun x => coalesce x (h.mem_brk + 8)) ?_
  refine Heap.ext_fields _ _ ?_ rfl rfl rfl rfl rfl rfl
  unfold grown linkHead
  simp only
  by_cases hr : h.root = 0
  · simp only [hr, not_true_eq_false, if_false, if_true]
    rw [PUT_comm _ (h.mem_brk + 12) 0 (h.mem_brk + size) size (by omega),
      PUT_comm _ (h.mem_brk + 8) 0 (h.mem_brk + size) size (by omega)]
  · simp only [hr, not_false_eq_true, if_false, if_true, PREVP, WSIZE]
    have hr8 : h.root + 8 ≤ h.mem_brk := by omega
    rw [uadd_eq h.root 4 (by omega)]
    conv_lhs =>
      rw [PUT_comm _ (h.mem_brk + 12) 0 (h.mem_brk + size) size (by omega),
        PUT_comm _ (h.mem_brk + 12) 0 (h.root + 4) (h.mem_brk + 8) (by omega),
        PUT_comm _ (h.mem_brk + 8) h.root (h.mem_brk + size) size (by omega),
        PUT_comm _ (h.mem_brk + 8) h.root (h.root + 4) (h.mem_brk + 8) (by omega)]

theorem Extends.refl_ext (h : Heap) : Extends h h := ⟨rfl, rfl, rfl, le_refl _, Or.inl rfl⟩

theorem Extends.trans_ext {a b c : Heap} (h1 : Extends a b) (h2 : Extends b c) : Extends a c := by
  obtain ⟨a1, a2, a3, a4, a5⟩ := h1
  obtain ⟨b1, b2, b3, b4, b5⟩ := h2
  refine ⟨b1.trans a1, b2.trans a2, b3.trans a3, le_trans a4 b4, ?_⟩
  rw [a2] at b5
  omega

theorem SameProvider.to_extends {a b : Heap} (h : SameProvider a b) : Extends a b :=
  ⟨h.1, h.2.2.1, h.2.2.2.2, le_of_eq h.2.1.symm, Or.inl h.2.1⟩

/-- The call `mm_init` on a fresh provider that does not refuse: the arena is one
free block of `CHUNKSIZE` bytes, which is the whole free list. -/
theorem mm_init_ok (h0 : Heap) (hf : Fresh h0) (hr : (mm_init h0).2 = 0) :
    Valid (mm_init h0).1 [⟨h0.mem_start_brk + 8, 4096, 0⟩] [h0.mem_start_brk + 8] ∧
    (mm_init h0).1.mem_start_brk = h0.mem_start_brk ∧
    (mm_init h0).1.mem_brk = h0.mem_start_brk + 4096 ∧
    (mm_init h0).1.mem_max_addr = h0.mem_max_addr ∧
    (mm_init h0).1.mem_brk ≤ h0.mem_max_addr ∧
    (mm_init h0).1.mem_refused = false ∧
    (∀ a, a < h0.mem_start_brk + 4 → (mm_init h0).1.mem a = h0.mem a) := by
  obtain ⟨f1, f2, f3, f4, f5⟩ := hf
  have hfit : h0.mem_brk + 4096 ≤ h0.mem_max_addr := by
    by_contra hc
    have hs : mem_sbrk h0 CHUNKSIZE = ({ h0 with mem_refused := true }, MINUS_ONE) := by
      unfold mem_sbrk CHUNKSIZE
      rw [if_pos (by omega)]
    unfold mm_init at hr
    simp only [hs, if_true] at hr
    exact absurd hr (by decide)
  have hs : mem_sbrk h0 4096 = ({ h0 with mem_brk := h0.mem_brk + 4096 }, h0.mem_brk) := by
    unfold mem_sbrk
    rw [if_neg (by omega)]
  have hb1 : h0.mem_brk ≠ MINUS_ONE := by unfold MINUS_ONE; unfold WORD at *; omega
  have e2 : uadd h0.mem_brk 4 = h0.mem_brk + 4 := uadd_eq _ _ (by omega)
  have e3 : uadd (h0.mem_brk + 4) WSIZE = h0.mem_brk + 8 := by
    unfold WSIZE; rw [uadd_eq _ _ (by omega)]
  have e4 : PREVP (h0.mem_brk + 8) = h0.mem_brk + 12 := by
    unfold PREVP WSIZE; rw [uadd_eq _ _ (by omega)]
  have e5 : HDRP (h0.mem_brk + 8) = h0.mem_brk + 4 := by
    rw [HDRP_eq (h0.mem_brk + 8) (by omega) (by omega)]; omega
  have e6 : FTRP (PUT (PUT (PUT h0.mem (h0.mem_brk + 4) 4096) (h0.mem_brk + 8) 0)
      (h0.mem_brk + 12) 0) (h0.mem_brk + 8) = h0.mem_brk + 4096 := by
    unfold FTRP DSIZE WSIZE
    rw [e5, GET_SIZE_eq, GET_PUT_ne _ _ _ _ (by omega), GET_PUT_ne _ _ _ _ (by omega),
      GET_PUT_same, Nat.mod_eq_of_lt (by unfold WORD; omega),
      uadd_eq _ _ (by omega), usub_eq _ _ (by omega) (by omega)]
    omega
  have hp0 : Shape { h0 with root := 0 } [] [] :=
    ⟨f2, f3, by show h0.mem_brk + 16 ≤ WORD; omega, by show h0.mem_start_brk + 8 = h0.mem_brk + 8; omega,
      rfl, List.nodup_nil, fun p hp => absurd hp (List.not_mem_nil _)⟩
  obtain ⟨g1, g2⟩ := grown_Shape _ [] [] 4096 hp0 (by decide) (by decide)
    (by show h0.mem_brk + 4096 + 16 ≤ WORD; omega)
  obtain ⟨i1, i2, i3, i4, i5⟩ := insertNewBlock_Shape _ _ [] (h0.mem_brk + 8) g1
    (List.not_mem_nil _) ⟨_, List.mem_append_right _ (List.mem_singleton_self _), rfl⟩
  have hinit : (mm_init h0).1 = { insertNewBlock (grown { h0 with root := 0 } 4096)
      (h0.mem_brk + 8) with heap_listp := h0.mem_brk + 8 } := by
    rw [insertNewBlock_eq _ (h0.mem_brk + 8) (by omega) (by
      show 0 + 4 < WORD
      unfold WORD; omega)]
    unfold mm_init CHUNKSIZE
    simp only [hs, hb1, if_false, e2, e3, PACK_zero, NEXTP, PUT_ADDR, e4, NULL, e6]
    refine Heap.ext_fields _ _ ?_ rfl rfl rfl rfl rfl rfl
    unfold grown linkHead
    simp only [if_true]
    rw [PUT_comm _ (h0.mem_brk + 12) 0 (h0.mem_brk + 4096) 4096 (by omega),
      PUT_comm _ (h0.mem_brk + 8) 0 (h0.mem_brk + 4096) 4096 (by omega)]
  have hp1 : Shape (mm_init h0).1 [⟨h0.mem_brk + 8, 4096, 0⟩] [h0.mem_brk + 8] := by
    rw [hinit]
    exact i1.of_eq rfl rfl rfl rfl
  have hm : (mm_init h0).1.mem = (insertNewBlock (grown { h0 with root := 0 } 4096)
      (h0.mem_brk + 8)).mem := by rw [hinit]
  have hb : (mm_init h0).1.mem_brk = h0.mem_brk + 4096 := by rw [hinit]; exact i4.2.1
  have hst : (mm_init h0).1.mem_start_brk = h0.mem_start_brk := by rw [hinit]; exact i4.1
  have hmx : (mm_init h0).1.mem_max_addr = h0.mem_max_addr := by rw [hinit]; exact i4.2.2.1
  have hrf : (mm_init h0).1.mem_refused = h0.mem_refused := by rw [hinit]; exact i4.2.2.2.1
  rw [← f1]
  refine ⟨⟨hp1, ?_⟩, hst.trans f1.symm, hb, hmx, by rw [hb]; exact hfit, hrf.trans f5, ?_⟩
  · intro b hb
    rw [List.mem_singleton.1 hb]
    simp
  · intro a ha
    rw [hm, i5 a (by
      intro p hp
      rw [List.mem_singleton.1 hp]
      omega)]
    exact g2 a ha

/-- The call `coalesce` for a free block `Nw` that ends the arena, as `extend_heap`
makes it: the block is merged with its predecessor `L` when that one is
free, and nothing happens otherwise. -/
theorem coalesce_last (h : Heap) (init : List Block) (L Nw : Block) (fl : List Nat)
    (hwf : Valid h (init ++ [L, Nw]) fl) (hN0 : Nw.alloc = 0) :
    ∃ bl1 fl1 R, Valid (coalesce h Nw.addr).1 bl1 fl1 ∧ R ∈ bl1 ∧ R.alloc = 0 ∧
      (coalesce h Nw.addr).2 = R.addr ∧ Nw.size ≤ R.size ∧
      SameProvider h (coalesce h Nw.addr).1 ∧
      (∀ b ∈ init ++ [L, Nw], b.alloc = 1 → b ∈ bl1) ∧
      (∀ b ∈ bl1, b.alloc = 1 → b ∈ init ++ [L, Nw]) ∧
      (∀ a, OutsideFree (init ++ [L, Nw]) a → (coalesce h Nw.addr).1.mem a = h.mem a) ∧
      (NoAdj (init ++ [L]) → NoAdj bl1) := by
  have hp := hwf.1
  have hLm : L ∈ init ++ [L, Nw] := by simp
  have hNm : Nw ∈ init ++ [L, Nw] := by simp
  obtain ⟨r2, r4, r6, hNa⟩ := reads_prev h init [] L Nw fl hp
  obtain ⟨c1, c2, c3⟩ := Chain_one _ _ _ _ _ _ hp.chain
  obtain ⟨_, c4, c5⟩ := Chain_one _ [] [] Nw _ _ c3
  have hend : Nw.addr + Nw.size = h.mem_brk + 8 := c5
  have hLo := hp.blocks_ok L hLm
  have hNo := hp.blocks_ok Nw hNm
  have hbrk := hp.brk_le
  have hlo := hp.lo_pos
  have rN0 := hp.reads Nw hNm
  have r1 : NEXT_BLKP h.mem Nw.addr = h.mem_brk + 8 := by rw [rN0.2.2.2.2.1, hend]
  have r5 : IS_IN_RANGE h (h.mem_brk + 8) = false := by
    unfold IS_IN_RANGE mem_heap_lo mem_heap_hi
    simp
    omega
  by_cases hL : L.alloc = 0
  · have hLf : L.addr ∈ fl := (hwf.2 L hLm).2 hL
    have hNf : Nw.addr ∈ fl := (hwf.2 Nw hNm).2 hN0
    obtain ⟨hp1, e1, e2⟩ := removeBlock_Shape h _ fl L.addr hp hLf
    have hN1 : Nw.addr ∈ fl.erase L.addr := (List.mem_erase_of_ne (by omega)).2 hNf
    obtain ⟨hp2, e3, e4⟩ := removeBlock_Shape _ _ _ Nw.addr hp1 hN1
    have rL := hp2.reads L hLm
    have rN := hp2.reads Nw hNm
    have hmm : coalesce h Nw.addr = (insertNewBlock (updateBlockTags
        (removeBlock (removeBlock h L.addr) Nw.addr) L.addr
        (Nw.addr + Nw.size - L.addr)) L.addr, L.addr) := by
      simp only [coalesce, r1, r2, r4, r5, r6, hL]
      simp only [ne_eq, not_true_eq_false, decide_False, decide_True, Bool.false_and,
        Bool.and_false, Bool.and_true, Bool.true_and, if_false, if_true, Bool.false_eq_true,
        Bool.not_true, Bool.not_false, Bool.or_false, Bool.or_true, Bool.false_or]
      rw [rL.2.1, rN.2.1, PACK_zero, uadd_eq L.size Nw.size (by omega)]
      congr 3
      omega
    obtain ⟨d1, d2, d3⟩ := Chain_one _ _ _ _ _ _ hp2.chain
    obtain ⟨_, d4, d5⟩ := Chain_one_at _ [] [] Nw _ _ _ d3 hNa
    have hnot : ∀ b ∈ [L, Nw], b.addr ∉ (fl.erase L.addr).erase Nw.addr := by
      intro b hb
      simp only [List.mem_cons, List.mem_singleton, List.not_mem_nil, or_false] at hb
      rcases hb with rfl | rfl
      · exact fun hx => not_mem_erase_self fl _ hp.nodup (List.mem_of_mem_erase hx)
      · exact not_mem_erase_self _ _ hp1.nodup
    obtain ⟨f1, f2, f3, f4, f5⟩ := free_core_Valid _ init [L, Nw] [] _ L.addr
      (L.addr + L.size + Nw.size)
      (by simpa using hp2) d1 (Chain_two _ [L] [Nw] _ _ _ d2 d4) d5 (by simp) hnot
      (fun b hb => by
        rcases hb with hb | hb
        · have := Chain_mem _ _ _ _ c1 b hb
          rw [List.mem_erase_of_ne (by omega), List.mem_erase_of_ne (by omega)]
          exact hwf.2 b (List.mem_append_left _ hb)
        · exact absurd hb (List.not_mem_nil _))
    have hsz : Nw.addr + Nw.size - L.addr = L.size + Nw.size := by omega
    have hsz2 : L.addr + L.size + Nw.size - L.addr = L.size + Nw.size := by omega
    rw [hsz] at hmm
    rw [hsz2] at f1 f2 f3 f4 f5
    refine ⟨_, _, ⟨L.addr, L.size + Nw.size, 0⟩, by rw [hmm]; exact f1, by simp, rfl,
      by rw [hmm], by show Nw.size ≤ L.size + Nw.size; omega,
      by rw [hmm]; exact (e1.trans_same e3).trans_same f4, ?_, ?_, ?_,
      fun hna => NoAdj_merge init [L] [] _ (by simpa using hna) (NoAdj_before init [] L hna hL)
        (by simp)⟩
    · intro b hb hb1
      simp only [List.mem_append, List.mem_cons, List.mem_singleton, List.not_mem_nil,
        or_false] at hb ⊢
      rcases hb with hb | rfl | rfl
      · exact Or.inl hb
      · omega
      · omega
    · intro b hb hb1
      simp only [List.mem_append, List.mem_cons, List.mem_singleton, List.not_mem_nil,
        or_false] at hb ⊢
      rcases hb with hb | rfl
      · exact Or.inl hb
      · simp at hb1
    · intro a ho
      have hl := ho.links hwf
      have hLout := ho L hLm hL
      have hNout := ho Nw hNm hN0
      rw [hmm]
      show (insertNewBlock _ _).mem a = _
      rw [f5 a (by omega) (by omega) (fun p hp' => hl p (mem_of_mem_erase2 hp')),
        e4 a (fun p hp' => hl p (List.mem_of_mem_erase hp'))]
      exact e2 a hl
  · have hmm : coalesce h Nw.addr = (h, Nw.addr) := by
      simp only [coalesce, r1, r2, r4, r5, r6]
      simp only [ne_eq, hL, not_true_eq_false, not_false_eq_true, decide_False, decide_True,
        Bool.false_and, Bool.and_false, Bool.and_true, Bool.true_and, if_false, if_true,
        Bool.false_eq_true, Bool.not_true, Bool.not_false, Bool.or_false, Bool.or_true,
        Bool.false_or, Bool.or_self]
    rw [hmm]
    refine ⟨_, _, Nw, hwf, hNm, hN0, rfl, le_refl _, SameProvider.refl_same h, fun b hb _ => hb,
      fun b hb _ => hb, fun a _ => rfl, fun hna => ?_⟩
    unfold NoAdj at *
    rw [List.chain'_append] at hna ⊢
    refine ⟨hna.1, by simp [hL], ?_⟩
    intro x hx y hy
    simp only [List.head?_cons, Option.mem_def, Option.some.injEq] at hy
    subst hy
    exact hna.2.2 x hx _ (by simp)

/-- The call `extend_heap` when the provider does not refuse: the heap stays well
formed, the returned block is free, ends the arena and holds at least the
requested bytes, the allocated blocks stay as they are, and only bytes of
free blocks and of the appended region change. -/
theorem extend_heap_ok (h : Heap) (bl : List Block) (fl : List Nat) (words size : Nat)
    (hwf : Valid h bl fl) (hne : bl ≠ []) (hw : words % 2 = 0) (hsz : words * 4 = size)
    (h16 : 16 ≤ size) (hfit : h.mem_brk + size ≤ h.mem_max_addr)
    (hmax : h.mem_max_addr + 16 ≤ WORD) :
    ∃ bl1 fl1 R, Valid (extend_heap h words).1 bl1 fl1 ∧ R ∈ bl1 ∧ R.alloc = 0 ∧
      (extend_heap h words).2 = R.addr ∧ size ≤ R.size ∧
      Extends h (extend_heap h words).1 ∧
      (extend_heap h words).1.mem_refused = h.mem_refused ∧
      (∀ b ∈ bl, b.alloc = 1 → b ∈ bl1) ∧ (∀ b ∈ bl1, b.alloc = 1 → b ∈ bl) ∧
      (∀ a, OutsideFree bl a → a < h.mem_brk + 4 →
        (extend_heap h words).1.mem a = h.mem a) ∧
      (NoAdj bl → NoAdj bl1) := by
  have hp := hwf.1
  have hroot : h.root = 0 ∨ h.root + 8 ≤ h.mem_brk := by
    rcases FreeList_root _ _ _ _ hp.flist with h0 | h1
    · exact Or.inl h0
    · have := hp.nodes_ok _ h1
      omega
  rw [extend_heap_eq h words size hw hsz h16 hfit hmax hroot]
  obtain ⟨g1, g2⟩ := grown_Shape h bl fl size hp (by omega) h16 (by omega)
  have hbp : h.mem_brk + 8 ∉ fl := by
    intro hx
    have := hp.nodes_ok _ hx
    omega
  obtain ⟨i1, i2, i3, i4, i5⟩ := insertNewBlock_Shape _ _ fl (h.mem_brk + 8) g1 hbp
    ⟨_, List.mem_append_right _ (List.mem_singleton_self _), rfl⟩
  rcases List.eq_nil_or_concat bl with hnil | ⟨init, L, hbl⟩
  · exact absurd hnil hne
  rw [List.concat_eq_append] at hbl
  subst hbl
  have hwfI : Valid (insertNewBlock (grown h size) (h.mem_brk + 8))
      (init ++ [L, ⟨h.mem_brk + 8, size, 0⟩]) ((h.mem_brk + 8) :: fl) := by
    refine ⟨by simpa using i1, ?_⟩
    intro b hb
    have hb' : b ∈ init ++ [L] ∨ b = ⟨h.mem_brk + 8, size, 0⟩ := by
      simp only [List.mem_append, List.mem_cons, List.mem_singleton, List.not_mem_nil,
        or_false] at hb ⊢
      tauto
    rcases hb' with hb1 | rfl
    · have := hp.blocks_ok b hb1
      rw [List.mem_cons, ← hwf.2 b hb1]
      constructor
      · rintro (h2 | h2)
        · omega
        · exact h2
      · exact fun h2 => Or.inr h2
    · simp
  obtain ⟨bl1, fl1, R, k1, k2, k3, k4, k5, k6, k7, k8, k9, k10⟩ :=
    coalesce_last _ init L ⟨h.mem_brk + 8, size, 0⟩ _ hwfI rfl
  refine ⟨bl1, fl1, R, k1, k2, k3, k4, k5, ?_, ?_, ?_, ?_, ?_, k10⟩
  · have e := i4.trans_same k6
    exact ⟨e.1, e.2.2.1, e.2.2.2.2, by rw [e.2.1]; show h.mem_brk ≤ h.mem_brk + size; omega,
      Or.inr (by rw [e.2.1]; exact hfit)⟩
  · exact (i4.trans_same k6).2.2.2.1
  · intro b hb hb1
    exact k7 b (by
      simp only [List.mem_append, List.mem_cons, List.mem_singleton, List.not_mem_nil,
        or_false] at hb ⊢
      tauto) hb1
  · intro b hb hb1
    have := k8 b hb hb1
    simp only [List.mem_append, List.mem_cons, List.mem_singleton, List.not_mem_nil,
      or_false] at this ⊢
    rcases this with h1 | h1 | h1
    · exact Or.inl h1
    · exact Or.inr h1
    · rw [h1] at hb1
      simp at hb1
  · intro a ho ha
    have ho2 : OutsideFree (init ++ [L, ⟨h.mem_brk + 8, size, 0⟩]) a := by
      intro b hb hb0
      have hb' : b ∈ init ++ [L] ∨ b = ⟨h.mem_brk + 8, size, 0⟩ := by
        simp only [List.mem_append, List.mem_cons, List.mem_singleton, List.not_mem_nil,
          or_false] at hb ⊢
        tauto
      rcases hb' with hb1 | rfl
      · exact ho b hb1 hb0
      · left
        show a + 4 < h.mem_brk + 8
        omega
    rw [k9 a ho2, i5 a (by
      intro p hp'
      rcases List.mem_cons.1 hp' with rfl | h1
      · omega
      · exact ho.links hwf p h1)]
    exact g2 a ha

/-! ## Splitting a block and replacing a node of the free list -/

/-- The blocks between `s1` and `e1` may be laid out afresh: when the new memory
holds a chain `mid1` there, agrees with the old one outside of it and on the
link words at `s1`, and no other block of the old layout was a node of the
free list, the heap is made of the new blocks. -/
theorem Shape.retile {h : Heap} {pre : List Block} (mid : List Block) {post : List Block}
    {fl : List Nat} {s1 e1 : Nat}
    (hp : Shape h (pre ++ mid ++ post) fl)
    (hc1 : Chain h.mem pre (h.mem_start_brk + 8) s1) (hc2 : Chain h.mem mid s1 e1)
    (hc3 : Chain h.mem post e1 (h.mem_brk + 8))
    (hnot : ∀ b ∈ mid, b.addr ∈ fl → b.addr = s1)
    (m1 : Mem) (mid1 : List Block) (hc2n : Chain m1 mid1 s1 e1) (hmid1 : mid1 ≠ [])
    (hfr : ∀ a, (a + 4 < s1 ∨ e1 ≤ a + 4 ∨ (s1 ≤ a ∧ a < s1 + 8)) → m1 a = h.mem a) :
    Shape { h with mem := m1 } (pre ++ mid1 ++ post) fl := by
  have hle1 := Chain_le _ _ _ _ hc1
  have hle2 := Chain_le _ _ _ _ hc2
  have hlo := hp.lo_pos
  refine ⟨hp.lo_pos, hp.lo_al, hp.brk_le, ?_, ?_, hp.nodup, ?_⟩
  · show Chain m1 (pre ++ mid1 ++ post) (h.mem_start_brk + 8) (h.mem_brk + 8)
    refine Chain_two _ _ _ _ e1 _ (Chain_two _ _ _ _ s1 _ ?_ hc2n) ?_
    · apply Chain_frame_bytes _ _ _ _ _ hc1 (by omega)
      intro b hb a hta
      have := Chain_mem _ _ _ _ hc1 b hb
      unfold Block.tagByte at hta
      exact hfr a (by omega)
    · apply Chain_frame_bytes _ _ _ _ _ hc3 (by omega)
      intro b hb a hta
      have := Chain_mem _ _ _ _ hc3 b hb
      unfold Block.tagByte at hta
      exact hfr a (by omega)
  · apply FreeList_frame _ _ _ _ _ hp.flist
    intro p hpf
    obtain ⟨c, hc, rfl⟩ := hp.nodes p hpf
    have hbytes : ∀ a, c.addr ≤ a → a < c.addr + 8 → m1 a = h.mem a := by
      intro a h1 h2
      rcases List.mem_append.1 hc with h3 | h3
      · rcases List.mem_append.1 h3 with h4 | h4
        · have := Chain_mem _ _ _ _ hc1 c h4
          exact hfr a (by omega)
        · have := hnot c h4 hpf
          exact hfr a (by omega)
      · have := Chain_mem _ _ _ _ hc3 c h3
        exact hfr a (by omega)
    exact ⟨GET_congr _ _ _ (fun a h1 h2 => hbytes a (by omega) (by omega)),
      GET_congr _ _ _ (fun a h1 h2 => hbytes a (by omega) (by omega))⟩
  · intro p hpf
    obtain ⟨c, hc, rfl⟩ := hp.nodes p hpf
    rcases List.mem_append.1 hc with h3 | h3
    · rcases List.mem_append.1 h3 with h4 | h4
      · exact ⟨c, List.mem_append_left _ (List.mem_append_left _ h4), rfl⟩
      · cases mid1 with
        | nil => exact absurd rfl hmid1
        | cons d ds =>
          exact ⟨d, List.mem_append_left _ (List.mem_append_right _ (List.mem_cons_self _ _)),
            hc2n.1.trans (hnot c h4 hpf).symm⟩
    · exact ⟨c, List.mem_append_right _ h3, rfl⟩

/-- Two calls of `updateBlockTags` that lay out the bytes from `s1` as a block of
`a` bytes followed by a block of `r` bytes. -/
theorem split_tags (h : Heap) (s1 a r al1 al2 : Nat) (hs1 : 4 ≤ s1) (ha8 : a % 8 = 0)
    (ha16 : 16 ≤ a) (hr8 : r % 8 = 0) (hr16 : 16 ≤ r) (hal1 : al1 ≤ 1) (hal2 : al2 ≤ 1)
    (hW : s1 + a + r < WORD) :
    ∃ m1, updateBlockTags (updateBlockTags h s1 (a + al1)) (s1 + a) (r + al2)
        = { h with mem := m1 } ∧
      Chain m1 [⟨s1, a, al1⟩, ⟨s1 + a, r, al2⟩] s1 (s1 + a + r) ∧
      (∀ x, (x < s1 - 4 ∨ s1 ≤ x) → (x < s1 + a - 8 ∨ s1 + a ≤ x) →
        (x < s1 + a + r - 8 ∨ s1 + a + r - 4 ≤ x) → m1 x = h.mem x) := by
  have e1 := updateBlockTags_eq h s1 a al1 hs1 ha8 (by omega) hal1 (by omega)
  have e2 := updateBlockTags_eq (updateBlockTags h s1 (a + al1)) (s1 + a) r al2 (by omega) hr8
    (by omega) hal2 (by omega)
  rw [e2, e1]
  have ht1 : (a + al1) % WORD = a + al1 := Nat.mod_eq_of_lt (by unfold WORD at *; omega)
  have ht2 : (r + al2) % WORD = r + al2 := Nat.mod_eq_of_lt (by unfold WORD at *; omega)
  refine ⟨_, rfl, ⟨rfl, ha8, ha16, hal1, ?_, ?_, rfl, hr8, hr16, hal2, ?_, ?_, rfl⟩, ?_⟩
  · show GET _ (s1 - 4) = a + al1
    rw [GET_PUT_ne _ _ _ _ (by omega), GET_PUT_ne _ _ _ _ (by omega),
      GET_PUT_ne _ _ _ _ (by omega), GET_PUT_same, ht1]
  · show GET _ (s1 + a - 8) = a + al1
    rw [GET_PUT_ne _ _ _ _ (by omega), GET_PUT_ne _ _ _ _ (by omega), GET_PUT_same, ht1]
  · show GET _ (s1 + a - 4) = r + al2
    rw [GET_PUT_ne _ _ _ _ (by omega), GET_PUT_same, ht2]
  · show GET _ (s1 + a + r - 8) = r + al2
    rw [GET_PUT_same, ht2]
  · intro x h1 h2 h3
    show PUT (PUT (PUT (PUT h.mem (s1 - 4) (a + al1)) (s1 + a - 8) (a + al1)) (s1 + a - 4)
      (r + al2)) (s1 + a + r - 8) (r + al2) x = h.mem x
    rw [PUT_byte_ne _ _ _ _ (by omega), PUT_byte_ne _ _ _ _ (by omega),
      PUT_byte_ne _ _ _ _ (by omega), PUT_byte_ne _ _ _ _ (by omega)]

theorem relink_byte (m : Mem) (x y a : Nat)
    (h1 : GET m (x + 4) = 0 ∨ a < GET m (x + 4) ∨ GET m (x + 4) + 4 ≤ a)
    (h2 : GET m x = 0 ∨ a < GET m x + 4 ∨ GET m x + 8 ≤ a)
    (h3 : a < y ∨ y + 8 ≤ a) : relink m x y a = m a := by
  unfold relink
  rw [PUT_byte_ne _ _ _ _ (by omega), PUT_byte_ne _ _ _ _ (by omega)]
  by_cases hp : GET m (x + 4) = 0 <;> by_cases hn : GET m x = 0
  · simp [hp, hn]
  · simp only [hp, hn, ne_eq, not_true_eq_false, if_false, not_false_eq_true, if_true]
    exact PUT_byte_ne _ _ _ _ (by omega)
  · simp only [hp, hn, ne_eq, not_true_eq_false, if_false, not_false_eq_true, if_true]
    exact PUT_byte_ne _ _ _ _ (by omega)
  · simp only [hp, hn, ne_eq, not_true_eq_false, if_false, not_false_eq_true, if_true]
    rw [PUT_byte_ne _ _ _ _ (by omega), PUT_byte_ne _ _ _ _ (by omega)]

theorem relink_get (m : Mem) (x y q : Nat)
    (h1 : GET m (x + 4) = 0 ∨ q + 4 ≤ GET m (x + 4) ∨ GET m (x + 4) + 4 ≤ q)
    (h2 : GET m x = 0 ∨ q + 4 ≤ GET m x + 4 ∨ GET m x + 8 ≤ q)
    (h3 : q + 4 ≤ y ∨ y + 8 ≤ q) : GET (relink m x y) q = GET m q := by
  apply GET_congr
  intro a ha1 ha2
  exact relink_byte m x y a (by omega) (by omega) (by omega)

theorem relink_get_y (m : Mem) (x y : Nat) : GET (relink m x y) y = GET m x := by
  unfold relink
  rw [GET_PUT_ne _ _ _ _ (by omega), GET_PUT_same, Nat.mod_eq_of_lt (GET_lt m x)]

theorem relink_get_y4 (m : Mem) (x y : Nat) : GET (relink m x y) (y + 4) = GET m (x + 4) := by
  unfold relink
  rw [GET_PUT_same, Nat.mod_eq_of_lt (GET_lt m _)]

theorem relink_get_prev (m : Mem) (x y : Nat) (hp : GET m (x + 4) ≠ 0)
    (h2 : GET m x = 0 ∨ GET m (x + 4) + 4 ≤ GET m x + 4 ∨ GET m x + 8 ≤ GET m (x + 4))
    (h3 : GET m (x + 4) + 4 ≤ y ∨ y + 8 ≤ GET m (x + 4)) (hy : y < WORD) :
    GET (relink m x y) (GET m (x + 4)) = y := by
  unfold relink
  rw [GET_PUT_ne _ _ _ _ (by omega), GET_PUT_ne _ _ _ _ (by omega)]
  by_cases hn : GET m x = 0
  · simp only [hp, hn, ne_eq, not_true_eq_false, if_false, not_false_eq_true, if_true]
    rw [GET_PUT_same, Nat.mod_eq_of_lt hy]
  · simp only [hp, hn, ne_eq, not_true_eq_false, if_false, not_false_eq_true, if_true]
    rw [GET_PUT_ne _ _ _ _ (by omega), GET_PUT_same, Nat.mod_eq_of_lt hy]

theorem relink_get_next (m : Mem) (x y : Nat) (hn : GET m x ≠ 0)
    (h3 : GET m x + 8 ≤ y ∨ y + 8 ≤ GET m x + 4) (hy : y < WORD) :
    GET (relink m x y) (GET m x + 4) = y := by
  unfold relink
  rw [GET_PUT_ne _ _ _ _ (by omega), GET_PUT_ne _ _ _ _ (by omega)]
  simp only [hn, ne_eq, not_false_eq_true, if_true]
  rw [GET_PUT_same, Nat.mod_eq_of_lt hy]

/-- The free list after `relink`: the node `y` stands where `x` stood. -/
theorem FreeList_relink (m : Mem) (x y : Nat) (l2 : List Nat) (hy8 : y % 8 = 0)
    (hy0 : 8 ≤ y) (hyW : y < WORD) :
    ∀ (l1 : List Nat) (prev cur : Nat), FreeList m (l1 ++ x :: l2) prev cur →
    (l1 ++ x :: l2).Nodup → (∀ p ∈ l1 ++ x :: l2, p % 8 = 0 ∧ 8 ≤ p) → prev % 8 = 0 →
    prev ∉ l1 ++ x :: l2 → y ∉ l1 ++ x :: l2 → y ≠ prev →
    FreeList (relink m x y) (l1 ++ y :: l2) prev (if l1 = [] then y else cur) ∧
    (GET m x = 0 ∨ GET m x ∈ l2) ∧
    ((l1 = [] ∧ GET m (x + 4) = prev) ∨ (l1 ≠ [] ∧ GET m (x + 4) ∈ l1)) := by
  intro l1
  induction l1 with
  | nil =>
    intro prev cur hfl hnd hok hprev hprevn hyn hyp
    simp only [List.nil_append] at hfl hnd hok hprevn hyn
    obtain ⟨hcur, hx0, hxp, hrest⟩ := hfl
    have hxok := hok x (List.mem_cons_self _ _)
    have hxn : x ∉ l2 := (List.nodup_cons.1 hnd).1
    have hnd2 : l2.Nodup := (List.nodup_cons.1 hnd).2
    have hyx : y ≠ x := fun e => hyn (e ▸ List.mem_cons_self _ _)
    have hprevx : prev ≠ x := fun e => hprevn (e ▸ List.mem_cons_self _ _)
    rw [List.nil_append, if_pos rfl]
    cases l2 with
    | nil =>
      have h0 : GET m x = 0 := hrest
      refine ⟨⟨rfl, by omega, ?_, ?_⟩, Or.inl h0, Or.inl ⟨rfl, hxp⟩⟩
      · rw [relink_get_y4, hxp]
      · show GET (relink m x y) y = 0
        rw [relink_get_y, h0]
    | cons n l2' =>
      obtain ⟨hn1, hn0, hnp, hrest'⟩ := hrest
      have hnok := hok n (List.mem_cons_of_mem _ (List.mem_cons_self _ _))
      have hnx : n ≠ x := fun e => hxn (e ▸ List.mem_cons_self _ _)
      have hyn' : y ≠ n := fun e => hyn (e ▸ List.mem_cons_of_mem _ (List.mem_cons_self _ _))
      have hprevn' : prev ≠ n :=
        fun e => hprevn (e ▸ List.mem_cons_of_mem _ (List.mem_cons_self _ _))
      refine ⟨⟨rfl, by omega, ?_, ?_⟩,
        Or.inr (by rw [hn1]; exact List.mem_cons_self _ _), Or.inl ⟨rfl, hxp⟩⟩
      · rw [relink_get_y4, hxp]
      · rw [relink_get_y, hn1]
        refine ⟨rfl, hn0, ?_, ?_⟩
        · have := relink_get_next m x y (by rw [hn1]; exact hn0) (by rw [hn1]; omega) hyW
          rw [hn1] at this
          exact this
        · have hg : GET (relink m x y) n = GET m n :=
            relink_get m x y n (by rw [hxp]; omega) (by rw [hn1]; omega) (by omega)
          rw [hg]
          apply FreeList_frame m _ _ _ _ hrest'
          intro q hq
          have hqok := hok q (List.mem_cons_of_mem _ (List.mem_cons_of_mem _ hq))
          have hqn : q ≠ n := fun e => (List.nodup_cons.1 hnd2).1 (e ▸ hq)
          have hqprev : prev ≠ q :=
            fun e => hprevn (e ▸ List.mem_cons_of_mem _ (List.mem_cons_of_mem _ hq))
          have hqy : y ≠ q :=
            fun e => hyn (e ▸ List.mem_cons_of_mem _ (List.mem_cons_of_mem _ hq))
          exact ⟨relink_get m x y q (by rw [hxp]; omega) (by rw [hn1]; omega) (by omega),
            relink_get m x y (q + 4) (by rw [hxp]; omega) (by rw [hn1]; omega) (by omega)⟩
  | cons p l1 ih =>
    intro prev cur hfl hnd hok hprev hprevn hyn hyp
    simp only [List.cons_append] at hfl hnd hok hprevn hyn
    obtain ⟨hcur, hp0, hpp, hrest⟩ := hfl
    have hpok := hok p (List.mem_cons_self _ _)
    have hpn : p ∉ l1 ++ x :: l2 := (List.nodup_cons.1 hnd).1
    have hnd' : (l1 ++ x :: l2).Nodup := (List.nodup_cons.1 hnd).2
    have hyp' : y ≠ p := fun e => hyn (e ▸ List.mem_cons_self _ _)
    have hprevp : prev ≠ p := fun e => hprevn (e ▸ List.mem_cons_self _ _)
    obtain ⟨ih1, ih2, ih3⟩ := ih p (GET m p) hrest hnd'
      (fun q hq => hok q (List.mem_cons_of_mem _ hq)) hpok.1 hpn
      (fun hq => hyn (List.mem_cons_of_mem _ hq)) hyp'
    have hnextok : GET m x = 0 ∨ (GET m x % 8 = 0 ∧ GET m x ≠ p) := by
      rcases ih2 with h | h
      · exact Or.inl h
      · have hm : GET m x ∈ l1 ++ x :: l2 :=
          List.mem_append_right _ (List.mem_cons_of_mem _ h)
        exact Or.inr ⟨(hok _ (List.mem_cons_of_mem _ hm)).1, fun e => hpn (e ▸ hm)⟩
    rw [List.cons_append, if_neg (List.cons_ne_nil _ _)]
    refine ⟨⟨hcur, hp0, ?_, ?_⟩, ih2, Or.inr ⟨List.cons_ne_nil _ _, ?_⟩⟩
    · rw [← hpp]
      apply relink_get
      · rcases ih3 with ⟨_, h⟩ | ⟨_, h⟩
        · right; rw [h]; omega
        · have hm : GET m (x + 4) ∈ l1 ++ x :: l2 := List.mem_append_left _ h
          have := (hok _ (List.mem_cons_of_mem _ hm)).1
          have hne : GET m (x + 4) ≠ p := fun e => hpn (e ▸ hm)
          right; omega
      · rcases hnextok with h | h
        · exact Or.inl h
        · right; omega
      · omega
    · rcases ih3 with ⟨h1, h2⟩ | ⟨h1, h2⟩
      · rw [if_pos h1] at ih1
        have : GET (relink m x y) p = y := by
          have := relink_get_prev m x y (by rw [h2]; omega) (by
            rw [h2]
            rcases hnextok with h | h
            · exact Or.inl h
            · right; omega) (by rw [h2]; omega) hyW
          rw [h2] at this
          exact this
        rw [this]
        exact ih1
      · rw [if_neg h1] at ih1
        have hm : GET m (x + 4) ∈ l1 ++ x :: l2 := List.mem_append_left _ h2
        have hne : GET m (x + 4) ≠ p := fun e => hpn (e ▸ hm)
        have hal := (hok _ (List.mem_cons_of_mem _ hm)).1
        have : GET (relink m x y) p = GET m p := by
          apply relink_get
          · right; omega
          · rcases hnextok with h | h
            · exact Or.inl h
            · right; omega
          · omega
        rw [this]
        exact ih1
    · rcases ih3 with ⟨h1, h2⟩ | ⟨_, h2⟩
      · rw [h2]; exact List.mem_cons_self _ _
      · exact List.mem_cons_of_mem _ h2

/-! ## `find_fit` and `place` -/

theorem toInt32_small (x : Nat) (h : x < 2147483648) : toInt32 x = (x : Int) := by
  unfold toInt32 WORD
  rw [Nat.mod_eq_of_lt (by omega), if_pos h]

theorem ofInt32_small (x : Nat) (h : x < 4294967296) : ofInt32 (x : Int) = x := by
  unfold ofInt32
  have : ((x : Int) % 4294967296) = (x : Int) := Int.emod_eq_of_lt (by omega) (by omega)
  rw [this]
  exact Int.toNat_ofNat x

/-- The loop of `find_fit` walks the free list: it ends on the first node whose
block holds `asize` bytes, or with `NULL` when there is none. -/
theorem find_fit_loop_ok (m : Mem) (asize : Nat) :
    ∀ (fl : List Nat) (prev cur fuel : Nat), FreeList m fl prev cur → fl ≠ [] →
    fl.length ≤ fuel →
    ∃ r, find_fit_loop m asize fuel cur = some r ∧
      ((r = NULL ∧ ∀ p ∈ fl, GET_SIZE m (HDRP p) < asize) ∨
       (r ∈ fl ∧ asize ≤ GET_SIZE m (HDRP r))) := by
  intro fl
  induction fl with
  | nil => intro _ _ _ _ hne; exact absurd rfl hne
  | cons p ps ih =>
    intro prev cur fuel hfl _ hlen
    obtain ⟨hcur, hp0, hpp, hrest⟩ := hfl
    subst hcur
    cases fuel with
    | zero => simp at hlen
    | succ f =>
      unfold find_fit_loop
      by_cases hs : asize ≤ GET_SIZE m (HDRP cur)
      · rw [if_pos hs]
        exact ⟨cur, rfl, Or.inr ⟨List.mem_cons_self _ _, hs⟩⟩
      · rw [if_neg hs]
        by_cases hn : GET_ADDR m (NEXTP cur) = NULL
        · rw [if_pos hn]
          have hn0 : GET m cur = 0 := hn
          rw [hn0] at hrest
          have hps := FreeList_nil_iff _ _ _ hrest
          subst hps
          refine ⟨NULL, rfl, Or.inl ⟨rfl, ?_⟩⟩
          intro q hq
          rw [List.mem_singleton.1 hq]
          omega
        · rw [if_neg hn]
          have hne : ps ≠ [] := by
            intro e
            subst e
            exact hn hrest
          obtain ⟨r, hr1, hr2⟩ := ih cur (GET m cur) f hrest hne (by
            simp only [List.length_cons] at hlen
            omega)
          refine ⟨r, hr1, ?_⟩
          rcases hr2 with ⟨h1, h2⟩ | ⟨h1, h2⟩
          · refine Or.inl ⟨h1, ?_⟩
            intro q hq
            rcases List.mem_cons.1 hq with rfl | hq'
            · omega
            · exact h2 q hq'
          · exact Or.inr ⟨List.mem_cons_of_mem _ h1, h2⟩

/-- The call `find_fit` on a well formed heap with a non-empty free list, on fuel
for every node: it returns a free block that holds `asize` bytes, or `NULL`
when no free block does. -/
theorem find_fit_ok (h : Heap) (bl : List Block) (fl : List Nat) (asize fuel : Nat)
    (hwf : Valid h bl fl) (hne : fl ≠ []) (hfuel : fl.length ≤ fuel) :
    ∃ r, find_fit fuel h asize = some r ∧
      ((r = NULL ∧ ∀ b ∈ bl, b.alloc = 0 → b.size < asize) ∨
       (∃ B ∈ bl, B.addr = r ∧ B.alloc = 0 ∧ asize ≤ B.size)) := by
  obtain ⟨r, h1, h2⟩ := find_fit_loop_ok h.mem asize fl 0 h.root fuel hwf.1.flist hne hfuel
  refine ⟨r, h1, ?_⟩
  rcases h2 with ⟨e, hall⟩ | ⟨hr, hs⟩
  · refine Or.inl ⟨e, ?_⟩
    intro b hb hb0
    have := hall b.addr ((hwf.2 b hb).2 hb0)
    rw [(hwf.1.reads b hb).2.1] at this
    exact this
  · obtain ⟨B, hB, hBa⟩ := hwf.1.nodes r hr
    refine Or.inr ⟨B, hB, hBa, (hwf.2 B hB).1 (hBa ▸ hr), ?_⟩
    rw [← hBa, (hwf.1.reads B hB).2.1] at hs
    exact hs

/-- The call `place` on a block that exceeds the request by 0 or 8 bytes: the whole
block is tagged allocated and leaves the free list; when the list is empty
afterwards, `extend_heap` is called. -/
theorem place_nosplit_eq (h : Heap) (bp asize0 sz : Nat)
    (hsz : GET_SIZE h.mem (HDRP bp) = sz) (hd : sz = asize0 ∨ sz = asize0 + 8)
    (hW : sz < 2147483648) (h2 : sz % 2 = 0) :
    place h bp asize0 =
      if (removeBlock (updateBlockTags h bp (sz + 1)) bp).root = NULL then
        (extend_heap (removeBlock (updateBlockTags h bp (sz + 1)) bp) (CHUNKSIZE / WSIZE)).1
      else removeBlock (updateBlockTags h bp (sz + 1)) bp := by
  unfold place
  rw [hsz]
  rcases hd with hd | hd
  · have e1 : toInt32 (usub sz asize0) = 0 := by
      rw [usub_eq sz asize0 (by omega) (by unfold WORD; omega),
        toInt32_small _ (by omega)]
      simp [hd]
    have e2 : PACK asize0 1 = sz + 1 := by rw [← hd]; exact PACK_one sz h2
    simp only [e1, DSIZE, WSIZE]
    simp [e2]
  · have e1 : toInt32 (usub sz asize0) = 8 := by
      rw [usub_eq sz asize0 (by omega) (by unfold WORD; omega),
        toInt32_small _ (by omega)]
      simp [hd]
    have e2 : PACK (uadd asize0 (2 * 4)) 1 = sz + 1 := by
      rw [uadd_eq asize0 (2 * 4) (by unfold WORD; omega), show asize0 + 2 * 4 = sz by omega]
      exact PACK_one sz h2
    simp only [e1, DSIZE, WSIZE]
    simp [e2]

theorem NEXTP_eq (bp : Nat) : NEXTP bp = bp := rfl

/-- The call `place` on a block that exceeds the request by 16 bytes or more: the
block is split, and the remainder takes its position in the free list. -/
theorem place_split_eq (h : Heap) (bp asize0 d : Nat)
    (hsz : GET_SIZE h.mem (HDRP bp) = asize0 + d) (hd16 : 16 ≤ d) (hd8 : d % 8 = 0)
    (ha16 : 16 ≤ asize0) (ha8 : asize0 % 8 = 0) (hW : asize0 + d < 2147483648)
    (hbp : 4 ≤ bp) (hbW : bp + asize0 + d + 8 ≤ WORD) (hn : GET h.mem bp + 4 < WORD) :
    place h bp asize0 =
      { h with
        mem := relink (updateBlockTags (updateBlockTags h bp (asize0 + 1)) (bp + asize0)
          (d + 0)).mem bp (bp + asize0),
        root := if GET h.mem (bp + 4) = 0 then bp + asize0 else h.root } := by
  have hU1 := updateBlockTags_eq h bp asize0 1 hbp ha8 (by omega) (by omega) (by omega)
  have hU2 := updateBlockTags_eq (updateBlockTags h bp (asize0 + 1)) (bp + asize0) d 0
    (by omega) hd8 (by omega) (by omega) (by omega)
  have ht1 : (asize0 + 1) % WORD = asize0 + 1 := Nat.mod_eq_of_lt (by unfold WORD; omega)
  have hH : HDRP bp = bp - 4 := HDRP_eq bp hbp (by omega)
  have e_next : NEXT_BLKP (updateBlockTags h bp (asize0 + 1)).mem bp = bp + asize0 := by
    unfold NEXT_BLKP
    rw [hH, GET_SIZE_eq, hU1]
    show uadd bp (GET (PUT (PUT h.mem (bp - 4) (asize0 + 1)) (bp + asize0 - 8) (asize0 + 1))
      (bp - 4) / 8 * 8) = bp + asize0
    rw [GET_PUT_ne _ _ _ _ (by omega), GET_PUT_same, ht1,
      show (asize0 + 1) / 8 * 8 = asize0 by omega, uadd_eq bp asize0 (by omega)]
  have e_pp : GET (updateBlockTags h bp (asize0 + 1)).mem (bp + 4) = GET h.mem (bp + 4) := by
    rw [hU1]
    show GET (PUT (PUT h.mem (bp - 4) (asize0 + 1)) (bp + asize0 - 8) (asize0 + 1)) (bp + 4) = _
    rw [GET_PUT_ne _ _ _ _ (by omega), GET_PUT_ne _ _ _ _ (by omega)]
  have e_nn : GET (updateBlockTags h bp (asize0 + 1)).mem bp = GET h.mem bp := by
    rw [hU1]
    show GET (PUT (PUT h.mem (bp - 4) (asize0 + 1)) (bp + asize0 - 8) (asize0 + 1)) bp = _
    rw [GET_PUT_ne _ _ _ _ (by omega), GET_PUT_ne _ _ _ _ (by omega)]
  have e_pp2 : GET (updateBlockTags (updateBlockTags h bp (asize0 + 1)) (bp + asize0)
      (d + 0)).mem (bp + 4) = GET h.mem (bp + 4) := by
    rw [hU2]
    show GET (PUT (PUT _ (bp + asize0 - 4) (d + 0)) (bp + asize0 + d - 8) (d + 0)) (bp + 4) = _
    rw [GET_PUT_ne _ _ _ _ (by omega), GET_PUT_ne _ _ _ _ (by omega), e_pp]
  have e_nn2 : GET (updateBlockTags (updateBlockTags h bp (asize0 + 1)) (bp + asize0)
      (d + 0)).mem bp = GET h.mem bp := by
    rw [hU2]
    show GET (PUT (PUT _ (bp + asize0 - 4) (d + 0)) (bp + asize0 + d - 8) (d + 0)) bp = _
    rw [GET_PUT_ne _ _ _ _ (by omega), GET_PUT_ne _ _ _ _ (by omega), e_nn]
  have hsp : toInt32 (usub (GET_SIZE h.mem (HDRP bp)) asize0) = (d : Int) := by
    rw [hsz, usub_eq (asize0 + d) asize0 (by omega) (by unfold WORD; omega),
      toInt32_small _ (by omega), show asize0 + d - asize0 = d by omega]
  have c1 : ¬ ((d : Int) = ((DSIZE : Nat) : Int)) := by unfold DSIZE WSIZE; omega
  have c2 : (d : Int) > ((DSIZE : Nat) : Int) := by unfold DSIZE WSIZE; omega
  have e_pack : PACK asize0 1 = asize0 + 1 := PACK_one asize0 (by omega)
  have e_of : ofInt32 (d : Int) = d + 0 := by rw [ofInt32_small d (by omega)]; rfl
  have e_P : PREVP bp = bp + 4 := by unfold PREVP WSIZE; exact uadd_eq _ _ (by omega)
  have e_Py : PREVP (bp + asize0) = bp + asize0 + 4 := by
    unfold PREVP WSIZE; exact uadd_eq _ _ (by omega)
  have e_Pn : PREVP (GET h.mem bp) = GET h.mem bp + 4 := by
    unfold PREVP WSIZE; exact uadd_eq _ _ (by omega)
  unfold place
  simp only [hsp, c1, c2, if_true, if_false, e_pack, e_next, e_of]
  simp only [NEXTP_eq, GET_ADDR, PUT_ADDR, NULL, e_P, e_pp, e_nn, e_Py, e_Pn]
  unfold relink
  rw [e_pp2, e_nn2]
  by_cases hp0 : GET h.mem (bp + 4) = 0 <;> by_cases hn0 : GET h.mem bp = 0 <;>
    simp only [hp0, hn0, if_true, if_false, ne_eq, not_true_eq_false, not_false_eq_true] <;>
    exact Heap.ext_fields _ _ rfl rfl rfl rfl rfl rfl rfl

/-- The header and the footer of a block do not overlap the link words at the
payload pointer of any block. -/
theorem Chain_tag_addr (m : Mem) (bl : List Block) (s e : Nat) (h : Chain m bl s e)
    (hs : 4 ≤ s) (b c : Block) (hb : b ∈ bl) (hc : c ∈ bl) (a : Nat) (ha : b.tagByte a) :
    a < c.addr ∨ c.addr + 8 ≤ a := by
  have hbo := Chain_mem _ _ _ _ h b hb
  have hco := Chain_mem _ _ _ _ h c hc
  unfold Block.tagByte at ha
  rcases Chain_sep _ _ _ _ h b c hb hc with rfl | h1 | h1 <;> omega

theorem nodup_replace (l1 l2 : List Nat) (x y : Nat) (h : (l1 ++ x :: l2).Nodup)
    (hy : y ∉ l1 ++ x :: l2) : (l1 ++ y :: l2).Nodup := by
  rw [List.nodup_append] at h ⊢
  obtain ⟨h1, h2, h3⟩ := h
  rw [List.nodup_cons] at h2 ⊢
  refine ⟨h1, ⟨fun hm => hy (List.mem_append_right _ (List.mem_cons_of_mem _ hm)), h2.2⟩, ?_⟩
  intro a ha1 ha2
  rcases List.mem_cons.1 ha2 with rfl | h4
  · exact hy (List.mem_append_left _ ha1)
  · exact h3 ha1 (List.mem_cons_of_mem _ h4)

/-- The call `place` on a free block `B` that exceeds the request by 16 bytes or
more: `B` becomes an allocated block of `asize0` bytes followed by a free
block that takes the position of `B` in the free list. -/
theorem place_split_ok (h : Heap) (pre post : List Block) (B : Block) (l1 l2 : List Nat)
    (asize0 d : Nat) (hwf : Valid h (pre ++ B :: post) (l1 ++ B.addr :: l2)) (hB0 : B.alloc = 0)
    (hsz : B.size = asize0 + d) (hd16 : 16 ≤ d) (ha16 : 16 ≤ asize0) (ha8 : asize0 % 8 = 0)
    (hW : B.size < 2147483648) :
    Valid (place h B.addr asize0)
      (pre ++ ⟨B.addr, asize0, 1⟩ :: ⟨B.addr + asize0, d, 0⟩ :: post)
      (l1 ++ (B.addr + asize0) :: l2) ∧
    SameProvider h (place h B.addr asize0) ∧
    (∀ a, OutsideFree (pre ++ B :: post) a → (place h B.addr asize0).mem a = h.mem a) := by
  have hp := hwf.1
  have hBm : B ∈ pre ++ B :: post := by simp
  have hBo := hp.blocks_ok B hBm
  have hbrk := hp.brk_le
  have hlo := hp.lo_pos
  have hxf : B.addr ∈ l1 ++ B.addr :: l2 := by simp
  have hok : ∀ p ∈ l1 ++ B.addr :: l2, p % 8 = 0 ∧ 8 ≤ p := fun p hpf => by
    have := hp.nodes_ok p hpf; omega
  have hd8 : d % 8 = 0 := by omega
  obtain ⟨c1, c2, c3⟩ := Chain_one _ _ _ _ _ _ hp.chain
  obtain ⟨m1, hU, hch, hfr⟩ := split_tags h B.addr asize0 d 1 0 (by omega) ha8 ha16 hd8 hd16
    (by omega) (by omega) (by omega)
  have hch' : Chain m1 [⟨B.addr, asize0, 1⟩, ⟨B.addr + asize0, d, 0⟩] B.addr
      (B.addr + B.size) := by
    rw [hsz, ← Nat.add_assoc]; exact hch
  have hp1 : Shape { h with mem := m1 }
      (pre ++ [⟨B.addr, asize0, 1⟩, ⟨B.addr + asize0, d, 0⟩] ++ post)
      (l1 ++ B.addr :: l2) :=
    Shape.retile [B] (by simpa using hp) c1 c2 c3
      (fun b hb _ => by rw [List.mem_singleton.1 hb]) m1 _ hch' (by simp)
      (fun a ha => hfr a (by omega) (by omega) (by omega))
  have hyn : B.addr + asize0 ∉ l1 ++ B.addr :: l2 := by
    intro hy
    obtain ⟨c, hc, hca⟩ := hp.nodes _ hy
    have hco := hp.blocks_ok c hc
    rcases Chain_sep _ _ _ _ hp.chain B c hBm hc with rfl | h1 | h1 <;> omega
  have hg1 : GET m1 B.addr = GET h.mem B.addr :=
    GET_congr _ _ _ (fun a _ _ => hfr a (by omega) (by omega) (by omega))
  have hg2 : GET m1 (B.addr + 4) = GET h.mem (B.addr + 4) :=
    GET_congr _ _ _ (fun a _ _ => hfr a (by omega) (by omega) (by omega))
  obtain ⟨k1, k2, k3⟩ := FreeList_relink m1 B.addr (B.addr + asize0) l2 (by omega) (by omega)
    (by omega) l1 0 h.root hp1.flist hp.nodup hok (by omega)
    (fun h0 => by have := hok 0 h0; omega) hyn (by omega)
  have hnW : GET h.mem B.addr + 4 < WORD := by
    rw [← hg1]
    rcases k2 with h0 | h0
    · rw [h0]; unfold WORD; omega
    · have := hp.nodes_ok _ (List.mem_append_right _ (List.mem_cons_of_mem _ h0)); omega
  have hHD : GET_SIZE h.mem (HDRP B.addr) = asize0 + d := by rw [(hp.reads B hBm).2.1, hsz]
  have heq := place_split_eq h B.addr asize0 d hHD hd16 hd8 ha16 ha8 (by omega) (by omega)
    (by omega) hnW
  rw [hU] at heq
  simp only at heq
  have hbyte : ∀ a, (a < B.addr ∨ B.addr + B.size - 4 ≤ a) →
      (∀ p ∈ l1 ++ B.addr :: l2, a < p ∨ p + 8 ≤ a) → relink m1 B.addr (B.addr + asize0) a = m1 a := by
    intro a ha1 ha
    apply relink_byte
    · rcases k3 with ⟨_, h0⟩ | ⟨_, h0⟩
      · exact Or.inl h0
      · have := ha _ (List.mem_append_left _ h0); right; omega
    · rcases k2 with h0 | h0
      · exact Or.inl h0
      · have := ha _ (List.mem_append_right _ (List.mem_cons_of_mem _ h0)); right; omega
    · omega
  have hroot : (if GET h.mem (B.addr + 4) = 0 then B.addr + asize0 else h.root)
      = (if l1 = [] then B.addr + asize0 else h.root) := by
    rw [← hg2]
    rcases k3 with ⟨h1, h2⟩ | ⟨h1, h2⟩
    · rw [if_pos h2, if_pos h1]
    · have := hok _ (List.mem_append_left _ h2)
      rw [if_neg (by omega), if_neg h1]
  rw [heq, hroot]
  refine ⟨⟨⟨hp.lo_pos, hp.lo_al, hp.brk_le, ?_, k1, nodup_replace _ _ _ _ hp.nodup hyn, ?_⟩, ?_⟩,
    ⟨rfl, rfl, rfl, rfl, rfl⟩, ?_⟩
  · show Chain (relink m1 B.addr (B.addr + asize0)) _ _ _
    have hc := hp1.chain
    simp only [List.append_assoc, List.cons_append, List.nil_append] at hc
    apply Chain_frame_bytes _ _ _ _ _ hc (by omega)
    intro b hb a ha
    apply relink_byte
    · rcases k3 with ⟨_, h0⟩ | ⟨_, h0⟩
      · exact Or.inl h0
      · have := hp1.tags_links b (by simpa using hb) _ (List.mem_append_left _ h0) a ha
        right; omega
    · rcases k2 with h0 | h0
      · exact Or.inl h0
      · have := hp1.tags_links b (by simpa using hb) _
          (List.mem_append_right _ (List.mem_cons_of_mem _ h0)) a ha
        right; omega
    · exact Chain_tag_addr _ _ _ _ hc (by omega) b ⟨B.addr + asize0, d, 0⟩ hb (by simp) a ha
  · intro p hpf
    rcases List.mem_append.1 hpf with h1 | h1
    · obtain ⟨c, hc, hca⟩ := hp1.nodes p (List.mem_append_left _ h1)
      exact ⟨c, by simpa using hc, hca⟩
    · rcases List.mem_cons.1 h1 with rfl | h2
      · exact ⟨⟨B.addr + asize0, d, 0⟩, by simp, rfl⟩
      · obtain ⟨c, hc, hca⟩ := hp1.nodes p (List.mem_append_right _ (List.mem_cons_of_mem _ h2))
        exact ⟨c, by simpa using hc, hca⟩
  · intro b hb
    have hb' : (b ∈ pre ∨ b ∈ post) ∨ b = ⟨B.addr, asize0, 1⟩ ∨ b = ⟨B.addr + asize0, d, 0⟩ := by
      simp only [List.mem_append, List.mem_cons] at hb
      tauto
    have hnd := hp.nodup
    rw [List.nodup_append] at hnd
    obtain ⟨n1, n2, n3⟩ := hnd
    rw [List.nodup_cons] at n2
    rcases hb' with hb1 | rfl | rfl
    · have hbm : b ∈ pre ++ B :: post := by
        rcases hb1 with h1 | h1
        · exact List.mem_append_left _ h1
        · exact List.mem_append_right _ (List.mem_cons_of_mem _ h1)
      have hbo := hp.blocks_ok b hbm
      have hne : b.addr ≠ B.addr ∧ b.addr ≠ B.addr + asize0 := by
        have hbB : b ≠ B := by
          rintro rfl
          rcases hb1 with h1 | h1
          · have := Chain_mem _ _ _ _ c1 b h1; omega
          · have := Chain_mem _ _ _ _ c3 b h1; omega
        rcases Chain_sep _ _ _ _ hp.chain B b hBm hbm with e | h1 | h1
        · exact absurd e.symm hbB
        · omega
        · omega
      rw [← hwf.2 b hbm]
      simp only [List.mem_append, List.mem_cons]
      constructor
      · rintro (h1 | h1 | h1)
        · exact Or.inl h1
        · exact absurd h1 hne.2
        · exact Or.inr (Or.inr h1)
      · rintro (h1 | h1 | h1)
        · exact Or.inl h1
        · exact absurd h1 hne.1
        · exact Or.inr (Or.inr h1)
    · simp only [List.mem_append, List.mem_cons]
      constructor
      · rintro (h1 | h1 | h1)
        · exact (n3 h1 (List.mem_cons_self _ _)).elim
        · omega
        · exact absurd h1 n2.1
      · intro h1
        simp at h1
    · simp
  · intro a ho
    have hl := ho.links hwf
    have hBout := ho B hBm hB0
    show relink m1 B.addr (B.addr + asize0) a = h.mem a
    rw [hbyte a (by omega) hl]
    exact hfr a (by omega) (by omega) (by omega)

/-- The call `place` on a free block `B` that exceeds the request by 0 or 8 bytes,
the provider not refusing. -/
theorem place_nosplit_ok (h : Heap) (pre post : List Block) (B : Block) (fl : List Nat)
    (asize0 : Nat) (hwf : Valid h (pre ++ B :: post) fl) (hB0 : B.alloc = 0)
    (hd : B.size = asize0 ∨ B.size = asize0 + 8) (hW : B.size < 2147483648)
    (hmax : h.mem_max_addr + 16 ≤ WORD)
    (hnr : (place h B.addr asize0).mem_refused = false) :
    PlaceOut h (place h B.addr asize0) (pre ++ B :: post) B asize0 := by
  have hp := hwf.1
  have hBm : B ∈ pre ++ B :: post := by simp
  have hBo := hp.blocks_ok B hBm
  have hbrk := hp.brk_le
  have hlo := hp.lo_pos
  have hBf : B.addr ∈ fl := (hwf.2 B hBm).2 hB0
  obtain ⟨c1, c2, c3⟩ := Chain_one _ _ _ _ _ _ hp.chain
  have heq := place_nosplit_eq h B.addr asize0 B.size (hp.reads B hBm).2.1 hd hW (by omega)
  obtain ⟨r1, r2, r3, r5⟩ := retag_Shape h pre [B] post fl B.addr (B.addr + B.size) 1
    (by simpa using hp) c1 c2 c3 (by simp) (fun b hb _ => by rw [List.mem_singleton.1 hb])
    (by omega)
  have hsz : B.addr + B.size - B.addr = B.size := by omega
  rw [hsz] at r1 r2 r3 r5
  obtain ⟨q1, q2, q3⟩ := removeBlock_Shape _ _ fl B.addr r1 hBf
  have hwf2 : Valid (removeBlock (updateBlockTags h B.addr (B.size + 1)) B.addr)
      (pre ++ ⟨B.addr, B.size, 1⟩ :: post) (fl.erase B.addr) := by
    refine ⟨q1, ?_⟩
    intro b hb
    have hb' : (b ∈ pre ∨ b ∈ post) ∨ b = ⟨B.addr, B.size, 1⟩ := by
      simp only [List.mem_append, List.mem_cons] at hb
      tauto
    rcases hb' with hb1 | rfl
    · have hbm : b ∈ pre ++ B :: post := by
        rcases hb1 with h1 | h1
        · exact List.mem_append_left _ h1
        · exact List.mem_append_right _ (List.mem_cons_of_mem _ h1)
      have hne : b.addr ≠ B.addr := by
        rcases hb1 with h1 | h1
        · have := Chain_mem _ _ _ _ c1 b h1; omega
        · have := Chain_mem _ _ _ _ c3 b h1; omega
      rw [List.mem_erase_of_ne hne]
      exact hwf.2 b hbm
    · constructor
      · intro hx
        exact absurd hx (not_mem_erase_self fl _ hp.nodup)
      · intro hx
        simp at hx
  have hkeep : ∀ b ∈ pre ++ B :: post, b.alloc = 1 → b ∈ pre ++ ⟨B.addr, B.size, 1⟩ :: post := by
    intro b hb hb1
    simp only [List.mem_append, List.mem_cons] at hb ⊢
    rcases hb with h1 | rfl | h1
    · exact Or.inl h1
    · omega
    · exact Or.inr (Or.inr h1)
  have hback : ∀ b ∈ pre ++ ⟨B.addr, B.size, 1⟩ :: post, b.alloc = 1 →
      b = ⟨B.addr, B.size, 1⟩ ∨ b ∈ pre ++ B :: post := by
    intro b hb _
    simp only [List.mem_append, List.mem_cons] at hb ⊢
    tauto
  have hfr2 : ∀ a, OutsideFree (pre ++ B :: post) a →
      (removeBlock (updateBlockTags h B.addr (B.size + 1)) B.addr).mem a = h.mem a := by
    intro a ho
    have hl := ho.links hwf
    have hBout := ho B hBm hB0
    rw [q3 a hl]
    exact r5 a (by omega) (by omega)
  have hout2 : ∀ a, OutsideFree (pre ++ B :: post) a →
      OutsideFree (pre ++ ⟨B.addr, B.size, 1⟩ :: post) a := by
    intro a ho b hb hb0
    have hb' : (b ∈ pre ∨ b ∈ post) ∨ b = ⟨B.addr, B.size, 1⟩ := by
      simp only [List.mem_append, List.mem_cons] at hb
      tauto
    rcases hb' with hb1 | rfl
    · exact ho b (by
        rcases hb1 with h1 | h1
        · exact List.mem_append_left _ h1
        · exact List.mem_append_right _ (List.mem_cons_of_mem _ h1)) hb0
    · simp at hb0
  rw [heq] at hnr ⊢
  by_cases hroot : (removeBlock (updateBlockTags h B.addr (B.size + 1)) B.addr).root = NULL
  · rw [if_pos hroot] at hnr ⊢
    have hfl0 : fl.erase B.addr = [] := by
      have := q1.flist
      rw [hroot] at this
      exact FreeList_nil_iff _ _ _ this
    have hfit : (removeBlock (updateBlockTags h B.addr (B.size + 1)) B.addr).mem_brk + 4096
        ≤ (removeBlock (updateBlockTags h B.addr (B.size + 1)) B.addr).mem_max_addr := by
      by_contra hc
      have := (extend_heap_refused (removeBlock (updateBlockTags h B.addr (B.size + 1)) B.addr)
        (CHUNKSIZE / WSIZE) 4096 (by decide) (by decide) (by unfold WORD; omega) (by omega)).1
      rw [this] at hnr
      exact absurd hnr (by decide)
    have e := r3.trans_same q2
    obtain ⟨bl1, fl1, R, k1, k2, k3, k4, k5, k6, k7, k8, k9, k10, k11⟩ :=
      extend_heap_ok _ _ _ (CHUNKSIZE / WSIZE) 4096 hwf2 (by simp) (by decide) (by decide)
        (by omega) hfit (by rw [e.2.2.1]; exact hmax)
    refine ⟨bl1, fl1, ⟨B.addr, B.size, 1⟩, k1, ?_, k8 _ (by simp) rfl, rfl, rfl, by
      show asize0 ≤ B.size
      omega, le_refl _, e.to_extends.trans_ext k6, ?_, ?_, ?_,
      fun hna => k11 (NoAdj_alloc pre [B] post _ (by simpa using hna) (by simp))⟩
    · intro hnil
      have := (k1.2 R k2).2 k3
      rw [hnil] at this
      exact absurd this (List.not_mem_nil _)
    · exact fun b hb hb1 => k8 b (hkeep b hb hb1) hb1
    · exact fun b hb hb1 => hback b (k9 b hb hb1) hb1
    · intro a ho ha
      rw [k10 a (hout2 a ho) (by rw [e.2.1]; exact ha)]
      exact hfr2 a ho
  · rw [if_neg hroot]
    refine ⟨_, _, ⟨B.addr, B.size, 1⟩, hwf2, ?_, by simp, rfl, rfl, by
      show asize0 ≤ B.size
      omega, le_refl _, (r3.trans_same q2).to_extends, hkeep, hback, fun a ho _ => hfr2 a ho,
      fun hna => NoAdj_alloc pre [B] post _ (by simpa using hna) (by simp)⟩
    intro hnil
    have := q1.flist
    rw [hnil] at this
    exact hroot this

/-! ## `mm_malloc` -/

/-- The macro `ALIGN` for requests that do not wrap around. -/
theorem ALIGN_ok (size : Nat) (h : size ≤ 4294967280) :
    ALIGN size % 8 = 0 ∧ 16 ≤ ALIGN size ∧ size + 8 ≤ ALIGN size ∧ ALIGN size < WORD := by
  unfold ALIGN DSIZE WSIZE
  by_cases h8 : size ≤ 2 * 4
  · rw [if_pos h8]
    refine ⟨by omega, by omega, by omega, by unfold WORD; omega⟩
  · rw [if_neg h8, uadd_eq size (2 * 4) (by unfold WORD; omega),
      uadd_eq (size + 2 * 4) (2 * 4 - 1) (by unfold WORD; omega)]
    unfold umul WORD
    refine ⟨by omega, by omega, by omega, by omega⟩

theorem Keeps_of_frame {h h1 : Heap} {bl : List Block} {fl : List Nat} (hwf : Valid h bl fl)
    (hfr : ∀ a, OutsideFree bl a → a < h.mem_brk + 4 → h1.mem a = h.mem a) : Keeps h h1 bl := by
  have hle := Chain_le _ _ _ _ hwf.1.chain
  constructor
  · intro a ha
    refine hfr a ?_ (by omega)
    intro b hb _
    have := hwf.1.blocks_ok b hb
    left; omega
  · intro X hX hX1 a ha1 ha2
    have hXo := hwf.1.blocks_ok X hX
    refine hfr a ?_ (by omega)
    intro b hb hb0
    have hbo := hwf.1.blocks_ok b hb
    rcases Chain_sep _ _ _ _ hwf.1.chain b X hb hX with rfl | h1 | h1
    · omega
    · right; omega
    · left; omega

theorem Keeps.trans_keeps {h h1 h2 : Heap} {bl bl1 : List Block} (k1 : Keeps h h1 bl)
    (k2 : Keeps h1 h2 bl1) (hs : h1.mem_start_brk = h.mem_start_brk)
    (hkeep : ∀ b ∈ bl, b.alloc = 1 → b ∈ bl1) : Keeps h h2 bl := by
  constructor
  · intro a ha
    rw [k2.1 a (by rw [hs]; exact ha)]
    exact k1.1 a ha
  · intro X hX hX1 a ha1 ha2
    rw [k2.2 X (hkeep X hX hX1) hX1 a ha1 ha2]
    exact k1.2 X hX hX1 a ha1 ha2

/-- The call `place` on a free block that holds the request, the provider not
refusing. -/
theorem place_ok (h : Heap) (bl : List Block) (fl : List Nat) (B : Block) (asize0 : Nat)
    (hwf : Valid h bl fl) (hBm : B ∈ bl) (hB0 : B.alloc = 0) (has : asize0 ≤ B.size)
    (ha8 : asize0 % 8 = 0) (ha16 : 16 ≤ asize0) (hW : B.size < 2147483648)
    (hmax : h.mem_max_addr + 16 ≤ WORD)
    (hnr : (place h B.addr asize0).mem_refused = false) :
    PlaceOut h (place h B.addr asize0) bl B asize0 := by
  obtain ⟨pre, post, rfl⟩ := List.append_of_mem hBm
  have hBo := hwf.1.blocks_ok B hBm
  by_cases hd : B.size = asize0 ∨ B.size = asize0 + 8
  · exact place_nosplit_ok h pre post B fl asize0 hwf hB0 hd hW hmax hnr
  · have hBf : B.addr ∈ fl := (hwf.2 B hBm).2 hB0
    obtain ⟨l1, l2, rfl⟩ := List.append_of_mem hBf
    obtain ⟨s1, s2, s3⟩ := place_split_ok h pre post B l1 l2 asize0 (B.size - asize0) hwf hB0
      (by omega) (by omega) ha16 ha8 hW
    refine ⟨_, _, ⟨B.addr, asize0, 1⟩, s1, by simp, by simp, rfl, rfl, le_refl _, has,
      s2.to_extends, ?_, ?_, fun a ho _ => s3 a ho,
      fun hna => NoAdj_split pre [] post B _ _ (by simpa using hna) hB0 (by simp)⟩
    · intro b hb hb1
      simp only [List.mem_append, List.mem_cons] at hb ⊢
      rcases hb with h1 | rfl | h1
      · exact Or.inl h1
      · omega
      · exact Or.inr (Or.inr (Or.inr h1))
    · intro b hb hb1
      simp only [List.mem_append, List.mem_cons] at hb ⊢
      rcases hb with h1 | rfl | rfl | h1
      · exact Or.inr (Or.inl h1)
      · exact Or.inl rfl
      · simp at hb1
      · exact Or.inr (Or.inr (Or.inr h1))

theorem SmallProvider.of_extends {h h1 : Heap} (hs : SmallProvider h) (he : Extends h h1) : SmallProvider h1 := by
  obtain ⟨a1, a2, a3⟩ := hs
  obtain ⟨b1, b2, b3, b4, b5⟩ := he
  refine ⟨?_, ?_, ?_⟩
  · rw [b2]; omega
  · rw [b2, b1]; exact a2
  · rw [b2]; exact a3

/-- With a capacity below `2 ^ 31` bytes every block is smaller than `2 ^ 31`. -/
theorem Valid.size_lt {h : Heap} {bl : List Block} {fl : List Nat} (hwf : Valid h bl fl)
    (hs : SmallProvider h) (b : Block) (hb : b ∈ bl) : b.size < 2147483648 := by
  have := hwf.1.blocks_ok b hb
  obtain ⟨a1, a2, a3⟩ := hs
  omega

/-- The call `mm_malloc` on a well formed heap with a non-empty free list and a
provider of less than `2 ^ 31` bytes, for a request that `ALIGN` does not
wrap around, on fuel for every node of the free list: the call returns, and
when the provider has not refused, the result is as `MallocOut` says. -/
theorem mm_malloc_ok (h : Heap) (bl : List Block) (fl : List Nat) (size fuel : Nat)
    (hwf : Valid h bl fl) (hne : fl ≠ []) (hsm : SmallProvider h) (hs0 : size ≠ 0)
    (hsz : size ≤ 4294967280) (hfuel : fl.length ≤ fuel) :
    ∃ h1 p, mm_malloc fuel h size = some (h1, p) ∧
      (h1.mem_refused = false → p ≠ NULL ∧ MallocOut h h1 bl size p) := by
  obtain ⟨al8, al16, alge, alW⟩ := ALIGN_ok size hsz
  obtain ⟨r, hfind, hr⟩ := find_fit_ok h bl fl (ALIGN size) fuel hwf hne hfuel
  have hlo := hwf.1.lo_pos
  by_cases hr0 : r = NULL
  · -- no free block holds the request
    have hall : ∀ b ∈ bl, b.alloc = 0 → b.size < ALIGN size := by
      rcases hr with ⟨_, h1⟩ | ⟨B, hB, hBa, hB0, hBs⟩
      · exact h1
      · have := hwf.1.blocks_ok B hB
        rw [hr0] at hBa
        unfold NULL at hBa
        omega
    have hbl : bl ≠ [] := by
      intro e
      cases fl with
      | nil => exact hne rfl
      | cons p ps =>
        obtain ⟨b, hb, _⟩ := hwf.1.nodes p (List.mem_cons_self _ _)
        rw [e] at hb
        exact absurd hb (List.not_mem_nil _)
    have hM8 : MAX (ALIGN size) CHUNKSIZE % 8 = 0 := by
      unfold MAX CHUNKSIZE
      split_ifs <;> omega
    have hMge : ALIGN size ≤ MAX (ALIGN size) CHUNKSIZE ∧ 4096 ≤ MAX (ALIGN size) CHUNKSIZE ∧
        MAX (ALIGN size) CHUNKSIZE < WORD := by
      unfold MAX CHUNKSIZE
      split_ifs <;> refine ⟨by omega, by omega, by unfold WORD at *; omega⟩
    have hmm : mm_malloc fuel h size =
        if (extend_heap h (MAX (ALIGN size) CHUNKSIZE / WSIZE)).2 = NULL then
          some ((extend_heap h (MAX (ALIGN size) CHUNKSIZE / WSIZE)).1, NULL)
        else some (place (extend_heap h (MAX (ALIGN size) CHUNKSIZE / WSIZE)).1
          (extend_heap h (MAX (ALIGN size) CHUNKSIZE / WSIZE)).2 (ALIGN size),
          (extend_heap h (MAX (ALIGN size) CHUNKSIZE / WSIZE)).2) := by
      unfold mm_malloc
      rw [if_neg hs0]
      simp only [hfind, hr0, ne_eq, not_true_eq_false, if_false]
    have hw2 : MAX (ALIGN size) CHUNKSIZE / WSIZE % 2 = 0 := by unfold WSIZE; omega
    have hw4 : MAX (ALIGN size) CHUNKSIZE / WSIZE * 4 = MAX (ALIGN size) CHUNKSIZE := by
      unfold WSIZE; omega
    by_cases hfit : h.mem_brk + MAX (ALIGN size) CHUNKSIZE ≤ h.mem_max_addr
    · obtain ⟨bl1, fl1, R, k1, k2, k3, k4, k5, k6, k7, k8, k9, k10, k11⟩ :=
        extend_heap_ok h bl fl _ _ hwf hbl hw2 hw4 (by omega) hfit hsm.2.2
      have hRo := k1.1.blocks_ok R k2
      have hsm1 := hsm.of_extends k6
      have hR0 : (extend_heap h (MAX (ALIGN size) CHUNKSIZE / WSIZE)).2 ≠ NULL := by
        rw [k4]; unfold NULL; omega
      rw [hmm, if_neg hR0]
      refine ⟨_, _, rfl, ?_⟩
      intro hnr
      refine ⟨hR0, ?_⟩
      rw [k4] at hnr ⊢
      obtain ⟨bl2, fl2, B1, p1, p2, p3, p4, p5, p6, p7, p8, p9, p10, p11, p12⟩ :=
        place_ok _ bl1 fl1 R (ALIGN size) k1 k2 k3 (by omega) al8 al16
          (k1.size_lt hsm1 R k2) hsm1.2.2 hnr
      refine ⟨bl2, fl2, B1, p1, p2, p3, p4, p5, by omega, k6.trans_ext p8, ?_, ?_, ?_,
        fun hna => p12 (k11 hna)⟩
      · intro b hb hb1
        refine ⟨p9 b (k8 b hb hb1) hb1, ?_⟩
        intro hbp
        have := Chain_addr_inj _ _ _ _ k1.1.chain b R (k8 b hb hb1) k2 hbp
        rw [this] at hb1
        omega
      · intro b hb hb1
        rcases p10 b hb hb1 with h1 | h1
        · exact Or.inl h1
        · exact Or.inr (k9 b h1 hb1)
      · exact (Keeps_of_frame hwf k10).trans_keeps (Keeps_of_frame k1 p11) k6.1
          (fun b hb hb1 => k8 b hb hb1)
    · obtain ⟨e1, e2⟩ := extend_heap_refused h _ _ hw2 hw4 hMge.2.2 (by omega)
      rw [hmm, if_pos e2]
      refine ⟨_, _, rfl, ?_⟩
      intro hnr
      rw [e1] at hnr
      exact absurd hnr (by decide)
  · -- a free block holds the request
    have hmm : mm_malloc fuel h size = some (place h r (ALIGN size), r) := by
      unfold mm_malloc
      rw [if_neg hs0]
      simp only [hfind, hr0, ne_eq, not_false_eq_true, if_true]
    obtain ⟨B, hB, hBa, hB0, hBs⟩ : ∃ B ∈ bl, B.addr = r ∧ B.alloc = 0 ∧ ALIGN size ≤ B.size := by
      rcases hr with ⟨h1, _⟩ | h1
      · exact absurd h1 hr0
      · exact h1
    rw [hmm]
    refine ⟨_, _, rfl, ?_⟩
    intro hnr
    refine ⟨hr0, ?_⟩
    rw [← hBa] at hnr ⊢
    obtain ⟨bl2, fl2, B1, p1, p2, p3, p4, p5, p6, p7, p8, p9, p10, p11, p12⟩ :=
      place_ok h bl fl B (ALIGN size) hwf hB hB0 hBs al8 al16 (hwf.size_lt hsm B hB)
        hsm.2.2 hnr
    refine ⟨bl2, fl2, B1, p1, p2, p3, p4, p5, by omega, p8, ?_, p10, Keeps_of_frame hwf p11,
      p12⟩
    intro b hb hb1
    refine ⟨p9 b hb hb1, ?_⟩
    intro hbp
    have := Chain_addr_inj _ _ _ _ hwf.1.chain b B hb hB hbp
    rw [this] at hb1
    omega

/-! ## `mm_realloc` -/

theorem NEXT_BLKP_retag (h : Heap) (bp s : Nat) (hbp : 4 ≤ bp) (hs8 : s % 8 = 0) (h8 : 8 ≤ s)
    (hW : bp + s < WORD) : NEXT_BLKP (updateBlockTags h bp (s + 1)).mem bp = bp + s := by
  have hU1 := updateBlockTags_eq h bp s 1 hbp hs8 h8 (by omega) hW
  have ht1 : (s + 1) % WORD = s + 1 := Nat.mod_eq_of_lt (by omega)
  unfold NEXT_BLKP
  rw [HDRP_eq bp hbp (by omega), GET_SIZE_eq, hU1]
  show uadd bp (GET (PUT (PUT h.mem (bp - 4) (s + 1)) (bp + s - 8) (s + 1)) (bp - 4) / 8 * 8)
    = bp + s
  rw [GET_PUT_ne _ _ _ _ (by omega), GET_PUT_same, ht1,
    show (s + 1) / 8 * 8 = s by omega, uadd_eq bp s (by omega)]

/-- The in-place branch of `mm_realloc` when the block and its free successor
exceed the request by 16 bytes or more. -/
theorem mm_realloc_split_eq (fuel : Nat) (h : Heap) (bp size sB nx sN d : Nat)
    (hsB : GET_SIZE h.mem (HDRP bp) = sB) (hnext : NEXT_BLKP h.mem bp = nx)
    (hsN : GET_SIZE h.mem (HDRP nx) = sN) (hNa : GET_ALLOC h.mem (HDRP nx) = 0)
    (hNr : IS_IN_RANGE h nx = true) (hnx0 : nx ≠ 0) (hne : sB ≠ ALIGN size) (hbp0 : bp ≠ 0)
    (hs0 : size ≠ 0) (hd : sB + sN = ALIGN size + d) (hd16 : 16 ≤ d)
    (hW : sB + sN < 2147483648) (ha8 : ALIGN size % 8 = 0) (ha16 : 16 ≤ ALIGN size)
    (hbp : 4 ≤ bp) (hbW : bp + ALIGN size + d < WORD) :
    mm_realloc fuel h bp size =
      some (insertNewBlock (updateBlockTags (updateBlockTags (removeBlock h nx) bp
        (ALIGN size + 1)) (bp + ALIGN size) (d + 0)) (bp + ALIGN size), bp) := by
  have hsp : toInt32 (usub (uadd sB sN) (ALIGN size)) = (d : Int) := by
    rw [uadd_eq sB sN (by unfold WORD; omega), hd,
      usub_eq (ALIGN size + d) (ALIGN size) (by omega) (by unfold WORD; omega),
      toInt32_small _ (by omega), show ALIGN size + d - ALIGN size = d by omega]
  have c1 : ¬ ((d : Int) = ((DSIZE : Nat) : Int)) := by unfold DSIZE WSIZE; omega
  have c2 : (d : Int) > 8 := by omega
  have c3 : ALIGN size < uadd sB sN := by rw [uadd_eq sB sN (by unfold WORD; omega)]; omega
  have e_pack : PACK (ALIGN size) 1 = ALIGN size + 1 := PACK_one _ (by omega)
  have e_of : PACK (ofInt32 (d : Int)) 0 = d + 0 := by
    rw [ofInt32_small d (by omega), PACK_zero, Nat.add_zero]
  have e_next := NEXT_BLKP_retag (removeBlock h nx) bp (ALIGN size) hbp ha8 (by omega) (by omega)
  unfold mm_realloc
  simp only [hsB, hne, if_false, hbp0, NULL, hs0, hnext, hsN, hNa, hNr, hnx0, ne_eq,
    not_false_eq_true, decide_True, Bool.and_true, Bool.true_and, c3, if_true, hsp, c1, c2,
    e_pack, e_next, e_of]

/-- The in-place branch of `mm_realloc` when the block and its free successor
exceed the request by 8 bytes. -/
theorem mm_realloc_nosplit_eq (fuel : Nat) (h : Heap) (bp size sB nx sN : Nat)
    (hsB : GET_SIZE h.mem (HDRP bp) = sB) (hnext : NEXT_BLKP h.mem bp = nx)
    (hsN : GET_SIZE h.mem (HDRP nx) = sN) (hNa : GET_ALLOC h.mem (HDRP nx) = 0)
    (hNr : IS_IN_RANGE h nx = true) (hnx0 : nx ≠ 0) (hne : sB ≠ ALIGN size) (hbp0 : bp ≠ 0)
    (hs0 : size ≠ 0) (hd : sB + sN = ALIGN size + 8)
    (hW : sB + sN < 2147483648) (ha8 : ALIGN size % 8 = 0) :
    mm_realloc fuel h bp size =
      if (updateBlockTags (removeBlock h nx) bp (sB + sN + 1)).root = NULL then
        some ((extend_heap (updateBlockTags (removeBlock h nx) bp (sB + sN + 1))
          (CHUNKSIZE / WSIZE)).1, bp)
      else some (updateBlockTags (removeBlock h nx) bp (sB + sN + 1), bp) := by
  have hsp : toInt32 (usub (uadd sB sN) (ALIGN size)) = 8 := by
    rw [uadd_eq sB sN (by unfold WORD; omega), hd,
      usub_eq (ALIGN size + 8) (ALIGN size) (by omega) (by unfold WORD; omega),
      toInt32_small _ (by omega), show ALIGN size + 8 - ALIGN size = 8 by omega]
    rfl
  have c3 : ALIGN size < uadd sB sN := by rw [uadd_eq sB sN (by unfold WORD; omega)]; omega
  have e_pack : PACK (uadd (ALIGN size) (2 * 4)) 1 = sB + sN + 1 := by
    rw [uadd_eq (ALIGN size) (2 * 4) (by unfold WORD; omega),
      show ALIGN size + 2 * 4 = sB + sN by omega]
    exact PACK_one _ (by omega)
  unfold mm_realloc
  simp only [hsB, hne, if_false, hbp0, NULL, hs0, hnext, hsN, hNa, hNr, hnx0, ne_eq,
    not_false_eq_true, decide_True, Bool.and_true, Bool.true_and, c3, if_true, hsp, DSIZE, WSIZE]
  simp [e_pack]

/-- The in-place branch of `mm_realloc` with a split: the block `B` and its free
successor `N` become an allocated block of `asize0` bytes and a free block
at the head of the free list. -/
theorem realloc_split_Valid (h : Heap) (pre post : List Block) (B N : Block) (fl : List Nat)
    (asize0 d : Nat) (hwf : Valid h (pre ++ B :: N :: post) fl) (hB1 : B.alloc = 1)
    (hN0 : N.alloc = 0) (hsz : B.size + N.size = asize0 + d) (hd16 : 16 ≤ d)
    (ha16 : 16 ≤ asize0) (ha8 : asize0 % 8 = 0) (hne : B.size ≠ asize0) :
    Valid (insertNewBlock (updateBlockTags (updateBlockTags (removeBlock h N.addr) B.addr
        (asize0 + 1)) (B.addr + asize0) (d + 0)) (B.addr + asize0))
      (pre ++ ⟨B.addr, asize0, 1⟩ :: ⟨B.addr + asize0, d, 0⟩ :: post)
      ((B.addr + asize0) :: fl.erase N.addr) ∧
    SameProvider h (insertNewBlock (updateBlockTags (updateBlockTags (removeBlock h N.addr)
        B.addr (asize0 + 1)) (B.addr + asize0) (d + 0)) (B.addr + asize0)) ∧
    (∀ a, OutsideFree (pre ++ B :: N :: post) a →
      (a < B.addr - 4 ∨ B.addr ≤ a) → (a < B.addr + asize0 - 8 ∨ B.addr + B.size ≤ a + 4) →
      (insertNewBlock (updateBlockTags (updateBlockTags (removeBlock h N.addr) B.addr
        (asize0 + 1)) (B.addr + asize0) (d + 0)) (B.addr + asize0)).mem a = h.mem a) := by
  have hp := hwf.1
  have hBm : B ∈ pre ++ B :: N :: post := by simp
  have hNm : N ∈ pre ++ B :: N :: post := by simp
  have hBo := hp.blocks_ok B hBm
  have hNo := hp.blocks_ok N hNm
  have hbrk := hp.brk_le
  have hlo := hp.lo_pos
  have hd8 : d % 8 = 0 := by omega
  have hNf : N.addr ∈ fl := (hwf.2 N hNm).2 hN0
  obtain ⟨c1, c2, c3⟩ := Chain_one _ _ _ _ _ _ hp.chain
  have hNa : N.addr = B.addr + B.size := c3.1
  obtain ⟨hp1, e1, e2⟩ := removeBlock_Shape h _ fl N.addr hp hNf
  obtain ⟨d1, d2, d3⟩ := Chain_one _ _ _ _ _ _ hp1.chain
  obtain ⟨_, d4, d5⟩ := Chain_one_at _ [] post N _ _ _ d3 hNa
  obtain ⟨m1, hU, hch, hfr⟩ := split_tags (removeBlock h N.addr) B.addr asize0 d 1 0 (by omega)
    ha8 ha16 hd8 hd16 (by omega) (by omega) (by omega)
  have hch' : Chain m1 [⟨B.addr, asize0, 1⟩, ⟨B.addr + asize0, d, 0⟩] B.addr
      (B.addr + B.size + N.size) := by
    rw [show B.addr + B.size + N.size = B.addr + asize0 + d by omega]; exact hch
  have hnotB : B.addr ∉ fl := hwf.no_node B hBm (by omega)
  have hp2 : Shape { removeBlock h N.addr with mem := m1 }
      (pre ++ [⟨B.addr, asize0, 1⟩, ⟨B.addr + asize0, d, 0⟩] ++ post) (fl.erase N.addr) :=
    Shape.retile [B, N] (by simpa using hp1) d1 (Chain_two _ [B] [N] _ _ _ d2 d4) d5
      (fun b hb hbf => by
        simp only [List.mem_cons, List.mem_singleton, List.not_mem_nil, or_false] at hb
        rcases hb with rfl | rfl
        · rfl
        · exact absurd hbf (not_mem_erase_self fl _ hp.nodup)) m1 _ hch' (by simp)
      (fun a ha => hfr a (by omega) (by omega) (by omega))
  have hyn : B.addr + asize0 ∉ fl.erase N.addr := by
    intro hy
    have hy1 := List.mem_of_mem_erase hy
    obtain ⟨c, hc, hca⟩ := hp.nodes _ hy1
    have hco := hp.blocks_ok c hc
    have hcN : c ≠ N := by
      rintro rfl
      omega
    have hcB : c ≠ B := by
      rintro rfl
      omega
    rcases Chain_sep _ _ _ _ hp.chain B c hBm hc with e | h1 | h1
    · exact hcB e.symm
    · rcases Chain_sep _ _ _ _ hp.chain N c hNm hc with e | h2 | h2
      · exact hcN e.symm
      · omega
      · omega
    · omega
  rw [hU]
  obtain ⟨i1, i2, i3, i4, i5⟩ := insertNewBlock_Shape _ _ _ (B.addr + asize0) hp2 hyn
    ⟨⟨B.addr + asize0, d, 0⟩, by simp, rfl⟩
  refine ⟨⟨by simpa using i1, ?_⟩, e1.trans_same (SameProvider.trans_same ⟨rfl, rfl, rfl, rfl, rfl⟩ i4),
    ?_⟩
  · intro b hb
    have hb' : (b ∈ pre ∨ b ∈ post) ∨ b = ⟨B.addr, asize0, 1⟩ ∨ b = ⟨B.addr + asize0, d, 0⟩ := by
      simp only [List.mem_append, List.mem_cons] at hb
      tauto
    rcases hb' with hb1 | rfl | rfl
    · have hbm : b ∈ pre ++ B :: N :: post := by
        rcases hb1 with h1 | h1
        · exact List.mem_append_left _ h1
        · exact List.mem_append_right _ (List.mem_cons_of_mem _ (List.mem_cons_of_mem _ h1))
      have hne2 : b.addr ≠ N.addr ∧ b.addr ≠ B.addr + asize0 := by
        rcases hb1 with h1 | h1
        · have := Chain_mem _ _ _ _ c1 b h1; omega
        · have := Chain_mem _ _ _ _ d5 b h1; omega
      rw [List.mem_cons, List.mem_erase_of_ne hne2.1, ← hwf.2 b hbm]
      constructor
      · rintro (h1 | h1)
        · exact absurd h1 hne2.2
        · exact h1
      · exact fun h1 => Or.inr h1
    · rw [List.mem_cons]
      constructor
      · rintro (h1 | h1)
        · have : B.addr = B.addr + asize0 := h1
          omega
        · exact absurd (List.mem_of_mem_erase h1) hnotB
      · intro h1
        simp at h1
    · simp
  · intro a ho ha1 ha2
    have hl := ho.links hwf
    have hNout := ho N hNm hN0
    rw [i5 a (by
      intro p hp'
      rcases List.mem_cons.1 hp' with rfl | h1
      · omega
      · exact hl p (List.mem_of_mem_erase h1))]
    show m1 a = h.mem a
    rw [hfr a (by omega) (by omega) (by omega)]
    exact e2 a hl

/-- The in-place branch of `mm_realloc` without a split: the block `B` swallows
its free successor `N`. -/
theorem realloc_nosplit_Valid (h : Heap) (pre post : List Block) (B N : Block) (fl : List Nat)
    (hwf : Valid h (pre ++ B :: N :: post) fl) (hB1 : B.alloc = 1) (hN0 : N.alloc = 0) :
    Valid (updateBlockTags (removeBlock h N.addr) B.addr (B.size + N.size + 1))
      (pre ++ ⟨B.addr, B.size + N.size, 1⟩ :: post) (fl.erase N.addr) ∧
    SameProvider h (updateBlockTags (removeBlock h N.addr) B.addr (B.size + N.size + 1)) ∧
    (∀ a, OutsideFree (pre ++ B :: N :: post) a → (a < B.addr - 4 ∨ B.addr ≤ a) →
      (updateBlockTags (removeBlock h N.addr) B.addr (B.size + N.size + 1)).mem a = h.mem a) := by
  have hp := hwf.1
  have hBm : B ∈ pre ++ B :: N :: post := by simp
  have hNm : N ∈ pre ++ B :: N :: post := by simp
  have hBo := hp.blocks_ok B hBm
  have hNo := hp.blocks_ok N hNm
  have hNf : N.addr ∈ fl := (hwf.2 N hNm).2 hN0
  obtain ⟨c1, c2, c3⟩ := Chain_one _ _ _ _ _ _ hp.chain
  have hNa : N.addr = B.addr + B.size := c3.1
  obtain ⟨hp1, e1, e2⟩ := removeBlock_Shape h _ fl N.addr hp hNf
  obtain ⟨d1, d2, d3⟩ := Chain_one _ _ _ _ _ _ hp1.chain
  obtain ⟨_, d4, d5⟩ := Chain_one_at _ [] post N _ _ _ d3 hNa
  have hnotB : B.addr ∉ fl := hwf.no_node B hBm (by omega)
  obtain ⟨r1, r2, r3, r5⟩ := retag_Shape (removeBlock h N.addr) pre [B, N] post (fl.erase N.addr)
    B.addr (B.addr + B.size + N.size) 1 (by simpa using hp1) d1
    (Chain_two _ [B] [N] _ _ _ d2 d4) d5 (by simp)
    (fun b hb hbf => by
      simp only [List.mem_cons, List.mem_singleton, List.not_mem_nil, or_false] at hb
      rcases hb with rfl | rfl
      · rfl
      · exact absurd hbf (not_mem_erase_self fl _ hp.nodup)) (by omega)
  have hsz : B.addr + B.size + N.size - B.addr = B.size + N.size := by omega
  rw [hsz] at r1 r2 r3 r5
  refine ⟨⟨r1, ?_⟩, e1.trans_same r3, ?_⟩
  · intro b hb
    have hb' : (b ∈ pre ∨ b ∈ post) ∨ b = ⟨B.addr, B.size + N.size, 1⟩ := by
      simp only [List.mem_append, List.mem_cons] at hb
      tauto
    rcases hb' with hb1 | rfl
    · have hbm : b ∈ pre ++ B :: N :: post := by
        rcases hb1 with h1 | h1
        · exact List.mem_append_left _ h1
        · exact List.mem_append_right _ (List.mem_cons_of_mem _ (List.mem_cons_of_mem _ h1))
      have hne2 : b.addr ≠ N.addr := by
        rcases hb1 with h1 | h1
        · have := Chain_mem _ _ _ _ c1 b h1; omega
        · have := Chain_mem _ _ _ _ d5 b h1; omega
      rw [List.mem_erase_of_ne hne2]
      exact hwf.2 b hbm
    · constructor
      · intro h1
        exact absurd (List.mem_of_mem_erase h1) hnotB
      · intro h1
        simp at h1
  · intro a ho ha1
    have hl := ho.links hwf
    have hNout := ho N hNm hN0
    rw [r5 a (by omega) (by omega)]
    exact e2 a hl

/-- Bytes written into the payload of an allocated block leave the heap well
formed. -/
theorem Valid.payload_write {h : Heap} {bl : List Block} {fl : List Nat} (hwf : Valid h bl fl)
    (Q : Block) (hQ : Q ∈ bl) (hQ1 : Q.alloc = 1) (m1 : Mem)
    (hfr : ∀ a, (a < Q.addr ∨ Q.addr + Q.size ≤ a + 8) → m1 a = h.mem a) :
    Valid { h with mem := m1 } bl fl := by
  have hp := hwf.1
  have hQo := hp.blocks_ok Q hQ
  have hlo := hp.lo_pos
  refine ⟨⟨hp.lo_pos, hp.lo_al, hp.brk_le, ?_, ?_, hp.nodup, hp.nodes⟩, hwf.2⟩
  · apply Chain_frame_bytes _ _ _ _ _ hp.chain (by omega)
    intro b hb a ha
    have hbo := hp.blocks_ok b hb
    unfold Block.tagByte at ha
    apply hfr
    rcases Chain_sep _ _ _ _ hp.chain b Q hb hQ with rfl | h1 | h1 <;> omega
  · apply FreeList_frame _ _ _ _ _ hp.flist
    intro p hpf
    obtain ⟨c, hc, rfl⟩ := hp.nodes p hpf
    have hco := hp.blocks_ok c hc
    have hc0 := (hwf.2 c hc).1 hpf
    have hbytes : ∀ a, c.addr ≤ a → a < c.addr + 8 → m1 a = h.mem a := by
      intro a h1 h2
      apply hfr
      rcases Chain_sep _ _ _ _ hp.chain c Q hc hQ with rfl | h3 | h3 <;> omega
    exact ⟨GET_congr _ _ _ (fun a h1 h2 => hbytes a (by omega) (by omega)),
      GET_congr _ _ _ (fun a h1 h2 => hbytes a (by omega) (by omega))⟩

theorem memcpy_out (m : Mem) (dst src n a : Nat) (h : a < dst ∨ dst + n ≤ a) :
    memcpy m dst src n a = m a := by
  unfold memcpy
  rw [if_neg (by omega)]

theorem memcpy_in (m : Mem) (dst src n i : Nat) (h : i < n) :
    memcpy m dst src n (dst + i) = m (src + i) := by
  unfold memcpy
  rw [if_pos (by omega), show dst + i - dst = i by omega]

theorem removeBlock_refused (h : Heap) (bp : Nat) :
    (removeBlock h bp).mem_refused = h.mem_refused := by
  unfold removeBlock
  simp only
  split_ifs <;> rfl

theorem updateBlockTags_refused (h : Heap) (bp t : Nat) :
    (updateBlockTags h bp t).mem_refused = h.mem_refused := rfl

theorem insertNewBlock_refused (h : Heap) (bp : Nat) :
    (insertNewBlock h bp).mem_refused = h.mem_refused := by
  unfold insertNewBlock
  split_ifs <;> rfl

/-- The call `mm_free` never touches the record of refusals. -/
theorem mm_free_refused (h : Heap) (ptr : Nat) :
    (mm_free h ptr).mem_refused = h.mem_refused := by
  unfold mm_free
  simp only
  split_ifs <;>
    simp only [insertNewBlock_refused, updateBlockTags_refused, removeBlock_refused]

/-- A byte of the payload of an allocated block lies outside every free block and
outside every other block. -/
theorem payload_outside {h : Heap} {bl : List Block} {fl : List Nat} (hwf : Valid h bl fl)
    (X : Block) (hX : X ∈ bl) (a : Nat) (ha1 : X.addr ≤ a) (ha2 : a + 8 < X.addr + X.size) :
    (X.alloc = 1 → OutsideFree bl a) ∧ (∀ Y ∈ bl, Y ≠ X → Y.outside a) := by
  have hXo := hwf.1.blocks_ok X hX
  constructor
  · intro hX1 b hb hb0
    have hbo := hwf.1.blocks_ok b hb
    rcases Chain_sep _ _ _ _ hwf.1.chain b X hb hX with rfl | h1 | h1
    · omega
    · right; omega
    · left; omega
  · intro Y hY hne
    have hYo := hwf.1.blocks_ok Y hY
    unfold Block.outside
    rcases Chain_sep _ _ _ _ hwf.1.chain Y X hY hX with e | h1 | h1
    · exact absurd e hne
    · right; omega
    · left; omega

/-- The allocate, copy and free branch of `mm_realloc`. -/
theorem mm_realloc_fallback_eq (fuel : Nat) (h : Heap) (bp size : Nat) (h1 : Heap) (p n : Nat)
    (hne : GET_SIZE h.mem (HDRP bp) ≠ ALIGN size) (hbp0 : bp ≠ 0) (hs0 : size ≠ 0)
    (hc : (decide (NEXT_BLKP h.mem bp ≠ NULL) &&
      decide (GET_ALLOC h.mem (HDRP (NEXT_BLKP h.mem bp)) = 0) &&
      IS_IN_RANGE h (NEXT_BLKP h.mem bp) &&
      decide (ALIGN size < uadd (GET_SIZE h.mem (HDRP bp))
        (GET_SIZE h.mem (HDRP (NEXT_BLKP h.mem bp))))) = false)
    (hm : mm_malloc fuel h size = some (h1, p))
    (hn : n = if size < usub (GET_SIZE h1.mem (HDRP bp)) DSIZE then size
      else usub (GET_SIZE h1.mem (HDRP bp)) DSIZE) :
    mm_realloc fuel h bp size =
      if p = NULL then some (h1, 0)
      else some (mm_free { h1 with mem := memcpy h1.mem p bp n } bp, p) := by
  rw [hn]
  unfold mm_realloc
  simp only [hne, if_false, hbp0, NULL, hs0, hm]
  simp only [NULL] at hc
  rw [if_neg (by rw [hc]; decide)]

/-- The allocate, copy and free branch of `mm_realloc` on a well formed heap. -/
theorem realloc_fallback_ok (h : Heap) (bl : List Block) (fl : List Nat) (B : Block)
    (size fuel : Nat) (hwf : Valid h bl fl) (hne : fl ≠ []) (hsm : SmallProvider h)
    (hpad : GET h.mem h.mem_start_brk < 8) (hBm : B ∈ bl) (hB1 : B.alloc = 1) (hs0 : size ≠ 0) (hsz : size ≤ 4294967280)
    (hfuel : fl.length ≤ fuel) (hneq : B.size ≠ ALIGN size)
    (hc : (decide (NEXT_BLKP h.mem B.addr ≠ NULL) &&
      decide (GET_ALLOC h.mem (HDRP (NEXT_BLKP h.mem B.addr)) = 0) &&
      IS_IN_RANGE h (NEXT_BLKP h.mem B.addr) &&
      decide (ALIGN size < uadd (GET_SIZE h.mem (HDRP B.addr))
        (GET_SIZE h.mem (HDRP (NEXT_BLKP h.mem B.addr))))) = false) :
    ∃ h1 q, mm_realloc fuel h B.addr size = some (h1, q) ∧
      (h1.mem_refused = false → q ≠ NULL ∧ ReallocOut h h1 bl B size q) := by
  obtain ⟨hm1, p, hm, hspec⟩ := mm_malloc_ok h bl fl size fuel hwf hne hsm hs0 hsz hfuel
  have hBo := hwf.1.blocks_ok B hBm
  have hlo := hwf.1.lo_pos
  have heq := mm_realloc_fallback_eq fuel h B.addr size hm1 p _
    (by rw [(hwf.1.reads B hBm).2.1]; exact hneq) (by omega) hs0 hc hm rfl
  by_cases hp0 : p = NULL
  · rw [heq, if_pos hp0]
    refine ⟨_, _, rfl, ?_⟩
    intro hnr
    exact absurd hp0 (hspec hnr).1
  · rw [heq, if_neg hp0]
    refine ⟨_, _, rfl, ?_⟩
    intro hnr
    rw [mm_free_refused] at hnr
    obtain ⟨_, bl1, fl1, Q, w1, w2, hQ, hQa, hQ1, hQs, w7, w8, w9, w10, w11⟩ := hspec hnr
    have hB1m : B ∈ bl1 := (w8 B hBm hB1).1
    have hBp : B.addr ≠ p := (w8 B hBm hB1).2
    have hQo := w1.1.blocks_ok Q hQ
    have hQB : Q ≠ B := by
      rintro rfl
      exact hBp hQa
    have hrd : GET_SIZE hm1.mem (HDRP B.addr) = B.size := (w1.1.reads B hB1m).2.1
    have hbrk1 := w1.1.brk_le
    have hB1o := w1.1.blocks_ok B hB1m
    have hus : usub B.size DSIZE = B.size - 8 := by
      unfold DSIZE WSIZE
      rw [usub_eq B.size (2 * 4) (by omega) (by omega)]
    rw [hrd, hus]
    obtain ⟨n, hn⟩ : ∃ n, n = (if size < B.size - 8 then size else B.size - 8) := ⟨_, rfl⟩
    rw [← hn]
    have hn1 : n ≤ size := by
      rw [hn]
      split_ifs <;> omega
    have hn2 : ∀ i, i < size → i + 8 < B.size → i < n := by
      intro i h1 h2
      rw [hn]
      split_ifs <;> omega
    have w2' : Valid { hm1 with mem := memcpy hm1.mem p B.addr n } bl1 fl1 :=
      w1.payload_write Q hQ hQ1 _ (fun a ha => memcpy_out _ _ _ _ _ (by omega))
    have hpad2 : GET (memcpy hm1.mem p B.addr n) hm1.mem_start_brk < 8 := by
      have e1 : GET (memcpy hm1.mem p B.addr n) hm1.mem_start_brk
          = GET hm1.mem hm1.mem_start_brk :=
        GET_congr _ _ _ (fun a h1 h2 => memcpy_out _ _ _ _ _ (by omega))
      have e2 : GET hm1.mem hm1.mem_start_brk = GET h.mem h.mem_start_brk := by
        rw [w7.1]
        exact GET_congr _ _ _ (fun a h1 h2 => w10.1 a (by omega))
      rw [e1, e2]
      exact hpad
    obtain ⟨bl2, fl2, ⟨f1, f2, f3⟩, f4, f5, f6, f7⟩ := mm_free_ok _ bl1 fl1 B w2' hpad2 hB1m hB1
    have hsp : SameProvider hm1 { hm1 with mem := memcpy hm1.mem p B.addr n } :=
      ⟨rfl, rfl, rfl, rfl, rfl⟩
    refine ⟨hp0, bl2, fl2, Q, f1, f4 w2, f5 Q hQ hQ1 hQB, hQa, hQ1, hQs,
      w7.trans_ext (hsp.trans_same f2).to_extends, ?_, ?_, ?_, ?_, fun hna => f7 (w11 hna)⟩
    · intro b hb hb1 hbB
      exact ⟨f5 b (w8 b hb hb1).1 hb1 hbB, (w8 b hb hb1).2⟩
    · intro a ha
      rw [f3 a (by
        intro b hb _
        have := w1.1.blocks_ok b hb
        rw [w7.1] at this
        left; omega) (by
        unfold Block.outside
        rw [w7.1] at hB1o
        left; omega)]
      show memcpy hm1.mem p B.addr n a = h.mem a
      rw [memcpy_out _ _ _ _ _ (by rw [w7.1] at hQo; omega)]
      exact w10.1 a ha
    · intro X hX hX1 hXB a ha1 ha2
      have hX1m := (w8 X hX hX1).1
      have hXp := (w8 X hX hX1).2
      have hXQ : Q ≠ X := by
        rintro rfl
        exact hXp hQa
      obtain ⟨o1, o2⟩ := payload_outside w1 X hX1m a ha1 ha2
      rw [f3 a (o1 hX1) (o2 B hB1m (fun e => hXB e.symm))]
      show memcpy hm1.mem p B.addr n a = h.mem a
      have hQout := o2 Q hQ hXQ
      unfold Block.outside at hQout
      rw [memcpy_out _ _ _ _ _ (by omega)]
      exact w10.2 X hX hX1 a ha1 ha2
    · intro i hi1 hi2
      obtain ⟨o1, o2⟩ := payload_outside w1 Q hQ (p + i) (by omega) (by omega)
      rw [f3 (p + i) (o1 hQ1) (o2 B hB1m (fun e => hQB e.symm))]
      show memcpy hm1.mem p B.addr n (p + i) = h.mem (B.addr + i)
      rw [memcpy_in _ _ _ _ _ (hn2 i hi1 hi2)]
      exact w10.2 B hBm hB1 (B.addr + i) (by omega) (by omega)

/-- The in-place branch of `mm_realloc` on a well formed heap: the block keeps its
pointer and grows into (or gives bytes to) its free successor. -/
theorem realloc_inplace_ok (h : Heap) (pre post : List Block) (B N : Block) (fl : List Nat)
    (size fuel : Nat) (hwf : Valid h (pre ++ B :: N :: post) fl) (hsm : SmallProvider h)
    (hB1 : B.alloc = 1) (hN0 : N.alloc = 0) (hs0 : size ≠ 0) (hsz : size ≤ 4294967280)
    (hneq : B.size ≠ ALIGN size) (hlt : ALIGN size < B.size + N.size) :
    ∃ h1, mm_realloc fuel h B.addr size = some (h1, B.addr) ∧
      (h1.mem_refused = false → ReallocOut h h1 (pre ++ B :: N :: post) B size B.addr) := by
  obtain ⟨al8, al16, alge, alW⟩ := ALIGN_ok size hsz
  have hp := hwf.1
  have hBm : B ∈ pre ++ B :: N :: post := by simp
  have hNm : N ∈ pre ++ B :: N :: post := by simp
  have hBo := hp.blocks_ok B hBm
  have hNo := hp.blocks_ok N hNm
  have hbrk := hp.brk_le
  have hlo := hp.lo_pos
  obtain ⟨r1, r3, r5, hNa⟩ := reads_next h pre post B N fl hp
  have rB := hp.reads B hBm
  have rN := hp.reads N hNm
  have hBs := hwf.size_lt hsm B hBm
  have hNs := hwf.size_lt hsm N hNm
  have hsum : B.size + N.size < 2147483648 := by
    obtain ⟨a1, a2, a3⟩ := hsm
    omega
  obtain ⟨c1, c2, c3⟩ := Chain_one _ _ _ _ _ _ hp.chain
  have hothers : ∀ b ∈ pre ++ B :: N :: post, b.alloc = 1 → b ≠ B →
      (b ∈ pre ∨ b ∈ post) ∧ b.addr ≠ B.addr := by
    intro b hb hb1 hbB
    refine ⟨?_, fun e => hbB (Chain_addr_inj _ _ _ _ hp.chain b B hb hBm e)⟩
    simp only [List.mem_append, List.mem_cons] at hb
    rcases hb with h1 | rfl | rfl | h1
    · exact Or.inl h1
    · exact absurd rfl hbB
    · omega
    · exact Or.inr h1
  by_cases hd : B.size + N.size = ALIGN size + 8
  · -- no split
    have heq := mm_realloc_nosplit_eq fuel h B.addr size B.size N.addr N.size rB.2.1 r1
      rN.2.1 (by rw [r3]; exact hN0) r5 (by omega) hneq (by omega) hs0 hd hsum al8
    obtain ⟨w1, w2, w3⟩ := realloc_nosplit_Valid h pre post B N fl hwf hB1 hN0
    have hkeep : ∀ b ∈ pre ++ B :: N :: post, b.alloc = 1 → b ≠ B →
        b ∈ pre ++ ⟨B.addr, B.size + N.size, 1⟩ :: post ∧ b.addr ≠ B.addr := by
      intro b hb hb1 hbB
      obtain ⟨h1, h2⟩ := hothers b hb hb1 hbB
      refine ⟨?_, h2⟩
      rcases h1 with h1 | h1
      · exact List.mem_append_left _ h1
      · exact List.mem_append_right _ (List.mem_cons_of_mem _ h1)
    have hfrU : ∀ a, OutsideFree (pre ++ B :: N :: post) a → (a < B.addr - 4 ∨ B.addr ≤ a) →
        OutsideFree (pre ++ ⟨B.addr, B.size + N.size, 1⟩ :: post) a := by
      intro a ho _ b hb hb0
      have hb' : (b ∈ pre ∨ b ∈ post) ∨ b = ⟨B.addr, B.size + N.size, 1⟩ := by
        simp only [List.mem_append, List.mem_cons] at hb
        rcases hb with h1 | h1 | h1
        · exact Or.inl (Or.inl h1)
        · exact Or.inr h1
        · exact Or.inl (Or.inr h1)
      rcases hb' with hb1 | rfl
      · exact ho b (by
          rcases hb1 with h1 | h1
          · exact List.mem_append_left _ h1
          · exact List.mem_append_right _ (List.mem_cons_of_mem _ (List.mem_cons_of_mem _ h1)))
          hb0
      · simp at hb0
    by_cases hroot : (updateBlockTags (removeBlock h N.addr) B.addr (B.size + N.size + 1)).root
        = NULL
    · rw [heq, if_pos hroot]
      refine ⟨_, rfl, ?_⟩
      intro hnr
      have hfit : (updateBlockTags (removeBlock h N.addr) B.addr (B.size + N.size + 1)).mem_brk
          + 4096 ≤ (updateBlockTags (removeBlock h N.addr) B.addr
            (B.size + N.size + 1)).mem_max_addr := by
        by_contra hc
        have := (extend_heap_refused (updateBlockTags (removeBlock h N.addr) B.addr
          (B.size + N.size + 1)) (CHUNKSIZE / WSIZE) 4096 (by decide) (by decide)
          (by unfold WORD; omega) (by omega)).1
        rw [this] at hnr
        exact absurd hnr (by decide)
      obtain ⟨bl1, fl1, R, k1, k2, k3, k4, k5, k6, k7, k8, k9, k10, k11⟩ :=
        extend_heap_ok _ _ _ (CHUNKSIZE / WSIZE) 4096 w1 (by simp) (by decide) (by decide)
          (by omega) hfit (by rw [w2.2.2.1]; exact hsm.2.2)
      have hfr : ∀ a, OutsideFree (pre ++ B :: N :: post) a → (a < B.addr - 4 ∨ B.addr ≤ a) →
          a < h.mem_brk + 4 →
          (extend_heap (updateBlockTags (removeBlock h N.addr) B.addr (B.size + N.size + 1))
            (CHUNKSIZE / WSIZE)).1.mem a = h.mem a := by
        intro a ho ha1 ha2
        rw [k10 a (hfrU a ho ha1) (by rw [w2.2.1]; exact ha2)]
        exact w3 a ho ha1
      refine ⟨bl1, fl1, ⟨B.addr, B.size + N.size, 1⟩, k1, ?_, k8 _ (by simp) rfl, rfl, rfl, by
        show size + 8 ≤ B.size + N.size
        omega, w2.to_extends.trans_ext k6, ?_, ?_, ?_, ?_,
        fun hna => k11 (NoAdj_alloc pre [B, N] post _ (by simpa using hna) (by simp))⟩
      · intro hnil
        have := (k1.2 R k2).2 k3
        rw [hnil] at this
        exact absurd this (List.not_mem_nil _)
      · intro b hb hb1 hbB
        exact ⟨k8 b (hkeep b hb hb1 hbB).1 hb1, (hkeep b hb hb1 hbB).2⟩
      · intro a ha
        exact hfr a (fun b hb _ => by
          have := hp.blocks_ok b hb
          left; omega) (by omega) (by
          have := Chain_le _ _ _ _ hp.chain
          omega)
      · intro X hX hX1 hXB a ha1 ha2
        obtain ⟨o1, o2⟩ := payload_outside hwf X hX a ha1 ha2
        have hBout := o2 B hBm (fun e => hXB e.symm)
        have hXo := hp.blocks_ok X hX
        unfold Block.outside at hBout
        exact hfr a (o1 hX1) (by omega) (by omega)
      · intro i hi1 hi2
        obtain ⟨o1, o2⟩ := payload_outside hwf B hBm (B.addr + i) (by omega) (by omega)
        exact hfr _ (o1 hB1) (by omega) (by omega)
    · rw [heq, if_neg hroot]
      refine ⟨_, rfl, ?_⟩
      intro _
      refine ⟨_, _, ⟨B.addr, B.size + N.size, 1⟩, w1, ?_, by simp, rfl, rfl, by
        show size + 8 ≤ B.size + N.size
        omega, w2.to_extends, hkeep, ?_, ?_, ?_,
        fun hna => NoAdj_alloc pre [B, N] post _ (by simpa using hna) (by simp)⟩
      · intro hnil
        have := w1.1.flist
        rw [hnil] at this
        exact hroot this
      · intro a ha
        exact w3 a (fun b hb _ => by
          have := hp.blocks_ok b hb
          left; omega) (by omega)
      · intro X hX hX1 hXB a ha1 ha2
        obtain ⟨o1, o2⟩ := payload_outside hwf X hX a ha1 ha2
        have hBout := o2 B hBm (fun e => hXB e.symm)
        unfold Block.outside at hBout
        exact w3 a (o1 hX1) (by omega)
      · intro i hi1 hi2
        obtain ⟨o1, o2⟩ := payload_outside hwf B hBm (B.addr + i) (by omega) (by omega)
        exact w3 _ (o1 hB1) (by omega)
  · -- split
    have hd16 : 16 ≤ B.size + N.size - ALIGN size := by omega
    have heq := mm_realloc_split_eq fuel h B.addr size B.size N.addr N.size
      (B.size + N.size - ALIGN size) rB.2.1 r1 rN.2.1 (by rw [r3]; exact hN0) r5 (by omega)
      hneq (by omega) hs0 (by omega) hd16 hsum al8 al16 (by omega) (by omega)
    obtain ⟨w1, w2, w3⟩ := realloc_split_Valid h pre post B N fl (ALIGN size)
      (B.size + N.size - ALIGN size) hwf hB1 hN0 (by omega) hd16 al16 al8 hneq
    rw [heq]
    refine ⟨_, rfl, ?_⟩
    intro _
    refine ⟨_, _, ⟨B.addr, ALIGN size, 1⟩, w1, by simp, by simp, rfl, rfl, alge, w2.to_extends,
      ?_, ?_, ?_, ?_,
      fun hna => NoAdj_split pre [B] post N _ _ (by simpa using hna) hN0 (by simp)⟩
    · intro b hb hb1 hbB
      obtain ⟨h1, h2⟩ := hothers b hb hb1 hbB
      refine ⟨?_, h2⟩
      rcases h1 with h1 | h1
      · exact List.mem_append_left _ h1
      · exact List.mem_append_right _ (List.mem_cons_of_mem _ (List.mem_cons_of_mem _ h1))
    · intro a ha
      exact w3 a (fun b hb _ => by
        have := hp.blocks_ok b hb
        left; omega) (by omega) (by omega)
    · intro X hX hX1 hXB a ha1 ha2
      obtain ⟨o1, o2⟩ := payload_outside hwf X hX a ha1 ha2
      have hBout := o2 B hBm (fun e => hXB e.symm)
      unfold Block.outside at hBout
      exact w3 a (o1 hX1) (by omega) (by omega)
    · intro i hi1 hi2
      obtain ⟨o1, o2⟩ := payload_outside hwf B hBm (B.addr + i) (by omega) (by omega)
      exact w3 _ (o1 hB1) (by omega) (by omega)

/-- The call `mm_realloc` for an allocated block and a request that is not zero and
whose adjusted size differs from the size of the block: the call returns on
fuel for every node of the free list, and when the provider has not
refused, the result is as `ReallocOut` says. -/
theorem mm_realloc_ok (h : Heap) (bl : List Block) (fl : List Nat) (B : Block)
    (size fuel : Nat) (hwf : Valid h bl fl) (hne : fl ≠ []) (hsm : SmallProvider h)
    (hpad : GET h.mem h.mem_start_brk < 8) (hBm : B ∈ bl) (hB1 : B.alloc = 1)
    (hs0 : size ≠ 0) (hsz : size ≤ 4294967280) (hfuel : fl.length ≤ fuel)
    (hneq : B.size ≠ ALIGN size) :
    ∃ h1 q, mm_realloc fuel h B.addr size = some (h1, q) ∧
      (h1.mem_refused = false → q ≠ NULL ∧ ReallocOut h h1 bl B size q) := by
  have hp := hwf.1
  have hBo := hp.blocks_ok B hBm
  have hlo := hp.lo_pos
  have hbrk := hp.brk_le
  have rB := hp.reads B hBm
  obtain ⟨pre, post, rfl⟩ := List.append_of_mem hBm
  cases post with
  | nil =>
    obtain ⟨c1, c2, c3⟩ := Chain_one _ _ _ _ _ _ hp.chain
    have hend : B.addr + B.size = h.mem_brk + 8 := c3
    have hn : IS_IN_RANGE h (NEXT_BLKP h.mem B.addr) = false := by
      rw [rB.2.2.2.2.1, hend]
      unfold IS_IN_RANGE mem_heap_lo mem_heap_hi
      simp
      omega
    exact realloc_fallback_ok h _ fl B size fuel hwf hne hsm hpad hBm hB1 hs0 hsz hfuel hneq
      (by rw [hn]; simp)
  | cons N post =>
    have hNm : N ∈ pre ++ B :: N :: post := by simp
    obtain ⟨r1, r3, r5, hNa⟩ := reads_next h pre post B N fl hp
    have rN := hp.reads N hNm
    have hNo := hp.blocks_ok N hNm
    by_cases hin : N.alloc = 0 ∧ ALIGN size < B.size + N.size
    · obtain ⟨h1, e1, e2⟩ := realloc_inplace_ok h pre post B N fl size fuel hwf hsm hB1 hin.1
        hs0 hsz hneq hin.2
      exact ⟨h1, B.addr, e1, fun hnr => ⟨by unfold NULL; omega, e2 hnr⟩⟩
    · refine realloc_fallback_ok h _ fl B size fuel hwf hne hsm hpad hBm hB1 hs0 hsz hfuel hneq ?_
      rw [r1, r3, rB.2.1, rN.2.1, uadd_eq B.size N.size (by
        have := hwf.size_lt hsm B hBm
        have := hwf.size_lt hsm N hNm
        unfold WORD
        omega)]
      by_cases h0 : N.alloc = 0
      · have : ¬ ALIGN size < B.size + N.size := fun hx => hin ⟨h0, hx⟩
        simp [this]
      · simp [h0]

/-- When the adjusted size is the size of the block, `mm_realloc` returns the
pointer and leaves the heap as it is. -/
theorem mm_realloc_same (fuel : Nat) (h : Heap) (ptr size : Nat)
    (hs : GET_SIZE h.mem (HDRP ptr) = ALIGN size) : mm_realloc fuel h ptr size = some (h, ptr) := by
  unfold mm_realloc
  simp only [hs, if_true]

/-- The call `mm_realloc` with size 0 on a block that is not of 16 bytes is
`mm_free`. -/
theorem mm_realloc_zero (fuel : Nat) (h : Heap) (ptr : Nat)
    (hs : GET_SIZE h.mem (HDRP ptr) ≠ 16) (hp : ptr ≠ 0) :
    mm_realloc fuel h ptr 0 = some (mm_free h ptr, NULL) := by
  have hA : ALIGN 0 = 16 := by decide
  unfold mm_realloc
  simp only [hA, hs, if_false, NULL, hp, if_true]

/-- The call `mm_realloc` with a null pointer returns `NULL` when the word in front
of address 0 happens to hold the adjusted size, and is `mm_malloc` otherwise. -/
theorem mm_realloc_null (fuel : Nat) (h : Heap) (size : Nat) :
    mm_realloc fuel h NULL size =
      if GET_SIZE h.mem (HDRP NULL) = ALIGN size then some (h, NULL)
      else mm_malloc fuel h size := by
  unfold mm_realloc
  simp only [if_true]

/-! ## More fuel changes nothing -/

theorem find_fit_loop_mono (m : Mem) (asize k : Nat) :
    ∀ (fuel cur r : Nat), find_fit_loop m asize fuel cur = some r →
      find_fit_loop m asize (fuel + k) cur = some r := by
  intro fuel
  induction fuel with
  | zero =>
    intro cur r h
    unfold find_fit_loop at h
    exact absurd h (by simp)
  | succ f ih =>
    intro cur r h
    rw [show f + 1 + k = (f + k) + 1 by omega]
    unfold find_fit_loop at h ⊢
    by_cases h1 : GET_SIZE m (HDRP cur) ≥ asize
    · rw [if_pos h1] at h ⊢
      exact h
    · rw [if_neg h1] at h ⊢
      by_cases h2 : GET_ADDR m (NEXTP cur) = NULL
      · rw [if_pos h2] at h ⊢
        exact h
      · rw [if_neg h2] at h ⊢
        exact ih _ _ h

theorem mm_malloc_mono (fuel k : Nat) (h : Heap) (size : Nat) (x : Heap × Nat)
    (hx : mm_malloc fuel h size = some x) : mm_malloc (fuel + k) h size = some x := by
  unfold mm_malloc at hx ⊢
  by_cases hs : size = 0
  · rw [if_pos hs] at hx ⊢
    exact hx
  · simp only [hs, if_false] at hx ⊢
    cases hf : find_fit fuel h (ALIGN size) with
    | none =>
      rw [hf] at hx
      exact absurd hx (by simp)
    | some bp =>
      have hf2 : find_fit (fuel + k) h (ALIGN size) = some bp :=
        find_fit_loop_mono _ _ _ _ _ _ hf
      rw [hf] at hx
      rw [hf2]
      exact hx

theorem mm_realloc_mono (fuel k : Nat) (h : Heap) (ptr size : Nat) (x : Heap × Nat)
    (hx : mm_realloc fuel h ptr size = some x) : mm_realloc (fuel + k) h ptr size = some x := by
  cases hm : mm_malloc fuel h size with
  | some y =>
    have hm2 := mm_malloc_mono fuel k h size y hm
    unfold mm_realloc at hx ⊢
    rw [hm2]
    rw [hm] at hx
    exact hx
  | none =>
    unfold mm_realloc at hx ⊢
    rw [hm] at hx
    by_cases c1 : GET_SIZE h.mem (HDRP ptr) = ALIGN size
    · simp only [c1, if_true] at hx ⊢
      exact hx
    · by_cases c2 : ptr = NULL
      · subst c2
        simp only [c1, if_false, if_true] at hx
        exact absurd hx (by simp)
      · by_cases c3 : size = 0
        · simp only [c1, c2, c3, if_false, if_true] at hx ⊢
          exact hx
        · by_cases c4 : (decide (NEXT_BLKP h.mem ptr ≠ NULL) &&
              decide (GET_ALLOC h.mem (HDRP (NEXT_BLKP h.mem ptr)) = 0) &&
              IS_IN_RANGE h (NEXT_BLKP h.mem ptr) &&
              decide (ALIGN size < uadd (GET_SIZE h.mem (HDRP ptr))
                (GET_SIZE h.mem (HDRP (NEXT_BLKP h.mem ptr))))) = true
          · simp only [c1, c2, c3, c4, if_false, if_true] at hx ⊢
            exact hx
          · simp only [c1, c2, c3, c4, if_false] at hx
            exact absurd hx (by simp)

theorem mm_malloc_zero (fuel : Nat) (h : Heap) : mm_malloc fuel h 0 = some (h, NULL) := by
  unfold mm_malloc
  rw [if_pos rfl]

/-! ## The invariant of the runs -/

theorem Good_start (h0 : Heap) (ht : Tame h0) (hi : (mm_init h0).2 = 0) : Good (start h0) := by
  obtain ⟨hf, hcap, hpad⟩ := ht
  obtain ⟨w, e1, e2, e3, e4, e5, e6⟩ := mm_init_ok h0 hf hi
  refine ⟨_, _, w, by simp, ⟨?_, ?_, ?_⟩, ?_, e5, ?_, List.nodup_nil, by simp [NoAdj]⟩
  · show (mm_init h0).1.mem_brk ≤ (mm_init h0).1.mem_max_addr
    rw [e3]; exact e4
  · show (mm_init h0).1.mem_max_addr < (mm_init h0).1.mem_start_brk + 2147483648
    rw [e3, e1]; exact hcap
  · show (mm_init h0).1.mem_max_addr + 16 ≤ WORD
    rw [e3]; exact hf.2.2.2.1
  · show GET (mm_init h0).1.mem (mm_init h0).1.mem_start_brk < 8
    rw [e1, GET_congr _ _ _ (fun a h1 h2 => e6 a (by omega))]
    exact hpad
  · intro p hp
    exact absurd hp (List.not_mem_nil _)

/-- A live pointer is the pointer of exactly one block, which is allocated. -/
theorem GoodWith.block {r : Run} {bl : List Block} {fl : List Nat} (hg : GoodWith r bl fl)
    (p : Nat) (hp : p ∈ r.live) : ∃ B ∈ bl, B.addr = p ∧ B.alloc = 1 := hg.2.2.2.2.2.1 p hp

theorem Good_free (r : Run) (ptr : Nat) (hg : Good r) (hv : ptr ∈ r.live) :
    Good ⟨mm_free r.heap ptr, r.live.erase ptr⟩ := by
  obtain ⟨bl, fl, hwf, hne, hsm, hpad, hrf, hlive, hnd, hna⟩ := hg
  obtain ⟨B, hB, hBa, hB1⟩ := hlive ptr hv
  subst hBa
  obtain ⟨bl1, fl1, ⟨f1, f2, f3⟩, f4, f5, f6, f7⟩ := mm_free_ok r.heap bl fl B hwf hpad hB hB1
  have hBo := hwf.1.blocks_ok B hB
  refine ⟨bl1, fl1, f1, f4 hne, hsm.of_extends f2.to_extends, ?_, ?_, ?_, hnd.erase _, f7 hna⟩
  · show GET (mm_free r.heap B.addr).mem (mm_free r.heap B.addr).mem_start_brk < 8
    rw [f2.1, GET_congr _ _ _ (fun a h1 h2 => f3 a (fun b hb _ => by
      have := hwf.1.blocks_ok b hb
      left; omega) (by
      unfold Block.outside
      left; omega))]
    exact hpad
  · show (mm_free r.heap B.addr).mem_refused = false
    rw [f2.2.2.2.1]; exact hrf
  · intro p hp
    have hp1 : p ∈ r.live := List.mem_of_mem_erase hp
    have hpne : p ≠ B.addr := fun e => by
      rw [e] at hp
      exact (List.Nodup.mem_erase_iff hnd).1 hp |>.1 rfl
    obtain ⟨b, hb, hba, hb1⟩ := hlive p hp1
    exact ⟨b, f5 b hb hb1 (fun e => hpne (by rw [← hba, e])), hba, hb1⟩

theorem Good_malloc (fuel : Nat) (r : Run) (size : Nat) (h1 : Heap) (p : Nat) (hg : Good r)
    (hb : size ≤ 4294967280) (hm : mm_malloc fuel r.heap size = some (h1, p))
    (hnr : h1.mem_refused = false) :
    Good ⟨h1, if p = NULL then r.live else p :: r.live⟩ := by
  obtain ⟨bl, fl, hwf, hne, hsm, hpad, hrf, hlive, hnd, hna⟩ := hg
  by_cases hs0 : size = 0
  · subst hs0
    rw [mm_malloc_zero] at hm
    obtain ⟨rfl, rfl⟩ := Prod.mk.inj (Option.some.inj hm)
    rw [if_pos rfl]
    exact ⟨bl, fl, hwf, hne, hsm, hpad, hrf, hlive, hnd, hna⟩
  · obtain ⟨h2, p2, e1, e2⟩ := mm_malloc_ok r.heap bl fl size (fuel + fl.length) hwf hne hsm hs0
      hb (by omega)
    rw [mm_malloc_mono fuel fl.length _ _ _ hm] at e1
    obtain ⟨rfl, rfl⟩ := Prod.mk.inj (Option.some.inj e1)
    obtain ⟨hp0, bl1, fl1, B1, w1, w2, w3, w4, w5, w6, w7, w8, w9, w10, w11⟩ := e2 hnr
    rw [if_neg hp0]
    refine ⟨bl1, fl1, w1, w2, hsm.of_extends w7, ?_, hnr, ?_, ?_, w11 hna⟩
    · show GET h1.mem h1.mem_start_brk < 8
      rw [w7.1, GET_congr _ _ _ (fun a h3 h4 => w10.1 a (by omega))]
      exact hpad
    · intro q hq
      rcases List.mem_cons.1 hq with rfl | hq1
      · exact ⟨B1, w3, w4, w5⟩
      · obtain ⟨b, hb1, hba, hb2⟩ := hlive q hq1
        exact ⟨b, (w8 b hb1 hb2).1, hba, hb2⟩
    · refine List.nodup_cons.2 ⟨?_, hnd⟩
      intro hq
      obtain ⟨b, hb1, hba, hb2⟩ := hlive p hq
      exact (w8 b hb1 hb2).2 hba

theorem GoodWith.null_not_live {r : Run} {bl : List Block} {fl : List Nat}
    (hg : GoodWith r bl fl) : NULL ∉ r.live := by
  intro h0
  obtain ⟨b, hb, hba, _⟩ := hg.block NULL h0
  have := hg.1.1.blocks_ok b hb
  unfold NULL at hba
  omega

theorem Good_realloc (fuel : Nat) (r : Run) (ptr size : Nat) (h1 : Heap) (q : Nat)
    (hg : Good r) (hb : size ≤ 4294967280) (hv : ptr = NULL ∨ ptr ∈ r.live)
    (hm : mm_realloc fuel r.heap ptr size = some (h1, q)) (hnr : h1.mem_refused = false) :
    Good ⟨h1, if q = NULL then (if size = 0 then r.live.erase ptr else r.live)
      else q :: r.live.erase ptr⟩ := by
  obtain ⟨bl, fl, hgw⟩ := hg
  have hnull := hgw.null_not_live
  obtain ⟨hwf, hne, hsm, hpad, hrf, hlive, hnd, hna⟩ := hgw
  by_cases hpl : ptr ∈ r.live
  · obtain ⟨B, hB, hBa, hB1⟩ := hlive ptr hpl
    subst hBa
    have hBo := hwf.1.blocks_ok B hB
    have rB := hwf.1.reads B hB
    have hB0 : B.addr ≠ NULL := by unfold NULL; omega
    have herase : ∀ p ∈ r.live.erase B.addr, p ∈ r.live ∧ p ≠ B.addr := by
      intro p hp
      refine ⟨List.mem_of_mem_erase hp, fun e => ?_⟩
      rw [e] at hp
      exact (List.Nodup.mem_erase_iff hnd).1 hp |>.1 rfl
    by_cases hsame : B.size = ALIGN size
    · rw [mm_realloc_same fuel r.heap B.addr size (by rw [rB.2.1]; exact hsame)] at hm
      obtain ⟨rfl, rfl⟩ := Prod.mk.inj (Option.some.inj hm)
      rw [if_neg hB0]
      refine ⟨bl, fl, hwf, hne, hsm, hpad, hrf, ?_, ?_, hna⟩
      · intro p hp
        rcases List.mem_cons.1 hp with rfl | hp1
        · exact ⟨B, hB, rfl, hB1⟩
        · exact hlive p (herase p hp1).1
      · exact List.nodup_cons.2 ⟨fun hx => (herase _ hx).2 rfl, hnd.erase _⟩
    · by_cases hs0 : size = 0
      · subst hs0
        have h16 : B.size ≠ 16 := fun e => hsame (by rw [e]; decide)
        rw [mm_realloc_zero fuel r.heap B.addr (by rw [rB.2.1]; exact h16) (by omega)] at hm
        obtain ⟨rfl, rfl⟩ := Prod.mk.inj (Option.some.inj hm)
        rw [if_pos rfl, if_pos rfl]
        exact Good_free r B.addr ⟨bl, fl, hwf, hne, hsm, hpad, hrf, hlive, hnd, hna⟩ hpl
      · obtain ⟨h2, q2, e1, e2⟩ := mm_realloc_ok r.heap bl fl B size (fuel + fl.length) hwf hne
          hsm hpad hB hB1 hs0 hb (by omega) hsame
        rw [mm_realloc_mono fuel fl.length _ _ _ _ hm] at e1
        obtain ⟨rfl, rfl⟩ := Prod.mk.inj (Option.some.inj e1)
        obtain ⟨hq0, bl1, fl1, Q, w1, w2, w3, w4, w5, w6, w7, w8, w9, w10, w11, w12⟩ := e2 hnr
        rw [if_neg hq0]
        have hothers : ∀ p ∈ r.live.erase B.addr, ∃ b ∈ bl1, (b.addr = p ∧ b.alloc = 1) ∧
            b.addr ≠ q := by
          intro p hp
          obtain ⟨hp1, hp2⟩ := herase p hp
          obtain ⟨b, hb1, hba, hb2⟩ := hlive p hp1
          have hbB : b ≠ B := fun e => hp2 (by rw [← hba, e])
          exact ⟨b, (w8 b hb1 hb2 hbB).1, ⟨hba, hb2⟩, (w8 b hb1 hb2 hbB).2⟩
        refine ⟨bl1, fl1, w1, w2, hsm.of_extends w7, ?_, hnr, ?_, ?_, w12 hna⟩
        · show GET h1.mem h1.mem_start_brk < 8
          rw [w7.1, GET_congr _ _ _ (fun a h3 h4 => w9 a (by omega))]
          exact hpad
        · intro p hp
          rcases List.mem_cons.1 hp with rfl | hp1
          · exact ⟨Q, w3, w4, w5⟩
          · obtain ⟨b, hb1, hb2, _⟩ := hothers p hp1
            exact ⟨b, hb1, hb2⟩
        · refine List.nodup_cons.2 ⟨?_, hnd.erase _⟩
          intro hx
          obtain ⟨b, _, hb2, hb3⟩ := hothers q hx
          exact hb3 hb2.1
  · have hp0 : ptr = NULL := by
      rcases hv with h0 | h0
      · exact h0
      · exact absurd h0 hpl
    subst hp0
    have her : r.live.erase NULL = r.live := List.erase_of_not_mem hnull
    rw [her]
    rw [mm_realloc_null] at hm
    by_cases hhd : GET_SIZE r.heap.mem (HDRP NULL) = ALIGN size
    · rw [if_pos hhd] at hm
      obtain ⟨rfl, rfl⟩ := Prod.mk.inj (Option.some.inj hm)
      rw [if_pos rfl]
      refine ⟨bl, fl, hwf, hne, hsm, hpad, hrf, ?_, ?_, hna⟩
      · intro p hp
        refine hlive p ?_
        split_ifs at hp <;> exact hp
      · split_ifs <;> exact hnd
    · rw [if_neg hhd] at hm
      have := Good_malloc fuel r size h1 q ⟨bl, fl, hwf, hne, hsm, hpad, hrf, hlive, hnd, hna⟩ hb hm
        hnr
      by_cases hq0 : q = NULL
      · rw [if_pos hq0] at this ⊢
        split_ifs <;> exact this
      · rw [if_neg hq0] at this ⊢
        exact this

/-- One valid call with a request in bounds keeps the invariant, when the provider
has not refused. -/
theorem Good_step (fuel : Nat) (r r1 : Run) (c : Call) (hg : Good r)
    (hv : c.valid r.live = true) (hb : Call.inBounds c = true)
    (hs : r.step fuel c = some r1) (hnr : r1.heap.mem_refused = false) : Good r1 := by
  cases c with
  | malloc size =>
    simp only [Call.inBounds, decide_eq_true_eq] at hb
    simp only [Run.step] at hs
    cases hm : mm_malloc fuel r.heap size with
    | none =>
      rw [hm] at hs
      exact absurd hs (by simp)
    | some x =>
      obtain ⟨h1, p⟩ := x
      rw [hm] at hs
      simp only [Option.some.injEq] at hs
      subst hs
      exact Good_malloc fuel r size h1 p hg hb hm hnr
  | free ptr =>
    simp only [Call.valid, decide_eq_true_eq] at hv
    simp only [Run.step, Option.some.injEq] at hs
    subst hs
    exact Good_free r ptr hg hv
  | realloc ptr size =>
    simp only [Call.inBounds, decide_eq_true_eq] at hb
    simp only [Call.valid, Bool.and_eq_true, Bool.or_eq_true, decide_eq_true_eq] at hv
    simp only [Run.step] at hs
    cases hm : mm_realloc fuel r.heap ptr size with
    | none =>
      rw [hm] at hs
      exact absurd hs (by simp)
    | some x =>
      obtain ⟨h1, q⟩ := x
      rw [hm] at hs
      simp only [Option.some.injEq] at hs
      subst hs
      exact Good_realloc fuel r ptr size h1 q hg hb hv.2 hm hnr

/-- Valid calls with requests in bounds keep the invariant. -/
theorem Good_runCalls (fuel : Nat) :
    ∀ (calls : List Call) (r r1 : Run), Good r → (∀ c ∈ calls, Call.inBounds c = true) →
      runCalls fuel r calls = some r1 → Good r1 := by
  intro calls
  induction calls with
  | nil =>
    intro r r1 hg _ hr
    simp only [runCalls, Option.some.injEq] at hr
    subst hr
    exact hg
  | cons c cs ih =>
    intro r r1 hg hb hr
    simp only [runCalls] at hr
    by_cases hv : c.valid r.live = true
    · rw [if_pos hv] at hr
      cases hs : r.step fuel c with
      | none =>
        rw [hs] at hr
        exact absurd hr (by simp)
      | some r2 =>
        rw [hs] at hr
        simp only at hr
        by_cases hrf : r2.heap.mem_refused = true
        · rw [if_pos hrf] at hr
          exact absurd hr (by simp)
        · rw [if_neg hrf] at hr
          exact ih r2 r1 (Good_step fuel r r2 c hg hv (hb c (List.mem_cons_self _ _)) hs
            (by simpa using hrf)) (fun c' hc' => hb c' (List.mem_cons_of_mem _ hc')) hr
    · rw [if_neg hv] at hr
      exact absurd hr (by simp)

/-- Every state reached on a tame provider satisfies the invariant. -/
theorem TameReachable.good {h0 : Heap} {r : Run} (hr : TameReachable h0 r) : Good r := by
  obtain ⟨ht, hi, fuel, calls, hb, hrun⟩ := hr
  exact Good_runCalls fuel calls _ r (Good_start h0 ht hi) hb hrun

/-! ## What the invariant gives -/

/-- The walk over the blocks of a chain that ends the arena arrives at its end. -/
theorem tilesFrom_chain (h : Heap) (hbrk : h.mem_brk + 16 ≤ WORD) :
    ∀ (bl : List Block) (s : Nat), Chain h.mem bl s (h.mem_brk + 8) → 4 ≤ s →
      tilesFrom h (bl.length + 1) s = true := by
  intro bl
  induction bl with
  | nil =>
    intro s hc _
    have hs : s = h.mem_brk + 8 := hc
    unfold tilesFrom
    rw [if_pos hs]
  | cons b bs ih =>
    intro s hc hs4
    obtain ⟨hb, h8, h16, hal, hhd, hft, hrest⟩ := hc
    have hle := Chain_le _ _ _ _ hrest
    have hsz : GET_SIZE h.mem (HDRP s) = b.size := by
      rw [HDRP_eq s hs4 (by omega), GET_SIZE_eq, ← hb, hhd]
      unfold Block.tag
      omega
    have hnx : NEXT_BLKP h.mem s = s + b.size := by
      unfold NEXT_BLKP
      rw [hsz, uadd_eq s b.size (by omega)]
    rw [List.length_cons]
    unfold tilesFrom
    rw [if_neg (by omega), hsz, if_neg (by unfold DSIZE WSIZE; omega), if_neg (by omega), hnx]
    exact ih _ hrest (by omega)

theorem Valid.tiles {h : Heap} {bl : List Block} {fl : List Nat} (hwf : Valid h bl fl) : Tiles h :=
  ⟨bl.length + 1, tilesFrom_chain h hwf.1.brk_le bl _ hwf.1.chain (by
    unfold mem_heap_lo
    omega)⟩

theorem eq_some_getD {α : Type} (o : Option α) (d : α) (h : o.isSome = true) :
    o = some (o.getD d) := by
  cases o with
  | none => exact absurd h (by simp)
  | some x => rfl

theorem tame_heapT : Tame heapT := ⟨by decide, by decide, by decide⟩

theorem tameReachable_runT (fuel : Nat) (calls : List Call)
    (hb : ∀ c ∈ calls, Call.inBounds c = true)
    (h : (runCalls fuel (start heapT) calls).isSome = true) :
    TameReachable heapT (runT fuel calls) :=
  ⟨tame_heapT, by decide, fuel, calls, hb, eq_some_getD _ _ h⟩

/-- What the macros read at a live pointer of a good run. -/
theorem GoodWith.live_read {r : Run} {bl : List Block} {fl : List Nat} (hg : GoodWith r bl fl)
    (p : Nat) (hp : p ∈ r.live) :
    ∃ B ∈ bl, B.addr = p ∧ B.alloc = 1 ∧ GET_SIZE r.heap.mem (HDRP p) = B.size ∧
      GET_ALLOC r.heap.mem (HDRP p) = 1 := by
  obtain ⟨B, hB, hBa, hB1⟩ := hg.block p hp
  have rB := hg.1.1.reads B hB
  subst hBa
  exact ⟨B, hB, rfl, hB1, rB.2.1, by rw [rB.2.2.1, hB1]⟩

/-! ## Runs on a tame provider -/

/-- In every state reached from `mm_init` by valid calls, the
provider never refusing, on a provider of less than `2 ^ 31` bytes whose
padding word holds no size bits and with requests of at most `2 ^ 32 - 16`
bytes, and for every request `n` with `1 ≤ n ≤ 2 ^ 31`, the call `mm_malloc n`
returns on enough fuel; when the provider has not refused during the call, it
returns a non-null pointer `p` whose block has the same word in header and
footer, has the alloc bit set, and has a size `s` of at least 16 bytes with
`n ≤ s - 8`. -/
theorem tame_malloc_returns_block (h0 : Heap) (r : Run) (n : Nat) (hr : TameReachable h0 r)
    (hn1 : 1 ≤ n) (hn2 : n ≤ 2147483648) :
    ∃ fuel0, ∀ fuel, fuel0 ≤ fuel → ∃ h1 p, mm_malloc fuel r.heap n = some (h1, p) ∧
      (h1.mem_refused = false →
        p ≠ NULL ∧ GET h1.mem (HDRP p) = GET h1.mem (FTRP h1.mem p) ∧
        GET_ALLOC h1.mem (HDRP p) = 1 ∧ 16 ≤ GET_SIZE h1.mem (HDRP p) ∧
        n ≤ GET_SIZE h1.mem (HDRP p) - 8) := by
  obtain ⟨bl, fl, hwf, hne, hsm, hpad, hrf, hlive, hnd, hna⟩ := hr.good
  refine ⟨fl.length, fun fuel hf => ?_⟩
  obtain ⟨h1, p, e1, e2⟩ := mm_malloc_ok r.heap bl fl n fuel hwf hne hsm (by omega) (by omega) hf
  refine ⟨h1, p, e1, fun hnr => ?_⟩
  obtain ⟨hp0, bl1, fl1, B1, w1, w2, w3, w4, w5, w6, w7, w8, w9, w10⟩ := e2 hnr
  have rB := w1.1.reads B1 w3
  have tB := w1.1.tag_words B1 w3
  have oB := w1.1.blocks_ok B1 w3
  rw [w4] at rB tB
  refine ⟨hp0, by rw [tB.1, tB.2.1], by rw [rB.2.2.1, w5], by rw [rB.2.1]; exact oB.2.2.2.2.1, ?_⟩
  rw [rB.2.1]
  omega

set_option maxRecDepth 1000000 in
/-- At a concrete state: after the calls `tCalls` on the provider
`heapT`, a request of 100 bytes. -/
theorem tame_malloc_returns_block_at_tCalls :
    TameReachable heapT (runT 8 tCalls) ∧ 1 ≤ 100 ∧ 100 ≤ 2147483648 ∧
    ∃ fuel0, ∀ fuel, fuel0 ≤ fuel → ∃ h1 p,
      mm_malloc fuel (runT 8 tCalls).heap 100 = some (h1, p) ∧
      (h1.mem_refused = false →
        p ≠ NULL ∧ GET h1.mem (HDRP p) = GET h1.mem (FTRP h1.mem p) ∧
        GET_ALLOC h1.mem (HDRP p) = 1 ∧ 16 ≤ GET_SIZE h1.mem (HDRP p) ∧
        100 ≤ GET_SIZE h1.mem (HDRP p) - 8) :=
  ⟨tameReachable_runT 8 tCalls (by decide) (by decide), by decide, by decide,
    tame_malloc_returns_block heapT (runT 8 tCalls) 100
      (tameReachable_runT 8 tCalls (by decide) (by decide)) (by decide) (by decide)⟩

/-- In every state reached from `mm_init` by valid calls, the
provider never refusing, on a provider of less than `2 ^ 31` bytes whose
padding word holds no size bits and with requests of at most `2 ^ 32 - 16`
bytes, the blocks tile the arena from `lo + 4` onward: the walk `Tiles`
succeeds, and there is a list of blocks lying end to end from `lo + 8` to the
end of the arena, each with its tag in header and footer, such that every
live pointer is the pointer of an allocated block of the list, every payload
`[p, p + size - 8)` lies inside `[lo, hi]` and the payloads of any two
distinct blocks are disjoint.  A non-null pointer that `mm_malloc` returns,
the provider not refusing, has a payload disjoint from the payload of every
live pointer. -/
theorem tame_blocks_tile (h0 : Heap) (r : Run) (hr : TameReachable h0 r) :
    Tiles r.heap ∧
    (∃ bl : List Block,
      Chain r.heap.mem bl (mem_heap_lo r.heap + 8) (mem_heap_hi r.heap + 9) ∧
      (∀ p ∈ r.live, ∃ b ∈ bl, b.addr = p ∧ b.alloc = 1) ∧
      (∀ b ∈ bl, mem_heap_lo r.heap ≤ b.addr ∧ b.addr + (b.size - 8) ≤ mem_heap_hi r.heap + 1) ∧
      (∀ b ∈ bl, ∀ c ∈ bl, b ≠ c →
        b.addr + (b.size - 8) ≤ c.addr ∨ c.addr + (c.size - 8) ≤ b.addr)) ∧
    (∀ fuel n h1 p, n ≤ 4294967280 → mm_malloc fuel r.heap n = some (h1, p) →
      h1.mem_refused = false → p ≠ NULL →
      ∀ q ∈ r.live, p + (GET_SIZE h1.mem (HDRP p) - 8) ≤ q ∨
        q + (GET_SIZE h1.mem (HDRP q) - 8) ≤ p) := by
  have hg := hr.good
  obtain ⟨bl, fl, hwf, hne, hsm, hpad, hrf, hlive, hnd, hna⟩ := hg
  have hle := Chain_le _ _ _ _ hwf.1.chain
  have hlo := hwf.1.lo_pos
  have hhi : mem_heap_hi r.heap + 9 = r.heap.mem_brk + 8 := by
    unfold mem_heap_hi
    omega
  refine ⟨hwf.tiles, ⟨bl, by rw [hhi]; exact hwf.1.chain, hlive, ?_, ?_⟩, ?_⟩
  · intro b hb
    have := hwf.1.blocks_ok b hb
    unfold mem_heap_lo mem_heap_hi
    omega
  · intro b hb c hc hbc
    have := hwf.1.blocks_ok b hb
    have := hwf.1.blocks_ok c hc
    rcases Chain_sep _ _ _ _ hwf.1.chain b c hb hc with e | h1 | h1
    · exact absurd e hbc
    · left; omega
    · right; omega
  · intro fuel n h1 p hn hm hnr hp0 q hq
    obtain ⟨bl1, fl1, hg1⟩ := Good_malloc fuel r n h1 p ⟨bl, fl, hwf, hne, hsm, hpad, hrf, hlive, hnd, hna⟩
      hn hm hnr
    rw [if_neg hp0] at hg1
    obtain ⟨P, hP, hPa, _, hPs, _⟩ := hg1.live_read p (List.mem_cons_self _ _)
    obtain ⟨Q, hQ, hQa, _, hQs, _⟩ := hg1.live_read q (List.mem_cons_of_mem _ hq)
    have hpq : p ≠ q := fun e => (List.nodup_cons.1 hg1.2.2.2.2.2.2.1).1 (e ▸ hq)
    have hPo := hg1.1.1.blocks_ok P hP
    have hQo := hg1.1.1.blocks_ok Q hQ
    have hs1 : GET_SIZE h1.mem (HDRP p) = P.size := hPs
    have hs2 : GET_SIZE h1.mem (HDRP q) = Q.size := hQs
    rw [hs1, hs2, ← hPa, ← hQa]
    rcases Chain_sep _ _ _ _ hg1.1.1.chain P Q hP hQ with e | h2 | h2
    · exact absurd (by rw [← hPa, ← hQa, e]) hpq
    · left; omega
    · right; omega

set_option maxRecDepth 1000000 in
/-- At a concrete state: after the calls `tCalls` on the provider
`heapT` the blocks tile the arena. -/
theorem tame_blocks_tile_at_tCalls :
    TameReachable heapT (runT 8 tCalls) ∧ Tiles (runT 8 tCalls).heap :=
  ⟨tameReachable_runT 8 tCalls (by decide) (by decide),
    (tame_blocks_tile heapT (runT 8 tCalls)
      (tameReachable_runT 8 tCalls (by decide) (by decide))).1⟩

/-- In every state reached from `mm_init` by valid calls, the
provider never refusing, on a provider of less than `2 ^ 31` bytes whose arena
starts at a multiple of 8, whose padding word holds no size bits, and with
requests of at most `2 ^ 32 - 16` bytes, every non-null pointer that
`mm_malloc` returns, and every non-null pointer that `mm_realloc` returns for
a null or live pointer, is a multiple of 8, the provider not refusing during
the call. -/
theorem tame_pointers_aligned (h0 : Heap) (r : Run) (hr : TameReachable h0 r) :
    (∀ fuel n h1 p, n ≤ 4294967280 → mm_malloc fuel r.heap n = some (h1, p) →
      h1.mem_refused = false → p ≠ NULL → p % 8 = 0) ∧
    (∀ fuel ptr n h1 q, n ≤ 4294967280 → (ptr = NULL ∨ ptr ∈ r.live) →
      mm_realloc fuel r.heap ptr n = some (h1, q) →
      h1.mem_refused = false → q ≠ NULL → q % 8 = 0) := by
  have hg := hr.good
  constructor
  · intro fuel n h1 p hn hm hnr hp0
    obtain ⟨bl1, fl1, hg1⟩ := Good_malloc fuel r n h1 p hg hn hm hnr
    rw [if_neg hp0] at hg1
    obtain ⟨P, hP, hPa, _⟩ := hg1.block p (List.mem_cons_self _ _)
    have := hg1.1.1.blocks_ok P hP
    omega
  · intro fuel ptr n h1 q hn hv hm hnr hq0
    obtain ⟨bl1, fl1, hg1⟩ := Good_realloc fuel r ptr n h1 q hg hn hv hm hnr
    rw [if_neg hq0] at hg1
    obtain ⟨P, hP, hPa, _⟩ := hg1.block q (List.mem_cons_self _ _)
    have := hg1.1.1.blocks_ok P hP
    omega

set_option maxRecDepth 1000000 in
/-- At a concrete state: after the calls `tCalls` on the provider
`heapT`, the pointer that `mm_malloc 100` returns is a multiple of 8. -/
theorem tame_pointers_aligned_at_tCalls :
    TameReachable heapT (runT 8 tCalls) ∧
    ((mm_malloc 8 (runT 8 tCalls).heap 100).getD ((runT 8 tCalls).heap, 0)).2 % 8 = 0 :=
  ⟨tameReachable_runT 8 tCalls (by decide) (by decide),
    (tame_pointers_aligned heapT (runT 8 tCalls)
      (tameReachable_runT 8 tCalls (by decide) (by decide))).1 8 100 _ _ (by decide)
      (eq_some_getD _ ((runT 8 tCalls).heap, 0) (by decide)) (by decide) (by decide)⟩

/-- In every state reached from `mm_init` by valid calls, the
provider never refusing, on a provider of less than `2 ^ 31` bytes whose
padding word holds no size bits and with requests of at most `2 ^ 32 - 16`
bytes, for every live pointer `ptr` with block size `s` and every `size` with
`1 ≤ size ≤ 2 ^ 31`: when `mm_realloc ptr size` returns the pointer `q`,
the provider not refusing during the call, the first `min size (s - 8)` bytes
at `q` after the call are the first `min size (s - 8)` bytes at `ptr` before
the call, whichever path the call takes. -/
theorem tame_realloc_keeps_payload (h0 : Heap) (r : Run) (fuel ptr size : Nat) (x : Heap × Nat)
    (hr : TameReachable h0 r) (hp : ptr ∈ r.live) (hs1 : 1 ≤ size) (hs2 : size ≤ 2147483648)
    (hx : mm_realloc fuel r.heap ptr size = some x) (hnr : x.1.mem_refused = false)
    (i : Nat) (hi : i < min size (GET_SIZE r.heap.mem (HDRP ptr) - 8)) :
    x.1.mem (x.2 + i) = r.heap.mem (ptr + i) := by
  obtain ⟨bl, fl, hgw⟩ := hr.good
  obtain ⟨B, hB, hBa, hB1, hBs, _⟩ := hgw.live_read ptr hp
  obtain ⟨hwf, hne, hsm, hpad, hrf, hlive, hnd, hna⟩ := hgw
  rw [hBs] at hi
  subst hBa
  by_cases hsame : B.size = ALIGN size
  · rw [mm_realloc_same fuel r.heap B.addr size (by rw [hBs]; exact hsame)] at hx
    rw [← Option.some.inj hx]
  · obtain ⟨h2, q2, e1, e2⟩ := mm_realloc_ok r.heap bl fl B size (fuel + fl.length) hwf hne
      hsm hpad hB hB1 (by omega) (by omega) (by omega) hsame
    rw [mm_realloc_mono fuel fl.length _ _ _ _ hx] at e1
    rw [Option.some.inj e1] at hnr ⊢
    obtain ⟨_, bl1, fl1, Q, w1, w2, w3, w4, w5, w6, w7, w8, w9, w10, w11, _⟩ := e2 hnr
    exact w11 i (by omega) (by omega)

set_option maxRecDepth 1000000 in
/-- At a concrete state: after the calls `tCalls` on the provider
`heapT`, `mm_realloc 65544 200` moves the block, and the byte at offset 5 of
the new payload is the byte at offset 5 of the old one. -/
theorem tame_realloc_keeps_payload_at_tCalls :
    TameReachable heapT (runT 8 tCalls) ∧ 65544 ∈ (runT 8 tCalls).live ∧
    ((mm_realloc 8 (runT 8 tCalls).heap 65544 200).getD ((runT 8 tCalls).heap, 0)).2 = 65704 ∧
    5 < min 200 (GET_SIZE (runT 8 tCalls).heap.mem (HDRP 65544) - 8) ∧
    ((mm_realloc 8 (runT 8 tCalls).heap 65544 200).getD ((runT 8 tCalls).heap, 0)).1.mem
      (((mm_realloc 8 (runT 8 tCalls).heap 65544 200).getD ((runT 8 tCalls).heap, 0)).2 + 5)
      = (runT 8 tCalls).heap.mem (65544 + 5) :=
  ⟨tameReachable_runT 8 tCalls (by decide) (by decide), by decide, by decide, by decide,
    tame_realloc_keeps_payload heapT (runT 8 tCalls) 8 65544 200 _
      (tameReachable_runT 8 tCalls (by decide) (by decide)) (by decide) (by decide) (by decide)
      (eq_some_getD _ ((runT 8 tCalls).heap, 0) (by decide)) (by decide) 5
      (by decide)⟩

/-- In every state reached from `mm_init` by valid calls on a tame provider, the
provider never refusing, `root` is not null. -/
theorem tame_root_ne_null (h0 : Heap) (r : Run) (hr : TameReachable h0 r) :
    r.heap.root ≠ NULL := by
  obtain ⟨bl, fl, hwf, hne, _⟩ := hr.good
  cases fl with
  | nil => exact absurd rfl hne
  | cons p ps =>
    obtain ⟨hroot, hp0, _⟩ := hwf.1.flist
    rw [hroot]
    exact hp0

/-- In every state reached from `mm_init` by valid calls on a tame provider, the
provider never refusing, the arena is made of blocks that lie end to end from
`lo + 8` to its end, each with its tag in header and footer, and no two blocks
that follow each other are both free. -/
theorem tame_no_adjacent_free (h0 : Heap) (r : Run) (hr : TameReachable h0 r) :
    ∃ bl : List Block,
      Chain r.heap.mem bl (mem_heap_lo r.heap + 8) (mem_heap_hi r.heap + 9) ∧ NoAdj bl := by
  obtain ⟨bl, fl, hwf, hne, hsm, hpad, hrf, hlive, hnd, hna⟩ := hr.good
  have hle := Chain_le _ _ _ _ hwf.1.chain
  have hlo := hwf.1.lo_pos
  have hhi : mem_heap_hi r.heap + 9 = r.heap.mem_brk + 8 := by
    unfold mem_heap_hi
    omega
  exact ⟨bl, by rw [hhi]; exact hwf.1.chain, hna⟩

/-! ## The two forms of the invariant -/

/-- The invariant `Valid` of the runs says the same as the invariant `WF` of the
claim on `mm_free`. -/
theorem Valid_iff_WF (h : Heap) (bl : List Block) (fl : List Nat) :
    Valid h bl fl ↔ WF h bl fl := by
  constructor
  · rintro ⟨hs, hiff⟩
    refine ⟨⟨hs.lo_pos, hs.lo_al, hs.brk_le, hs.chain, hs.flist, hs.nodup, ?_⟩, ?_⟩
    · intro p hp
      obtain ⟨b, hb, hba⟩ := hs.nodes p hp
      exact ⟨b, hb, hba, (hiff b hb).1 (hba ▸ hp)⟩
    · intro b hb hb0
      exact (hiff b hb).2 hb0
  · rintro ⟨hp, hfree⟩
    refine ⟨⟨hp.lo_pos, hp.lo_al, hp.brk_le, hp.chain, hp.flist, hp.nodup, ?_⟩, ?_⟩
    · intro p hpf
      obtain ⟨b, hb, hba, _⟩ := hp.nodes p hpf
      exact ⟨b, hb, hba⟩
    · intro b hb
      refine ⟨fun hmem => ?_, hfree b hb⟩
      obtain ⟨c, hc, hca, hc0⟩ := hp.nodes b.addr hmem
      rw [Chain_addr_inj _ _ _ _ hp.chain b c hb hc hca.symm]
      exact hc0

/-! ## `ALIGN`, `mm_init` and `find_fit` in closed form -/

/-- The macro `ALIGN` rounds `n + 8` up to a multiple of 8: its quotient is the
integer division of the source. -/
theorem ALIGN_eq (n : Nat) (h : n ≤ 4294967280) :
    ALIGN n = if n ≤ 8 then 16 else 8 * ((n + 8 + 7) / 8) := by
  unfold ALIGN DSIZE WSIZE
  by_cases h8 : n ≤ 2 * 4
  · rw [if_pos h8, if_pos (by omega)]
  · rw [if_neg h8, if_neg (by omega), uadd_eq n (2 * 4) (by unfold WORD; omega),
      uadd_eq (n + 2 * 4) (2 * 4 - 1) (by unfold WORD; omega)]
    unfold umul WORD
    omega

/-- The ceiling of the rational quotient `(n + 8) / 8` is the integer quotient
`(n + 8 + 7) / 8`. -/
theorem ceil_div_eight (n : Nat) : Nat.ceil (((n : ℚ) + 8) / 8) = (n + 8 + 7) / 8 := by
  obtain ⟨k, r, hr, hk⟩ : ∃ k r, r < 8 ∧ n + 8 + 7 = 8 * k + r :=
    ⟨(n + 8 + 7) / 8, (n + 8 + 7) % 8, Nat.mod_lt _ (by omega), (Nat.div_add_mod _ _).symm⟩
  have hq : (n + 8 + 7) / 8 = k := by omega
  rw [hq]
  have hk1 : 1 ≤ k := by omega
  have hn : (n : ℚ) = 8 * (k : ℚ) + (r : ℚ) - 15 := by
    have : ((n + 8 + 7 : Nat) : ℚ) = ((8 * k + r : Nat) : ℚ) := by rw [hk]
    push_cast at this
    linarith
  have hr' : (r : ℚ) ≤ 7 := by exact_mod_cast (by omega : r ≤ 7)
  have hr0 : (0 : ℚ) ≤ (r : ℚ) := Nat.cast_nonneg r
  rw [Nat.ceil_eq_iff (by omega)]
  constructor
  · rw [lt_div_iff₀ (by norm_num : (0 : ℚ) < 8), hn]
    have : ((k - 1 : Nat) : ℚ) = (k : ℚ) - 1 := by
      rw [Nat.cast_sub hk1]
      simp
    rw [this]
    linarith
  · rw [div_le_iff₀ (by norm_num : (0 : ℚ) < 8), hn]
    linarith

/-- The provider refuses the request of `mm_init` exactly when `mm_init` returns
`-1`, and `mm_init` returns `0` otherwise. -/
theorem mm_init_result (h0 : Heap) :
    ((mm_init h0).2 = -1 ↔ (mem_sbrk h0 CHUNKSIZE).2 = MINUS_ONE) ∧
    ((mem_sbrk h0 CHUNKSIZE).2 ≠ MINUS_ONE → (mm_init h0).2 = 0) := by
  unfold mm_init
  by_cases hs : (mem_sbrk h0 CHUNKSIZE).2 = MINUS_ONE
  · simp [hs]
  · simp [hs]

/-- The loop of `find_fit` returns the first node of the free list whose block
holds `asize` bytes, and `NULL` when there is none. -/
theorem find_fit_loop_first (m : Mem) (asize : Nat) :
    ∀ (fl : List Nat) (prev cur fuel : Nat), FreeList m fl prev cur → fl ≠ [] →
    fl.length ≤ fuel →
    find_fit_loop m asize fuel cur =
      some ((fl.find? (fun p => decide (asize ≤ GET_SIZE m (HDRP p)))).getD NULL) := by
  intro fl
  induction fl with
  | nil => intro _ _ _ _ hne; exact absurd rfl hne
  | cons p ps ih =>
    intro prev cur fuel hfl _ hlen
    obtain ⟨hcur, hp0, hpp, hrest⟩ := hfl
    subst hcur
    cases fuel with
    | zero => simp at hlen
    | succ f =>
      unfold find_fit_loop
      by_cases hs : asize ≤ GET_SIZE m (HDRP cur)
      · rw [if_pos hs]
        simp [List.find?, hs]
      · rw [if_neg hs]
        by_cases hn : GET_ADDR m (NEXTP cur) = NULL
        · rw [if_pos hn]
          have hn0 : GET m cur = 0 := hn
          rw [hn0] at hrest
          have hps := FreeList_nil_iff _ _ _ hrest
          subst hps
          simp [List.find?, hs]
        · rw [if_neg hn]
          have hne : ps ≠ [] := by
            intro e
            subst e
            exact hn hrest
          have := ih cur (GET m cur) f hrest hne (by
            simp only [List.length_cons] at hlen
            omega)
          simp only [GET_ADDR, NEXTP_eq]
          rw [this]
          simp [List.find?, hs]

/-- The nodes of a free list are not null. -/
theorem FreeList_ne_null (m : Mem) :
    ∀ (fl : List Nat) (prev cur : Nat), FreeList m fl prev cur → ∀ p ∈ fl, p ≠ NULL := by
  intro fl
  induction fl with
  | nil => intro _ _ _ p hp; simp at hp
  | cons q qs ih =>
    intro prev cur hfl p hp
    obtain ⟨_, hq0, _, hrest⟩ := hfl
    rcases List.mem_cons.1 hp with rfl | hp'
    · exact hq0
    · exact ih q (GET m q) hrest p hp'

/-! ## `mm_realloc` right after `mm_malloc` -/

/-- A block that holds `n + 8` bytes holds the adjusted size of the request `n`. -/
theorem ALIGN_le_block (n s : Nat) (hn : n ≤ 4294967280) (h8 : s % 8 = 0) (h16 : 16 ≤ s)
    (hs : n + 8 ≤ s) : ALIGN n ≤ s := by
  rw [ALIGN_eq n hn]
  split_ifs <;> omega

/-- A non-null pointer that `mm_malloc` returns is not the pointer of a block that
was allocated before the call, whether or not the provider refuses during
the call. -/
theorem mm_malloc_ptr_fresh (h : Heap) (bl : List Block) (fl : List Nat) (size fuel : Nat)
    (h1 : Heap) (p : Nat) (hwf : Valid h bl fl) (hne : fl ≠ []) (hsm : SmallProvider h)
    (hs0 : size ≠ 0) (hsz : size ≤ 4294967280) (hfuel : fl.length ≤ fuel)
    (hm : mm_malloc fuel h size = some (h1, p)) (hp : p ≠ NULL) :
    ∀ b ∈ bl, b.alloc = 1 → b.addr ≠ p := by
  obtain ⟨al8, al16, alge, alW⟩ := ALIGN_ok size hsz
  obtain ⟨r, hfind, hr⟩ := find_fit_ok h bl fl (ALIGN size) fuel hwf hne hfuel
  intro b hb hb1 hba
  by_cases hr0 : r = NULL
  · have hbl : bl ≠ [] := fun e => by rw [e] at hb; exact absurd hb (List.not_mem_nil _)
    have hM8 : MAX (ALIGN size) CHUNKSIZE % 8 = 0 := by
      unfold MAX CHUNKSIZE
      split_ifs <;> omega
    have hMge : 4096 ≤ MAX (ALIGN size) CHUNKSIZE ∧ MAX (ALIGN size) CHUNKSIZE < WORD := by
      unfold MAX CHUNKSIZE
      split_ifs <;> refine ⟨by omega, by unfold WORD at *; omega⟩
    have hw2 : MAX (ALIGN size) CHUNKSIZE / WSIZE % 2 = 0 := by unfold WSIZE; omega
    have hw4 : MAX (ALIGN size) CHUNKSIZE / WSIZE * 4 = MAX (ALIGN size) CHUNKSIZE := by
      unfold WSIZE; omega
    have hmm : mm_malloc fuel h size =
        if (extend_heap h (MAX (ALIGN size) CHUNKSIZE / WSIZE)).2 = NULL then
          some ((extend_heap h (MAX (ALIGN size) CHUNKSIZE / WSIZE)).1, NULL)
        else some (place (extend_heap h (MAX (ALIGN size) CHUNKSIZE / WSIZE)).1
          (extend_heap h (MAX (ALIGN size) CHUNKSIZE / WSIZE)).2 (ALIGN size),
          (extend_heap h (MAX (ALIGN size) CHUNKSIZE / WSIZE)).2) := by
      unfold mm_malloc
      rw [if_neg hs0]
      simp only [hfind, hr0, ne_eq, not_true_eq_false, if_false]
    rw [hmm] at hm
    by_cases hfit : h.mem_brk + MAX (ALIGN size) CHUNKSIZE ≤ h.mem_max_addr
    · obtain ⟨bl1, fl1, R, e1, e2, e3, e4, e5, e6, e7, e8, e9, e10⟩ :=
        extend_heap_ok h bl fl _ _ hwf hbl hw2 hw4 (by omega) hfit hsm.2.2
      have hRo := e1.1.blocks_ok R e2
      have hlo := e1.1.lo_pos
      have hR0 : (extend_heap h (MAX (ALIGN size) CHUNKSIZE / WSIZE)).2 ≠ NULL := by
        rw [e4]; unfold NULL; omega
      rw [if_neg hR0] at hm
      have hpR : p = R.addr := by
        have := (Prod.mk.inj (Option.some.inj hm)).2
        rw [← this, e4]
      have hbR := Chain_addr_inj _ _ _ _ e1.1.chain b R (e8 b hb hb1) e2 (by rw [hba, hpR])
      rw [hbR] at hb1
      omega
    · have hrf := extend_heap_refused h (MAX (ALIGN size) CHUNKSIZE / WSIZE)
        (MAX (ALIGN size) CHUNKSIZE) hw2 hw4 hMge.2 (by omega)
      rw [if_pos hrf.2] at hm
      exact hp (Prod.mk.inj (Option.some.inj hm)).2.symm
  · have hmm : mm_malloc fuel h size = some (place h r (ALIGN size), r) := by
      unfold mm_malloc
      rw [if_neg hs0]
      simp only [hfind, hr0, ne_eq, not_false_eq_true, if_true]
    rw [hmm] at hm
    have hpr : r = p := (Prod.mk.inj (Option.some.inj hm)).2
    rcases hr with ⟨e, _⟩ | ⟨B, hB, hBa, hB0, _⟩
    · exact hr0 e
    · have := Chain_addr_inj _ _ _ _ hwf.1.chain b B hb hB (by rw [hba, hBa, hpr])
      rw [this] at hb1
      omega

/-- The in-place branch of `mm_realloc` returns the pointer it was given. -/
theorem mm_realloc_inplace_ptr (fuel : Nat) (h : Heap) (bp size : Nat)
    (hne : GET_SIZE h.mem (HDRP bp) ≠ ALIGN size) (hbp0 : bp ≠ 0) (hs0 : size ≠ 0)
    (hc : (decide (NEXT_BLKP h.mem bp ≠ NULL) &&
      decide (GET_ALLOC h.mem (HDRP (NEXT_BLKP h.mem bp)) = 0) &&
      IS_IN_RANGE h (NEXT_BLKP h.mem bp) &&
      decide (ALIGN size < uadd (GET_SIZE h.mem (HDRP bp))
        (GET_SIZE h.mem (HDRP (NEXT_BLKP h.mem bp))))) = true) :
    ∃ h1, mm_realloc fuel h bp size = some (h1, bp) := by
  unfold mm_realloc
  simp only [hne, if_false, hbp0, NULL, hs0]
  simp only [NULL] at hc
  rw [if_pos hc]
  split_ifs <;> exact ⟨_, rfl⟩

/-! ## The claims C11 to C20 -/

/-- C12: in every state `mm_malloc 0` returns `NULL` and leaves the state as it is:
`root`, every byte of the memory and the state of the provider (no request
reaches it) are those of before the call. -/
theorem C12_malloc_zero (fuel : Nat) (h : Heap) : mm_malloc fuel h 0 = some (h, NULL) := by
  unfold mm_malloc
  rw [if_pos rfl]

/-- C13: on a fresh provider `mm_init` returns `-1` exactly when the provider
refuses the request of 4096 bytes; otherwise it returns `0` and leaves `root`
at `lo + 8`, the header word at `lo + 4` and the footer word of that block
both equal to `PACK 4096 0`, and both link words of the block null: the heap
is well formed with the single free block of 4096 bytes, which is the whole
free list. -/
theorem C13_mm_init (h0 : Heap) (hf : Fresh h0) :
    ((mm_init h0).2 = -1 ↔ (mem_sbrk h0 CHUNKSIZE).2 = MINUS_ONE) ∧
    ((mem_sbrk h0 CHUNKSIZE).2 ≠ MINUS_ONE →
      (mm_init h0).2 = 0 ∧
      (mm_init h0).1.root = mem_heap_lo (mm_init h0).1 + 8 ∧
      GET (mm_init h0).1.mem (mem_heap_lo (mm_init h0).1 + 4) = PACK 4096 0 ∧
      GET (mm_init h0).1.mem (FTRP (mm_init h0).1.mem (mm_init h0).1.root) = PACK 4096 0 ∧
      GET_ADDR (mm_init h0).1.mem (NEXTP (mm_init h0).1.root) = NULL ∧
      GET_ADDR (mm_init h0).1.mem (PREVP (mm_init h0).1.root) = NULL ∧
      Valid (mm_init h0).1 [⟨mem_heap_lo (mm_init h0).1 + 8, 4096, 0⟩]
        [mem_heap_lo (mm_init h0).1 + 8]) := by
  refine ⟨(mm_init_result h0).1, fun hs => ?_⟩
  have hr := (mm_init_result h0).2 hs
  obtain ⟨hwf, hlo, _⟩ := mm_init_ok h0 hf hr
  have hmem : (⟨h0.mem_start_brk + 8, 4096, 0⟩ : Block) ∈
      [(⟨h0.mem_start_brk + 8, 4096, 0⟩ : Block)] := List.mem_cons_self _ _
  have ht := hwf.1.tag_words _ hmem
  have hrd := hwf.1.reads _ hmem
  obtain ⟨hroot, _, hprev, hnext⟩ := hwf.1.flist
  have hroot' : (mm_init h0).1.root = h0.mem_start_brk + 8 := hroot
  have hlo' : mem_heap_lo (mm_init h0).1 = h0.mem_start_brk := hlo
  rw [hlo', hroot']
  refine ⟨hr, rfl, ?_, ?_, ?_, ?_, hwf⟩
  · have := ht.1
    rw [hrd.1] at this
    rw [PACK_zero]
    exact this
  · rw [PACK_zero]
    exact ht.2.1
  · exact hnext
  · have := ht.2.2
    unfold GET_ADDR
    rw [this]
    exact hprev

set_option maxRecDepth 1000000 in
/-- C13, on the provider `heap0`, which does not refuse the request. -/
theorem C13_mm_init_witness :
    Fresh heap0 ∧ (mem_sbrk heap0 CHUNKSIZE).2 ≠ MINUS_ONE ∧ (mm_init heap0).2 = 0 ∧
    (mm_init heap0).1.root = mem_heap_lo (mm_init heap0).1 + 8 :=
  ⟨fresh_heap0, by decide, ((C13_mm_init heap0 fresh_heap0).2 (by decide)).1,
    ((C13_mm_init heap0 fresh_heap0).2 (by decide)).2.1⟩

/-- C14: the claim fails on the code.  For the request `n = 10` the macro `ALIGN`
yields 24: its quotient `(10 + 8 + 7) / 8` is an integer division with value
3, while the ceiling of the rational quotient `25 / 8` is 4, which gives
32. -/
theorem C14_ceiling_differs :
    1 ≤ 10 ∧ 10 ≤ 2147483648 ∧ ALIGN 10 = 24 ∧ ALIGN_spec 10 = 32 ∧ ALIGN 10 ≠ ALIGN_spec 10 := by
  have h1 : ALIGN 10 = 24 := by decide
  have h2 : ALIGN_spec 10 = 32 := by
    unfold ALIGN_spec
    rw [if_neg (by omega)]
    have : Nat.ceil ((((10 : Nat) : ℚ) + 8 + 7) / 8) = 4 := by
      rw [Nat.ceil_eq_iff (by omega)]
      constructor <;> norm_num
    rw [this]
  refine ⟨by omega, by omega, h1, h2, ?_⟩
  rw [h1, h2]
  omega

/-- C14, as amended: for every raw request `n` with `1 ≤ n ≤ 2 ^ 31` the adjusted
size `ALIGN n` is 16 when `n ≤ 8` and otherwise `8 * ((n + 8 + 7) / 8)` with the
integer division of the source, which rounds down; this is 8 times the
ceiling of the rational quotient `(n + 8) / 8`. -/
theorem C14_ALIGN_rounds_up (n : Nat) (h1 : 1 ≤ n) (h2 : n ≤ 2147483648) :
    ALIGN n = (if n ≤ 8 then 16 else 8 * ((n + 8 + 7) / 8)) ∧
    ALIGN n = (if n ≤ 8 then 16 else 8 * Nat.ceil (((n : ℚ) + 8) / 8)) := by
  have h := ALIGN_eq n (by omega)
  refine ⟨h, ?_⟩
  rw [h, ceil_div_eight]

/-- C14, as amended, at the request of 10 bytes: the adjusted size is 24. -/
theorem C14_ALIGN_rounds_up_witness :
    1 ≤ 10 ∧ 10 ≤ 2147483648 ∧
    ALIGN 10 = (if 10 ≤ 8 then 16 else 8 * ((10 + 8 + 7) / 8)) ∧ ALIGN 10 = 24 :=
  ⟨by decide, by decide, (C14_ALIGN_rounds_up 10 (by decide) (by decide)).1, by decide⟩

/-- C19: on a well formed, non-empty free list (the nodes `fl`, linked from `root`
to a null successor) and for every `asize`, `find_fit` returns on every fuel
that covers the list; its result is the first node in list order whose header
holds a size of at least `asize`, and it is `NULL` exactly when no node of the
list has such a size.  The function computes a pointer from the heap and
yields no heap: it modifies nothing. -/
theorem C19_find_fit_first (h : Heap) (fl : List Nat) (asize fuel : Nat)
    (hfl : FreeList h.mem fl 0 h.root) (hne : fl ≠ []) (hfuel : fl.length ≤ fuel) :
    find_fit fuel h asize =
      some ((fl.find? (fun p => decide (asize ≤ GET_SIZE h.mem (HDRP p)))).getD NULL) ∧
    ((fl.find? (fun p => decide (asize ≤ GET_SIZE h.mem (HDRP p)))).getD NULL = NULL ↔
      ∀ p ∈ fl, GET_SIZE h.mem (HDRP p) < asize) := by
  refine ⟨find_fit_loop_first h.mem asize fl 0 h.root fuel hfl hne hfuel, ?_⟩
  have hnz := FreeList_ne_null h.mem fl 0 h.root hfl
  cases hf : fl.find? (fun p => decide (asize ≤ GET_SIZE h.mem (HDRP p))) with
  | none =>
    simp only [Option.getD_none, true_iff]
    intro p hp
    have := List.find?_eq_none.1 hf p hp
    simpa using this
  | some x =>
    simp only [Option.getD_some]
    have hx := List.mem_of_find?_eq_some hf
    have hxs := List.find?_some hf
    constructor
    · intro e
      exact absurd e (hnz x hx)
    · intro hall
      have := hall x hx
      simp only [decide_eq_true_eq] at hxs
      omega

set_option maxRecDepth 1000000 in
/-- C19, on the free list `[65568, 65616]` that the calls `c11Calls` leave: the
first node holds 24 bytes, so a request for an adjusted size of 32 bytes is
answered with the second node. -/
theorem C19_find_fit_first_witness :
    FreeList (runOf 8 c11Calls).heap.mem [65568, 65616] 0 (runOf 8 c11Calls).heap.root ∧
    find_fit 2 (runOf 8 c11Calls).heap 32 = some 65616 :=
  ⟨by decide,
    (C19_find_fit_first (runOf 8 c11Calls).heap [65568, 65616] 32 2 (by decide) (by decide)
      (by decide)).1.trans (by decide)⟩

set_option maxRecDepth 1000000 in
/-- C15: the claim fails on the code.  After the valid calls `c15Calls`, whose
requests are all below `2 ^ 31`, the block at `lo + 8` holds 16 bytes, and the
next block of the physical sequence, at `65560` inside the arena, has the size
0 in its header, which is less than 16, and a footer word that differs from
its header word. -/
theorem C15_block_without_tags :
    Reachable heap0 (runOf 8 c15Calls) ∧
    NEXT_BLKP (runOf 8 c15Calls).heap.mem (mem_heap_lo (runOf 8 c15Calls).heap + 8) = 65560 ∧
    IS_IN_RANGE (runOf 8 c15Calls).heap 65560 = true ∧
    GET_SIZE (runOf 8 c15Calls).heap.mem (HDRP 65560) = 0 ∧
    GET (runOf 8 c15Calls).heap.mem (HDRP 65560) ≠
      GET (runOf 8 c15Calls).heap.mem (FTRP (runOf 8 c15Calls).heap.mem 65560) :=
  ⟨reachable_runOf 8 c15Calls (by decide), by decide, by decide, by decide, by decide⟩

set_option maxRecDepth 1000000 in
/-- C16: the claim fails on the code.  After the valid calls `c16Calls`, whose
requests are all below `2 ^ 31`, the physical sequence is made of two blocks,
the block at `lo + 8` of 2400004112 bytes and the block of 4096 bytes behind
it, which ends the arena; both have the alloc bit 0. -/
theorem C16_adjacent_free_blocks :
    Reachable heap0 (runOf 8 c16Calls) ∧
    mem_heap_lo (runOf 8 c16Calls).heap + 8 = 65544 ∧
    GET (runOf 8 c16Calls).heap.mem (HDRP 65544) = PACK 2400004112 0 ∧
    NEXT_BLKP (runOf 8 c16Calls).heap.mem 65544 = 2400069656 ∧
    IS_IN_RANGE (runOf 8 c16Calls).heap 2400069656 = true ∧
    GET (runOf 8 c16Calls).heap.mem (HDRP 2400069656) = PACK 4096 0 ∧
    NEXT_BLKP (runOf 8 c16Calls).heap.mem 2400069656 = (runOf 8 c16Calls).heap.mem_brk + 8 :=
  ⟨reachable_runOf 8 c16Calls (by decide), by decide, by decide, by decide, by decide,
    by decide, by decide⟩

set_option maxRecDepth 1000000 in
/-- C17: the claim fails on the code.  After the valid calls `c16Calls` the free
list is the single node `65544`, while the block at `2400069656`, the second
block of the physical sequence, has the alloc bit 0 and is not in the list. -/
theorem C17_free_block_not_listed :
    Reachable heap0 (runOf 8 c16Calls) ∧
    FreeList (runOf 8 c16Calls).heap.mem [65544] 0 (runOf 8 c16Calls).heap.root ∧
    NEXT_BLKP (runOf 8 c16Calls).heap.mem (mem_heap_lo (runOf 8 c16Calls).heap + 8)
      = 2400069656 ∧
    IS_IN_RANGE (runOf 8 c16Calls).heap 2400069656 = true ∧
    GET_ALLOC (runOf 8 c16Calls).heap.mem (HDRP 2400069656) = 0 ∧
    GET_SIZE (runOf 8 c16Calls).heap.mem (HDRP 2400069656) = 4096 ∧
    2400069656 ∉ [65544] :=
  ⟨reachable_runOf 8 c16Calls (by decide), by decide, by decide, by decide, by decide,
    by decide, by decide⟩

set_option maxRecDepth 1000000 in
/-- C20: the claim fails on the code.  After the first four calls of `c15Calls` the
free list is the single block `65544` of 2400004112 bytes, more than `2 ^ 31`.
For the adjusted size 16 the difference exceeds 16, but `place` only tags the
block allocated with size 16: the word at the header position of `65544 + 16`
stays 0, no free block is created there, and `root` becomes the block
`2400069656` that `extend_heap` appends. -/
theorem C20_place_without_split :
    Reachable heap0 (runOf 8 (c15Calls.take 4)) ∧
    FreeList (runOf 8 (c15Calls.take 4)).heap.mem [65544] 0
      (runOf 8 (c15Calls.take 4)).heap.root ∧
    GET (runOf 8 (c15Calls.take 4)).heap.mem (HDRP 65544) = PACK 2400004112 0 ∧
    16 < 2400004112 - 16 ∧
    GET (place (runOf 8 (c15Calls.take 4)).heap 65544 16).mem (HDRP 65544) = PACK 16 1 ∧
    GET (place (runOf 8 (c15Calls.take 4)).heap 65544 16).mem (HDRP (65544 + 16)) = 0 ∧
    (place (runOf 8 (c15Calls.take 4)).heap 65544 16).root = 2400069656 ∧
    (place (runOf 8 (c15Calls.take 4)).heap 65544 16).root ≠ 65544 + 16 :=
  ⟨reachable_runOf 8 _ (by decide), by decide, by decide, by decide, by decide, by decide,
    by decide, by decide⟩

set_option maxRecDepth 1000000 in
/-- C11: the claim fails on the code.  After the valid calls `c11Calls` the free
block `65568` holds 24 bytes.  `mm_malloc 8` has the adjusted size 16, finds
this block and hands it out whole, since `place` does not split off 8 bytes;
the following `mm_realloc 65568 8` does not find the size 16 in the header,
finds the successor `65592` allocated, and moves the block: it returns
`65616`. -/
theorem C11_realloc_moves_block :
    Reachable heap0 (runOf 8 c11Calls) ∧ 1 ≤ 8 ∧
    (mm_malloc 8 (runOf 8 c11Calls).heap 8).bind
      (fun x => (mm_realloc 8 x.1 x.2 8).map (fun y => (x.2, y.2))) = some (65568, 65616) :=
  ⟨reachable_runOf 8 c11Calls (by decide), by decide, by decide⟩

/-! ## The size of the block handed out, and the shrinking `mm_realloc` -/

/-- The block that `place` hands out in a free block holds the adjusted size, or 8
bytes more. -/
theorem place_size (h : Heap) (bl : List Block) (fl : List Nat) (B : Block) (asize0 : Nat)
    (hwf : Valid h bl fl) (hBm : B ∈ bl) (hB0 : B.alloc = 0) (has : asize0 ≤ B.size)
    (ha8 : asize0 % 8 = 0) (ha16 : 16 ≤ asize0) (hW : B.size < 2147483648)
    (hmax : h.mem_max_addr + 16 ≤ WORD)
    (hnr : (place h B.addr asize0).mem_refused = false) :
    GET_SIZE (place h B.addr asize0).mem (HDRP B.addr) = asize0 ∨
    GET_SIZE (place h B.addr asize0).mem (HDRP B.addr) = asize0 + 8 := by
  obtain ⟨pre, post, rfl⟩ := List.append_of_mem hBm
  have hBo := hwf.1.blocks_ok B hBm
  by_cases hd : B.size = asize0 ∨ B.size = asize0 + 8
  · obtain ⟨bl1, fl1, B1, p1, p2, p3, p4, p5, p6, p7, _⟩ :=
      place_nosplit_ok h pre post B fl asize0 hwf hB0 hd hW hmax hnr
    have r := (p1.1.reads B1 p3).2.1
    have o := p1.1.blocks_ok B1 p3
    rw [p4] at r
    rw [r]
    omega
  · have hBf : B.addr ∈ fl := (hwf.2 B hBm).2 hB0
    obtain ⟨l1, l2, rfl⟩ := List.append_of_mem hBf
    obtain ⟨s1, s2, s3⟩ := place_split_ok h pre post B l1 l2 asize0 (B.size - asize0) hwf hB0
      (by omega) (by omega) ha16 ha8 hW
    exact Or.inl (s1.1.reads (⟨B.addr, asize0, 1⟩ : Block) (by simp)).2.1

/-- The block that `mm_malloc` hands out holds the adjusted size of the request, or
8 bytes more. -/
theorem mm_malloc_size (h : Heap) (bl : List Block) (fl : List Nat) (size fuel : Nat)
    (h1 : Heap) (p : Nat) (hwf : Valid h bl fl) (hne : fl ≠ []) (hsm : SmallProvider h)
    (hs0 : size ≠ 0) (hsz : size ≤ 4294967280) (hfuel : fl.length ≤ fuel)
    (hm : mm_malloc fuel h size = some (h1, p)) (hnr : h1.mem_refused = false) :
    GET_SIZE h1.mem (HDRP p) = ALIGN size ∨ GET_SIZE h1.mem (HDRP p) = ALIGN size + 8 := by
  obtain ⟨al8, al16, alge, alW⟩ := ALIGN_ok size hsz
  obtain ⟨r, hfind, hr⟩ := find_fit_ok h bl fl (ALIGN size) fuel hwf hne hfuel
  by_cases hr0 : r = NULL
  · have hbl : bl ≠ [] := by
      intro e
      cases fl with
      | nil => exact hne rfl
      | cons p ps =>
        obtain ⟨b, hb, _⟩ := hwf.1.nodes p (List.mem_cons_self _ _)
        rw [e] at hb
        exact absurd hb (List.not_mem_nil _)
    have hM8 : MAX (ALIGN size) CHUNKSIZE % 8 = 0 := by
      unfold MAX CHUNKSIZE
      split_ifs <;> omega
    have hMge : ALIGN size ≤ MAX (ALIGN size) CHUNKSIZE ∧ 4096 ≤ MAX (ALIGN size) CHUNKSIZE ∧
        MAX (ALIGN size) CHUNKSIZE < WORD := by
      unfold MAX CHUNKSIZE
      split_ifs <;> refine ⟨by omega, by omega, by unfold WORD at *; omega⟩
    have hw2 : MAX (ALIGN size) CHUNKSIZE / WSIZE % 2 = 0 := by unfold WSIZE; omega
    have hw4 : MAX (ALIGN size) CHUNKSIZE / WSIZE * 4 = MAX (ALIGN size) CHUNKSIZE := by
      unfold WSIZE; omega
    have hmm : mm_malloc fuel h size =
        if (extend_heap h (MAX (ALIGN size) CHUNKSIZE / WSIZE)).2 = NULL then
          some ((extend_heap h (MAX (ALIGN size) CHUNKSIZE / WSIZE)).1, NULL)
        else some (place (extend_heap h (MAX (ALIGN size) CHUNKSIZE / WSIZE)).1
          (extend_heap h (MAX (ALIGN size) CHUNKSIZE / WSIZE)).2 (ALIGN size),
          (extend_heap h (MAX (ALIGN size) CHUNKSIZE / WSIZE)).2) := by
      unfold mm_malloc
      rw [if_neg hs0]
      simp only [hfind, hr0, ne_eq, not_true_eq_false, if_false]
    rw [hmm] at hm
    by_cases hfit : h.mem_brk + MAX (ALIGN size) CHUNKSIZE ≤ h.mem_max_addr
    · obtain ⟨bl1, fl1, R, k1, k2, k3, k4, k5, k6, k7, k8, k9, k10, k11⟩ :=
        extend_heap_ok h bl fl _ _ hwf hbl hw2 hw4 (by omega) hfit hsm.2.2
      have hRo := k1.1.blocks_ok R k2
      have hlo := k1.1.lo_pos
      have hsm1 := hsm.of_extends k6
      have hR0 : (extend_heap h (MAX (ALIGN size) CHUNKSIZE / WSIZE)).2 ≠ NULL := by
        rw [k4]; unfold NULL; omega
      rw [if_neg hR0, k4] at hm
      obtain ⟨rfl, rfl⟩ := Prod.mk.inj (Option.some.inj hm)
      exact place_size _ bl1 fl1 R (ALIGN size) k1 k2 k3 (by omega) al8 al16
        (k1.size_lt hsm1 R k2) hsm1.2.2 hnr
    · obtain ⟨e1, e2⟩ := extend_heap_refused h _ _ hw2 hw4 hMge.2.2 (by omega)
      rw [if_pos e2] at hm
      obtain ⟨rfl, rfl⟩ := Prod.mk.inj (Option.some.inj hm)
      rw [e1] at hnr
      exact absurd hnr (by decide)
  · have hmm : mm_malloc fuel h size = some (place h r (ALIGN size), r) := by
      unfold mm_malloc
      rw [if_neg hs0]
      simp only [hfind, hr0, ne_eq, not_false_eq_true, if_true]
    obtain ⟨B, hB, hBa, hB0, hBs⟩ : ∃ B ∈ bl, B.addr = r ∧ B.alloc = 0 ∧ ALIGN size ≤ B.size := by
      rcases hr with ⟨h1, _⟩ | h1
      · exact absurd h1 hr0
      · exact h1
    rw [hmm, ← hBa] at hm
    obtain ⟨rfl, rfl⟩ := Prod.mk.inj (Option.some.inj hm)
    exact place_size h bl fl B (ALIGN size) hwf hB hB0 hBs al8 al16 (hwf.size_lt hsm B hB)
      hsm.2.2 hnr

/-- The call `mm_realloc` for an allocated block `B` and a request whose adjusted
size is less than the size of `B`.  When the physical successor of `B` is a
free block inside the arena, the call shrinks `B` in place, as `ShrinkOut`
says.  Otherwise it calls `mm_malloc`, and when the provider has not refused,
the pointer so obtained is not null and differs from that of `B`, the
request is copied, `mm_free` is called on `B` and the new pointer is
returned. -/
theorem realloc_shrink_ok (h : Heap) (bl : List Block) (fl : List Nat) (B : Block)
    (size fuel : Nat) (hwf : Valid h bl fl) (hne : fl ≠ []) (hsm : SmallProvider h)
    (hpad : GET h.mem h.mem_start_brk < 8) (hrf : h.mem_refused = false) (hBm : B ∈ bl)
    (hB1 : B.alloc = 1) (hs1 : 1 ≤ size) (hs2 : size ≤ 4294967280)
    (hlt : ALIGN size < B.size) (hfuel : fl.length ≤ fuel) :
    ((IS_IN_RANGE h (NEXT_BLKP h.mem B.addr) = true ∧
        GET_ALLOC h.mem (HDRP (NEXT_BLKP h.mem B.addr)) = 0) →
      ∃ h2, mm_realloc fuel h B.addr size = some (h2, B.addr) ∧
        ShrinkOut h h2 bl fl B (ALIGN size) ∧ ReallocOut h h2 bl B size B.addr) ∧
    (¬ (IS_IN_RANGE h (NEXT_BLKP h.mem B.addr) = true ∧
        GET_ALLOC h.mem (HDRP (NEXT_BLKP h.mem B.addr)) = 0) →
      ∃ h1 p, mm_malloc fuel h size = some (h1, p) ∧
        (h1.mem_refused = false → p ≠ NULL ∧ p ≠ B.addr ∧
          mm_realloc fuel h B.addr size
            = some (mm_free { h1 with mem := memcpy h1.mem p B.addr size } B.addr, p) ∧
          ReallocOut h (mm_free { h1 with mem := memcpy h1.mem p B.addr size } B.addr)
            bl B size p)) := by
  obtain ⟨al8, al16, alge, alW⟩ := ALIGN_ok size hs2
  have hp := hwf.1
  have rB := hp.reads B hBm
  have hBo := hp.blocks_ok B hBm
  have hlo := hp.lo_pos
  have hbrk := hp.brk_le
  have hsame : GET_SIZE h.mem (HDRP B.addr) ≠ ALIGN size := by rw [rB.2.1]; omega
  constructor
  · rintro ⟨hin, hal⟩
    obtain ⟨pre, post, hbl⟩ := List.append_of_mem hBm
    subst hbl
    cases post with
    | nil =>
      obtain ⟨c1, c2, c3⟩ := Chain_one _ _ _ _ _ _ hp.chain
      have hend : B.addr + B.size = h.mem_brk + 8 := c3
      rw [rB.2.2.2.2.1, hend] at hin
      unfold IS_IN_RANGE mem_heap_lo mem_heap_hi at hin
      simp only [Bool.and_eq_true, decide_eq_true_eq] at hin
      omega
    | cons N post =>
      have hNm : N ∈ pre ++ B :: N :: post := by simp
      obtain ⟨r1, r3, r5, hNa⟩ := reads_next h pre post B N fl hp
      have rN := hp.reads N hNm
      have hNo := hp.blocks_ok N hNm
      have hN0 : N.alloc = 0 := by rw [r1, r3] at hal; exact hal
      have hsum : B.size + N.size < 2147483648 := by
        obtain ⟨a1, a2, a3⟩ := hsm
        omega
      have hd : B.size + N.size = ALIGN size + (B.size + N.size - ALIGN size) := by omega
      have heq := mm_realloc_split_eq fuel h B.addr size B.size N.addr N.size
        (B.size + N.size - ALIGN size) rB.2.1 r1 rN.2.1 (by rw [r3]; exact hN0) r5 (by omega)
        (by omega) (by omega) (by omega) hd (by omega) hsum al8 al16 (by omega)
        (by unfold WORD at *; omega)
      obtain ⟨v, sp, _⟩ := realloc_split_Valid h pre post B N fl (ALIGN size)
        (B.size + N.size - ALIGN size) hwf hB1 hN0 hd (by omega) al16 al8 (by omega)
      obtain ⟨h2, e2, ro⟩ := realloc_inplace_ok h pre post B N fl size fuel hwf hsm hB1 hN0
        (by omega) hs2 (by omega) (by omega)
      have t1 := v.1.tag_words (⟨B.addr, ALIGN size, 1⟩ : Block) (by simp)
      have t2 := v.1.tag_words
        (⟨B.addr + ALIGN size, B.size + N.size - ALIGN size, 0⟩ : Block) (by simp)
      rw [heq] at e2
      have e3 : h2 = _ := ((Prod.mk.inj (Option.some.inj e2)).1).symm
      rw [heq]
      refine ⟨_, rfl, ⟨pre, post, N, rfl, r1.symm, hN0, v, ?_, ?_, ?_, ?_, ?_, v.1.flist.1, sp⟩,
        ?_⟩
      · intro hmem
        rcases List.mem_cons.1 hmem with e | e
        · omega
        · exact (List.Nodup.not_mem_erase hp.nodup) e
      · rw [PACK_one _ (by omega)]
        exact t1.1
      · rw [PACK_one _ (by omega)]
        exact t1.2.1
      · rw [PACK_zero]
        exact t2.1
      · rw [PACK_zero]
        exact t2.2.1
      · rw [e3] at ro
        exact ro (by rw [sp.2.2.2.1]; exact hrf)
  · intro hnot
    obtain ⟨h1, p, e3, e4⟩ := mm_malloc_ok h bl fl size fuel hwf hne hsm (by omega) hs2 hfuel
    refine ⟨h1, p, e3, fun hnr => ?_⟩
    obtain ⟨hp0, bl1, fl1, Q, w1, w2, w3, w4, w5, w6, w7, w8, w9, w10, w11⟩ := e4 hnr
    have hB1m := (w8 B hBm hB1).1
    have hpB : p ≠ B.addr := fun e => (w8 B hBm hB1).2 e.symm
    have rB1 := w1.1.reads B hB1m
    have hc : (decide (NEXT_BLKP h.mem B.addr ≠ NULL) &&
        decide (GET_ALLOC h.mem (HDRP (NEXT_BLKP h.mem B.addr)) = 0) &&
        IS_IN_RANGE h (NEXT_BLKP h.mem B.addr) &&
        decide (ALIGN size < uadd (GET_SIZE h.mem (HDRP B.addr))
          (GET_SIZE h.mem (HDRP (NEXT_BLKP h.mem B.addr))))) = false := by
      cases hc : (decide (NEXT_BLKP h.mem B.addr ≠ NULL) &&
        decide (GET_ALLOC h.mem (HDRP (NEXT_BLKP h.mem B.addr)) = 0) &&
        IS_IN_RANGE h (NEXT_BLKP h.mem B.addr) &&
        decide (ALIGN size < uadd (GET_SIZE h.mem (HDRP B.addr))
          (GET_SIZE h.mem (HDRP (NEXT_BLKP h.mem B.addr))))) with
      | false => rfl
      | true =>
        simp only [Bool.and_eq_true, decide_eq_true_eq] at hc
        exact absurd ⟨hc.1.2, hc.1.1.2⟩ hnot
    have hn : size = if size < usub (GET_SIZE h1.mem (HDRP B.addr)) DSIZE then size
        else usub (GET_SIZE h1.mem (HDRP B.addr)) DSIZE := by
      rw [rB1.2.1, usub_eq B.size DSIZE (by unfold DSIZE WSIZE; omega)
        (by unfold WORD at *; omega), if_pos (by unfold DSIZE WSIZE; omega)]
    have e5 := mm_realloc_fallback_eq fuel h B.addr size h1 p size hsame (by omega)
      (by omega) hc e3 hn
    rw [if_neg hp0] at e5
    obtain ⟨h3, q, e6, e7⟩ := realloc_fallback_ok h bl fl B size fuel hwf hne hsm hpad hBm hB1
      (by omega) hs2 hfuel (by omega) hc
    rw [e5] at e6
    obtain ⟨rfl, rfl⟩ := Prod.mk.inj (Option.some.inj e6)
    exact ⟨hp0, hpB, e5, (e7 (by rw [mm_free_refused]; exact hnr)).2⟩

/-! ## The claim C11 -/

/-- C11, as amended: in every state reached from `mm_init` by valid calls, the
provider never refusing (a provider of less than `2 ^ 31` bytes whose padding
word holds no size bits, requests of at most `2 ^ 32 - 16` bytes), and for every
`n ≥ 1`: when `p = mm_malloc n` is not null, the block handed out holds `ALIGN n`
bytes or 8 bytes more, and an immediately following `mm_realloc p n` returns on
enough fuel.  It returns `p` exactly when the block holds `ALIGN n` bytes (then
the heap stays as it is) or its physical successor is a free block inside the
arena; in the second case the block is resized in place: it is retagged with
`ALIGN n` bytes, and its last 8 bytes together with the successor become one
free block at the head of the free list, as `ShrinkOut` says.  Otherwise, that
is when `place` has left 8 bytes more in the block and the successor is
allocated or the block ends the arena, the block is moved: `mm_realloc` calls
`mm_malloc n`, and when the provider has not refused, the pointer `q` so
obtained is not null and differs from `p`, `n` bytes are copied from `p` to `q`,
`mm_free p` is called, and `q` is returned. -/
theorem C11_realloc_after_malloc (h0 : Heap) (r : Run) (fuel n : Nat) (h1 : Heap) (p : Nat)
    (hr : TameReachable h0 r) (hn1 : 1 ≤ n) (hn2 : n ≤ 4294967280)
    (hm : mm_malloc fuel r.heap n = some (h1, p)) (hnr : h1.mem_refused = false)
    (hp : p ≠ NULL) :
    ∃ bl fl B, Valid h1 bl fl ∧ B ∈ bl ∧ B.addr = p ∧ B.alloc = 1 ∧
      B.size = GET_SIZE h1.mem (HDRP p) ∧ (B.size = ALIGN n ∨ B.size = ALIGN n + 8) ∧
    ∃ fuel1, ∀ fuel2, fuel1 ≤ fuel2 → ∃ h2 q, mm_realloc fuel2 h1 p n = some (h2, q) ∧
      (q = p ↔ (GET_SIZE h1.mem (HDRP p) = ALIGN n ∨
        (IS_IN_RANGE h1 (NEXT_BLKP h1.mem p) = true ∧
          GET_ALLOC h1.mem (HDRP (NEXT_BLKP h1.mem p)) = 0))) ∧
      (GET_SIZE h1.mem (HDRP p) = ALIGN n → h2 = h1) ∧
      (GET_SIZE h1.mem (HDRP p) ≠ ALIGN n →
        (IS_IN_RANGE h1 (NEXT_BLKP h1.mem p) = true ∧
          GET_ALLOC h1.mem (HDRP (NEXT_BLKP h1.mem p)) = 0) →
        ShrinkOut h1 h2 bl fl B (ALIGN n) ∧ ReallocOut h1 h2 bl B n p) ∧
      (GET_SIZE h1.mem (HDRP p) ≠ ALIGN n →
        ¬ (IS_IN_RANGE h1 (NEXT_BLKP h1.mem p) = true ∧
          GET_ALLOC h1.mem (HDRP (NEXT_BLKP h1.mem p)) = 0) →
        ∃ h3, mm_malloc fuel2 h1 n = some (h3, q) ∧
          (h3.mem_refused = false → q ≠ NULL ∧ q ≠ p ∧
            h2 = mm_free { h3 with mem := memcpy h3.mem q p n } p ∧
            ReallocOut h1 h2 bl B n q)) := by
  obtain ⟨bl, fl, hgw⟩ := hr.good
  have hsz := mm_malloc_size r.heap bl fl n (fuel + fl.length) h1 p hgw.1 hgw.2.1 hgw.2.2.1
    (by omega) hn2 (by omega) (mm_malloc_mono fuel fl.length _ _ _ hm) hnr
  obtain ⟨bl1, fl1, hg1⟩ := Good_malloc fuel r n h1 p ⟨bl, fl, hgw⟩ hn2 hm hnr
  rw [if_neg hp] at hg1
  obtain ⟨B, hB, hBa, hB1, hBs, _⟩ := hg1.live_read p (List.mem_cons_self _ _)
  obtain ⟨hwf, hne, hsm, hpad, hrf, hlive, hnd, hna⟩ := hg1
  have hBs1 : GET_SIZE h1.mem (HDRP p) = B.size := hBs
  have hwf1 : Valid h1 bl1 fl1 := hwf
  refine ⟨bl1, fl1, B, hwf1, hB, hBa, hB1, hBs1.symm, by rw [← hBs1]; exact hsz,
    fl1.length, fun fuel2 hf2 => ?_⟩
  subst hBa
  by_cases hsame : GET_SIZE h1.mem (HDRP B.addr) = ALIGN n
  · exact ⟨h1, B.addr, mm_realloc_same fuel2 h1 B.addr n hsame,
      ⟨fun _ => Or.inl hsame, fun _ => rfl⟩, fun _ => rfl, fun e => absurd hsame e,
      fun e => absurd hsame e⟩
  · have hlt : ALIGN n < B.size := by
      rw [hBs1] at hsz hsame
      omega
    obtain ⟨hin, hfb⟩ := realloc_shrink_ok h1 bl1 fl1 B n fuel2 hwf1 hne hsm hpad hnr hB hB1
      hn1 hn2 hlt hf2
    by_cases hc : (IS_IN_RANGE h1 (NEXT_BLKP h1.mem B.addr) = true ∧
        GET_ALLOC h1.mem (HDRP (NEXT_BLKP h1.mem B.addr)) = 0)
    · obtain ⟨h2, e, so, ro⟩ := hin hc
      exact ⟨h2, B.addr, e, ⟨fun _ => Or.inr hc, fun _ => rfl⟩, fun e => absurd e hsame,
        fun _ _ => ⟨so, ro⟩, fun _ hn => absurd hc hn⟩
    · obtain ⟨h3, q, e3, e4⟩ := hfb hc
      have hcb : (decide (NEXT_BLKP h1.mem B.addr ≠ NULL) &&
          decide (GET_ALLOC h1.mem (HDRP (NEXT_BLKP h1.mem B.addr)) = 0) &&
          IS_IN_RANGE h1 (NEXT_BLKP h1.mem B.addr) &&
          decide (ALIGN n < uadd (GET_SIZE h1.mem (HDRP B.addr))
            (GET_SIZE h1.mem (HDRP (NEXT_BLKP h1.mem B.addr))))) = false := by
        cases hcb : (decide (NEXT_BLKP h1.mem B.addr ≠ NULL) &&
          decide (GET_ALLOC h1.mem (HDRP (NEXT_BLKP h1.mem B.addr)) = 0) &&
          IS_IN_RANGE h1 (NEXT_BLKP h1.mem B.addr) &&
          decide (ALIGN n < uadd (GET_SIZE h1.mem (HDRP B.addr))
            (GET_SIZE h1.mem (HDRP (NEXT_BLKP h1.mem B.addr))))) with
        | false => rfl
        | true =>
          simp only [Bool.and_eq_true, decide_eq_true_eq] at hcb
          exact absurd ⟨hcb.1.2, hcb.1.1.2⟩ hc
      have e5 := mm_realloc_fallback_eq fuel2 h1 B.addr n h3 q _ hsame hp (by omega) hcb e3 rfl
      have hor : ¬ (GET_SIZE h1.mem (HDRP B.addr) = ALIGN n ∨
          (IS_IN_RANGE h1 (NEXT_BLKP h1.mem B.addr) = true ∧
            GET_ALLOC h1.mem (HDRP (NEXT_BLKP h1.mem B.addr)) = 0)) := by
        rintro (e | e)
        · exact hsame e
        · exact hc e
      by_cases hq0 : q = NULL
      · rw [if_pos hq0] at e5
        subst hq0
        exact ⟨h3, NULL, e5, ⟨fun e => absurd e.symm hp, fun e => absurd e hor⟩,
          fun e => absurd e hsame, fun _ hn => absurd hn hc,
          fun _ _ => ⟨h3, e3, fun hnr3 => absurd rfl (e4 hnr3).1⟩⟩
      · rw [if_neg hq0] at e5
        refine ⟨_, q, e5, ⟨fun e => ?_, fun e => absurd e hor⟩,
          fun e => absurd e hsame, fun _ hn => absurd hn hc,
          fun _ _ => ⟨h3, e3, fun hnr3 => ?_⟩⟩
        · exfalso
          have hq := mm_malloc_ptr_fresh h1 bl1 fl1 n fuel2 h3 q hwf1 hne hsm (by omega) hn2 hf2
            e3 hq0 B hB hB1
          exact hq e.symm
        · have e6 := (e4 hnr3).2.2.1
          rw [e5] at e6
          have e7 := (Prod.mk.inj (Option.some.inj e6)).1
          refine ⟨hq0, (e4 hnr3).2.1, e7, ?_⟩
          rw [e7]
          exact (e4 hnr3).2.2.2

set_option maxRecDepth 1000000 in
/-- C11, as amended, at a concrete state: after the calls `tCalls` on the provider
`heapT`, `mm_malloc 100` returns `65704`, a block of `ALIGN 100 = 112` bytes, and
the following `mm_realloc 65704 100` returns `65704` and leaves the heap as it
is. -/
theorem C11_realloc_after_malloc_witness :
    TameReachable heapT (runT 8 tCalls) ∧ tAfter.2 = 65704 ∧
    GET_SIZE tAfter.1.mem (HDRP tAfter.2) = ALIGN 100 ∧
    ∃ fuel1, ∀ fuel2, fuel1 ≤ fuel2 →
      mm_realloc fuel2 tAfter.1 tAfter.2 100 = some (tAfter.1, tAfter.2) := by
  have hsize : GET_SIZE tAfter.1.mem (HDRP tAfter.2) = ALIGN 100 := by decide
  obtain ⟨bl, fl, B, _, _, _, _, _, _, fuel1, hall⟩ :=
    C11_realloc_after_malloc heapT (runT 8 tCalls) 8 100 tAfter.1 tAfter.2
      (tameReachable_runT 8 tCalls (by decide) (by decide)) (by decide) (by decide)
      (eq_some_getD _ ((runT 8 tCalls).heap, 0) (by decide)) (by decide) (by decide)
  refine ⟨tameReachable_runT 8 tCalls (by decide) (by decide), by decide, hsize, fuel1,
    fun fuel2 hf2 => ?_⟩
  obtain ⟨h2, q, e, hiff, hsame, _⟩ := hall fuel2 hf2
  rw [e, hsame hsize, hiff.2 (Or.inl hsize)]

/-! ## The calls that `extend_heap` and `coalesce` make -/

/-- The call `extend_heap` is the call `coalesce` on the heap and the block that
`extend_heap_arg` yields. -/
theorem extend_heap_of_arg (h : Heap) (words : Nat) (h2 : Heap) (bp : Nat)
    (e : extend_heap_arg h words = some (h2, bp)) : extend_heap h words = coalesce h2 bp := by
  unfold extend_heap_arg at e
  unfold extend_heap
  by_cases hr : (mem_sbrk h
      (if words % 2 ≠ 0 then umul (uadd words 1) WSIZE else umul words WSIZE)).2 = MINUS_ONE
  · simp only [hr, if_true] at e
    exact absurd e (by simp)
  · simp only [hr, if_false] at e ⊢
    obtain ⟨rfl, rfl⟩ := Prod.mk.inj (Option.some.inj e)
    rfl

/-- When the provider refuses, `extend_heap` returns `NULL` without a call of
`coalesce`, and `root` holds the failure sentinel of the provider. -/
theorem extend_heap_of_none (h : Heap) (words : Nat) (e : extend_heap_arg h words = none) :
    (extend_heap h words).2 = NULL ∧ (extend_heap h words).1.root = MINUS_ONE ∧
    (extend_heap h words).1.mem = h.mem := by
  unfold extend_heap_arg at e
  unfold extend_heap
  by_cases hr : (mem_sbrk h
      (if words % 2 ≠ 0 then umul (uadd words 1) WSIZE else umul words WSIZE)).2 = MINUS_ONE
  · simp only [hr, if_true, true_and]
    unfold mem_sbrk
    split_ifs <;> rfl
  · simp only [hr, if_false] at e
    exact absurd e (by simp)

/-- The branch 1 of `coalesce_branch` is the branch of `coalesce` that merges the
block with its successor. -/
theorem coalesce_branch_one (h : Heap) (bp : Nat) (e : coalesce_branch h bp = 1) :
    coalesce h bp =
      (insertNewBlock (updateBlockTags (removeBlock (removeBlock h bp) (NEXT_BLKP h.mem bp)) bp
        (PACK (uadd
          (GET_SIZE (removeBlock (removeBlock h bp) (NEXT_BLKP h.mem bp)).mem
            (HDRP (NEXT_BLKP h.mem bp)))
          (GET_SIZE (removeBlock (removeBlock h bp) (NEXT_BLKP h.mem bp)).mem (HDRP bp))) 0))
        bp, bp) := by
  unfold coalesce_branch at e
  unfold coalesce
  simp only at e ⊢
  split_ifs at e ⊢ <;> first | exact absurd e (by decide) | rfl

/-- The branch 3 of `coalesce_branch` is the branch of `coalesce` that merges the
block with both neighbours. -/
theorem coalesce_branch_three (h : Heap) (bp : Nat) (e : coalesce_branch h bp = 3) :
    (coalesce h bp).2 = PREV_BLKP h.mem bp := by
  unfold coalesce_branch at e
  unfold coalesce
  simp only at e ⊢
  split_ifs at e ⊢ <;> first | exact absurd e (by decide) | rfl

/-- The branch 0 of `coalesce_branch`: `coalesce` returns the block as it is. -/
theorem coalesce_branch_zero (h : Heap) (bp : Nat) (e : coalesce_branch h bp = 0) :
    coalesce h bp = (h, bp) := by
  unfold coalesce_branch at e
  unfold coalesce
  simp only at e ⊢
  split_ifs at e ⊢
  rfl

/-! ## The claims that fail on the code -/

set_option maxRecDepth 1000000 in
/-- C23: the claim fails on the code.  After the valid calls `c23Calls`, whose
requests are all below `2 ^ 31`, the heap is well formed: the block `65544` of
16 bytes is live and its successor `65560` is a free block of 2400004096 bytes
inside the arena.  For the request of 24 bytes the adjusted size is 32, and
`16 + 2400004096 - 32` exceeds 8; `mm_realloc` returns `65544` and tags the
block with 32 bytes, but no free block is created at `65544 + 32`: the header
word there is 0, and `root` is the stale node `65560` inside the block. -/
theorem C23_realloc_without_split :
    Reachable heap0 (runOf 8 c23Calls) ∧ 65544 ∈ (runOf 8 c23Calls).live ∧
    Valid (runOf 8 c23Calls).heap [⟨65544, 16, 1⟩, ⟨65560, 2400004096, 0⟩] [65560] ∧
    NEXT_BLKP (runOf 8 c23Calls).heap.mem 65544 = 65560 ∧
    IS_IN_RANGE (runOf 8 c23Calls).heap 65560 = true ∧
    GET_ALLOC (runOf 8 c23Calls).heap.mem (HDRP 65560) = 0 ∧
    ALIGN 24 = 32 ∧ 8 < 16 + 2400004096 - 32 ∧
    (mm_realloc 8 (runOf 8 c23Calls).heap 65544 24).map
      (fun x => (x.2, x.1.mem_refused, GET x.1.mem (HDRP 65544),
        GET x.1.mem (HDRP (65544 + 32)), x.1.root))
      = some (65544, false, PACK 32 1, 0, 65560) ∧
    PACK 2400004080 0 ≠ 0 ∧ 65560 ≠ 65544 + 32 :=
  ⟨reachable_runOf 8 c23Calls (by decide), by decide,
    ⟨⟨by decide, by decide, by decide, by decide, by decide, by decide, by decide⟩, by decide⟩,
    by decide, by decide, by decide, by decide, by decide, by decide, by decide, by decide⟩

set_option maxRecDepth 1000000 in
/-- C24: the claim fails on the code.  After `mm_malloc 100` on the provider `heapT`
the block `65544` of 112 bytes is live and its successor is free.  The request
of 8 bytes has the adjusted size 16, less than 112, but `mm_realloc 65544 8`
does not take the fallback path: it returns `65544` itself, now a block of 16
bytes, while `mm_malloc 8` would have handed out `65656`. -/
theorem C24_shrink_in_place :
    TameReachable heapT (runT 8 c24Calls) ∧ 65544 ∈ (runT 8 c24Calls).live ∧ 1 ≤ 8 ∧
    ALIGN 8 < GET_SIZE (runT 8 c24Calls).heap.mem (HDRP 65544) ∧
    (mm_realloc 8 (runT 8 c24Calls).heap 65544 8).map
      (fun x => (x.2, x.1.mem_refused, GET x.1.mem (HDRP 65544)))
      = some (65544, false, PACK 16 1) ∧
    (mm_malloc 8 (runT 8 c24Calls).heap 8).map Prod.snd = some 65656 :=
  ⟨tameReachable_runT 8 c24Calls (by decide) (by decide), by decide, by decide, by decide,
    by decide, by decide⟩

/-- In a well formed heap the header of the successor of the last block, which
`coalesce` reads first, lies 5 bytes past the last byte of the arena. -/
theorem coalesce_reads_last (h : Heap) (init : List Block) (Nw : Block) (fl : List Nat)
    (hwf : Valid h (init ++ [Nw]) fl) :
    coalesce_reads h Nw.addr = [h.mem_brk + 4, HDRP (PREV_BLKP h.mem Nw.addr)] ∧
    mem_heap_hi h < h.mem_brk + 4 := by
  have hp := hwf.1
  have hNm : Nw ∈ init ++ [Nw] := by simp
  have rN := hp.reads Nw hNm
  obtain ⟨_, _, c3⟩ := Chain_one _ _ _ _ _ _ hp.chain
  have hend : Nw.addr + Nw.size = h.mem_brk + 8 := c3
  have hbrk := hp.brk_le
  refine ⟨?_, by unfold mem_heap_hi; omega⟩
  unfold coalesce_reads
  simp only [rN.2.2.2.2.1, hend]
  rw [HDRP_eq _ (by omega) (by omega)]
  rfl

set_option maxRecDepth 1000000 in
/-- C26: the claim fails on the code.  The start state of `heap0` is well formed;
`mm_malloc 5000` finds no fit there and calls `extend_heap`, which hands
`coalesce` the last block of the arena, `69640`.  The first header word that
`coalesce` reads, for the alloc bit of the successor, is at `74644`, past the
last byte `74639` of the arena, although the successor is not in range. -/
theorem C26_coalesce_reads_past_hi :
    Valid (start heap0).heap [⟨65544, 4096, 0⟩] [65544] ∧
    find_fit 8 (start heap0).heap (ALIGN 5000) = some NULL ∧
    MAX (ALIGN 5000) CHUNKSIZE / WSIZE = 1252 ∧
    extend_heap_arg (start heap0).heap 1252 = some argStart ∧
    extend_heap (start heap0).heap 1252 = coalesce argStart.1 argStart.2 ∧
    argStart.2 = 69640 ∧ NEXT_BLKP argStart.1.mem argStart.2 = argStart.1.mem_brk + 8 ∧
    coalesce_reads argStart.1 argStart.2 = [74644, 65540] ∧
    mem_heap_lo argStart.1 = 65536 ∧ mem_heap_hi argStart.1 = 74639 ∧
    IS_IN_RANGE argStart.1 (NEXT_BLKP argStart.1.mem argStart.2) = false :=
  ⟨⟨⟨by decide, by decide, by decide, by decide, by decide, by decide, by decide⟩, by decide⟩,
    by decide, by decide, eq_some_getD _ _ (by decide),
    extend_heap_of_arg _ _ _ _ (eq_some_getD _ ((start heap0).heap, 0) (by decide)),
    by decide, by decide, by decide, by decide, by decide, by decide⟩

/-- C27: the claim fails.  The request `2 ^ 32 - 8` lies between 1 and `2 ^ 32 - 1`, and
its adjusted size in 32 bit arithmetic is 0: less than 16 and less than the
request.  No 32 bit value is at least `2 ^ 32`, so none could be as the claim
says. -/
theorem C27_ALIGN_wraps :
    1 ≤ 4294967288 ∧ 4294967288 ≤ 2 ^ 32 - 1 ∧ ALIGN 4294967288 = 0 ∧
    ¬ (16 ≤ ALIGN 4294967288) ∧ ¬ (4294967288 + 8 ≤ ALIGN 4294967288) ∧
    (∀ v, v < WORD → ¬ (4294967288 + 8 ≤ v)) :=
  ⟨by decide, by decide, by decide, by decide, by decide, fun v hv => by unfold WORD at hv; omega⟩

/-- C27, as amended: for every request `n` with `1 ≤ n ≤ 2 ^ 32 - 16` the adjusted size
`ALIGN n`, in 32 bit arithmetic, is a multiple of 8, at least 16 and at least
`n + 8`, and it is the adjusted size that `mm_malloc n` hands to `find_fit`
and to `place`. -/
theorem C27_ALIGN_without_wrap (n : Nat) (h1 : 1 ≤ n) (h2 : n ≤ 4294967280) :
    ALIGN n % 8 = 0 ∧ 16 ≤ ALIGN n ∧ n + 8 ≤ ALIGN n ∧ ALIGN n < WORD ∧
    ∀ (fuel : Nat) (h : Heap), mm_malloc fuel h n =
      match find_fit fuel h (ALIGN n) with
      | none => none
      | some bp =>
        if bp ≠ NULL then some (place h bp (ALIGN n), bp)
        else if (extend_heap h (MAX (ALIGN n) CHUNKSIZE / WSIZE)).2 = NULL then
          some ((extend_heap h (MAX (ALIGN n) CHUNKSIZE / WSIZE)).1, NULL)
        else some (place (extend_heap h (MAX (ALIGN n) CHUNKSIZE / WSIZE)).1
          (extend_heap h (MAX (ALIGN n) CHUNKSIZE / WSIZE)).2 (ALIGN n),
          (extend_heap h (MAX (ALIGN n) CHUNKSIZE / WSIZE)).2) := by
  obtain ⟨a1, a2, a3, a4⟩ := ALIGN_ok n h2
  refine ⟨a1, a2, a3, a4, fun fuel h => ?_⟩
  have hn : ¬ n = 0 := by omega
  unfold mm_malloc
  exact (if_neg hn).trans rfl

/-- C27, as amended, at the request of 100 bytes, whose adjusted size is 112. -/
theorem C27_ALIGN_without_wrap_witness :
    ALIGN 100 = 112 ∧ ALIGN 100 % 8 = 0 ∧ 16 ≤ ALIGN 100 ∧ 100 + 8 ≤ ALIGN 100 :=
  ⟨by decide, (C27_ALIGN_without_wrap 100 (by decide) (by decide)).1,
    (C27_ALIGN_without_wrap 100 (by decide) (by decide)).2.1,
    (C27_ALIGN_without_wrap 100 (by decide) (by decide)).2.2.1⟩

set_option maxRecDepth 1000000 in
/-- C28: the claim fails on the code.  On the provider `heapS`, whose capacity is
one chunk, `mm_init` succeeds and leaves a well formed heap with `root` at
`65544`.  `mm_malloc 5000` finds no fit, the provider refuses the request of
5008 bytes, and `mm_malloc` returns `NULL`; no byte of the memory has changed,
but `root` holds the failure sentinel `2 ^ 32 - 1` of the provider instead of
the head `65544` of the free list. -/
theorem C28_root_after_refusal :
    Fresh heapS ∧ (mm_init heapS).2 = 0 ∧
    Valid (start heapS).heap [⟨65544, 4096, 0⟩] [65544] ∧
    (start heapS).heap.root = 65544 ∧ (start heapS).heap.mem_refused = false ∧
    find_fit 8 (start heapS).heap (ALIGN 5000) = some NULL ∧
    (mem_sbrk (start heapS).heap (MAX (ALIGN 5000) CHUNKSIZE)).2 = MINUS_ONE ∧
    (mm_malloc 8 (start heapS).heap 5000).map (fun x => (x.2, x.1.mem_refused, x.1.root))
      = some (NULL, true, MINUS_ONE) ∧
    MINUS_ONE ≠ 65544 :=
  ⟨by decide, by decide,
    ⟨⟨by decide, by decide, by decide, by decide, by decide, by decide, by decide⟩, by decide⟩,
    by decide, by decide, by decide, by decide, by decide, by decide⟩

set_option maxRecDepth 1000000 in
/-- C29: the claim fails on the code.  On the fresh provider `heap0`, `mm_init` gets
the bytes from `65536` to `69631` and writes the footer of its block at
`root + 4096 - 8 = 69632`, past the last byte of the arena: the word there was 0
and holds `PACK 4096 0` afterwards.  Likewise the footer that `extend_heap`
writes for the block `69640` of 5008 bytes, on the call of `mm_malloc 5000`,
is at `74640`, past the last byte `74639` of the arena. -/
theorem C29_footer_past_hi :
    Fresh heap0 ∧ (mm_init heap0).2 = 0 ∧ (mm_init heap0).1.root = 65544 ∧
    mem_heap_lo (mm_init heap0).1 = 65536 ∧ mem_heap_hi (mm_init heap0).1 = 69631 ∧
    FTRP (mm_init heap0).1.mem (mm_init heap0).1.root = 65544 + 4096 - 8 ∧
    mem_heap_hi (mm_init heap0).1 < FTRP (mm_init heap0).1.mem (mm_init heap0).1.root ∧
    GET heap0.mem 69632 = 0 ∧ GET (mm_init heap0).1.mem 69632 = PACK CHUNKSIZE 0 ∧
    extend_heap_arg (start heap0).heap 1252 = some argStart ∧
    argStart.2 = 69640 ∧ mem_heap_hi argStart.1 = 74639 ∧
    FTRP argStart.1.mem argStart.2 = 74640 ∧
    GET (start heap0).heap.mem 74640 = 0 ∧ GET argStart.1.mem 74640 = PACK 5008 0 :=
  ⟨by decide, by decide, by decide, by decide, by decide, by decide, by decide, by decide,
    by decide, eq_some_getD _ _ (by decide), by decide, by decide, by decide, by decide,
    by decide⟩

set_option maxRecDepth 1000000 in
/-- C30: the claim fails on the code.  The calls `c30Calls` are valid and the
provider never refuses.  `mm_malloc 5000` then finds no fit and calls
`extend_heap`, which hands `coalesce` the block `77648`; the predecessor that
`coalesce` computes for it, `4080`, lies outside the arena, the alloc bit read
for the successor is 0, and `coalesce` takes the branch of the source lines 172
to 185, in which the block is merged with its successor. -/
theorem C30_next_free_branch_runs :
    Reachable heap0 (runOf 8 c30Calls) ∧ (runOf 8 c30Calls).heap.mem_refused = false ∧
    find_fit 8 (runOf 8 c30Calls).heap (ALIGN 5000) = some NULL ∧
    MAX (ALIGN 5000) CHUNKSIZE / WSIZE = 1252 ∧
    extend_heap_arg (runOf 8 c30Calls).heap 1252 = some arg30 ∧
    extend_heap (runOf 8 c30Calls).heap 1252 = coalesce arg30.1 arg30.2 ∧
    arg30.2 = 77648 ∧ mem_heap_lo arg30.1 = 65536 ∧
    PREV_BLKP arg30.1.mem arg30.2 = 4080 ∧
    IS_IN_RANGE arg30.1 (PREV_BLKP arg30.1.mem arg30.2) = false ∧
    GET_ALLOC arg30.1.mem (HDRP (NEXT_BLKP arg30.1.mem arg30.2)) = 0 ∧
    coalesce_branch arg30.1 arg30.2 = 1 :=
  ⟨reachable_runOf 8 c30Calls (by decide), by decide, by decide, by decide,
    eq_some_getD _ _ (by decide),
    extend_heap_of_arg _ _ _ _ (eq_some_getD _ ((runOf 8 c30Calls).heap, 0) (by decide)),
    by decide, by decide, by decide, by decide, by decide, by decide⟩

/-! ## `place` on blocks of any size -/

/-- The call `place` on a block of any size that exceeds the request by 0 or 8
bytes: the whole block is tagged allocated and leaves the free list; when the list is empty
afterwards, `extend_heap` is called. -/
theorem place_whole_eq (h : Heap) (bp asize0 sz : Nat)
    (hsz : GET_SIZE h.mem (HDRP bp) = sz) (hd : sz = asize0 ∨ sz = asize0 + 8)
    (hW : sz < 4294967296) (h2 : sz % 2 = 0) :
    place h bp asize0 =
      if (removeBlock (updateBlockTags h bp (sz + 1)) bp).root = NULL then
        (extend_heap (removeBlock (updateBlockTags h bp (sz + 1)) bp) (CHUNKSIZE / WSIZE)).1
      else removeBlock (updateBlockTags h bp (sz + 1)) bp := by
  unfold place
  rw [hsz]
  rcases hd with hd | hd
  · have e1 : toInt32 (usub sz asize0) = 0 := by
      rw [usub_eq sz asize0 (by omega) (by unfold WORD; omega),
        toInt32_small _ (by omega)]
      simp [hd]
    have e2 : PACK asize0 1 = sz + 1 := by rw [← hd]; exact PACK_one sz h2
    simp only [e1, DSIZE, WSIZE]
    simp [e2]
  · have e1 : toInt32 (usub sz asize0) = 8 := by
      rw [usub_eq sz asize0 (by omega) (by unfold WORD; omega),
        toInt32_small _ (by omega)]
      simp [hd]
    have e2 : PACK (uadd asize0 (2 * 4)) 1 = sz + 1 := by
      rw [uadd_eq asize0 (2 * 4) (by unfold WORD; omega), show asize0 + 2 * 4 = sz by omega]
      exact PACK_one sz h2
    simp only [e1, DSIZE, WSIZE]
    simp [e2]

/-- The call `place` on a block of any size that exceeds the request by 16 bytes
or more, and by less than `2 ^ 31`: the block is split, and the remainder takes
its position in the free list. -/
theorem place_split_gen_eq (h : Heap) (bp asize0 d : Nat)
    (hsz : GET_SIZE h.mem (HDRP bp) = asize0 + d) (hd16 : 16 ≤ d) (hd8 : d % 8 = 0)
    (ha16 : 16 ≤ asize0) (ha8 : asize0 % 8 = 0) (hd31 : d < 2147483648)
    (hW : asize0 + d < 4294967296)
    (hbp : 4 ≤ bp) (hbW : bp + asize0 + d + 8 ≤ WORD) (hn : GET h.mem bp + 4 < WORD) :
    place h bp asize0 =
      { h with
        mem := relink (updateBlockTags (updateBlockTags h bp (asize0 + 1)) (bp + asize0)
          (d + 0)).mem bp (bp + asize0),
        root := if GET h.mem (bp + 4) = 0 then bp + asize0 else h.root } := by
  have hU1 := updateBlockTags_eq h bp asize0 1 hbp ha8 (by omega) (by omega) (by omega)
  have hU2 := updateBlockTags_eq (updateBlockTags h bp (asize0 + 1)) (bp + asize0) d 0
    (by omega) hd8 (by omega) (by omega) (by omega)
  have ht1 : (asize0 + 1) % WORD = asize0 + 1 := Nat.mod_eq_of_lt (by unfold WORD; omega)
  have hH : HDRP bp = bp - 4 := HDRP_eq bp hbp (by omega)
  have e_next : NEXT_BLKP (updateBlockTags h bp (asize0 + 1)).mem bp = bp + asize0 := by
    unfold NEXT_BLKP
    rw [hH, GET_SIZE_eq, hU1]
    show uadd bp (GET (PUT (PUT h.mem (bp - 4) (asize0 + 1)) (bp + asize0 - 8) (asize0 + 1))
      (bp - 4) / 8 * 8) = bp + asize0
    rw [GET_PUT_ne _ _ _ _ (by omega), GET_PUT_same, ht1,
      show (asize0 + 1) / 8 * 8 = asize0 by omega, uadd_eq bp asize0 (by omega)]
  have e_pp : GET (updateBlockTags h bp (asize0 + 1)).mem (bp + 4) = GET h.mem (bp + 4) := by
    rw [hU1]
    show GET (PUT (PUT h.mem (bp - 4) (asize0 + 1)) (bp + asize0 - 8) (asize0 + 1)) (bp + 4) = _
    rw [GET_PUT_ne _ _ _ _ (by omega), GET_PUT_ne _ _ _ _ (by omega)]
  have e_nn : GET (updateBlockTags h bp (asize0 + 1)).mem bp = GET h.mem bp := by
    rw [hU1]
    show GET (PUT (PUT h.mem (bp - 4) (asize0 + 1)) (bp + asize0 - 8) (asize0 + 1)) bp = _
    rw [GET_PUT_ne _ _ _ _ (by omega), GET_PUT_ne _ _ _ _ (by omega)]
  have e_pp2 : GET (updateBlockTags (updateBlockTags h bp (asize0 + 1)) (bp + asize0)
      (d + 0)).mem (bp + 4) = GET h.mem (bp + 4) := by
    rw [hU2]
    show GET (PUT (PUT _ (bp + asize0 - 4) (d + 0)) (bp + asize0 + d - 8) (d + 0)) (bp + 4) = _
    rw [GET_PUT_ne _ _ _ _ (by omega), GET_PUT_ne _ _ _ _ (by omega), e_pp]
  have e_nn2 : GET (updateBlockTags (updateBlockTags h bp (asize0 + 1)) (bp + asize0)
      (d + 0)).mem bp = GET h.mem bp := by
    rw [hU2]
    show GET (PUT (PUT _ (bp + asize0 - 4) (d + 0)) (bp + asize0 + d - 8) (d + 0)) bp = _
    rw [GET_PUT_ne _ _ _ _ (by omega), GET_PUT_ne _ _ _ _ (by omega), e_nn]
  have hsp : toInt32 (usub (GET_SIZE h.mem (HDRP bp)) asize0) = (d : Int) := by
    rw [hsz, usub_eq (asize0 + d) asize0 (by omega) (by unfold WORD; omega),
      toInt32_small _ (by omega), show asize0 + d - asize0 = d by omega]
  have c1 : ¬ ((d : Int) = ((DSIZE : Nat) : Int)) := by unfold DSIZE WSIZE; omega
  have c2 : (d : Int) > ((DSIZE : Nat) : Int) := by unfold DSIZE WSIZE; omega
  have e_pack : PACK asize0 1 = asize0 + 1 := PACK_one asize0 (by omega)
  have e_of : ofInt32 (d : Int) = d + 0 := by rw [ofInt32_small d (by omega)]; rfl
  have e_P : PREVP bp = bp + 4 := by unfold PREVP WSIZE; exact uadd_eq _ _ (by omega)
  have e_Py : PREVP (bp + asize0) = bp + asize0 + 4 := by
    unfold PREVP WSIZE; exact uadd_eq _ _ (by omega)
  have e_Pn : PREVP (GET h.mem bp) = GET h.mem bp + 4 := by
    unfold PREVP WSIZE; exact uadd_eq _ _ (by omega)
  unfold place
  simp only [hsp, c1, c2, if_true, if_false, e_pack, e_next, e_of]
  simp only [NEXTP_eq, GET_ADDR, PUT_ADDR, NULL, e_P, e_pp, e_nn, e_Py, e_Pn]
  unfold relink
  rw [e_pp2, e_nn2]
  by_cases hp0 : GET h.mem (bp + 4) = 0 <;> by_cases hn0 : GET h.mem bp = 0 <;>
    simp only [hp0, hn0, if_true, if_false, ne_eq, not_true_eq_false, not_false_eq_true] <;>
    exact Heap.ext_fields _ _ rfl rfl rfl rfl rfl rfl rfl

/-- The call `place` on a free block `B` of any size that exceeds the request by
16 bytes or more, and by less than `2 ^ 31`: `B` becomes an allocated block of `asize0` bytes followed by a free
block that takes the position of `B` in the free list. -/
theorem place_split_gen_ok (h : Heap) (pre post : List Block) (B : Block) (l1 l2 : List Nat)
    (asize0 d : Nat) (hwf : Valid h (pre ++ B :: post) (l1 ++ B.addr :: l2)) (hB0 : B.alloc = 0)
    (hsz : B.size = asize0 + d) (hd16 : 16 ≤ d) (ha16 : 16 ≤ asize0) (ha8 : asize0 % 8 = 0)
    (hd31 : d < 2147483648) :
    Valid (place h B.addr asize0)
      (pre ++ ⟨B.addr, asize0, 1⟩ :: ⟨B.addr + asize0, d, 0⟩ :: post)
      (l1 ++ (B.addr + asize0) :: l2) ∧
    SameProvider h (place h B.addr asize0) ∧
    (∀ a, OutsideFree (pre ++ B :: post) a → (place h B.addr asize0).mem a = h.mem a) := by
  have hp := hwf.1
  have hBm : B ∈ pre ++ B :: post := by simp
  have hBo := hp.blocks_ok B hBm
  have hbrk := hp.brk_le
  have hlo := hp.lo_pos
  have hxf : B.addr ∈ l1 ++ B.addr :: l2 := by simp
  have hok : ∀ p ∈ l1 ++ B.addr :: l2, p % 8 = 0 ∧ 8 ≤ p := fun p hpf => by
    have := hp.nodes_ok p hpf; omega
  have hd8 : d % 8 = 0 := by omega
  obtain ⟨c1, c2, c3⟩ := Chain_one _ _ _ _ _ _ hp.chain
  obtain ⟨m1, hU, hch, hfr⟩ := split_tags h B.addr asize0 d 1 0 (by omega) ha8 ha16 hd8 hd16
    (by omega) (by omega) (by omega)
  have hch' : Chain m1 [⟨B.addr, asize0, 1⟩, ⟨B.addr + asize0, d, 0⟩] B.addr
      (B.addr + B.size) := by
    rw [hsz, ← Nat.add_assoc]; exact hch
  have hp1 : Shape { h with mem := m1 }
      (pre ++ [⟨B.addr, asize0, 1⟩, ⟨B.addr + asize0, d, 0⟩] ++ post)
      (l1 ++ B.addr :: l2) :=
    Shape.retile [B] (by simpa using hp) c1 c2 c3
      (fun b hb _ => by rw [List.mem_singleton.1 hb]) m1 _ hch' (by simp)
      (fun a ha => hfr a (by omega) (by omega) (by omega))
  have hyn : B.addr + asize0 ∉ l1 ++ B.addr :: l2 := by
    intro hy
    obtain ⟨c, hc, hca⟩ := hp.nodes _ hy
    have hco := hp.blocks_ok c hc
    rcases Chain_sep _ _ _ _ hp.chain B c hBm hc with rfl | h1 | h1 <;> omega
  have hg1 : GET m1 B.addr = GET h.mem B.addr :=
    GET_congr _ _ _ (fun a _ _ => hfr a (by omega) (by omega) (by omega))
  have hg2 : GET m1 (B.addr + 4) = GET h.mem (B.addr + 4) :=
    GET_congr _ _ _ (fun a _ _ => hfr a (by omega) (by omega) (by omega))
  obtain ⟨k1, k2, k3⟩ := FreeList_relink m1 B.addr (B.addr + asize0) l2 (by omega) (by omega)
    (by omega) l1 0 h.root hp1.flist hp.nodup hok (by omega)
    (fun h0 => by have := hok 0 h0; omega) hyn (by omega)
  have hnW : GET h.mem B.addr + 4 < WORD := by
    rw [← hg1]
    rcases k2 with h0 | h0
    · rw [h0]; unfold WORD; omega
    · have := hp.nodes_ok _ (List.mem_append_right _ (List.mem_cons_of_mem _ h0)); omega
  have hHD : GET_SIZE h.mem (HDRP B.addr) = asize0 + d := by rw [(hp.reads B hBm).2.1, hsz]
  have heq := place_split_gen_eq h B.addr asize0 d hHD hd16 hd8 ha16 ha8 hd31
    (by unfold WORD at hbrk; omega) (by omega) (by omega) hnW
  rw [hU] at heq
  simp only at heq
  have hbyte : ∀ a, (a < B.addr ∨ B.addr + B.size - 4 ≤ a) →
      (∀ p ∈ l1 ++ B.addr :: l2, a < p ∨ p + 8 ≤ a) → relink m1 B.addr (B.addr + asize0) a = m1 a := by
    intro a ha1 ha
    apply relink_byte
    · rcases k3 with ⟨_, h0⟩ | ⟨_, h0⟩
      · exact Or.inl h0
      · have := ha _ (List.mem_append_left _ h0); right; omega
    · rcases k2 with h0 | h0
      · exact Or.inl h0
      · have := ha _ (List.mem_append_right _ (List.mem_cons_of_mem _ h0)); right; omega
    · omega
  have hroot : (if GET h.mem (B.addr + 4) = 0 then B.addr + asize0 else h.root)
      = (if l1 = [] then B.addr + asize0 else h.root) := by
    rw [← hg2]
    rcases k3 with ⟨h1, h2⟩ | ⟨h1, h2⟩
    · rw [if_pos h2, if_pos h1]
    · have := hok _ (List.mem_append_left _ h2)
      rw [if_neg (by omega), if_neg h1]
  rw [heq, hroot]
  refine ⟨⟨⟨hp.lo_pos, hp.lo_al, hp.brk_le, ?_, k1, nodup_replace _ _ _ _ hp.nodup hyn, ?_⟩, ?_⟩,
    ⟨rfl, rfl, rfl, rfl, rfl⟩, ?_⟩
  · show Chain (relink m1 B.addr (B.addr + asize0)) _ _ _
    have hc := hp1.chain
    simp only [List.append_assoc, List.cons_append, List.nil_append] at hc
    apply Chain_frame_bytes _ _ _ _ _ hc (by omega)
    intro b hb a ha
    apply relink_byte
    · rcases k3 with ⟨_, h0⟩ | ⟨_, h0⟩
      · exact Or.inl h0
      · have := hp1.tags_links b (by simpa using hb) _ (List.mem_append_left _ h0) a ha
        right; omega
    · rcases k2 with h0 | h0
      · exact Or.inl h0
      · have := hp1.tags_links b (by simpa using hb) _
          (List.mem_append_right _ (List.mem_cons_of_mem _ h0)) a ha
        right; omega
    · exact Chain_tag_addr _ _ _ _ hc (by omega) b ⟨B.addr + asize0, d, 0⟩ hb (by simp) a ha
  · intro p hpf
    rcases List.mem_append.1 hpf with h1 | h1
    · obtain ⟨c, hc, hca⟩ := hp1.nodes p (List.mem_append_left _ h1)
      exact ⟨c, by simpa using hc, hca⟩
    · rcases List.mem_cons.1 h1 with rfl | h2
      · exact ⟨⟨B.addr + asize0, d, 0⟩, by simp, rfl⟩
      · obtain ⟨c, hc, hca⟩ := hp1.nodes p (List.mem_append_right _ (List.mem_cons_of_mem _ h2))
        exact ⟨c, by simpa using hc, hca⟩
  · intro b hb
    have hb' : (b ∈ pre ∨ b ∈ post) ∨ b = ⟨B.addr, asize0, 1⟩ ∨ b = ⟨B.addr + asize0, d, 0⟩ := by
      simp only [List.mem_append, List.mem_cons] at hb
      tauto
    have hnd := hp.nodup
    rw [List.nodup_append] at hnd
    obtain ⟨n1, n2, n3⟩ := hnd
    rw [List.nodup_cons] at n2
    rcases hb' with hb1 | rfl | rfl
    · have hbm : b ∈ pre ++ B :: post := by
        rcases hb1 with h1 | h1
        · exact List.mem_append_left _ h1
        · exact List.mem_append_right _ (List.mem_cons_of_mem _ h1)
      have hbo := hp.blocks_ok b hbm
      have hne : b.addr ≠ B.addr ∧ b.addr ≠ B.addr + asize0 := by
        have hbB : b ≠ B := by
          rintro rfl
          rcases hb1 with h1 | h1
          · have := Chain_mem _ _ _ _ c1 b h1; omega
          · have := Chain_mem _ _ _ _ c3 b h1; omega
        rcases Chain_sep _ _ _ _ hp.chain B b hBm hbm with e | h1 | h1
        · exact absurd e.symm hbB
        · omega
        · omega
      rw [← hwf.2 b hbm]
      simp only [List.mem_append, List.mem_cons]
      constructor
      · rintro (h1 | h1 | h1)
        · exact Or.inl h1
        · exact absurd h1 hne.2
        · exact Or.inr (Or.inr h1)
      · rintro (h1 | h1 | h1)
        · exact Or.inl h1
        · exact absurd h1 hne.1
        · exact Or.inr (Or.inr h1)
    · simp only [List.mem_append, List.mem_cons]
      constructor
      · rintro (h1 | h1 | h1)
        · exact (n3 h1 (List.mem_cons_self _ _)).elim
        · omega
        · exact absurd h1 n2.1
      · intro h1
        simp at h1
    · simp
  · intro a ho
    have hl := ho.links hwf
    have hBout := ho B hBm hB0
    show relink m1 B.addr (B.addr + asize0) a = h.mem a
    rw [hbyte a (by omega) hl]
    exact hfr a (by omega) (by omega) (by omega)


/-- When the provider refuses, `extend_heap` leaves the memory as it is. -/
theorem extend_heap_refused_mem (h : Heap) (words size : Nat) (hw : words % 2 = 0)
    (hsz : words * 4 = size) (hlt : size < WORD) (hfit : h.mem_max_addr < h.mem_brk + size) :
    (extend_heap h words).1.mem = h.mem ∧ (extend_heap h words).1.root = MINUS_ONE := by
  have e1 : umul words WSIZE = size := by
    unfold umul WSIZE
    rw [hsz]
    exact Nat.mod_eq_of_lt hlt
  have hs : mem_sbrk h size = ({ h with mem_refused := true }, MINUS_ONE) := by
    unfold mem_sbrk
    rw [if_pos (by omega)]
  unfold extend_heap
  simp only [hw, ne_eq, OfNat.zero_ne_ofNat, not_true_eq_false, if_false, e1, hs, if_true]
  simp

/-! ## The claims C21 and C22 -/

/-- C21: for every free block `B` of a well formed heap, which is then in the free
list, and every `asize0` with `B.size - asize0` equal to 0 or to 8, `place` does not
split: the header and the footer of `B` become `PACK B.size 1`, the header and
the footer of every other block stay as they are, and `B` leaves the free
list.  When other nodes remain, the heap is well formed with `B` allocated and
the free list without `B`; when none remains and the provider has room for
the chunk that `place` then asks for, the heap is well formed with `B`
allocated, every other block as before and a free list without `B`; when none
remains and the provider refuses the chunk, `root` holds the failure sentinel
of the provider, which is not `B.addr`. -/
theorem C21_place_whole_block (h : Heap) (pre post : List Block) (B : Block) (fl : List Nat)
    (asize0 : Nat) (hwf : Valid h (pre ++ B :: post) fl) (hB0 : B.alloc = 0)
    (hd : B.size = asize0 ∨ B.size = asize0 + 8) (hmax : h.mem_max_addr + 16 ≤ WORD) :
    B.addr ∈ fl ∧
    GET (place h B.addr asize0).mem (HDRP B.addr) = PACK B.size 1 ∧
    GET (place h B.addr asize0).mem (FTRP (place h B.addr asize0).mem B.addr) = PACK B.size 1 ∧
    (∀ b, b ∈ pre ∨ b ∈ post →
      GET (place h B.addr asize0).mem (HDRP b.addr) = GET h.mem (HDRP b.addr) ∧
      GET (place h B.addr asize0).mem (FTRP (place h B.addr asize0).mem b.addr)
        = GET h.mem (FTRP h.mem b.addr)) ∧
    (fl.erase B.addr ≠ [] →
      Valid (place h B.addr asize0) (pre ++ ⟨B.addr, B.size, 1⟩ :: post) (fl.erase B.addr) ∧
      B.addr ∉ fl.erase B.addr) ∧
    (fl.erase B.addr = [] → h.mem_brk + 4096 ≤ h.mem_max_addr →
      ∃ bl1 fl1, Valid (place h B.addr asize0) bl1 fl1 ∧ (⟨B.addr, B.size, 1⟩ : Block) ∈ bl1 ∧
        (∀ b, b ∈ pre ∨ b ∈ post → b ∈ bl1) ∧ B.addr ∉ fl1) ∧
    (fl.erase B.addr = [] → h.mem_max_addr < h.mem_brk + 4096 →
      (place h B.addr asize0).root = MINUS_ONE ∧ (place h B.addr asize0).root ≠ B.addr) := by
  have hp := hwf.1
  have hBm : B ∈ pre ++ B :: post := by simp
  have hBo := hp.blocks_ok B hBm
  have hbrk := hp.brk_le
  have hlo := hp.lo_pos
  have hBf : B.addr ∈ fl := (hwf.2 B hBm).2 hB0
  obtain ⟨c1, c2, c3⟩ := Chain_one _ _ _ _ _ _ hp.chain
  have heq := place_whole_eq h B.addr asize0 B.size (hp.reads B hBm).2.1 hd
    (by unfold WORD at hbrk; omega) (by omega)
  obtain ⟨r1, r2, r3, r5⟩ := retag_Shape h pre [B] post fl B.addr (B.addr + B.size) 1
    (by simpa using hp) c1 c2 c3 (by simp) (fun b hb _ => by rw [List.mem_singleton.1 hb])
    (by omega)
  have hsz : B.addr + B.size - B.addr = B.size := by omega
  rw [hsz] at r1 r2 r3 r5
  obtain ⟨q1, q2, q3⟩ := removeBlock_Shape _ _ fl B.addr r1 hBf
  have hmemb : ∀ b, b ∈ pre ∨ b ∈ post → b ∈ pre ++ B :: post := by
    intro b hb
    rcases hb with h1 | h1
    · exact List.mem_append_left _ h1
    · exact List.mem_append_right _ (List.mem_cons_of_mem _ h1)
  have hmemb1 : ∀ b, b ∈ pre ∨ b ∈ post → b ∈ pre ++ (⟨B.addr, B.size, 1⟩ : Block) :: post := by
    intro b hb
    rcases hb with h1 | h1
    · exact List.mem_append_left _ h1
    · exact List.mem_append_right _ (List.mem_cons_of_mem _ h1)
  have hB1m : (⟨B.addr, B.size, 1⟩ : Block) ∈ pre ++ (⟨B.addr, B.size, 1⟩ : Block) :: post := by
    simp
  have hne : ∀ b, b ∈ pre ∨ b ∈ post → b.addr ≠ B.addr := by
    intro b hb
    rcases hb with h1 | h1
    · have := Chain_mem _ _ _ _ c1 b h1; omega
    · have := Chain_mem _ _ _ _ c3 b h1; omega
  have hwf2 : Valid (removeBlock (updateBlockTags h B.addr (B.size + 1)) B.addr)
      (pre ++ ⟨B.addr, B.size, 1⟩ :: post) (fl.erase B.addr) := by
    refine ⟨q1, ?_⟩
    intro b hb
    have hb' : (b ∈ pre ∨ b ∈ post) ∨ b = ⟨B.addr, B.size, 1⟩ := by
      simp only [List.mem_append, List.mem_cons] at hb
      tauto
    rcases hb' with hb1 | rfl
    · rw [List.mem_erase_of_ne (hne b hb1)]
      exact hwf.2 b (hmemb b hb1)
    · constructor
      · intro hx
        exact absurd hx (not_mem_erase_self fl _ hp.nodup)
      · intro hx
        simp at hx
  have hpack : PACK B.size 1 = B.size + 1 := PACK_one B.size (by omega)
  -- the tags as they are in a heap made of the blocks `bl1`
  have htags : ∀ (h1 : Heap) (bl1 : List Block) (fl1 : List Nat), Shape h1 bl1 fl1 →
      (⟨B.addr, B.size, 1⟩ : Block) ∈ bl1 → (∀ b, b ∈ pre ∨ b ∈ post → b ∈ bl1) →
      GET h1.mem (HDRP B.addr) = PACK B.size 1 ∧
      GET h1.mem (FTRP h1.mem B.addr) = PACK B.size 1 ∧
      (∀ b, b ∈ pre ∨ b ∈ post →
        GET h1.mem (HDRP b.addr) = GET h.mem (HDRP b.addr) ∧
        GET h1.mem (FTRP h1.mem b.addr) = GET h.mem (FTRP h.mem b.addr)) := by
    intro h1 bl1 fl1 hs hm1 hm2
    have t := hs.tag_words _ hm1
    refine ⟨by rw [hpack]; exact t.1, by rw [hpack]; exact t.2.1, fun b hb => ?_⟩
    have t1 := hs.tag_words b (hm2 b hb)
    have t0 := hp.tag_words b (hmemb b hb)
    exact ⟨t1.1.trans t0.1.symm, t1.2.1.trans t0.2.1.symm⟩
  refine ⟨hBf, ?_⟩
  rw [heq]
  by_cases hroot : (removeBlock (updateBlockTags h B.addr (B.size + 1)) B.addr).root = NULL
  · rw [if_pos hroot]
    have hfl0 : fl.erase B.addr = [] := by
      have := q1.flist
      rw [hroot] at this
      exact FreeList_nil_iff _ _ _ this
    have e := r3.trans_same q2
    have hall : ∀ b, b ∈ pre ∨ b ∈ post → b.alloc = 1 := by
      intro b hb
      have hbo := hp.blocks_ok b (hmemb b hb)
      by_contra hc
      have hb0 : b.alloc = 0 := by omega
      have hbf : b.addr ∈ fl.erase B.addr :=
        (List.mem_erase_of_ne (hne b hb)).2 ((hwf.2 b (hmemb b hb)).2 hb0)
      rw [hfl0] at hbf
      exact absurd hbf (List.not_mem_nil _)
    by_cases hfit : h.mem_brk + 4096 ≤ h.mem_max_addr
    · obtain ⟨bl1, fl1, R, k1, k2, k3, k4, k5, k6, k7, k8, k9, k10, k11⟩ :=
        extend_heap_ok _ _ _ (CHUNKSIZE / WSIZE) 4096 hwf2 (by simp) (by decide) (by decide)
          (by omega) (by rw [e.2.1, e.2.2.1]; exact hfit) (by rw [e.2.2.1]; exact hmax)
      have hm1 : (⟨B.addr, B.size, 1⟩ : Block) ∈ bl1 := k8 _ hB1m rfl
      have hm2 : ∀ b, b ∈ pre ∨ b ∈ post → b ∈ bl1 := fun b hb =>
        k8 b (hmemb1 b hb) (hall b hb)
      obtain ⟨t1, t2, t3⟩ := htags _ bl1 fl1 k1.1 hm1 hm2
      refine ⟨t1, t2, t3, fun hx => absurd hfl0 hx, fun _ _ => ⟨bl1, fl1, k1, hm1, hm2, ?_⟩,
        fun _ hf => absurd hfit (by omega)⟩
      exact k1.no_node (⟨B.addr, B.size, 1⟩ : Block) hm1 (by simp)
    · obtain ⟨hmem, hrt⟩ := extend_heap_refused_mem
        (removeBlock (updateBlockTags h B.addr (B.size + 1)) B.addr)
        (CHUNKSIZE / WSIZE) 4096 (by decide) (by decide) (by unfold WORD; omega)
        (by rw [e.2.1, e.2.2.1]; omega)
      obtain ⟨t1, t2, t3⟩ := htags _ _ _ q1 hB1m hmemb1
      rw [hmem]
      refine ⟨t1, t2, t3, fun hx => absurd hfl0 hx, fun _ hf => absurd hf hfit,
        fun _ _ => ⟨hrt, ?_⟩⟩
      rw [hrt]
      unfold MINUS_ONE
      omega
  · rw [if_neg hroot]
    obtain ⟨t1, t2, t3⟩ := htags _ _ _ q1 hB1m hmemb1
    have hnil : fl.erase B.addr ≠ [] := by
      intro hx
      have := q1.flist
      rw [hx] at this
      exact absurd this hroot
    exact ⟨t1, t2, t3, fun _ => ⟨hwf2, not_mem_erase_self fl _ hp.nodup⟩,
      fun hx => absurd hx hnil, fun hx => absurd hx hnil⟩

/-- The heap after the calls `tCalls` on the provider `heapT` is well formed: two
live blocks, the free block `65656` of 16 bytes between them, and the free rest
of the chunk. -/
theorem valid_tCalls : Valid (runT 8 tCalls).heap
    ([⟨65544, 112, 1⟩] ++ ⟨65656, 16, 0⟩ :: [⟨65672, 32, 1⟩, ⟨65704, 3936, 0⟩])
    [65656, 65704] := by
  refine ⟨⟨?_, ?_, ?_, ?_, ?_, ?_, ?_⟩, ?_⟩ <;> decide

set_option maxRecDepth 1000000 in
/-- C21 at a concrete state: after the calls `tCalls` the free block `65656` holds 16
bytes, and `place` for the adjusted size 8 tags it allocated with 16 bytes and
takes it from the free list, which keeps the node `65704`. -/
theorem C21_place_whole_block_witness :
    16 = 8 + 8 ∧ [65656, 65704].erase 65656 = [65704] ∧
    GET (place (runT 8 tCalls).heap 65656 8).mem (HDRP 65656) = PACK 16 1 ∧
    Valid (place (runT 8 tCalls).heap 65656 8)
      ([⟨65544, 112, 1⟩] ++ ⟨65656, 16, 1⟩ :: [⟨65672, 32, 1⟩, ⟨65704, 3936, 0⟩])
      ([65656, 65704].erase 65656) :=
  ⟨by decide, by decide,
    (C21_place_whole_block (runT 8 tCalls).heap [⟨65544, 112, 1⟩]
      [⟨65672, 32, 1⟩, ⟨65704, 3936, 0⟩] ⟨65656, 16, 0⟩ [65656, 65704] 8 valid_tCalls rfl
      (Or.inr rfl) (by decide)).2.1,
    ((C21_place_whole_block (runT 8 tCalls).heap [⟨65544, 112, 1⟩]
      [⟨65672, 32, 1⟩, ⟨65704, 3936, 0⟩] ⟨65656, 16, 0⟩ [65656, 65704] 8 valid_tCalls rfl
      (Or.inr rfl) (by decide)).2.2.2.2.1 (by decide)).1⟩

/-- C22: for every free block `B` of a well formed heap, at the position of its node
in the free list between the nodes `l1` and `l2`, and every adjusted size
`asize0` (a block size: at least 16) with `B.size - asize0` exactly 16, `place`
splits: the block at `B.addr` is tagged allocated with `asize0` bytes, a free
block of exactly 16 bytes is created at `B.addr + asize0`, and it takes the
position of `B` in the free list.  The block may have any size; the provider
is untouched, and so is every byte outside the free blocks. -/
theorem C22_place_splits_at_sixteen (h : Heap) (pre post : List Block) (B : Block)
    (l1 l2 : List Nat) (asize0 : Nat)
    (hwf : Valid h (pre ++ B :: post) (l1 ++ B.addr :: l2)) (hB0 : B.alloc = 0)
    (hsz : B.size = asize0 + 16) (ha16 : 16 ≤ asize0) :
    Valid (place h B.addr asize0)
      (pre ++ ⟨B.addr, asize0, 1⟩ :: ⟨B.addr + asize0, 16, 0⟩ :: post)
      (l1 ++ (B.addr + asize0) :: l2) ∧
    GET (place h B.addr asize0).mem (HDRP B.addr) = PACK asize0 1 ∧
    GET (place h B.addr asize0).mem (FTRP (place h B.addr asize0).mem B.addr)
      = PACK asize0 1 ∧
    GET (place h B.addr asize0).mem (HDRP (B.addr + asize0)) = PACK 16 0 ∧
    GET (place h B.addr asize0).mem (FTRP (place h B.addr asize0).mem (B.addr + asize0))
      = PACK 16 0 ∧
    ((place h B.addr asize0).root = if l1 = [] then B.addr + asize0 else h.root) ∧
    SameProvider h (place h B.addr asize0) ∧
    (∀ a, OutsideFree (pre ++ B :: post) a → (place h B.addr asize0).mem a = h.mem a) := by
  have hBm : B ∈ pre ++ B :: post := by simp
  have hBo := hwf.1.blocks_ok B hBm
  obtain ⟨v, sp, fr⟩ := place_split_gen_ok h pre post B l1 l2 asize0 16 hwf hB0 hsz (by omega)
    ha16 (by omega) (by omega)
  have t1 := v.1.tag_words (⟨B.addr, asize0, 1⟩ : Block) (by simp)
  have t2 := v.1.tag_words (⟨B.addr + asize0, 16, 0⟩ : Block) (by simp)
  have hroot : (place h B.addr asize0).root = if l1 = [] then B.addr + asize0 else h.root := by
    have hf := v.1.flist
    have hf0 := hwf.1.flist
    cases l1 with
    | nil => exact hf.1
    | cons p ps =>
      rw [if_neg (by simp)]
      exact hf.1.trans hf0.1.symm
  refine ⟨v, ?_, ?_, ?_, ?_, hroot, sp, fr⟩
  · rw [PACK_one asize0 (by omega)]; exact t1.1
  · rw [PACK_one asize0 (by omega)]; exact t1.2.1
  · rw [PACK_zero]; exact t2.1
  · rw [PACK_zero]; exact t2.2.1

set_option maxRecDepth 1000000 in
/-- C22 at a concrete state: after the calls `tCalls` the free block `65704` holds 3936
bytes and is the second node of the free list; `place` for the adjusted size
3920 leaves the allocated block `65704` of 3920 bytes and the free block `69624`
of 16 bytes, which is the second node of the free list. -/
theorem C22_place_splits_at_sixteen_witness :
    3936 = 3920 + 16 ∧
    Valid (place (runT 8 tCalls).heap 65704 3920)
      ([⟨65544, 112, 1⟩, ⟨65656, 16, 0⟩, ⟨65672, 32, 1⟩] ++
        ⟨65704, 3920, 1⟩ :: ⟨65704 + 3920, 16, 0⟩ :: [])
      ([65656] ++ (65704 + 3920) :: []) :=
  ⟨by decide,
    (C22_place_splits_at_sixteen (runT 8 tCalls).heap
      [⟨65544, 112, 1⟩, ⟨65656, 16, 0⟩, ⟨65672, 32, 1⟩] [] ⟨65704, 3936, 0⟩ [65656] [] 3920
      valid_tCalls rfl rfl (by decide)).1⟩

/-! ## The branch of `coalesce` for two free neighbours -/

/-- The call `coalesce` for a free block `B` between two free blocks `P` and `N` of a
well formed heap: the three blocks leave the free list and become one free
block at `P.addr`, which is put at the head of the list. -/
theorem coalesce_both_free (h : Heap) (pre post : List Block) (P B N : Block) (fl : List Nat)
    (hwf : Valid h (pre ++ P :: B :: N :: post) fl) (hP0 : P.alloc = 0) (hB0 : B.alloc = 0)
    (hN0 : N.alloc = 0) :
    coalesce_branch h B.addr = 3 ∧
    coalesce h B.addr =
      (insertNewBlock (updateBlockTags
        (removeBlock (removeBlock (removeBlock h P.addr) B.addr) N.addr) P.addr
        (P.size + B.size + N.size)) P.addr, P.addr) ∧
    Valid (insertNewBlock (updateBlockTags
        (removeBlock (removeBlock (removeBlock h P.addr) B.addr) N.addr) P.addr
        (P.size + B.size + N.size)) P.addr)
      (pre ++ ⟨P.addr, P.size + B.size + N.size, 0⟩ :: post)
      (P.addr :: ((fl.erase P.addr).erase B.addr).erase N.addr) ∧
    SameProvider h (insertNewBlock (updateBlockTags
        (removeBlock (removeBlock (removeBlock h P.addr) B.addr) N.addr) P.addr
        (P.size + B.size + N.size)) P.addr) := by
  have hp := hwf.1
  have hPm : P ∈ pre ++ P :: B :: N :: post := by simp
  have hBm : B ∈ pre ++ P :: B :: N :: post := by simp
  have hNm : N ∈ pre ++ P :: B :: N :: post := by simp
  obtain ⟨r1, r3, r5, _⟩ := reads_next h (pre ++ [P]) post B N fl (by simpa using hp)
  obtain ⟨r2, r4, r6, _⟩ := reads_prev h pre (N :: post) P B fl hp
  obtain ⟨c1, c2, c3, c4, _, _, _⟩ := Chain_three _ _ _ _ _ _ _ _ hp.chain
  have hPo := hp.blocks_ok P hPm
  have hBo := hp.blocks_ok B hBm
  have hNo := hp.blocks_ok N hNm
  have hbrk := hp.brk_le
  obtain ⟨hp1, e1, e2⟩ := removeBlock_Shape h _ fl P.addr hp ((hwf.2 P hPm).2 hP0)
  have hB1 : B.addr ∈ fl.erase P.addr :=
    (List.mem_erase_of_ne (by omega)).2 ((hwf.2 B hBm).2 hB0)
  obtain ⟨hp2, e3, e4⟩ := removeBlock_Shape _ _ _ B.addr hp1 hB1
  have hN1 : N.addr ∈ (fl.erase P.addr).erase B.addr :=
    (List.mem_erase_of_ne (by omega)).2
      ((List.mem_erase_of_ne (by omega)).2 ((hwf.2 N hNm).2 hN0))
  obtain ⟨hp3, e5, e6⟩ := removeBlock_Shape _ _ _ N.addr hp2 hN1
  have rP := hp3.reads P hPm
  have tB := hp3.tag_words B hBm
  have rN := hp3.reads N hNm
  have hbr : coalesce_branch h B.addr = 3 := by
    simp only [coalesce_branch, r1, r2, r3, r4, r5, r6, hP0, hN0]
    simp
  have htag : PACK (uadd (GET_SIZE
        (removeBlock (removeBlock (removeBlock h P.addr) B.addr) N.addr).mem (HDRP P.addr))
      (uadd (GET (removeBlock (removeBlock (removeBlock h P.addr) B.addr) N.addr).mem
        (HDRP B.addr))
        (GET_SIZE (removeBlock (removeBlock (removeBlock h P.addr) B.addr) N.addr).mem
          (HDRP N.addr)) &&& 4294967288)) 0 = P.size + B.size + N.size := by
    rw [rP.2.1, tB.1, rN.2.1, PACK_zero]
    have hBt : B.tag = B.size := by unfold Block.tag; omega
    rw [hBt, uadd_eq B.size N.size (by omega),
      and_mask_eq (B.size + N.size) (by unfold WORD at *; omega),
      show (B.size + N.size) / 8 * 8 = B.size + N.size by omega,
      uadd_eq P.size (B.size + N.size) (by omega)]
    omega
  have hco : coalesce h B.addr =
      (insertNewBlock (updateBlockTags
        (removeBlock (removeBlock (removeBlock h P.addr) B.addr) N.addr) P.addr
        (P.size + B.size + N.size)) P.addr, P.addr) := by
    simp only [coalesce, r1, r2, r3, r4, r5, r6, hP0, hN0]
    simp only [ne_eq, not_true_eq_false, decide_False, decide_True, Bool.false_and,
      Bool.and_false, Bool.and_true, Bool.true_and, if_false, if_true, Bool.false_eq_true,
      Bool.not_true, Bool.or_false, Bool.and_self, Bool.or_self, htag]
  obtain ⟨d1, d2, d3, d4, d5, d6, d7⟩ := Chain_three _ _ _ _ _ _ _ _ hp3.chain
  have hc2 : Chain (removeBlock (removeBlock (removeBlock h P.addr) B.addr) N.addr).mem
      [P, B, N] P.addr (N.addr + N.size) :=
    Chain_two _ [P] [B, N] _ _ _ d5 (Chain_two _ [B] [N] _ _ _ d6 d7)
  have hnot : ∀ b ∈ [P, B, N], b.addr ∉ ((fl.erase P.addr).erase B.addr).erase N.addr := by
    intro b hb
    simp only [List.mem_cons, List.mem_singleton, List.not_mem_nil, or_false] at hb
    rcases hb with rfl | rfl | rfl
    · exact fun hx => not_mem_erase_self fl _ hp.nodup (mem_of_mem_erase2 hx)
    · exact fun hx => not_mem_erase_self _ _ hp1.nodup (List.mem_of_mem_erase hx)
    · exact not_mem_erase_self _ _ hp2.nodup
  obtain ⟨f1, f2, f3, f4, f5⟩ := free_core_Valid _ pre [P, B, N] post _ P.addr (N.addr + N.size)
    (by simpa using hp3) d1 hc2 d4 (by simp) hnot
    (fun b hb => by
      have hbm : b ∈ pre ++ P :: B :: N :: post := by
        rcases hb with hb | hb
        · exact List.mem_append_left _ hb
        · exact List.mem_append_right _ (List.mem_cons_of_mem _ (List.mem_cons_of_mem _
            (List.mem_cons_of_mem _ hb)))
      have hne : b.addr ≠ P.addr ∧ b.addr ≠ B.addr ∧ b.addr ≠ N.addr := by
        rcases hb with hb | hb
        · have := Chain_mem _ _ _ _ c1 b hb
          omega
        · have := Chain_mem _ _ _ _ d4 b hb
          omega
      rw [List.mem_erase_of_ne hne.2.2, List.mem_erase_of_ne hne.2.1,
        List.mem_erase_of_ne hne.1]
      exact hwf.2 b hbm)
  have hsz : N.addr + N.size - P.addr = P.size + B.size + N.size := by omega
  rw [hsz] at f1 f2 f3 f4 f5
  exact ⟨hbr, hco, f1, ((e1.trans_same e3).trans_same e5).trans_same f4⟩

/-! ## The claim C25 -/

/-- C25: for every free block `B` of a well formed heap whose physical predecessor `P`
and physical successor `N` are blocks of the arena and both free, `coalesce`
takes its third branch and returns `P.addr`; the nodes of `P`, `B` and `N` are
removed from the free list, the header and the footer of the block at
`P.addr` both hold `PACK (P.size + B.size + N.size) 0`, and this block is put at
the head of the free list: the heap is well formed with the one free block in
the place of the three. -/
theorem C25_coalesce_both_free (h : Heap) (pre post : List Block) (P B N : Block)
    (fl : List Nat) (hwf : Valid h (pre ++ P :: B :: N :: post) fl) (hP0 : P.alloc = 0)
    (hB0 : B.alloc = 0) (hN0 : N.alloc = 0) :
    PREV_BLKP h.mem B.addr = P.addr ∧ NEXT_BLKP h.mem B.addr = N.addr ∧
    IS_IN_RANGE h P.addr = true ∧ IS_IN_RANGE h N.addr = true ∧
    P.addr ∈ fl ∧ B.addr ∈ fl ∧ N.addr ∈ fl ∧
    coalesce_branch h B.addr = 3 ∧ (coalesce h B.addr).2 = P.addr ∧
    GET (coalesce h B.addr).1.mem (HDRP P.addr) = PACK (P.size + B.size + N.size) 0 ∧
    GET (coalesce h B.addr).1.mem (FTRP (coalesce h B.addr).1.mem P.addr)
      = PACK (P.size + B.size + N.size) 0 ∧
    (coalesce h B.addr).1.root = P.addr ∧
    Valid (coalesce h B.addr).1 (pre ++ ⟨P.addr, P.size + B.size + N.size, 0⟩ :: post)
      (P.addr :: ((fl.erase P.addr).erase B.addr).erase N.addr) ∧
    P.addr ∉ ((fl.erase P.addr).erase B.addr).erase N.addr ∧
    B.addr ∉ P.addr :: ((fl.erase P.addr).erase B.addr).erase N.addr ∧
    N.addr ∉ P.addr :: ((fl.erase P.addr).erase B.addr).erase N.addr := by
  have hp := hwf.1
  have hPm : P ∈ pre ++ P :: B :: N :: post := by simp
  have hBm : B ∈ pre ++ P :: B :: N :: post := by simp
  have hNm : N ∈ pre ++ P :: B :: N :: post := by simp
  obtain ⟨r1, _, r5, _⟩ := reads_next h (pre ++ [P]) post B N fl (by simpa using hp)
  obtain ⟨r2, _, r6, _⟩ := reads_prev h pre (N :: post) P B fl hp
  obtain ⟨_, c2, c3, _, _, _, _⟩ := Chain_three _ _ _ _ _ _ _ _ hp.chain
  have hPo := hp.blocks_ok P hPm
  have hBo := hp.blocks_ok B hBm
  obtain ⟨hbr, hco, hv, _⟩ := coalesce_both_free h pre post P B N fl hwf hP0 hB0 hN0
  rw [hco]
  have t := hv.1.tag_words (⟨P.addr, P.size + B.size + N.size, 0⟩ : Block) (by simp)
  have hnd := hv.1.nodup
  rw [List.nodup_cons] at hnd
  have hBn : B.addr ∉ ((fl.erase P.addr).erase B.addr).erase N.addr := fun hx =>
    not_mem_erase_self _ _ (hp.nodup.erase P.addr) (List.mem_of_mem_erase hx)
  have hNn : N.addr ∉ ((fl.erase P.addr).erase B.addr).erase N.addr :=
    not_mem_erase_self _ _ ((hp.nodup.erase P.addr).erase B.addr)
  refine ⟨r2, r1, r6, r5, (hwf.2 P hPm).2 hP0, (hwf.2 B hBm).2 hB0, (hwf.2 N hNm).2 hN0,
    hbr, rfl, ?_, ?_, hv.1.flist.1, hv, hnd.1, ?_, ?_⟩
  · rw [PACK_zero]; exact t.1
  · rw [PACK_zero]; exact t.2.1
  · intro hx
    rcases List.mem_cons.1 hx with h1 | h1
    · omega
    · exact hBn h1
  · intro hx
    rcases List.mem_cons.1 hx with h1 | h1
    · omega
    · exact hNn h1

/-- The heap `heap25` is well formed: three free blocks side by side, all in the free
list. -/
theorem valid_heap25 : Valid heap25
    ([] ++ ⟨65544, 16, 0⟩ :: ⟨65560, 16, 0⟩ :: ⟨65576, 4064, 0⟩ :: [])
    [65576, 65560, 65544] := by
  refine ⟨⟨?_, ?_, ?_, ?_, ?_, ?_, ?_⟩, ?_⟩ <;> decide

set_option maxRecDepth 1000000 in
/-- C25 at a concrete state: in the heap `heap25` the call `coalesce 65560` returns
`65544` and leaves the single free block `65544` of 4096 bytes, which is the
whole free list. -/
theorem C25_coalesce_both_free_witness :
    16 + 16 + 4064 = 4096 ∧
    (([65576, 65560, 65544].erase 65544).erase 65560).erase 65576 = [] ∧
    (coalesce heap25 65560).2 = 65544 ∧
    Valid (coalesce heap25 65560).1 ([] ++ ⟨65544, 16 + 16 + 4064, 0⟩ :: [])
      (65544 :: (([65576, 65560, 65544].erase 65544).erase 65560).erase 65576) :=
  ⟨by decide, by decide,
    (C25_coalesce_both_free heap25 [] [] ⟨65544, 16, 0⟩ ⟨65560, 16, 0⟩ ⟨65576, 4064, 0⟩
      [65576, 65560, 65544] valid_heap25 rfl rfl rfl).2.2.2.2.2.2.2.2.1,
    (C25_coalesce_both_free heap25 [] [] ⟨65544, 16, 0⟩ ⟨65560, 16, 0⟩ ⟨65576, 4064, 0⟩
      [65576, 65560, 65544] valid_heap25 rfl rfl rfl).2.2.2.2.2.2.2.2.2.2.2.2.1⟩

/-! ## The claim C24 -/

/-- C24, as amended: in every state reached from `mm_init` by valid calls, the
provider never refusing (a provider of less than `2 ^ 31` bytes whose padding
word holds no size bits, requests of at most `2 ^ 32 - 16` bytes), for every live
`ptr` and every `size ≥ 1` whose adjusted size is less than the size of the block
of `ptr`: when the physical successor of the block is a free block inside the
arena, `mm_realloc ptr size` shrinks the block in place and returns `ptr`.  As
`ShrinkOut` says, the block is then tagged allocated with `ALIGN size` bytes in
header and footer, the bytes behind it together with the successor are one
free block of the remaining size, tagged in header and footer, which heads
the free list, the successor has left the free list, and the other blocks and
list nodes are those of before; as `ReallocOut` says, the payload of `ptr` and
of the other live blocks is untouched.  Otherwise, that is when the successor
is allocated or the block ends the arena, `mm_realloc` takes the fallback
path on enough fuel: it calls `mm_malloc size`, and when the provider has not
refused, the pointer `p` so obtained is not null and differs from `ptr`, `size`
bytes are copied from `ptr` to `p`, `mm_free ptr` is called, and `p` is
returned. -/
theorem C24_realloc_shrink (h0 : Heap) (r : Run) (ptr size : Nat)
    (hr : TameReachable h0 r) (hlive : ptr ∈ r.live) (hs1 : 1 ≤ size)
    (hs2 : size ≤ 4294967280) (hlt : ALIGN size < GET_SIZE r.heap.mem (HDRP ptr)) :
    ∃ bl fl B, Valid r.heap bl fl ∧ B ∈ bl ∧ B.addr = ptr ∧ B.alloc = 1 ∧
      B.size = GET_SIZE r.heap.mem (HDRP ptr) ∧
    ∃ fuel1, ∀ fuel2, fuel1 ≤ fuel2 →
      ((IS_IN_RANGE r.heap (NEXT_BLKP r.heap.mem ptr) = true ∧
          GET_ALLOC r.heap.mem (HDRP (NEXT_BLKP r.heap.mem ptr)) = 0) →
        ∃ h2, mm_realloc fuel2 r.heap ptr size = some (h2, ptr) ∧
          GET h2.mem (HDRP ptr) = PACK (ALIGN size) 1 ∧
          GET_ALLOC h2.mem (HDRP (ptr + ALIGN size)) = 0 ∧
          h2.root = ptr + ALIGN size ∧ h2.mem_refused = false ∧
          ShrinkOut r.heap h2 bl fl B (ALIGN size) ∧ ReallocOut r.heap h2 bl B size ptr) ∧
      (¬ (IS_IN_RANGE r.heap (NEXT_BLKP r.heap.mem ptr) = true ∧
          GET_ALLOC r.heap.mem (HDRP (NEXT_BLKP r.heap.mem ptr)) = 0) →
        ∃ h1 p, mm_malloc fuel2 r.heap size = some (h1, p) ∧
          (h1.mem_refused = false → p ≠ NULL ∧ p ≠ ptr ∧
            mm_realloc fuel2 r.heap ptr size
              = some (mm_free { h1 with mem := memcpy h1.mem p ptr size } ptr, p) ∧
            ReallocOut r.heap (mm_free { h1 with mem := memcpy h1.mem p ptr size } ptr)
              bl B size p)) := by
  obtain ⟨bl, fl, hgw⟩ := hr.good
  obtain ⟨B, hB, hBa, hB1, hBs, _⟩ := hgw.live_read ptr hlive
  obtain ⟨hwf, hne, hsm, hpad, hrf, hlive1, hnd, hna⟩ := hgw
  have hBs1 : GET_SIZE r.heap.mem (HDRP ptr) = B.size := hBs
  refine ⟨bl, fl, B, hwf, hB, hBa, hB1, hBs1.symm, fl.length, fun fuel2 hf2 => ?_⟩
  subst hBa
  rw [hBs1] at hlt
  obtain ⟨hin, hfb⟩ := realloc_shrink_ok r.heap bl fl B size fuel2 hwf hne hsm hpad hrf hB hB1
    hs1 hs2 hlt hf2
  refine ⟨fun hc => ?_, hfb⟩
  obtain ⟨h2, e, so, ro⟩ := hin hc
  obtain ⟨pre, post, N, s1, s2, s3, s4, s5, s6, s7, s8, s9, s10, s11⟩ := so
  refine ⟨h2, e, s6, ?_, s10, by rw [s11.2.2.2.1]; exact hrf,
    ⟨pre, post, N, s1, s2, s3, s4, s5, s6, s7, s8, s9, s10, s11⟩, ro⟩
  exact (s4.1.reads (⟨B.addr + ALIGN size, B.size + N.size - ALIGN size, 0⟩ : Block)
    (by simp)).2.2.1

set_option maxRecDepth 1000000 in
/-- C24, as amended, at a concrete state: after the calls `tCalls` on the provider
`heapT` the block `65544` of 112 bytes is live and its successor `65656` is free;
`mm_realloc 65544 8`, whose adjusted size is 16, returns `65544`, tags the block
with 16 bytes and leaves a free block at `65560` as the root of the free list. -/
theorem C24_realloc_shrink_witness :
    TameReachable heapT (runT 8 tCalls) ∧ 65544 ∈ (runT 8 tCalls).live ∧
    ALIGN 8 < GET_SIZE (runT 8 tCalls).heap.mem (HDRP 65544) ∧
    IS_IN_RANGE (runT 8 tCalls).heap (NEXT_BLKP (runT 8 tCalls).heap.mem 65544) = true ∧
    GET_ALLOC (runT 8 tCalls).heap.mem (HDRP (NEXT_BLKP (runT 8 tCalls).heap.mem 65544)) = 0 ∧
    ∃ fuel1, ∀ fuel2, fuel1 ≤ fuel2 →
      ∃ h2, mm_realloc fuel2 (runT 8 tCalls).heap 65544 8 = some (h2, 65544) ∧
        GET h2.mem (HDRP 65544) = PACK (ALIGN 8) 1 ∧
        GET_ALLOC h2.mem (HDRP (65544 + ALIGN 8)) = 0 ∧
        h2.root = 65544 + ALIGN 8 ∧ h2.mem_refused = false := by
  have hin : IS_IN_RANGE (runT 8 tCalls).heap (NEXT_BLKP (runT 8 tCalls).heap.mem 65544) = true ∧
      GET_ALLOC (runT 8 tCalls).heap.mem
        (HDRP (NEXT_BLKP (runT 8 tCalls).heap.mem 65544)) = 0 := ⟨by decide, by decide⟩
  obtain ⟨bl, fl, B, _, _, _, _, _, fuel1, hall⟩ :=
    C24_realloc_shrink heapT (runT 8 tCalls) 65544 8
      (tameReachable_runT 8 tCalls (by decide) (by decide)) (by decide) (by decide)
      (by decide) (by decide)
  refine ⟨tameReachable_runT 8 tCalls (by decide) (by decide), by decide, by decide, hin.1,
    hin.2, fuel1, fun fuel2 hf2 => ?_⟩
  obtain ⟨h2, e, a1, a2, a3, a4, _⟩ := (hall fuel2 hf2).1 hin
  exact ⟨h2, e, a1, a2, a3, a4⟩

/-! ## The call of `coalesce` in a well formed heap -/

/-- When the provider does not refuse, the heap that `extend_heap` hands to
`coalesce` holds the tags of a free block over the appended bytes, with the
block at the head of the free list. -/
theorem extend_heap_arg_eq (h : Heap) (words size : Nat) (hw : words % 2 = 0)
    (hsz : words * 4 = size) (h16 : 16 ≤ size) (hfit : h.mem_brk + size ≤ h.mem_max_addr)
    (hmax : h.mem_max_addr + 16 ≤ WORD) (hroot : h.root = 0 ∨ h.root + 8 ≤ h.mem_brk) :
    extend_heap_arg h words
      = some (insertNewBlock (grown h size) (h.mem_brk + 8), h.mem_brk + 8) := by
  have hW : size < WORD := by omega
  have e1 : umul words WSIZE = size := by
    unfold umul WSIZE
    rw [hsz]
    exact Nat.mod_eq_of_lt hW
  have hb1 : h.mem_brk ≠ MINUS_ONE := by unfold MINUS_ONE; unfold WORD at *; omega
  have e2 : uadd h.mem_brk 4 = h.mem_brk + 4 := uadd_eq _ _ (by omega)
  have e3 : uadd (h.mem_brk + 4) WSIZE = h.mem_brk + 8 := by
    unfold WSIZE; rw [uadd_eq _ _ (by omega)]
  have e4 : PREVP (h.mem_brk + 8) = h.mem_brk + 12 := by
    unfold PREVP WSIZE; rw [uadd_eq _ _ (by omega)]
  have e5 : HDRP (h.mem_brk + 8) = h.mem_brk + 4 := by
    rw [HDRP_eq (h.mem_brk + 8) (by omega) (by omega)]; omega
  have hs : mem_sbrk h size = ({ h with mem_brk := h.mem_brk + size }, h.mem_brk) := by
    unfold mem_sbrk
    rw [if_neg (by omega)]
  rw [insertNewBlock_eq (grown h size) (h.mem_brk + 8) (by omega) (by
    show h.root + 4 < WORD
    omega)]
  unfold extend_heap_arg
  simp only [hw, ne_eq, OfNat.zero_ne_ofNat, not_true_eq_false, if_false, e1, hs]
  simp only [hb1, if_false, e2, e3, PACK_zero, NEXTP, PUT_ADDR, e4, NULL]
  have e6 : FTRP (PUT (PUT (PUT h.mem (h.mem_brk + 4) size) (h.mem_brk + 8) h.root)
      (h.mem_brk + 12) 0) (h.mem_brk + 8) = h.mem_brk + size := by
    unfold FTRP DSIZE WSIZE
    rw [e5, GET_SIZE_eq, GET_PUT_ne _ _ _ _ (by omega), GET_PUT_ne _ _ _ _ (by omega),
      GET_PUT_same, Nat.mod_eq_of_lt hW, show size / 8 * 8 = size by omega,
      uadd_eq _ _ (by omega), usub_eq _ _ (by omega) (by omega)]
    omega
  rw [e6]
  refine congrArg (fun x => some (x, h.mem_brk + 8)) ?_
  refine Heap.ext_fields _ _ ?_ rfl rfl rfl rfl rfl rfl
  unfold grown linkHead
  simp only
  by_cases hr : h.root = 0
  · simp only [hr, not_true_eq_false, if_false, if_true]
    rw [PUT_comm _ (h.mem_brk + 12) 0 (h.mem_brk + size) size (by omega),
      PUT_comm _ (h.mem_brk + 8) 0 (h.mem_brk + size) size (by omega)]
  · simp only [hr, not_false_eq_true, if_false, if_true, PREVP, WSIZE]
    have hr8 : h.root + 8 ≤ h.mem_brk := by omega
    rw [uadd_eq h.root 4 (by omega)]
    conv_lhs =>
      rw [PUT_comm _ (h.mem_brk + 12) 0 (h.mem_brk + size) size (by omega),
        PUT_comm _ (h.mem_brk + 12) 0 (h.root + 4) (h.mem_brk + 8) (by omega),
        PUT_comm _ (h.mem_brk + 8) h.root (h.mem_brk + size) size (by omega),
        PUT_comm _ (h.mem_brk + 8) h.root (h.root + 4) (h.mem_brk + 8) (by omega)]

/-- The branch that `coalesce` takes for a free block `Nw` that ends the arena of a
well formed heap: the successor is out of range and the predecessor `L` is
in range, so that the block is merged with `L` when `L` is free (branch 2) and
returned as it is otherwise (branch 0). -/
theorem coalesce_branch_last (h : Heap) (init : List Block) (L Nw : Block) (fl : List Nat)
    (hwf : Valid h (init ++ [L, Nw]) fl) :
    IS_IN_RANGE h (NEXT_BLKP h.mem Nw.addr) = false ∧
    IS_IN_RANGE h (PREV_BLKP h.mem Nw.addr) = true ∧
    coalesce_branch h Nw.addr = if L.alloc = 0 then 2 else 0 := by
  have hp := hwf.1
  have hNm : Nw ∈ init ++ [L, Nw] := by simp
  obtain ⟨r2, r4, r6, hNa⟩ := reads_prev h init [] L Nw fl hp
  obtain ⟨c1, c2, c3⟩ := Chain_one _ _ _ _ _ _ hp.chain
  obtain ⟨_, c4, c5⟩ := Chain_one _ [] [] Nw _ _ c3
  have hend : Nw.addr + Nw.size = h.mem_brk + 8 := c5
  have hbrk := hp.brk_le
  have hlo := hp.lo_pos
  have rN0 := hp.reads Nw hNm
  have r1 : NEXT_BLKP h.mem Nw.addr = h.mem_brk + 8 := by rw [rN0.2.2.2.2.1, hend]
  have r5 : IS_IN_RANGE h (h.mem_brk + 8) = false := by
    unfold IS_IN_RANGE mem_heap_lo mem_heap_hi
    simp
    omega
  refine ⟨by rw [r1]; exact r5, by rw [r2]; exact r6, ?_⟩
  simp only [coalesce_branch, r1, r2, r4, r5, r6]
  by_cases hL : L.alloc = 0
  · simp [hL]
  · simp [hL]

/-- The call of `coalesce` that `extend_heap` makes in a well formed heap when the
provider does not refuse: the successor of the block handed over is out of
range, its predecessor is in range, and `coalesce` takes the branch 2 or
returns the block as it is; the branches 1 and 3 are not taken. -/
theorem extend_heap_branch (h : Heap) (bl : List Block) (fl : List Nat) (words size : Nat)
    (hwf : Valid h bl fl) (hne : bl ≠ []) (hw : words % 2 = 0) (hsz : words * 4 = size)
    (h16 : 16 ≤ size) (hfit : h.mem_brk + size ≤ h.mem_max_addr)
    (hmax : h.mem_max_addr + 16 ≤ WORD) :
    ∃ h2 bp, extend_heap_arg h words = some (h2, bp) ∧
      extend_heap h words = coalesce h2 bp ∧
      IS_IN_RANGE h2 (NEXT_BLKP h2.mem bp) = false ∧
      IS_IN_RANGE h2 (PREV_BLKP h2.mem bp) = true ∧
      (coalesce_branch h2 bp = 2 ∨ coalesce_branch h2 bp = 0) := by
  have hp := hwf.1
  have hroot : h.root = 0 ∨ h.root + 8 ≤ h.mem_brk := by
    rcases FreeList_root _ _ _ _ hp.flist with h0 | h1
    · exact Or.inl h0
    · have := hp.nodes_ok _ h1
      omega
  have harg := extend_heap_arg_eq h words size hw hsz h16 hfit hmax hroot
  obtain ⟨g1, g2⟩ := grown_Shape h bl fl size hp (by omega) h16 (by omega)
  have hbp : h.mem_brk + 8 ∉ fl := by
    intro hx
    have := hp.nodes_ok _ hx
    omega
  obtain ⟨i1, i2, i3, i4, i5⟩ := insertNewBlock_Shape _ _ fl (h.mem_brk + 8) g1 hbp
    ⟨_, List.mem_append_right _ (List.mem_singleton_self _), rfl⟩
  rcases List.eq_nil_or_concat bl with hnil | ⟨init, L, hbl⟩
  · exact absurd hnil hne
  rw [List.concat_eq_append] at hbl
  subst hbl
  have hwfI : Valid (insertNewBlock (grown h size) (h.mem_brk + 8))
      (init ++ [L, ⟨h.mem_brk + 8, size, 0⟩]) ((h.mem_brk + 8) :: fl) := by
    refine ⟨by simpa using i1, ?_⟩
    intro b hb
    have hb' : b ∈ init ++ [L] ∨ b = ⟨h.mem_brk + 8, size, 0⟩ := by
      simp only [List.mem_append, List.mem_cons, List.mem_singleton, List.not_mem_nil,
        or_false] at hb ⊢
      tauto
    rcases hb' with hb1 | rfl
    · have := hp.blocks_ok b hb1
      rw [List.mem_cons, ← hwf.2 b hb1]
      constructor
      · rintro (h2 | h2)
        · omega
        · exact h2
      · exact fun h2 => Or.inr h2
    · simp
  obtain ⟨b1, b2, b3⟩ := coalesce_branch_last _ init L ⟨h.mem_brk + 8, size, 0⟩ _ hwfI
  refine ⟨_, _, harg, extend_heap_of_arg _ _ _ _ harg, b1, b2, ?_⟩
  rw [b3]
  by_cases hL : L.alloc = 0
  · exact Or.inl (if_pos hL)
  · exact Or.inr (if_neg hL)

/-- In a well formed heap the footer of the last block lies at `mem_brk`, past the
last byte of the arena. -/
theorem footer_last_past_hi (h : Heap) (init : List Block) (Nw : Block) (fl : List Nat)
    (hwf : Valid h (init ++ [Nw]) fl) :
    FTRP h.mem Nw.addr = h.mem_brk ∧ mem_heap_hi h < FTRP h.mem Nw.addr := by
  have hp := hwf.1
  have hNm : Nw ∈ init ++ [Nw] := by simp
  have rN := hp.reads Nw hNm
  have hNo := hp.blocks_ok Nw hNm
  obtain ⟨_, _, c3⟩ := Chain_one _ _ _ _ _ _ hp.chain
  have hend : Nw.addr + Nw.size = h.mem_brk + 8 := c3
  have hbrk := hp.brk_le
  have hlo := hp.lo_pos
  have hF : FTRP h.mem Nw.addr = h.mem_brk := by
    unfold FTRP DSIZE WSIZE
    rw [rN.2.1, uadd_eq Nw.addr Nw.size (by omega),
      usub_eq (Nw.addr + Nw.size) (2 * 4) (by omega) (by omega)]
    omega
  rw [hF]
  exact ⟨rfl, by unfold mem_heap_hi; omega⟩

/-! ## The root of the free list and the null address -/

set_option maxRecDepth 1000000 in
/-- C3: the claim fails on the code.  The arena of `heap0` starts at 65536, a multiple
of 8.  The calls `c3ArenaCalls` are valid, the provider never refuses, and every
word that they store lies in the arena, between `lo = 65536` and the end of the
arena at 200728 (the word at 200728 itself is the footer that `extend_heap` writes
behind the last block).  They leave the odd tag 131105 in the successor link of
the free block `196640`.  The following `mm_malloc 16`, whose adjusted size is 24,
walks the free list over the three blocks of 16 bytes to this link, reads
the size 256 in front of it, and returns the pointer 131105, which is not null
and not a multiple of 8; again every word it stores lies in the arena, and the provider
has not refused. -/
theorem C3_misaligned_in_arena :
    Reachable heap0 (runOf 8 c3ArenaCalls) ∧ heap0.mem_start_brk % 8 = 0 ∧
    runCalls 8 (start heap0) c3ArenaCalls = some (runOf 8 c3ArenaCalls) ∧
    (runOf 8 c3ArenaCalls).heap.mem_start_brk = 65536 ∧
    (runOf 8 c3ArenaCalls).heap.mem_brk = 200728 ∧
    (∀ a ∈ runStores 8 (start heap0) c3ArenaCalls, 65536 ≤ a ∧ a ≤ 200728) ∧
    (runOf 8 c3ArenaCalls).heap.root = 196648 ∧
    GET_ADDR (runOf 8 c3ArenaCalls).heap.mem (NEXTP 196648) = 196672 ∧
    GET_ADDR (runOf 8 c3ArenaCalls).heap.mem (NEXTP 196672) = 196640 ∧
    GET_ADDR (runOf 8 c3ArenaCalls).heap.mem (NEXTP 196640) = 131105 ∧
    GET_SIZE (runOf 8 c3ArenaCalls).heap.mem (HDRP 196648) = 16 ∧
    GET_SIZE (runOf 8 c3ArenaCalls).heap.mem (HDRP 196672) = 16 ∧
    GET_SIZE (runOf 8 c3ArenaCalls).heap.mem (HDRP 196640) = 16 ∧
    GET_SIZE (runOf 8 c3ArenaCalls).heap.mem (HDRP 131105) = 256 ∧
    ALIGN 16 = 24 ∧ find_fit 8 (runOf 8 c3ArenaCalls).heap (ALIGN 16) = some 131105 ∧
    (mm_malloc 8 (runOf 8 c3ArenaCalls).heap 16).map Prod.snd = some 131105 ∧
    (mm_malloc 8 (runOf 8 c3ArenaCalls).heap 16).map (fun x => x.1.mem_refused) = some false ∧
    (mm_malloc 8 (runOf 8 c3ArenaCalls).heap 16).map (fun x => x.1.mem_brk) = some 200728 ∧
    (∀ a ∈ mm_malloc_stores 8 (runOf 8 c3ArenaCalls).heap 16, 65536 ≤ a ∧ a ≤ 200728) ∧
    131105 ≠ NULL ∧ 131105 % 8 ≠ 0 :=
  ⟨reachable_runOf 8 c3ArenaCalls (by decide), by decide,
    eq_some_getD _ (start heap0) (by decide), by decide⟩

end MallocLab
